import Mathlib

/-!
# skynet: handle registry, mailbox, global queue and module table

A shallow embedding of `skynet-src/skynet_handle.c`, `skynet-src/skynet_mq.c` and
`skynet-src/skynet_module.c`, and of three single functions: `laddresscommand` of
`lualib-src/lua-skynet.c`, `bootstrap` of `skynet-src/skynet_start.c` and `lalloc`
of `service-src/service_snlua.c`.

Conventions of the embedding

* C arrays are lists; `a[i]` is `a.getD i d` and `a[i] = v` is `a.set i v`.
* `int` and `uint32_t` values that the code never makes negative are `Nat`; the
  binary searches, whose `end` index starts at `name_count - 1`, use `Int`. The
  invariants bound these values (`SlotInv`, `NameInv`, `mailbox_values_bounded`):
  local ids stay within 24 bits, the slot table within `2 ^ 24` slots, the name
  array within `MAX_SLOT_SIZE` cells, and a mailbox within twice the number of
  messages pushed, so that below these sizes no C integer overflows.
* A pointer to a `struct skynet_context` is a number (`Ctx`); the `handle` field
  of the contexts is the map `skynet_context_handle`, read by the registry and
  written by the caller of `skynet_handle_register`.
* A failing `assert`, a loop that does not end and a call of `exit` are the values
  of `Fault`.
* A pointer to a `struct message_queue` is a number, and the memory that holds the
  mailboxes is a map from these numbers to mailboxes (`MqSystem`); the callback
  `drop_func` is modelled by the list of the messages handed to it.
* C strings are lists of bytes without the final NUL; `dlopen` and `dlsym` are the
  two maps of a `Loader`, and a call of an entry point of a module is a `ModCall`.
* Values of `size_t` are `Nat` with the arithmetic taken modulo `SIZE_MOD`.
* Locks are not modelled: every operation runs as one atomic step.
-/

namespace Skynet

/-! ## Constants -/

/-- DEFAULT_SLOT_SIZE of skynet_handle.c. -/
def DEFAULT_SLOT_SIZE : Nat := 4

/-- MAX_SLOT_SIZE of skynet_handle.c. -/
def MAX_SLOT_SIZE : Nat := 0x40000000

/-- Modelled from the spec: the macro HANDLE_MASK of skynet_harbor.h, which is not
among the sources. The spec says that bits 23..0 of a handle are the local id. -/
def HANDLE_MASK : Nat := 0xffffff

/-- Modelled from the spec: the macro HANDLE_REMOTE_SHIFT of skynet_harbor.h, which
is not among the sources. The spec says that bits 31..24 of a handle are the harbor
id. -/
def HANDLE_REMOTE_SHIFT : Nat := 24

/-! ## Data model of the registry -/

/-- Address of a `struct skynet_context`. -/
abbrev Ctx := Nat

/-- The ways a call does not return: an `assert` fails, a loop never ends, or the
process is ended by `exit`. -/
inductive Fault where
  | assertion
  | diverges
  | exit
deriving DecidableEq, Repr

/-- A `struct handle_name`; the name is the byte string without its final NUL. -/
structure handle_name where
  name : List Nat
  handle : Nat
deriving DecidableEq, Repr, Inhabited

/-- A `struct handle_storage` without its lock. -/
structure handle_storage where
  harbor : Nat
  handle_index : Nat
  slot_size : Nat
  slot : List (Option Ctx)
  name_cap : Nat
  name_count : Nat
  name : List handle_name
deriving DecidableEq, Repr

/-- Comparison of two C strings as `strcmp` of the C library does it: byte by byte
as unsigned values, a string that ends first being the smaller one. Only the sign of
the result is used by the callers. -/
def strcmp : List Nat → List Nat → Int
  | [], [] => 0
  | [], _ :: _ => -1
  | _ :: _, [] => 1
  | a :: as, b :: bs => if a = b then strcmp as bs else if a < b then -1 else 1

/-! ## skynet_handle_init -/

/-- The registry built by `skynet_handle_init(harbor)`. The slot array is zeroed by
`memset`; the name array is not initialised by the code and is filled here with a
default entry. -/
def skynet_handle_init (harbor : Nat) : handle_storage :=
  { harbor := (harbor &&& 0xff) <<< HANDLE_REMOTE_SHIFT
    handle_index := 1
    slot_size := DEFAULT_SLOT_SIZE
    slot := List.replicate DEFAULT_SLOT_SIZE none
    name_cap := 2
    name_count := 0
    name := List.replicate 2 default }

/-! ## skynet_handle_register -/

/-- The probing loop `for (i = 0; i < s->slot_size; i++, handle++)` of
`skynet_handle_register`, with `n` iterations left. The result is `none` when the
loop ends without finding a free slot. -/
def register_probe (s : handle_storage) (ctx : Ctx) : Nat → Nat → Option (handle_storage × Nat)
  | 0, _ => none
  | n + 1, handle =>
    let handle := if handle > HANDLE_MASK then 1 else handle
    let hash := handle &&& (s.slot_size - 1)
    if s.slot.getD hash none = none then
      some ({ s with slot := s.slot.set hash (some ctx), handle_index := handle + 1 },
            handle ||| s.harbor)
    else
      register_probe s ctx n (handle + 1)

/-- The rehashing loop `for (i = 0; i < s->slot_size; i++)` of
`skynet_handle_register`, with `n` iterations left, `i` the loop index and
`new_slot` the array being filled. The result is `none` when
`assert(new_slot[hash] == NULL)` fails. -/
def register_rehash (skynet_context_handle : Ctx → Nat) (s : handle_storage) :
    Nat → Nat → List (Option Ctx) → Option (List (Option Ctx))
  | 0, _, new_slot => some new_slot
  | n + 1, i, new_slot =>
    match s.slot.getD i none with
    | none => register_rehash skynet_context_handle s n (i + 1) new_slot
    | some c =>
      let hash := skynet_context_handle c &&& (s.slot_size * 2 - 1)
      if new_slot.getD hash none = none then
        register_rehash skynet_context_handle s n (i + 1) (new_slot.set hash (some c))
      else
        none

/-- The outer loop `for (;;)` of `skynet_handle_register`, run for at most `fuel`
rounds. -/
def register_loop (skynet_context_handle : Ctx → Nat) :
    Nat → handle_storage → Ctx → Except Fault (handle_storage × Nat)
  | 0, _, _ => .error .diverges
  | fuel + 1, s, ctx =>
    match register_probe s ctx s.slot_size s.handle_index with
    | some r => .ok r
    | none =>
      if s.slot_size * 2 - 1 ≤ HANDLE_MASK then
        match register_rehash skynet_context_handle s s.slot_size 0
            (List.replicate (s.slot_size * 2) none) with
        | none => .error .assertion
        | some new_slot =>
          register_loop skynet_context_handle fuel
            { s with slot := new_slot, slot_size := s.slot_size * 2 } ctx
      else
        .error .assertion

/-- The function `skynet_handle_register`: the new registry and the handle returned.
Every round of the outer loop that does not return doubles `slot_size`, and the
assertion stops the call once `slot_size * 2 - 1` exceeds `HANDLE_MASK`, so a call
that ends at all ends within 25 rounds. -/
def skynet_handle_register (skynet_context_handle : Ctx → Nat) (s : handle_storage)
    (ctx : Ctx) : Except Fault (handle_storage × Nat) :=
  register_loop skynet_context_handle 25 s ctx

/-! ## skynet_handle_retire -/

/-- The compaction loop `for (i = 0; i < n; ++i)` of `skynet_handle_retire`, with
`k` iterations left; the result is the name array and the final `j`. -/
def retire_names (handle : Nat) : Nat → Nat → Nat → List handle_name → List handle_name × Nat
  | 0, _, j, name => (name, j)
  | k + 1, i, j, name =>
    if (name.getD i default).handle = handle then
      retire_names handle k (i + 1) j name
    else if i ≠ j then
      retire_names handle k (i + 1) (j + 1) (name.set j (name.getD i default))
    else
      retire_names handle k (i + 1) (j + 1) name

/-- The function `skynet_handle_retire`: the new registry and the value returned.
The release of the context after the lock is dropped does not touch the registry
and is left out. -/
def skynet_handle_retire (skynet_context_handle : Ctx → Nat) (s : handle_storage)
    (handle : Nat) : handle_storage × Nat :=
  let hash := handle &&& (s.slot_size - 1)
  match s.slot.getD hash none with
  | some ctx =>
    if skynet_context_handle ctx = handle then
      let r := retire_names handle s.name_count 0 0 s.name
      ({ s with slot := s.slot.set hash none, name := r.1, name_count := r.2 }, 1)
    else
      (s, 0)
  | none => (s, 0)

/-! ## skynet_handle_grab -/

/-- The function `skynet_handle_grab`: the context found, or `none` for NULL. The
reference count it increments is not part of the registry. -/
def skynet_handle_grab (skynet_context_handle : Ctx → Nat) (s : handle_storage)
    (handle : Nat) : Option Ctx :=
  let hash := handle &&& (s.slot_size - 1)
  match s.slot.getD hash none with
  | some ctx => if skynet_context_handle ctx = handle then some ctx else none
  | none => none

/-! ## skynet_handle_findname -/

/-- The loop `while (begin <= end)` of `skynet_handle_findname`, run for at most
`fuel` rounds; `none` when the rounds are used up. -/
def findname_loop (s : handle_storage) (name : List Nat) : Nat → Int → Int → Option Nat
  | 0, bgn, en => if bgn ≤ en then none else some 0
  | fuel + 1, bgn, en =>
    if bgn ≤ en then
      let mid := (bgn + en) / 2
      let n := s.name.getD mid.toNat default
      let c := strcmp n.name name
      if c = 0 then some n.handle
      else if c < 0 then findname_loop s name fuel (mid + 1) en
      else findname_loop s name fuel bgn (mid - 1)
    else some 0

/-- The function `skynet_handle_findname`. The interval `begin..end` starts with
`name_count` elements and loses at least one in every round, so `name_count` rounds
are enough. -/
def skynet_handle_findname (s : handle_storage) (name : List Nat) : Option Nat :=
  findname_loop s name s.name_count 0 ((s.name_count : Int) - 1)

/-! ## skynet_handle_namehandle -/

/-- First copy loop of `_insert_name_before`, `for (i = 0; i < before; i++)`. -/
def insert_copy_low (old : List handle_name) : Nat → Nat → List handle_name → List handle_name
  | 0, _, n => n
  | k + 1, i, n => insert_copy_low old k (i + 1) (n.set i (old.getD i default))

/-- Second copy loop of `_insert_name_before`,
`for (i = before; i < s->name_count; i++)`. -/
def insert_copy_high (old : List handle_name) : Nat → Nat → List handle_name → List handle_name
  | 0, _, n => n
  | k + 1, i, n => insert_copy_high old k (i + 1) (n.set (i + 1) (old.getD i default))

/-- Shifting loop of `_insert_name_before`,
`for (i = s->name_count; i > before; i--)`, with `k` iterations left. -/
def insert_shift : Nat → Nat → List handle_name → List handle_name
  | 0, _, name => name
  | k + 1, i, name => insert_shift k (i - 1) (name.set i (name.getD (i - 1) default))

/-- The function `_insert_name_before`. The fresh array of the growing branch is
not initialised by the code and is filled here with a default entry. -/
def _insert_name_before (s : handle_storage) (name : List Nat) (handle : Nat)
    (before : Nat) : Except Fault handle_storage :=
  if s.name_count ≥ s.name_cap then
    let name_cap := s.name_cap * 2
    if name_cap ≤ MAX_SLOT_SIZE then
      let n := List.replicate name_cap default
      let n := insert_copy_low s.name before 0 n
      let n := insert_copy_high s.name (s.name_count - before) before n
      .ok { s with name_cap := name_cap
                   name := n.set before ⟨name, handle⟩
                   name_count := s.name_count + 1 }
    else
      .error .assertion
  else
    let n := insert_shift (s.name_count - before) s.name_count s.name
    .ok { s with name := n.set before ⟨name, handle⟩
                 name_count := s.name_count + 1 }

/-- The loop `while (begin <= end)` of `_insert_name`, run for at most `fuel`
rounds: `some none` when the name is found, `some (some begin)` when it is not, and
`none` when the rounds are used up. -/
def insert_search (s : handle_storage) (name : List Nat) :
    Nat → Int → Int → Option (Option Int)
  | 0, bgn, en => if bgn ≤ en then none else some (some bgn)
  | fuel + 1, bgn, en =>
    if bgn ≤ en then
      let mid := (bgn + en) / 2
      let n := s.name.getD mid.toNat default
      let c := strcmp n.name name
      if c = 0 then some none
      else if c < 0 then insert_search s name fuel (mid + 1) en
      else insert_search s name fuel bgn (mid - 1)
    else some (some bgn)

/-- The function `_insert_name`: the new registry and the string returned, `none`
for NULL. -/
def _insert_name (s : handle_storage) (name : List Nat) (handle : Nat) :
    Except Fault (handle_storage × Option (List Nat)) :=
  match insert_search s name s.name_count 0 ((s.name_count : Int) - 1) with
  | none => .error .diverges
  | some none => .ok (s, none)
  | some (some bgn) =>
    match _insert_name_before s name handle bgn.toNat with
    | .ok s' => .ok (s', some name)
    | .error e => .error e

/-- The function `skynet_handle_namehandle`. -/
def skynet_handle_namehandle (s : handle_storage) (handle : Nat) (name : List Nat) :
    Except Fault (handle_storage × Option (List Nat)) :=
  _insert_name s name handle

/-! ## The registry and its contexts -/

/-- The registry together with the `handle` field of every context, which is what
`skynet_context_handle` reads. -/
structure World where
  H : handle_storage
  handle_of : Ctx → Nat

/-- Modelled from the spec: the caller `skynet_context_new` of skynet_server.c, which
is not among the sources. The spec says that it builds the service context and
registers it with the registry to obtain a handle: the handle returned by
`skynet_handle_register` is stored in the `handle` field of the context. -/
def context_register (w : World) (ctx : Ctx) : Except Fault (World × Nat) :=
  match skynet_handle_register w.handle_of w.H ctx with
  | .ok (s, h) => .ok ({ H := s, handle_of := Function.update w.handle_of ctx h }, h)
  | .error e => .error e

/-- Retirement of a handle on a world; the contexts are not changed. -/
def world_retire (w : World) (handle : Nat) : World × Nat :=
  let r := skynet_handle_retire w.handle_of w.H handle
  ({ w with H := r.1 }, r.2)

/-- Binding of a name on a world; the contexts are not changed. -/
def world_namehandle (w : World) (handle : Nat) (name : List Nat) :
    Except Fault (World × Option (List Nat)) :=
  match skynet_handle_namehandle w.H handle name with
  | .ok (s, r) => .ok ({ w with H := s }, r)
  | .error e => .error e

/-- Lookup of a handle on a world. -/
def world_grab (w : World) (handle : Nat) : Option Ctx :=
  skynet_handle_grab w.handle_of w.H handle

/-- The world right after `skynet_handle_init(harbor)`: no context has a handle. -/
def world_init (harbor : Nat) : World :=
  { H := skynet_handle_init harbor, handle_of := fun _ => 0 }

/-- The services that are registered, as the history of calls defines them: a pair
`(ctx, h)` enters the list when a registration of `ctx` returns `h`, and leaves it
when `h` is retired. `Trace b w live` says that `w` is reached from
`skynet_handle_init(b)` by registrations of contexts that are not registered at the
time, retirements and name bindings, and that `live` is the list so defined. -/
inductive Trace (b : Nat) : World → List (Ctx × Nat) → Prop
  | init : Trace b (world_init b) []
  | register {w w' : World} {live : List (Ctx × Nat)} {ctx : Ctx} {h : Nat} :
      Trace b w live → (∀ h', (ctx, h') ∉ live) →
      context_register w ctx = .ok (w', h) → Trace b w' (live ++ [(ctx, h)])
  | retire {w : World} {live : List (Ctx × Nat)} (h : Nat) :
      Trace b w live →
      Trace b (world_retire w h).1 (live.filter (fun p => decide (p.2 ≠ h)))
  | namehandle {w w' : World} {live : List (Ctx × Nat)} {h : Nat} {name : List Nat}
      {r : Option (List Nat)} :
      Trace b w live → world_namehandle w h name = .ok (w', r) → Trace b w' live

/-- The entries of the name table: the first `name_count` cells of the array. -/
def names (s : handle_storage) : List handle_name :=
  s.name.take s.name_count

/-! ## Data model of the mailbox -/

/-- DEFAULT_QUEUE_SIZE of skynet_mq.c. -/
def DEFAULT_QUEUE_SIZE : Nat := 64

/-- MQ_IN_GLOBAL of skynet_mq.c. -/
def MQ_IN_GLOBAL : Nat := 1

/-- MQ_OVERLOAD of skynet_mq.c. -/
def MQ_OVERLOAD : Nat := 1024

/-- Modelled from the spec: the `struct skynet_message` of skynet_mq.h, which is not
among the sources. The spec gives a message the fields source, session,
type_and_size and payload. -/
structure skynet_message where
  source : Nat
  session : Nat
  type_and_size : Nat
  payload : Nat
deriving DecidableEq, Repr, Inhabited

/-- A `struct message_queue` without its lock; `next` is the address of the next
mailbox of the global queue. -/
structure message_queue where
  handle : Nat
  cap : Nat
  head : Nat
  tail : Nat
  release : Nat
  in_global : Nat
  overload : Nat
  overload_threshold : Nat
  queue : List skynet_message
  next : Option Nat
deriving DecidableEq, Repr

/-- The function `skynet_mq_create`. The message array is not initialised by the
code and is filled here with a default message. -/
def skynet_mq_create (handle : Nat) : message_queue :=
  { handle := handle
    cap := DEFAULT_QUEUE_SIZE
    head := 0
    tail := 0
    in_global := MQ_IN_GLOBAL
    release := 0
    overload := 0
    overload_threshold := MQ_OVERLOAD
    queue := List.replicate DEFAULT_QUEUE_SIZE default
    next := none }

/-- The function `skynet_mq_length`. -/
def skynet_mq_length (q : message_queue) : Nat :=
  if q.head ≤ q.tail then q.tail - q.head else q.tail + q.cap - q.head

/-- The function `skynet_mq_overload`: the new mailbox and the value returned. -/
def skynet_mq_overload (q : message_queue) : message_queue × Nat :=
  if q.overload ≠ 0 then ({ q with overload := 0 }, q.overload) else (q, 0)

/-- The loop `while (length > q->overload_threshold)` of `skynet_mq_pop`, run for at
most `fuel` rounds; `none` when the rounds are used up. -/
def pop_overload (length : Nat) : Nat → message_queue → Option message_queue
  | 0, _ => none
  | fuel + 1, q =>
    if length > q.overload_threshold then
      pop_overload length fuel
        { q with overload := length, overload_threshold := q.overload_threshold * 2 }
    else
      some q

/-- The function `skynet_mq_pop`: the new mailbox, the new value of `*message` and
the value returned. The length `tail - head`, made non-negative by adding `cap`, is
computed without the negative intermediate value. The overload loop doubles the
threshold in every round, so it ends within `length + 1` rounds unless the threshold
is 0, when the loop of the code does not end either. -/
def skynet_mq_pop (q : message_queue) (message : skynet_message) :
    Except Fault (message_queue × skynet_message × Nat) :=
  if q.head ≠ q.tail then
    let message := q.queue.getD q.head default
    let head := q.head + 1
    let tail := q.tail
    let cap := q.cap
    let head := if head ≥ cap then 0 else head
    let length := if tail < head then tail + cap - head else tail - head
    match pop_overload length (length + 1) { q with head := head } with
    | some q' => .ok (q', message, 0)
    | none => .error .diverges
  else
    .ok ({ q with overload_threshold := MQ_OVERLOAD, in_global := 0 }, message, 1)

/-- The copy loop `for (i = 0; i < q->cap; i++)` of `expand_queue`, with `k`
iterations left. -/
def expand_copy (q : message_queue) : Nat → Nat → List skynet_message → List skynet_message
  | 0, _, new_queue => new_queue
  | k + 1, i, new_queue =>
    expand_copy q k (i + 1)
      (new_queue.set i (q.queue.getD ((q.head + i) % q.cap) default))

/-- The function `expand_queue`. The fresh array is not initialised by the code and
is filled here with a default message. -/
def expand_queue (q : message_queue) : message_queue :=
  let new_queue := expand_copy q q.cap 0 (List.replicate (q.cap * 2) default)
  { q with head := 0, tail := q.cap, cap := q.cap * 2, queue := new_queue }

/-- The function `skynet_mq_push`: the new mailbox, and whether the mailbox is handed
to `skynet_globalmq_push`. -/
def skynet_mq_push (q : message_queue) (message : skynet_message) :
    message_queue × Bool :=
  let q := { q with queue := q.queue.set q.tail message }
  let q := { q with tail := if q.tail + 1 ≥ q.cap then 0 else q.tail + 1 }
  let q := if q.head = q.tail then expand_queue q else q
  if q.in_global = 0 then ({ q with in_global := MQ_IN_GLOBAL }, true) else (q, false)

/-- A call on a mailbox: a push of a message, or a pop. -/
inductive MqOp where
  | push (m : skynet_message)
  | pop
deriving DecidableEq, Repr

/-- The calls of `ops` made one after the other on the mailbox `q`: the final
mailbox and the messages returned by the pops that return 0, in the order of the
pops. -/
def mq_run : message_queue → List MqOp → Except Fault (message_queue × List skynet_message)
  | q, [] => .ok (q, [])
  | q, MqOp.push m :: ops => mq_run (skynet_mq_push q m).1 ops
  | q, MqOp.pop :: ops =>
    match skynet_mq_pop q default with
    | .error e => .error e
    | .ok (q', m, ret) =>
      match mq_run q' ops with
      | .error e => .error e
      | .ok (q'', out) => .ok (q'', if ret = 0 then m :: out else out)

/-- The messages pushed by `ops`, in the order of the pushes. -/
def mq_pushed : List MqOp → List skynet_message
  | [] => []
  | MqOp.push m :: ops => m :: mq_pushed ops
  | MqOp.pop :: ops => mq_pushed ops

/-- The messages held by a mailbox, from `head` to `tail`. -/
def mq_contents (q : message_queue) : List skynet_message :=
  (List.range (skynet_mq_length q)).map
    (fun i => q.queue.getD ((q.head + i) % q.cap) default)

/-- Well-formedness of a mailbox. -/
structure MqInv (q : message_queue) : Prop where
  cap_pos : 0 < q.cap
  len : q.queue.length = q.cap
  head_lt : q.head < q.cap
  tail_lt : q.tail < q.cap
  threshold_pos : 0 < q.overload_threshold


/-! ## Invariants and notions used by the theorems -/

/-- A context `c` sits in some slot of the table. -/
def occupied (s : handle_storage) (c : Ctx) : Prop :=
  ∃ i, s.slot.getD i none = some c

/-- Well-formedness of the slot table of a registry initialised with harbor `b`,
for the handle fields `hd` of the contexts. -/
structure SlotInv (b : Nat) (hd : Ctx → Nat) (s : handle_storage) : Prop where
  size : ∃ k, 2 ≤ k ∧ k ≤ 24 ∧ s.slot_size = 2 ^ k
  len : s.slot.length = s.slot_size
  harbor : s.harbor = (b &&& 0xff) <<< HANDLE_REMOTE_SHIFT
  index_pos : 1 ≤ s.handle_index
  index_le : s.handle_index ≤ HANDLE_MASK + 1
  slot : ∀ i c, s.slot.getD i none = some c →
    hd c % s.slot_size = i ∧ 1 ≤ hd c % 2 ^ 24 ∧ hd c / 2 ^ 24 = b % 256

/-- State of the rehashing loop before iteration `i`: the new array holds exactly
the contexts of the old slots below `i`, each at the index given by its handle. -/
structure RehashInv (hd : Ctx → Nat) (s : handle_storage) (i : Nat)
    (new_slot : List (Option Ctx)) : Prop where
  len : new_slot.length = s.slot_size * 2
  sound : ∀ j c, new_slot.getD j none = some c →
    hd c % (s.slot_size * 2) = j ∧ ∃ i', i' < i ∧ s.slot.getD i' none = some c
  complete : ∀ i' c, i' < i → s.slot.getD i' none = some c →
    new_slot.getD (hd c % (s.slot_size * 2)) none = some c

/-- The first `count` cells of a name array are strictly increasing. -/
def sorted_upto (name : List handle_name) (count : Nat) : Prop :=
  ∀ i j, i < j → j < count →
    strcmp (name.getD i default).name (name.getD j default).name < 0

/-- State of a binary search for `name` on the interval `bgn..en`: the cells on
the left of the interval are smaller than `name`, those on its right are larger. -/
structure SearchInv (s : handle_storage) (name : List Nat) (bgn en : Int) : Prop where
  bgn_nonneg : 0 ≤ bgn
  en_lt : en < s.name_count
  bgn_le : bgn ≤ en + 1
  lo : ∀ i : Nat, (i : Int) < bgn → strcmp (s.name.getD i default).name name < 0
  hi : ∀ i : Nat, en < (i : Int) → i < s.name_count →
    0 < strcmp (s.name.getD i default).name name

/-- The order of the name table: `a` comes before `b` in `strcmp` order. -/
def name_lt (a b : handle_name) : Prop := strcmp a.name b.name < 0

/-- Well-formedness of the name table: the array has `name_cap` cells, at most
`MAX_SLOT_SIZE` of them, of which the first `name_count` are in use and strictly
increasing. -/
structure NameInv (s : handle_storage) : Prop where
  len : s.name.length = s.name_cap
  count_le : s.name_count ≤ s.name_cap
  cap_pos : 0 < s.name_cap
  cap_le : s.name_cap ≤ MAX_SLOT_SIZE
  cap_pow : ∃ k, s.name_cap = 2 ^ (k + 1)
  sorted : (names s).Pairwise name_lt

/-- Everything that holds of a world reached by a history whose registered services
are `live`: both tables are well formed, the slot table holds exactly the services
of `live`, each with its handle, and no pair is listed twice. -/
structure Good (b : Nat) (w : World) (live : List (Ctx × Nat)) : Prop where
  slots : SlotInv b w.handle_of w.H
  names : NameInv w.H
  link : ∀ c h, (c, h) ∈ live ↔ occupied w.H c ∧ w.handle_of c = h
  nodup : live.Nodup

/-- The local ids tried by the probing loop that starts at `h` and runs `n` times:
the ids from the starting point up to `HANDLE_MASK`, and after the wrap the ids
from 1 on. -/
def probed (h n x : Nat) : Prop :=
  ((if h > HANDLE_MASK then 1 else h) ≤ x ∧ x < (if h > HANDLE_MASK then 1 else h) + n ∧
    x ≤ HANDLE_MASK) ∨
  (1 ≤ x ∧ x + HANDLE_MASK < (if h > HANDLE_MASK then 1 else h) + n)

/-- The world after the registration of `ctx`, or the same world when the
registration does not return. -/
def after_register (w : World) (ctx : Ctx) : World :=
  match context_register w ctx with
  | .ok (w', _) => w'
  | .error _ => w

/-- Harbor 1, one service. -/
def demo1 : World := after_register (world_init 1) 100

/-- Harbor 1, two services. -/
def demo2 : World := after_register demo1 101

/-- Harbor 1, three services. -/
def demo3 : World := after_register demo2 102

/-- Harbor 1, four services: the four slots are taken. -/
def demo4 : World := after_register demo3 103

/-- The world after the binding of `name` to `h`, or the same world when the call
does not return. -/
def after_namehandle (w : World) (h : Nat) (name : List Nat) : World :=
  match world_namehandle w h name with
  | .ok (w', _) => w'
  | .error _ => w

/-- Four services on harbor 1, and the name `.svc` bound to the second. -/
def demo5 : World := after_namehandle demo4 16777218 [46, 115, 118, 99]

/-- The same with the name `.a` bound to the second service as well. -/
def demo6 : World := after_namehandle demo5 16777218 [46, 97]

/-- The same with the name `logger` bound to the first service. -/
def demo7 : World := after_namehandle demo6 16777217 [108, 111, 103, 103, 101, 114]

/-- The world reached from harbor 1 by `n` rounds of registering and retiring the
context 0: both tables are empty and the id counter stands at `n + 1`. -/
def wrap_world (n : Nat) : World :=
  { H := { harbor := 16777216, handle_index := n + 1, slot_size := 4,
           slot := [none, none, none, none], name_cap := 2, name_count := 0,
           name := [default, default] }
    handle_of := Function.update (fun _ => 0) 0 (if n = 0 then 0 else 16777216 + n) }

/-! ## Runs of a mailbox that record its flag and its overload reports -/

/-- What a call on a mailbox lets the rest of the system see: a push that hands the
mailbox to `skynet_globalmq_push`, or a pop that reports the mailbox empty. -/
inductive MqEvent where
  | linked
  | empty
deriving DecidableEq, Repr

/-- The events of the calls of `ops` made one after the other on the mailbox `q`. -/
def mq_events : message_queue → List MqOp → List MqEvent
  | _, [] => []
  | q, MqOp.push m :: ops =>
    (if (skynet_mq_push q m).2 then [MqEvent.linked] else []) ++
      mq_events (skynet_mq_push q m).1 ops
  | q, MqOp.pop :: ops =>
    match skynet_mq_pop q default with
    | .error _ => []
    | .ok (q', _, ret) => (if ret ≠ 0 then [MqEvent.empty] else []) ++ mq_events q' ops

/-- The mailbox after the pushes of `msgs`, one after the other, with no pop in
between. -/
def mq_push_many : message_queue → List skynet_message → message_queue
  | q, [] => q
  | q, m :: msgs => mq_push_many (skynet_mq_push q m).1 msgs

/-- At most `k` pops, each followed by a call of `skynet_mq_overload`, the last one
being the pop that reports the mailbox empty: the final mailbox and the values
returned by `skynet_mq_overload`, in the order of the pops. -/
def mq_drain : Nat → message_queue → Except Fault (message_queue × List Nat)
  | 0, q => .ok (q, [])
  | k + 1, q =>
    match skynet_mq_pop q default with
    | .error e => .error e
    | .ok (q1, _, ret) =>
      if ret ≠ 0 then
        .ok ((skynet_mq_overload q1).1, [(skynet_mq_overload q1).2])
      else
        match mq_drain k (skynet_mq_overload q1).1 with
        | .error e => .error e
        | .ok (q2, rs) => .ok (q2, (skynet_mq_overload q1).2 :: rs)

/-- The mailbox made by `skynet_mq_create 0` after `n` pushes of a default message
with no pop in between. -/
def mq_flood (n : Nat) : message_queue :=
  mq_push_many (skynet_mq_create 0) (List.replicate n default)

/-! ## skynet_handle_retireall -/

/-- The loop `for (i = 0; i < s->slot_size; i++)` of `skynet_handle_retireall`,
with `k` iterations left, `i` the loop index and `n` the number of occupants found
so far: the registry and the final `n`. An occupant whose handle is 0 is counted
and not retired. -/
def retireall_pass (skynet_context_handle : Ctx → Nat) :
    Nat → Nat → handle_storage → Nat → handle_storage × Nat
  | 0, _, s, n => (s, n)
  | k + 1, i, s, n =>
    match s.slot.getD i none with
    | some ctx =>
      let handle := skynet_context_handle ctx
      if handle ≠ 0 then
        retireall_pass skynet_context_handle k (i + 1)
          (skynet_handle_retire skynet_context_handle s handle).1 (n + 1)
      else
        retireall_pass skynet_context_handle k (i + 1) s (n + 1)
    | none => retireall_pass skynet_context_handle k (i + 1) s n

/-- The outer loop `for (;;)` of `skynet_handle_retireall`, run for at most `fuel`
passes. -/
def retireall_loop (skynet_context_handle : Ctx → Nat) :
    Nat → handle_storage → Except Fault handle_storage
  | 0, _ => .error .diverges
  | fuel + 1, s =>
    if (retireall_pass skynet_context_handle s.slot_size 0 s 0).2 = 0 then
      .ok (retireall_pass skynet_context_handle s.slot_size 0 s 0).1
    else
      retireall_loop skynet_context_handle fuel
        (retireall_pass skynet_context_handle s.slot_size 0 s 0).1

/-- The function `skynet_handle_retireall`, with no other call on the registry
meanwhile. A pass that finds an occupant either empties a slot or leaves the
registry as it was, in which case every later pass does the same; so a run that
ends does so within `slot_size + 1` passes, which is the number of passes allowed
here. -/
def skynet_handle_retireall (skynet_context_handle : Ctx → Nat) (s : handle_storage) :
    Except Fault handle_storage :=
  retireall_loop skynet_context_handle (s.slot_size + 1) s

/-! ## Data model of the module table (skynet_module.c) -/

/-- The constant `MAX_MODULE_TYPE`. -/
def MAX_MODULE_TYPE : Nat := 32

/-- A `struct skynet_module`: the name is the byte string without its final NUL,
`module` the handle given by `dlopen`, and the four entry points are the addresses
given by `dlsym`, `none` for NULL. -/
structure skynet_module where
  name : List Nat
  module : Nat
  create : Option Nat
  init : Option Nat
  release : Option Nat
  signal : Option Nat
deriving DecidableEq, Repr, Inhabited

/-- A `struct modules` without its lock; `path` is the byte string without its
final NUL. -/
structure modules where
  count : Nat
  path : List Nat
  m : List skynet_module
deriving DecidableEq, Repr

/-- The dynamic loader as the code sees it: `dlopen` of a file name gives a handle
or NULL, `dlsym` of a handle and of a symbol gives an address or NULL. -/
structure Loader where
  dlopen : List Nat → Option Nat
  dlsym : Nat → List Nat → Option Nat

/-- A call of an entry point of a module: the address called and the arguments. -/
inductive ModCall where
  | create (f : Nat)
  | release (f : Nat) (inst : Int)
  | signal (f : Nat) (inst : Int) (signal : Int)
deriving DecidableEq, Repr

/-- The C string `"_create"`. -/
def api_create : List Nat := [95, 99, 114, 101, 97, 116, 101]

/-- The C string `"_init"`. -/
def api_init : List Nat := [95, 105, 110, 105, 116]

/-- The C string `"_release"`. -/
def api_release : List Nat := [95, 114, 101, 108, 101, 97, 115, 101]

/-- The C string `"_signal"`. -/
def api_signal : List Nat := [95, 115, 105, 103, 110, 97, 108]

/-- The function `skynet_module_init`. The entries of the array are not
initialised by the code and are filled here with a default entry. -/
def skynet_module_init (path : List Nat) : modules :=
  { count := 0, path := path, m := List.replicate MAX_MODULE_TYPE default }

/-! ## _try_open -/

/-- The C string held by a buffer: the bytes before the first NUL. -/
def c_string (buf : List Nat) : List Nat :=
  buf.takeWhile (fun b => decide (b ≠ 0))

/-- The function `memcpy(dst + off, src, n)` of the C library, for the `n` bytes of
`src`. -/
def memcpy : List Nat → Nat → List Nat → List Nat
  | dst, _, [] => dst
  | dst, off, b :: src => memcpy (dst.set off b) (off + 1) src

/-- The function `strncpy(dst + off, src, n)` of the C library, `src` being a C
string without its final NUL: `n` bytes are written, the bytes of `src` first and
NUL bytes after them when `src` is shorter than `n`. -/
def strncpy (dst : List Nat) (off : Nat) (src : List Nat) (n : Nat) : List Nat :=
  memcpy dst off (src.take n ++ List.replicate (n - src.length) 0)

/-- The loop `for (i = 0; path[i] != '?' && i < len; i++) tmp[i] = path[i];` of
`_try_open`, with `k` iterations left: the buffer and the final `i`. It is started
with `k = len`, so that `i = len` when no iteration is left. -/
def try_open_copy (path : List Nat) (len : Nat) : Nat → Nat → List Nat → List Nat × Nat
  | 0, i, tmp => (tmp, i)
  | k + 1, i, tmp =>
    if path.getD i 0 ≠ 63 ∧ i < len then
      try_open_copy path len k (i + 1) (tmp.set i (path.getD i 0))
    else
      (tmp, i)

/-- The loop `do { ... } while (dl == NULL)` of `_try_open`, run for at most `fuel`
rounds, on the rest `path` of the search path, with a buffer of `sz` bytes. The
result is the handle of the file opened, `none` for NULL; `Fault.exit` stands for
the call of `exit(1)`. -/
def try_open_loop (L : Loader) (name : List Nat) (sz : Nat) :
    Nat → List Nat → Except Fault (Option Nat)
  | 0, _ => .error .diverges
  | fuel + 1, path =>
    let tmp := List.replicate sz 0
    let path := path.dropWhile (fun b => decide (b = 59))
    if path = [] then
      .ok none
    else
      let len := (path.takeWhile (fun b => decide (b ≠ 59))).length
      let r := try_open_copy path len len 0 tmp
      let i := r.2
      let tmp := memcpy r.1 i name
      if path.getD i 0 = 63 then
        let tmp := strncpy tmp (i + name.length) (path.drop (i + 1)) (len - i - 1)
        match L.dlopen (c_string tmp) with
        | some dl => .ok (some dl)
        | none => try_open_loop L name sz fuel (path.drop len)
      else
        .error .exit

/-- The function `_try_open`. Every round drops at least one byte of the search
path, so the loop ends within as many rounds as the path has bytes, plus one. -/
def _try_open (L : Loader) (M : modules) (name : List Nat) : Except Fault (Option Nat) :=
  try_open_loop L name (M.path.length + name.length) (M.path.length + 1) M.path

/-! ## _query, get_api, open_sym, skynet_module_query -/

/-- The loop `for (i = 0; i < M->count; i++)` of `_query`, with `k` iterations
left: the index of the entry found, `none` for NULL. -/
def query_loop (M : modules) (name : List Nat) : Nat → Nat → Option Nat
  | 0, _ => none
  | k + 1, i =>
    if strcmp (M.m.getD i default).name name = 0 then some i
    else query_loop M name k (i + 1)

/-- The function `_query`: the index in `M->m` of the entry returned, `none` for
NULL. -/
def _query (M : modules) (name : List Nat) : Option Nat :=
  query_loop M name M.count 0

/-- The function `strrchr(s, c)` of the C library for a byte `c` that is not NUL:
the offset of the last `c` in `s`, `none` for NULL. -/
def strrchr : List Nat → Nat → Option Nat
  | [], _ => none
  | a :: s, c =>
    match strrchr s c with
    | some i => some (i + 1)
    | none => if a = c then some 0 else none

/-- The function `get_api`: the address given by `dlsym`, `none` for NULL. -/
def get_api (L : Loader) (mod : skynet_module) (api_name : List Nat) : Option Nat :=
  let tmp := mod.name ++ api_name
  let ptr :=
    match strrchr tmp 46 with
    | none => tmp
    | some i => tmp.drop (i + 1)
  L.dlsym mod.module ptr

/-- The function `open_sym`: the entry with its four entry points set, and the
value returned. -/
def open_sym (L : Loader) (mod : skynet_module) : skynet_module × Nat :=
  let mod := { mod with create := get_api L mod api_create }
  let mod := { mod with init := get_api L mod api_init }
  let mod := { mod with release := get_api L mod api_release }
  let mod := { mod with signal := get_api L mod api_signal }
  (mod, if mod.init = none then 1 else 0)

/-- The function `skynet_module_query`, with no other thread at work: the table and
the index in `M->m` of the entry returned, `none` for NULL. The copy of the name
made by `skynet_strdup` has the bytes of the name. -/
def skynet_module_query (L : Loader) (M : modules) (name : List Nat) :
    Except Fault (modules × Option Nat) :=
  match _query M name with
  | some i => .ok (M, some i)
  | none =>
    match _query M name with
    | some i => .ok (M, some i)
    | none =>
      if M.count < MAX_MODULE_TYPE then
        let index := M.count
        match _try_open L M name with
        | .error e => .error e
        | .ok none => .ok (M, none)
        | .ok (some dl) =>
          let entry := { M.m.getD index default with name := name, module := dl }
          let M := { M with m := M.m.set index entry }
          let r := open_sym L (M.m.getD index default)
          let M := { M with m := M.m.set index r.1 }
          if r.2 = 0 then
            .ok ({ M with count := M.count + 1 }, some index)
          else
            .ok (M, none)
      else
        .ok (M, none)

/-! ## The calls on an instance of a module -/

/-- The function `skynet_module_instance_create`: the pointer returned, as the
integer of type `intptr_t` it converts to, and the calls made; `ret f` is the
pointer returned by the function at address `f`. -/
def skynet_module_instance_create (ret : Nat → Int) (m : skynet_module) :
    Int × List ModCall :=
  match m.create with
  | some f => (ret f, [ModCall.create f])
  | none => (-1, [])

/-- The function `skynet_module_instance_release`: the calls made. -/
def skynet_module_instance_release (m : skynet_module) (inst : Int) : List ModCall :=
  match m.release with
  | some f => [ModCall.release f inst]
  | none => []

/-- The function `skynet_module_instance_signal`: the calls made. -/
def skynet_module_instance_signal (m : skynet_module) (inst : Int) (signal : Int) :
    List ModCall :=
  match m.signal with
  | some f => [ModCall.signal f inst signal]
  | none => []

/-- The entry that `skynet_module_query` writes at index `count` before it calls
`open_sym`: the entry found there with the name asked for and the handle of the
file opened. -/
def query_entry (M : modules) (name : List Nat) (dl : Nat) : skynet_module :=
  { M.m.getD M.count default with name := name, module := dl }

/-- A loader with two files: `./a.so`, handle 1, which has the symbol `a_init` only,
and `./b.so`, handle 2, which has every symbol but `b_init`. -/
def demo_loader : Loader :=
  { dlopen := fun f =>
      if f = [46, 47, 97, 46, 115, 111] then some 1
      else if f = [46, 47, 98, 46, 115, 111] then some 2
      else none
    dlsym := fun h s =>
      if h = 1 ∧ s = [97] ++ api_init then some 100
      else if h = 2 ∧ s ≠ [98] ++ api_init then some 200
      else none }

/-- The table made by `skynet_module_init` for the search path `./?.so`. -/
def demo_modules : modules := skynet_module_init [46, 47, 63, 46, 115, 111]

/-! ## The global queue and the mailboxes in memory (skynet_mq.c) -/

/-- A `struct global_queue` without its lock: the addresses of the first and of the
last mailbox, `none` for NULL. -/
structure global_queue where
  head : Option Nat
  tail : Option Nat
deriving DecidableEq, Repr

/-- The memory of the mailbox code: the global queue `Q` and the mailbox at every
address. -/
structure MqSystem where
  Q : global_queue
  mq : Nat → message_queue

/-- The function `skynet_mq_init`, in a memory whose mailboxes are `mq`. -/
def skynet_mq_init (mq : Nat → message_queue) : MqSystem :=
  { Q := { head := none, tail := none }, mq := mq }

/-- The function `skynet_globalmq_push`; `queue` is the address of the mailbox. -/
def skynet_globalmq_push (st : MqSystem) (queue : Nat) : Except Fault MqSystem :=
  if (st.mq queue).next ≠ none then
    .error .assertion
  else
    match st.Q.tail with
    | some t =>
      .ok { Q := { st.Q with tail := some queue }
            mq := Function.update st.mq t { st.mq t with next := some queue } }
    | none => .ok { st with Q := { head := some queue, tail := some queue } }

/-- The function `skynet_globalmq_pop`: the new memory and the address returned,
`none` for NULL. -/
def skynet_globalmq_pop (st : MqSystem) : Except Fault (MqSystem × Option Nat) :=
  match st.Q.head with
  | some mq =>
    let head := (st.mq mq).next
    if head = none then
      if some mq = st.Q.tail then
        .ok ({ Q := { head := none, tail := none }
               mq := Function.update st.mq mq { st.mq mq with next := none } }, some mq)
      else
        .error .assertion
    else
      .ok ({ Q := { st.Q with head := head }
             mq := Function.update st.mq mq { st.mq mq with next := none } }, some mq)
  | none => .ok (st, none)

/-- The function `skynet_mq_push` on the mailbox at address `q`, with the call of
`skynet_globalmq_push` that it makes when the flag `in_global` was 0. -/
def mq_push_at (st : MqSystem) (q : Nat) (message : skynet_message) :
    Except Fault MqSystem :=
  if (skynet_mq_push (st.mq q) message).2 then
    skynet_globalmq_push
      { st with mq := Function.update st.mq q (skynet_mq_push (st.mq q) message).1 } q
  else
    .ok { st with mq := Function.update st.mq q (skynet_mq_push (st.mq q) message).1 }

/-- The function `skynet_mq_mark_release` on the mailbox at address `q`. -/
def skynet_mq_mark_release (st : MqSystem) (q : Nat) : Except Fault MqSystem :=
  if (st.mq q).release ≠ 0 then
    .error .assertion
  else if (st.mq q).in_global ≠ MQ_IN_GLOBAL then
    skynet_globalmq_push
      { st with mq := Function.update st.mq q { st.mq q with release := 1 } } q
  else
    .ok { st with mq := Function.update st.mq q { st.mq q with release := 1 } }

/-- The loop `while (!skynet_mq_pop(q, &msg)) drop_func(&msg, ud);` of
`_drop_queue`, run for at most `fuel` pops, `msg` being the local variable of that
name: the messages handed to `drop_func`, in the order of the calls, and the
mailbox when the loop ends. -/
def drop_loop : Nat → message_queue → skynet_message →
    List skynet_message × Except Fault message_queue
  | 0, _, _ => ([], .error .diverges)
  | fuel + 1, q, msg =>
    match skynet_mq_pop q msg with
    | .error e => ([], .error e)
    | .ok (q', msg', ret) =>
      if ret = 0 then
        (msg' :: (drop_loop fuel q' msg').1, (drop_loop fuel q' msg').2)
      else
        ([], .ok q')

/-- The function `_drop_queue`: the messages handed to `drop_func` and the mailbox
that `_release` frees, after its `assert(q->next == NULL)`. The local variable
`msg` is not initialised by the code and holds a default message here. Every pop
that returns a message moves `head` one cell on, to cell 0 after the last cell, and
the loop ends when `head` meets `tail`, so a loop that ends does so within
`cap + 2` pops, which is the number of pops allowed here. -/
def _drop_queue (q : message_queue) : List skynet_message × Except Fault message_queue :=
  match (drop_loop (q.cap + 2) q default).2 with
  | .ok q' =>
    if q'.next ≠ none then ((drop_loop (q.cap + 2) q default).1, .error .assertion)
    else ((drop_loop (q.cap + 2) q default).1, .ok q')
  | .error e => ((drop_loop (q.cap + 2) q default).1, .error e)

/-- The function `skynet_mq_release` on the mailbox at address `q`: the messages
handed to `drop_func`, the new memory, and whether the mailbox has been freed, in
which case the memory shows the mailbox as it was when freed. -/
def skynet_mq_release (st : MqSystem) (q : Nat) :
    List skynet_message × Except Fault (MqSystem × Bool) :=
  if (st.mq q).release ≠ 0 then
    match (_drop_queue (st.mq q)).2 with
    | .ok q' =>
      ((_drop_queue (st.mq q)).1, .ok ({ st with mq := Function.update st.mq q q' }, true))
    | .error e => ((_drop_queue (st.mq q)).1, .error e)
  else
    match skynet_globalmq_push st q with
    | .ok st' => ([], .ok (st', false))
    | .error e => ([], .error e)

/-- A call on the global queue: a push of the mailbox at an address, or a pop. -/
inductive GqOp where
  | push (queue : Nat)
  | pop
deriving DecidableEq, Repr

/-- The calls of `ops` made one after the other on the global queue: the final
memory and the addresses returned by the pops, in the order of the pops. -/
def gq_run : MqSystem → List GqOp → Except Fault (MqSystem × List (Option Nat))
  | st, [] => .ok (st, [])
  | st, GqOp.push a :: ops =>
    match skynet_globalmq_push st a with
    | .error e => .error e
    | .ok st' => gq_run st' ops
  | st, GqOp.pop :: ops =>
    match skynet_globalmq_pop st with
    | .error e => .error e
    | .ok (st', r) =>
      match gq_run st' ops with
      | .error e => .error e
      | .ok (st'', out) => .ok (st'', r :: out)

/-- A queue of addresses as the words of the claim have it: a push appends at the
end, provided the address is not in the queue, and a pop removes the first address
and returns it, or returns NULL when there is none. The result is the final queue
and the values returned by the pops; `none` when a push is made of an address that
is in the queue. -/
def fifo_run : List Nat → List GqOp → Option (List Nat × List (Option Nat))
  | l, [] => some (l, [])
  | l, GqOp.push a :: ops => if a ∈ l then none else fifo_run (l ++ [a]) ops
  | [], GqOp.pop :: ops =>
    match fifo_run [] ops with
    | some (l', out) => some (l', none :: out)
    | none => none
  | a :: l, GqOp.pop :: ops =>
    match fifo_run l ops with
    | some (l', out) => some (l', some a :: out)
    | none => none

/-- The mailboxes met from the pointer `p` on along the `next` links are those of
the list `l`, in its order, and the last one has a NULL link. -/
def is_chain (mq : Nat → message_queue) : Option Nat → List Nat → Prop
  | p, [] => p = none
  | p, a :: l => p = some a ∧ is_chain mq (mq a).next l

/-- The global queue holds the mailboxes of `l`, in the order of `l`: they are
linked from `head` on, `tail` is the last of them, none is there twice, and a
mailbox that is not in the queue has a NULL link. -/
structure GqInv (st : MqSystem) (l : List Nat) : Prop where
  chain : is_chain st.mq st.Q.head l
  tail : st.Q.tail = l.getLast?
  nodup : l.Nodup
  unlinked : ∀ a, a ∉ l → (st.mq a).next = none

/-- A memory with an empty global queue and, at address 1, a mailbox that holds two
messages and has its release flag set; at address 2, the same mailbox with the flag
not set. -/
def demo_release : MqSystem :=
  skynet_mq_init (fun a =>
    if a = 1 then
      { mq_push_many (skynet_mq_create 7) [⟨1, 2, 3, 4⟩, ⟨5, 6, 7, 8⟩] with release := 1 }
    else if a = 2 then
      mq_push_many (skynet_mq_create 7) [⟨1, 2, 3, 4⟩, ⟨5, 6, 7, 8⟩]
    else skynet_mq_create 0)

/-! ## The life of the mailboxes -/

/-- Where the mailboxes are, as the history of calls defines it: `alloc` lists the
mailboxes created and not freed, `linked` those pushed on the global queue and not
popped from it since, in the order of the pushes, `held` those popped from the
global queue by a worker that has not given them back, and `fresh` those created
and never pushed on the global queue. -/
structure MqGhost where
  alloc : List Nat
  linked : List Nat
  held : List Nat
  fresh : List Nat

/-- Modelled from the spec: the callers of the mailbox code in skynet_server.c, which
is not among the sources. `SysTrace st g` says that the memory `st` is reached from
`skynet_mq_init` by calls of the functions of skynet_mq.c made as the spec has the
callers make them, and that `g` is the place of every mailbox so defined. A service
is created with a mailbox made by `skynet_mq_create` at an address not in use
(`create`), which is pushed on the global queue when the initialisation succeeds
(`first_link`); senders push messages into mailboxes that are not marked for
release (`push`); a worker pops a mailbox from the global queue (`take`), pops
messages from the mailbox it holds, and lets go of it when a pop reports it empty
(`pop`), or pushes it back on the global queue (`give_back`); the mailbox of a
service that is deleted is marked (`mark_release`); and `skynet_mq_release` is
called by the worker that holds the mailbox, or by the creator of a service whose
initialisation failed (`release`). -/
inductive SysTrace : MqSystem → MqGhost → Prop
  | init (mq : Nat → message_queue) : (∀ a, (mq a).next = none) →
      SysTrace (skynet_mq_init mq) { alloc := [], linked := [], held := [], fresh := [] }
  | create {st : MqSystem} {g : MqGhost} (a handle : Nat) :
      SysTrace st g → a ∉ g.alloc →
      SysTrace { st with mq := Function.update st.mq a (skynet_mq_create handle) }
        { g with alloc := a :: g.alloc, fresh := a :: g.fresh }
  | first_link {st st' : MqSystem} {g : MqGhost} (a : Nat) :
      SysTrace st g → a ∈ g.fresh → skynet_globalmq_push st a = .ok st' →
      SysTrace st' { g with linked := g.linked ++ [a], fresh := g.fresh.erase a }
  | push {st st' : MqSystem} {g : MqGhost} (a : Nat) (m : skynet_message) :
      SysTrace st g → a ∈ g.alloc → (st.mq a).release = 0 →
      mq_push_at st a m = .ok st' →
      SysTrace st'
        { g with linked := if (skynet_mq_push (st.mq a) m).2 then g.linked ++ [a]
                           else g.linked }
  | take {st st' : MqSystem} {g : MqGhost} (a : Nat) :
      SysTrace st g → skynet_globalmq_pop st = .ok (st', some a) →
      SysTrace st' { g with linked := g.linked.erase a, held := a :: g.held }
  | pop {st : MqSystem} {g : MqGhost} (a : Nat) (m0 : skynet_message)
      (q' : message_queue) (m : skynet_message) (ret : Nat) :
      SysTrace st g → a ∈ g.held → skynet_mq_pop (st.mq a) m0 = .ok (q', m, ret) →
      SysTrace { st with mq := Function.update st.mq a q' }
        { g with held := if ret = 0 then g.held else g.held.erase a }
  | give_back {st st' : MqSystem} {g : MqGhost} (a : Nat) :
      SysTrace st g → a ∈ g.held → skynet_globalmq_push st a = .ok st' →
      SysTrace st' { g with linked := g.linked ++ [a], held := g.held.erase a }
  | mark_release {st st' : MqSystem} {g : MqGhost} (a : Nat) :
      SysTrace st g → a ∈ g.alloc → skynet_mq_mark_release st a = .ok st' →
      SysTrace st'
        { g with linked := if (st.mq a).in_global ≠ MQ_IN_GLOBAL then g.linked ++ [a]
                           else g.linked }
  | release {st st' : MqSystem} {g : MqGhost} (a : Nat) (dropped : List skynet_message)
      (freed : Bool) :
      SysTrace st g → (a ∈ g.held ∨ a ∈ g.fresh) →
      skynet_mq_release st a = (dropped, .ok (st', freed)) →
      SysTrace st'
        (if freed then
          { g with alloc := g.alloc.erase a, held := g.held.erase a,
                   fresh := g.fresh.erase a }
        else
          { g with linked := g.linked ++ [a], held := g.held.erase a,
                   fresh := g.fresh.erase a })

/-- What holds of every memory reached: the global queue holds the mailboxes of
`linked`; the mailboxes linked, held and fresh are mailboxes in use, and no mailbox
is in two of these places or twice in one; and a mailbox in use that is not marked
for release has the flag `in_global` at 1 when it is linked, held or fresh, and at 0
when it is not. -/
structure SysInv (st : MqSystem) (g : MqGhost) : Prop where
  gq : GqInv st g.linked
  linked_sub : ∀ a, a ∈ g.linked → a ∈ g.alloc
  held_sub : ∀ a, a ∈ g.held → a ∈ g.alloc
  fresh_sub : ∀ a, a ∈ g.fresh → a ∈ g.alloc
  alloc_nodup : g.alloc.Nodup
  held_nodup : g.held.Nodup
  fresh_nodup : g.fresh.Nodup
  linked_held : ∀ a, a ∈ g.linked → a ∉ g.held
  linked_fresh : ∀ a, a ∈ g.linked → a ∉ g.fresh
  held_fresh : ∀ a, a ∈ g.held → a ∉ g.fresh
  flag : ∀ a, a ∈ g.alloc → (st.mq a).release = 0 →
    ((st.mq a).in_global = MQ_IN_GLOBAL ↔ a ∈ g.linked ∨ a ∈ g.held ∨ a ∈ g.fresh)
  flag01 : ∀ a, a ∈ g.alloc → (st.mq a).in_global ≤ 1

/-- The memory after a push of the mailbox at `a` on the global queue, or the same
memory when the push does not return. -/
def after_link (st : MqSystem) (a : Nat) : MqSystem :=
  match skynet_globalmq_push st a with
  | .ok st' => st'
  | .error _ => st

/-- The memory after a pop on the global queue, or the same memory when the pop
does not return. -/
def after_take (st : MqSystem) : MqSystem :=
  match skynet_globalmq_pop st with
  | .ok (st', _) => st'
  | .error _ => st

/-- The memory after a pop on the mailbox at `a`, or the same memory when the pop
does not return. -/
def after_pop (st : MqSystem) (a : Nat) : MqSystem :=
  match skynet_mq_pop (st.mq a) default with
  | .ok (q', _, _) => { st with mq := Function.update st.mq a q' }
  | .error _ => st

/-- The memory after `skynet_mq_mark_release` on the mailbox at `a`, or the same
memory when the call does not return. -/
def after_mark (st : MqSystem) (a : Nat) : MqSystem :=
  match skynet_mq_mark_release st a with
  | .ok st' => st'
  | .error _ => st

/-- The memory right after `skynet_mq_init`, with no mailbox in use; the addresses
hold a mailbox whose flag `in_global` is 0 and which has no link. -/
def sys_empty : MqSystem :=
  skynet_mq_init (fun _ => { skynet_mq_create 0 with in_global := 0 })

/-- One mailbox, at address 1, just made by `skynet_mq_create`. -/
def sys_fresh : MqSystem :=
  { sys_empty with mq := Function.update sys_empty.mq 1 (skynet_mq_create 7) }

/-- The mailbox at address 1 after the service has been started: pushed on the
global queue. -/
def sys_linked : MqSystem := after_link sys_fresh 1

/-- The mailbox at address 1 popped from the global queue by a worker, whose pop on
it has reported it empty: the mailbox is idle. -/
def sys_idle : MqSystem := after_pop (after_take sys_linked) 1

/-- The idle mailbox at address 1 after `skynet_mq_mark_release`. -/
def sys_marked : MqSystem := after_mark sys_idle 1

/-- A second mailbox, made at address 2 while the mailbox at address 1 is linked, and
pushed on the global queue in its turn: the queue holds the mailboxes 1 and 2. -/
def sys_pair : MqSystem :=
  after_link
    { sys_linked with mq := Function.update sys_linked.mq 2 (skynet_mq_create 8) } 2

/-! ## Notions used by the claims on the module table -/

/-- What is left of a byte string when everything up to and including its last
`.` is dropped: the longest end of the string that holds no `.`, which is the whole
string when it has none. -/
def after_last_dot (s : List Nat) : List Nat :=
  (s.reverse.takeWhile (fun b => decide (b ≠ 46))).reverse

/-- The pieces of a byte string between its `;`, in their order; a string with `n`
bytes `;` has `n + 1` pieces, some of which may be empty. -/
def split_semicolons : List Nat → List (List Nat)
  | [] => [[]]
  | b :: path =>
    if b = 59 then [] :: split_semicolons path
    else
      match split_semicolons path with
      | [] => [[b]]
      | p :: ps => (b :: p) :: ps

/-- The patterns of a search path: its pieces between the `;`, the empty ones left
out. -/
def path_patterns (path : List Nat) : List (List Nat) :=
  (split_semicolons path).filter (fun p => decide (p ≠ []))

/-- The file name made from a pattern: the name of the module in the place of the
first `?` of the pattern. -/
def pattern_file (p name : List Nat) : List Nat :=
  p.takeWhile (fun b => decide (b ≠ 63)) ++ name ++
    (p.dropWhile (fun b => decide (b ≠ 63))).tail

/-- The search of a module as the words of the claim have it: the patterns are
tried from left to right, the first file that opens is the result, a pattern
without `?` ends the process with `exit(1)`, and the result is NULL when no pattern
is left. -/
def try_patterns (L : Loader) (name : List Nat) : List (List Nat) → Except Fault (Option Nat)
  | [] => .ok none
  | p :: ps =>
    if 63 ∈ p then
      match L.dlopen (pattern_file p name) with
      | some dl => .ok (some dl)
      | none => try_patterns L name ps
    else
      .error .exit

/-- The buffer `tmp` that a round of the loop of `_try_open` passes to `dlopen`,
on the rest `path` of the search path, whose first byte is not `;`. -/
def try_open_buffer (name : List Nat) (sz : Nat) (path : List Nat) : List Nat :=
  strncpy
    (memcpy
      (try_open_copy path (path.takeWhile (fun b => decide (b ≠ 59))).length
        (path.takeWhile (fun b => decide (b ≠ 59))).length 0 (List.replicate sz 0)).1
      (try_open_copy path (path.takeWhile (fun b => decide (b ≠ 59))).length
        (path.takeWhile (fun b => decide (b ≠ 59))).length 0 (List.replicate sz 0)).2
      name)
    ((try_open_copy path (path.takeWhile (fun b => decide (b ≠ 59))).length
        (path.takeWhile (fun b => decide (b ≠ 59))).length 0 (List.replicate sz 0)).2 +
      name.length)
    (path.drop
      ((try_open_copy path (path.takeWhile (fun b => decide (b ≠ 59))).length
        (path.takeWhile (fun b => decide (b ≠ 59))).length 0 (List.replicate sz 0)).2 + 1))
    ((path.takeWhile (fun b => decide (b ≠ 59))).length -
      (try_open_copy path (path.takeWhile (fun b => decide (b ≠ 59))).length
        (path.takeWhile (fun b => decide (b ≠ 59))).length 0 (List.replicate sz 0)).2 - 1)

/-- The tables reached from the table `M0` by calls of `skynet_module_query` that
return, whatever the names asked for and whatever the loader finds at each call. -/
inductive ModReach (M0 : modules) : modules → Prop
  | start : ModReach M0 M0
  | query {M M' : modules} (L : Loader) (name : List Nat) (r : Option Nat) :
      ModReach M0 M → skynet_module_query L M name = .ok (M', r) → ModReach M0 M'

/-- Well-formedness of the module table: the array has `MAX_MODULE_TYPE` cells, at
most as many entries are in use, and no two entries in use have the same name. -/
structure ModInv (M : modules) : Prop where
  len : M.m.length = MAX_MODULE_TYPE
  count_le : M.count ≤ MAX_MODULE_TYPE
  names : ∀ i j, i < M.count → j < M.count →
    (M.m.getD i default).name = (M.m.getD j default).name → i = j

/-! ## laddresscommand (lua-skynet.c) -/

/-- The loop `for (i = 1; result[i]; i++)` of `laddresscommand`, on the bytes of the
result that are left, `addr` being the value read so far, of type `uint32_t`: the
final `addr`, or `none` when a byte is not a hexadecimal digit, in which case the
function returns no value. -/
def address_loop : List Nat → Nat → Option Nat
  | [], addr => some addr
  | c :: result, addr =>
    if c ≥ 48 ∧ c ≤ 57 then
      address_loop result ((addr * 16 + (c - 48)) % 2 ^ 32)
    else if c ≥ 97 ∧ c ≤ 102 then
      address_loop result ((addr * 16 + (c - 97 + 10)) % 2 ^ 32)
    else if c ≥ 65 ∧ c ≤ 70 then
      address_loop result ((addr * 16 + (c - 65 + 10)) % 2 ^ 32)
    else
      none

/-- The function `laddresscommand`, from the string returned by `skynet_command`,
`none` for NULL: the integer pushed on the Lua stack, or `none` when the function
returns no value. -/
def laddresscommand (result : Option (List Nat)) : Option Nat :=
  match result with
  | none => none
  | some [] => none
  | some (c :: rest) => if c = 58 then address_loop rest 0 else none

/-- The character of a hexadecimal digit `d`, in upper or in lower case. -/
def hex_char (upper : Bool) (d : Nat) : Nat :=
  if d < 10 then 48 + d else if upper then 55 + d else 87 + d

/-- The textual form of a handle: `:` followed by the 8 hexadecimal digits of `h`,
the most significant first, the digit at place `i` in upper case when `upper i`
holds. -/
def handle_text (upper : Nat → Bool) (h : Nat) : List Nat :=
  [58, hex_char (upper 0) (h / 16 ^ 7 % 16), hex_char (upper 1) (h / 16 ^ 6 % 16),
    hex_char (upper 2) (h / 16 ^ 5 % 16), hex_char (upper 3) (h / 16 ^ 4 % 16),
    hex_char (upper 4) (h / 16 ^ 3 % 16), hex_char (upper 5) (h / 16 ^ 2 % 16),
    hex_char (upper 6) (h / 16 % 16), hex_char (upper 7) (h % 16)]

/-- A byte is a hexadecimal digit: `0` to `9`, `a` to `f` or `A` to `F`. -/
def is_hex (c : Nat) : Prop :=
  (48 ≤ c ∧ c ≤ 57) ∨ (97 ≤ c ∧ c ≤ 102) ∨ (65 ≤ c ∧ c ≤ 70)

/-! ## bootstrap (skynet_start.c) -/

/-- The function `isspace` of the C library, in the C locale. -/
def isspace (c : Nat) : Bool :=
  decide (c = 32 ∨ (9 ≤ c ∧ c ≤ 13))

/-- The call `sscanf(cmdline, "%s", name)`: the C string held by `name` after the
call. White space is skipped, and the bytes up to the next white space are stored;
when the input ends before a byte is found, nothing is stored and `name` holds what
it held before, `name0`, which the code does not initialise. -/
def sscanf_s (cmdline name0 : List Nat) : List Nat :=
  if cmdline.dropWhile isspace = [] then name0
  else (cmdline.dropWhile isspace).takeWhile (fun c => !isspace c)

/-- The loop `while (cmdline[arg_pos] == ' ') arg_pos++;` of `bootstrap`, with `k`
iterations left: the final `arg_pos`. The loop stops at the final NUL at the
latest, so that it is started with as many iterations as there are bytes from
`arg_pos` to the end. -/
def skip_spaces (cmdline : List Nat) : Nat → Nat → Nat
  | 0, arg_pos => arg_pos
  | k + 1, arg_pos =>
    if cmdline.getD arg_pos 0 = 32 then skip_spaces cmdline k (arg_pos + 1) else arg_pos

/-- The two strings that `bootstrap` passes to `skynet_context_new`: the name of the
service and its arguments. The array `args` is not initialised by the code and is
filled here with NUL bytes. -/
def bootstrap_args (cmdline name0 : List Nat) : List Nat × List Nat :=
  let sz := cmdline.length
  let name := sscanf_s cmdline name0
  let arg_pos := name.length
  if arg_pos < sz then
    let arg_pos := skip_spaces cmdline (sz - arg_pos) arg_pos
    (name, c_string (strncpy (List.replicate (sz + 1) 0) 0 (cmdline.drop arg_pos) sz))
  else
    (name, [])

/-- The function `bootstrap`: the two strings of the service launched;
`skynet_context_new name args` is the context made, `none` for NULL, in which case
the process ends with `exit(1)`. -/
def bootstrap (skynet_context_new : List Nat → List Nat → Option Ctx)
    (cmdline name0 : List Nat) : Except Fault (List Nat × List Nat) :=
  match skynet_context_new (bootstrap_args cmdline name0).1
      (bootstrap_args cmdline name0).2 with
  | some _ => .ok (bootstrap_args cmdline name0)
  | none => .error .exit

/-! ## lalloc (service_snlua.c) -/

/-- The fields of a `struct snlua` that `lalloc` reads and writes; they have the
type `size_t`, taken here with 64 bits. -/
structure snlua where
  mem : Nat
  mem_report : Nat
  mem_limit : Nat
deriving DecidableEq, Repr

/-- The number of values of the type `size_t`. -/
def SIZE_MOD : Nat := 2 ^ 64

/-- The function `lalloc`: the new fields, the pointer returned, `none` for NULL,
and whether the memory warning is logged. The allocator `skynet_lalloc`, which is
not among the sources, is a parameter. The additions and the subtraction are those
of `size_t`. -/
def lalloc (skynet_lalloc : Option Nat → Nat → Nat → Option Nat) (l : snlua)
    (ptr : Option Nat) (osize nsize : Nat) : snlua × Option Nat × Bool :=
  let mem := l.mem
  let l := { l with mem := (l.mem + nsize) % SIZE_MOD }
  let l := if ptr ≠ none then { l with mem := (l.mem + (SIZE_MOD - osize)) % SIZE_MOD } else l
  if l.mem_limit ≠ 0 ∧ l.mem > l.mem_limit ∧ (ptr = none ∨ nsize > osize) then
    ({ l with mem := mem }, none, false)
  else if l.mem > l.mem_report then
    ({ l with mem_report := (l.mem_report * 2) % SIZE_MOD }, skynet_lalloc ptr osize nsize,
      true)
  else
    (l, skynet_lalloc ptr osize nsize, false)

/-- The accounted total that a request asks for: `mem + nsize`, less `osize` when a
block is given. -/
def lalloc_total (l : snlua) (ptr : Option Nat) (osize nsize : Nat) : Nat :=
  if ptr ≠ none then l.mem + nsize - osize else l.mem + nsize

/-! ## Notions used by the claims on the ids handed out -/

/-- Whether the probing loop of `skynet_handle_register`, with `n` iterations left
and `handle` the id to try, takes the branch `handle > HANDLE_MASK` before it finds
a free slot: the loop passes 0xFFFFFF. -/
def probe_passes (s : handle_storage) : Nat → Nat → Bool
  | 0, _ => false
  | n + 1, handle =>
    if handle > HANDLE_MASK then true
    else if s.slot.getD (handle &&& (s.slot_size - 1)) none = none then false
    else probe_passes s n (handle + 1)

/-- Whether a call of `skynet_handle_register` passes 0xFFFFFF in one of the rounds
of its outer loop, run for at most `fuel` rounds. -/
def register_passes (skynet_context_handle : Ctx → Nat) :
    Nat → handle_storage → Ctx → Bool
  | 0, _, _ => false
  | fuel + 1, s, ctx =>
    if probe_passes s s.slot_size s.handle_index then true
    else
      match register_probe s ctx s.slot_size s.handle_index with
      | some _ => false
      | none =>
        if s.slot_size * 2 - 1 ≤ HANDLE_MASK then
          match register_rehash skynet_context_handle s s.slot_size 0
              (List.replicate (s.slot_size * 2) none) with
          | none => false
          | some new_slot =>
            register_passes skynet_context_handle fuel
              { s with slot := new_slot, slot_size := s.slot_size * 2 } ctx
        else
          false

/-- A call on the registry: the registration of a context, or the retirement of a
handle. -/
inductive RegOp where
  | register (ctx : Ctx)
  | retire (handle : Nat)
deriving DecidableEq, Repr

/-- The calls of `ops` made one after the other on a world: the final world and the
handles returned by the registrations, in the order of the calls. -/
def reg_run : World → List RegOp → Except Fault (World × List Nat)
  | w, [] => .ok (w, [])
  | w, RegOp.register ctx :: ops =>
    match context_register w ctx with
    | .error e => .error e
    | .ok (w', h) =>
      match reg_run w' ops with
      | .error e => .error e
      | .ok (w'', hs) => .ok (w'', h :: hs)
  | w, RegOp.retire h :: ops => reg_run (world_retire w h).1 ops

/-- Whether one of the registrations of `ops`, made one after the other on a world,
passes 0xFFFFFF. -/
def reg_passes : World → List RegOp → Bool
  | _, [] => false
  | w, RegOp.register ctx :: ops =>
    if register_passes w.handle_of 25 w.H ctx then true
    else
      match context_register w ctx with
      | .error _ => false
      | .ok (w', _) => reg_passes w' ops
  | w, RegOp.retire h :: ops => reg_passes (world_retire w h).1 ops

/-- Harbor 1: two services registered, the first one retired, and four more
registered, the last of which doubles the table. -/
def demo_ids : World :=
  after_register (after_register (after_register
    (after_register (world_retire demo2 16777217).1 102) 103) 104) 105


/-- Harbor 1 with the id counter at 0xFFFFF9 and an empty table, then one service:
it gets the local id 0xFFFFF9 and slot 1. -/
def demo_wrap1 : World := after_register (wrap_world 16777208) 101

/-- A second service: local id 0xFFFFFA, slot 2. -/
def demo_wrap2 : World := after_register demo_wrap1 102

/-- A third service: local id 0xFFFFFB, slot 3. -/
def demo_wrap3 : World := after_register demo_wrap2 103

/-- A fourth service: local id 0xFFFFFC, slot 0; the id counter stands at 0xFFFFFD. -/
def demo_wrap4 : World := after_register demo_wrap3 104

/-- The fourth service retired again: slot 0 is free, slots 1, 2, 3 are taken. -/
def demo_wrap_free : World := (world_retire demo_wrap4 33554428).1

/-- A fifth service registered while slot 0 is free. -/
def demo_wrap5 : World := after_register demo_wrap_free 105

/-! ## Auxiliary facts on lists and bit operations -/

theorem getD_set_eq {α : Type} (l : List α) (i : Nat) (v d : α) (h : i < l.length) :
    (l.set i v).getD i d = v := by
  simp [List.getD_eq_getElem?_getD, List.getElem?_set, h]

theorem getD_set_ne {α : Type} (l : List α) (i j : Nat) (v d : α) (h : i ≠ j) :
    (l.set i v).getD j d = l.getD j d := by
  simp [List.getD_eq_getElem?_getD, List.getElem?_set, h]

theorem getD_some_lt {α : Type} (l : List (Option α)) (i : Nat) (c : α)
    (h : l.getD i none = some c) : i < l.length := by
  by_contra hn
  rw [List.getD_eq_getElem?_getD, List.getElem?_eq_none (by omega)] at h
  simp at h

theorem getD_replicate_none {α : Type} (n i : Nat) :
    (List.replicate n (none : Option α)).getD i none = none := by
  simp only [List.getD_eq_getElem?_getD, List.getElem?_replicate]
  split_ifs <;> simp

theorem or_harbor (x hb : Nat) (hx : x < 2 ^ 24) :
    x ||| (hb <<< 24) = hb * 2 ^ 24 + x := by
  rw [Nat.shiftLeft_eq, Nat.lor_comm, Nat.mul_comm, Nat.mul_add_lt_is_or hx]

theorem and_ff (b : Nat) : b &&& 0xff = b % 256 := by
  have := Nat.and_pow_two_sub_one_eq_mod b 8
  simpa using this

theorem mod_add_harbor (x y k : Nat) (hk : k ≤ 24) :
    (y * 2 ^ 24 + x) % 2 ^ k = x % 2 ^ k := by
  have h : (2:Nat) ^ 24 = 2 ^ k * 2 ^ (24 - k) := by
    rw [← pow_add]; congr 1; omega
  have h2 : y * 2 ^ 24 = 2 ^ k * (y * 2 ^ (24 - k)) := by rw [h]; ring
  rw [h2, Nat.mul_add_mod]

theorem mod_succ_pow_mod (x k : Nat) : x % 2 ^ (k + 1) % 2 ^ k = x % 2 ^ k :=
  Nat.mod_mod_of_dvd x (pow_dvd_pow 2 (Nat.le_succ k))

/-! ## Invariant of the slot table -/

/-- What a successful probe does: it picks a local id `x` in `1..HANDLE_MASK` whose
slot is free, stores the context there and returns `x | harbor`. -/
theorem register_probe_some {s s' : handle_storage} {ctx : Ctx} {r : Nat} :
    ∀ (n h : Nat), 1 ≤ h → register_probe s ctx n h = some (s', r) →
    ∃ x, 1 ≤ x ∧ x ≤ HANDLE_MASK ∧
      s.slot.getD (x &&& (s.slot_size - 1)) none = none ∧
      s' = { s with slot := s.slot.set (x &&& (s.slot_size - 1)) (some ctx),
                    handle_index := x + 1 } ∧
      r = x ||| s.harbor := by
  intro n
  induction n with
  | zero => intro h _ H; simp [register_probe] at H
  | succ n ih =>
    intro h hh H
    simp only [register_probe] at H
    by_cases h1 : h > HANDLE_MASK
    · simp only [if_pos h1] at H
      split_ifs at H with h2
      · refine ⟨1, le_refl _, by decide, h2, ?_, ?_⟩
        · simp only [Option.some.injEq, Prod.mk.injEq] at H; exact H.1.symm
        · simp only [Option.some.injEq, Prod.mk.injEq] at H; exact H.2.symm
      · exact ih _ (by omega) H
    · simp only [if_neg h1] at H
      split_ifs at H with h2
      · refine ⟨h, hh, by omega, h2, ?_, ?_⟩
        · simp only [Option.some.injEq, Prod.mk.injEq] at H; exact H.1.symm
        · simp only [Option.some.injEq, Prod.mk.injEq] at H; exact H.2.symm
      · exact ih _ (by omega) H

/-- The rehashing loop never trips its assertion when every context sits in the
slot its handle selects, and it moves every context to the new array. -/
theorem register_rehash_spec (hd : Ctx → Nat) (s : handle_storage) (k : Nat)
    (hk : s.slot_size = 2 ^ k)
    (hslot : ∀ i c, s.slot.getD i none = some c → hd c % s.slot_size = i) :
    ∀ (n i : Nat) (new_slot : List (Option Ctx)), RehashInv hd s i new_slot →
    ∃ new', register_rehash hd s n i new_slot = some new' ∧
      RehashInv hd s (i + n) new' := by
  have hmask : ∀ x, x &&& (s.slot_size * 2 - 1) = x % (s.slot_size * 2) := by
    intro x
    have : s.slot_size * 2 = 2 ^ (k + 1) := by rw [hk, pow_succ]
    rw [this, Nat.and_pow_two_sub_one_eq_mod]
  have hmm : ∀ x, x % (s.slot_size * 2) % s.slot_size = x % s.slot_size := by
    intro x
    exact Nat.mod_mod_of_dvd x (Dvd.intro _ rfl)
  intro n
  induction n with
  | zero => intro i new_slot h; exact ⟨new_slot, rfl, h⟩
  | succ n ih =>
    intro i new_slot h
    simp only [register_rehash]
    cases hc : s.slot.getD i none with
    | none =>
      simp only
      have h' : RehashInv hd s (i + 1) new_slot := by
        refine ⟨h.len, ?_, ?_⟩
        · intro j c hj
          obtain ⟨h1, i', h2, h3⟩ := h.sound j c hj
          exact ⟨h1, i', by omega, h3⟩
        · intro i' c hi' hs
          rcases Nat.lt_succ_iff_lt_or_eq.mp hi' with hlt | heq
          · exact h.complete i' c hlt hs
          · subst heq; rw [hc] at hs; cases hs
      obtain ⟨new', e1, e2⟩ := ih (i + 1) new_slot h'
      exact ⟨new', e1, by rw [show i + (n + 1) = i + 1 + n by omega]; exact e2⟩
    | some c =>
      simp only [hmask]
      have hfree : new_slot.getD (hd c % (s.slot_size * 2)) none = none := by
        cases hn : new_slot.getD (hd c % (s.slot_size * 2)) none with
        | none => rfl
        | some c' =>
          exfalso
          obtain ⟨h1, i', h2, h3⟩ := h.sound _ _ hn
          have e1 := hslot i' c' h3
          have e2 := hslot i c hc
          have e3 := hmm (hd c')
          have e4 := hmm (hd c)
          rw [h1, e4] at e3
          omega
      have hlt : hd c % (s.slot_size * 2) < new_slot.length := by
        rw [h.len]; apply Nat.mod_lt; rw [hk]; positivity
      rw [if_pos hfree]
      have h' : RehashInv hd s (i + 1)
          (new_slot.set (hd c % (s.slot_size * 2)) (some c)) := by
        refine ⟨by rw [List.length_set]; exact h.len, ?_, ?_⟩
        · intro j c' hj
          by_cases hjj : hd c % (s.slot_size * 2) = j
          · subst hjj
            rw [getD_set_eq _ _ _ _ hlt] at hj
            cases hj
            exact ⟨rfl, i, by omega, hc⟩
          · rw [getD_set_ne _ _ _ _ _ hjj] at hj
            obtain ⟨h1, i', h2, h3⟩ := h.sound j c' hj
            exact ⟨h1, i', by omega, h3⟩
        · intro i' c' hi' hs
          rcases Nat.lt_succ_iff_lt_or_eq.mp hi' with hlt' | heq
          · have hold := h.complete i' c' hlt' hs
            have hne : hd c % (s.slot_size * 2) ≠ hd c' % (s.slot_size * 2) := by
              intro e; rw [← e, hfree] at hold; cases hold
            rw [getD_set_ne _ _ _ _ _ hne]; exact hold
          · subst heq
            rw [hc] at hs; cases hs
            exact getD_set_eq _ _ _ _ hlt
      obtain ⟨new', e1, e2⟩ := ih (i + 1) _ h'
      exact ⟨new', e1, by rw [show i + (n + 1) = i + 1 + n by omega]; exact e2⟩

/-- Under the invariant, the mask `slot_size - 1` computes the remainder. -/
theorem SlotInv.land_eq {b : Nat} {hd : Ctx → Nat} {s : handle_storage}
    (inv : SlotInv b hd s) (x : Nat) : x &&& (s.slot_size - 1) = x % s.slot_size := by
  obtain ⟨k, _, _, hk⟩ := inv.size
  rw [hk, Nat.and_pow_two_sub_one_eq_mod]

theorem SlotInv.size_pos {b : Nat} {hd : Ctx → Nat} {s : handle_storage}
    (inv : SlotInv b hd s) : 0 < s.slot_size := by
  obtain ⟨k, _, _, hk⟩ := inv.size
  rw [hk]; positivity

/-- Under the invariant, `skynet_handle_grab` finds exactly the context that sits in
the table with the handle asked for. -/
theorem grab_iff {b : Nat} {hd : Ctx → Nat} {s : handle_storage}
    (inv : SlotInv b hd s) (h : Nat) (c : Ctx) :
    skynet_handle_grab hd s h = some c ↔ occupied s c ∧ hd c = h := by
  unfold skynet_handle_grab
  simp only [inv.land_eq]
  constructor
  · intro H
    cases hc : s.slot.getD (h % s.slot_size) none with
    | none => rw [hc] at H; cases H
    | some c' =>
      rw [hc] at H
      simp only at H
      split_ifs at H with e
      cases H
      exact ⟨⟨_, hc⟩, e⟩
  · rintro ⟨⟨i, hi⟩, rfl⟩
    have := (inv.slot i c hi).1
    rw [this, hi]
    simp

/-- Doubling the table keeps the invariant and the set of contexts in the table. -/
theorem register_double {b : Nat} {hd : Ctx → Nat} {s : handle_storage}
    {new_slot : List (Option Ctx)} (inv : SlotInv b hd s)
    (hsz : s.slot_size * 2 - 1 ≤ HANDLE_MASK)
    (hre : register_rehash hd s s.slot_size 0 (List.replicate (s.slot_size * 2) none)
      = some new_slot) :
    SlotInv b hd { s with slot := new_slot, slot_size := s.slot_size * 2 } ∧
    ∀ c, occupied { s with slot := new_slot, slot_size := s.slot_size * 2 } c ↔
      occupied s c := by
  obtain ⟨k, hk2, hk24, hk⟩ := inv.size
  have h0 : RehashInv hd s 0 (List.replicate (s.slot_size * 2) none) := by
    refine ⟨by simp, ?_, ?_⟩
    · intro j c hj; rw [getD_replicate_none] at hj; cases hj
    · intro i' c hi'; omega
  obtain ⟨new', e1, e2⟩ := register_rehash_spec hd s k hk
    (fun i c hi => (inv.slot i c hi).1) s.slot_size 0 _ h0
  rw [hre] at e1
  cases e1
  rw [Nat.zero_add] at e2
  have hk' : k + 1 ≤ 24 := by
    have : 2 ^ (k + 1) ≤ 2 ^ 24 := by
      rw [pow_succ, ← hk]; simp only [HANDLE_MASK] at hsz; omega
    exact (Nat.pow_le_pow_iff_right (by decide)).mp this
  refine ⟨⟨⟨k + 1, by omega, hk', by simp only [hk, pow_succ]⟩, e2.len,
    inv.harbor, inv.index_pos, inv.index_le, ?_⟩, ?_⟩
  · intro i c hi
    obtain ⟨h1, i', _, h3⟩ := e2.sound i c hi
    exact ⟨h1, (inv.slot i' c h3).2⟩
  · intro c
    constructor
    · rintro ⟨i, hi⟩
      obtain ⟨_, i', _, h3⟩ := e2.sound i c hi
      exact ⟨i', h3⟩
    · rintro ⟨i, hi⟩
      have hlt : i < s.slot_size := by
        have := getD_some_lt _ _ _ hi
        rw [inv.len] at this; exact this
      exact ⟨_, e2.complete i c hlt hi⟩

/-- The handle built from a local id `x` and the harbor byte of the registry. -/
theorem handle_parts (b x : Nat) (hx : x ≤ HANDLE_MASK) :
    (x ||| ((b &&& 0xff) <<< HANDLE_REMOTE_SHIFT)) = b % 256 * 2 ^ 24 + x := by
  simp only [HANDLE_MASK] at hx
  rw [and_ff]
  exact or_harbor x _ (by omega)

/-- A successful probe keeps the invariant once the caller has stored the handle in
the context, and adds the context to the table. -/
theorem register_probe_spec {b : Nat} {hd : Ctx → Nat} {s s' : handle_storage}
    {ctx : Ctx} {r n : Nat} (inv : SlotInv b hd s) (fresh : ¬ occupied s ctx)
    (H : register_probe s ctx n s.handle_index = some (s', r)) :
    SlotInv b (Function.update hd ctx r) s' ∧
    (∀ c, occupied s' c ↔ c = ctx ∨ occupied s c) ∧
    (∃ x, 1 ≤ x ∧ x ≤ HANDLE_MASK ∧ r = b % 256 * 2 ^ 24 + x ∧
      s'.handle_index = x + 1) ∧
    s'.name = s.name ∧ s'.name_count = s.name_count ∧ s'.name_cap = s.name_cap ∧
    s'.slot_size = s.slot_size := by
  obtain ⟨x, hx1, hx2, hfree, rfl, rfl⟩ := register_probe_some n _ inv.index_pos H
  obtain ⟨k, hk2, hk24, hk⟩ := inv.size
  rw [inv.land_eq] at hfree ⊢
  have hr : x ||| s.harbor = b % 256 * 2 ^ 24 + x := by
    rw [inv.harbor]; exact handle_parts b x hx2
  rw [hr]
  have hxm : x < 2 ^ 24 := by simp only [HANDLE_MASK] at hx2; omega
  have hlt : x % s.slot_size < s.slot.length := by
    rw [inv.len]; exact Nat.mod_lt _ inv.size_pos
  have hrmod : (b % 256 * 2 ^ 24 + x) % s.slot_size = x % s.slot_size := by
    rw [hk]; exact mod_add_harbor x _ k hk24
  have hr24 : (b % 256 * 2 ^ 24 + x) % 2 ^ 24 = x := by
    rw [Nat.mul_comm, Nat.mul_add_mod, Nat.mod_eq_of_lt hxm]
  have hrdiv : (b % 256 * 2 ^ 24 + x) / 2 ^ 24 = b % 256 := by
    rw [Nat.mul_comm, Nat.mul_add_div (by positivity), Nat.div_eq_of_lt hxm, Nat.add_zero]
  refine ⟨⟨⟨k, hk2, hk24, hk⟩, by simp only [List.length_set]; exact inv.len,
    inv.harbor, by simp, by simp only; omega, ?_⟩, ?_, ⟨x, hx1, hx2, rfl, rfl⟩,
    rfl, rfl, rfl, rfl⟩
  · intro i c hi
    simp only at hi
    by_cases hii : x % s.slot_size = i
    · subst hii
      rw [getD_set_eq _ _ _ _ hlt] at hi
      cases hi
      rw [Function.update_same]
      exact ⟨hrmod, by rw [hr24]; exact hx1, hrdiv⟩
    · rw [getD_set_ne _ _ _ _ _ hii] at hi
      have hne : c ≠ ctx := by
        rintro rfl; exact fresh ⟨i, hi⟩
      rw [Function.update_noteq hne]
      exact inv.slot i c hi
  · intro c
    constructor
    · rintro ⟨i, hi⟩
      simp only at hi
      by_cases hii : x % s.slot_size = i
      · subst hii
        rw [getD_set_eq _ _ _ _ hlt] at hi
        cases hi; exact Or.inl rfl
      · rw [getD_set_ne _ _ _ _ _ hii] at hi
        exact Or.inr ⟨i, hi⟩
    · rintro (rfl | ⟨i, hi⟩)
      · exact ⟨x % s.slot_size, getD_set_eq _ _ _ _ hlt⟩
      · refine ⟨i, ?_⟩
        have hii : x % s.slot_size ≠ i := by
          rintro rfl; rw [hfree] at hi; cases hi
        simp only
        rw [getD_set_ne _ _ _ _ _ hii]; exact hi

/-- The whole registration: whatever the number of rounds, a call that returns keeps
the invariant, adds the context to the table and keeps the others, and leaves the
name table alone. -/
theorem register_loop_spec {b : Nat} {hd : Ctx → Nat} {ctx : Ctx} :
    ∀ (fuel : Nat) (s s' : handle_storage) (r : Nat), SlotInv b hd s →
    ¬ occupied s ctx → register_loop hd fuel s ctx = .ok (s', r) →
    SlotInv b (Function.update hd ctx r) s' ∧
    (∀ c, occupied s' c ↔ c = ctx ∨ occupied s c) ∧
    (∃ x, 1 ≤ x ∧ x ≤ HANDLE_MASK ∧ r = b % 256 * 2 ^ 24 + x ∧
      s'.handle_index = x + 1) ∧
    s'.name = s.name ∧ s'.name_count = s.name_count ∧ s'.name_cap = s.name_cap := by
  intro fuel
  induction fuel with
  | zero => intro s s' r _ _ H; simp [register_loop] at H
  | succ fuel ih =>
    intro s s' r inv fresh H
    simp only [register_loop] at H
    cases hp : register_probe s ctx s.slot_size s.handle_index with
    | some p =>
      rw [hp] at H
      simp only [Except.ok.injEq] at H
      subst H
      obtain ⟨a1, a2, a3, a4, a5, a6, _⟩ := register_probe_spec inv fresh hp
      exact ⟨a1, a2, a3, a4, a5, a6⟩
    | none =>
      rw [hp] at H
      simp only at H
      split_ifs at H with hsz
      cases hre : register_rehash hd s s.slot_size 0
          (List.replicate (s.slot_size * 2) none) with
      | none => rw [hre] at H; cases H
      | some new_slot =>
        rw [hre] at H
        simp only at H
        obtain ⟨inv2, occ2⟩ := register_double inv hsz hre
        have fresh2 := fun hocc => fresh ((occ2 ctx).mp hocc)
        obtain ⟨a1, a2, a3, a4, a5, a6⟩ := ih _ s' r inv2 fresh2 H
        refine ⟨a1, ?_, a3, a4, a5, a6⟩
        intro c; rw [a2, occ2]

/-! ## Order of names -/

theorem strcmp_eq_zero_iff : ∀ (a b : List Nat), strcmp a b = 0 ↔ a = b
  | [], [] => by simp [strcmp]
  | [], _ :: _ => by simp [strcmp]
  | _ :: _, [] => by simp [strcmp]
  | a :: as, b :: bs => by
    simp only [strcmp]
    by_cases h : a = b
    · simp [h, strcmp_eq_zero_iff as bs]
    · simp only [h, if_false, List.cons.injEq, false_and, iff_false]
      split_ifs <;> decide

theorem strcmp_pos_iff : ∀ (a b : List Nat), 0 < strcmp a b ↔ strcmp b a < 0
  | [], [] => by simp [strcmp]
  | [], _ :: _ => by simp [strcmp]
  | _ :: _, [] => by simp [strcmp]
  | a :: as, b :: bs => by
    simp only [strcmp]
    by_cases h : a = b
    · subst h; simp [strcmp_pos_iff as bs]
    · have h' : ¬ b = a := fun e => h e.symm
      simp only [h, h', if_false]
      by_cases hlt : a < b
      · have : ¬ b < a := by omega
        simp [hlt, this]
      · have : b < a := by omega
        simp [hlt, this]

theorem strcmp_trans : ∀ (a b c : List Nat), strcmp a b < 0 → strcmp b c < 0 →
    strcmp a c < 0
  | [], [], _ => by simp [strcmp]
  | [], _ :: _, [] => by simp [strcmp]
  | [], _ :: _, _ :: _ => by simp [strcmp]
  | _ :: _, [], _ => by simp [strcmp]
  | _ :: _, _ :: _, [] => by simp [strcmp]
  | a :: as, b :: bs, c :: cs => by
    simp only [strcmp]
    intro h1 h2
    by_cases hab : a = b
    · subst hab
      by_cases hac : a = c
      · subst hac
        simp only [if_true] at h1 h2 ⊢
        exact strcmp_trans as bs cs h1 h2
      · simp only [hac, if_false] at h2 ⊢
        exact h2
    · simp only [hab, if_false] at h1
      have hlt : a < b := by
        by_contra hn; simp [hn] at h1
      by_cases hbc : b = c
      · subst hbc
        simp [hab, hlt]
      · simp only [hbc, if_false] at h2
        have hlt2 : b < c := by
          by_contra hn; simp [hn] at h2
        have hne : ¬ a = c := by omega
        have hlt3 : a < c := by omega
        simp [hne, hlt3]

/-- One round of a binary search to the right of `mid`. -/
theorem SearchInv.go_right {s : handle_storage} {name : List Nat} {bgn en : Int}
    (hs : sorted_upto s.name s.name_count) (inv : SearchInv s name bgn en)
    (hle : bgn ≤ en)
    (hc : strcmp (s.name.getD ((bgn + en) / 2).toNat default).name name < 0) :
    SearchInv s name ((bgn + en) / 2 + 1) en := by
  have h0 := inv.bgn_nonneg
  have h1 := inv.en_lt
  refine ⟨by omega, inv.en_lt, by omega, ?_, inv.hi⟩
  intro i hi
  by_cases hie : i = ((bgn + en) / 2).toNat
  · rw [hie]; exact hc
  · have := hs i ((bgn + en) / 2).toNat (by omega) (by omega)
    exact strcmp_trans _ _ _ this hc

/-- One round of a binary search to the left of `mid`. -/
theorem SearchInv.go_left {s : handle_storage} {name : List Nat} {bgn en : Int}
    (hs : sorted_upto s.name s.name_count) (inv : SearchInv s name bgn en)
    (hle : bgn ≤ en)
    (hc : 0 < strcmp (s.name.getD ((bgn + en) / 2).toNat default).name name) :
    SearchInv s name bgn ((bgn + en) / 2 - 1) := by
  have h0 := inv.bgn_nonneg
  have h1 := inv.en_lt
  refine ⟨inv.bgn_nonneg, by omega, by omega, inv.lo, ?_⟩
  intro i hi hic
  by_cases hie : i = ((bgn + en) / 2).toNat
  · rw [hie]; exact hc
  · have := hs ((bgn + en) / 2).toNat i (by omega) hic
    rw [strcmp_pos_iff] at hc ⊢
    exact strcmp_trans _ _ _ hc this

/-- The search of `_insert_name` ends within the rounds it is given; it answers
`none` when some cell holds the name, and otherwise the index that separates the
smaller names from the larger ones. -/
theorem insert_search_spec {s : handle_storage} {name : List Nat}
    (hs : sorted_upto s.name s.name_count) :
    ∀ (fuel : Nat) (bgn en : Int), SearchInv s name bgn en → en - bgn + 1 ≤ fuel →
    (insert_search s name fuel bgn en = some none ∧
      ∃ i, i < s.name_count ∧ (s.name.getD i default).name = name) ∨
    (∃ p : Nat, p ≤ s.name_count ∧
      insert_search s name fuel bgn en = some (some (p : Int)) ∧
      (∀ i, i < p → strcmp (s.name.getD i default).name name < 0) ∧
      (∀ i, p ≤ i → i < s.name_count →
        0 < strcmp (s.name.getD i default).name name)) := by
  intro fuel
  induction fuel with
  | zero =>
    intro bgn en inv hf
    have h0 := inv.bgn_nonneg
    have h1 := inv.en_lt
    have h2 := inv.bgn_le
    right
    refine ⟨bgn.toNat, by omega, ?_, ?_, ?_⟩
    · simp only [insert_search]
      rw [if_neg (by omega)]
      congr 2; omega
    · intro i hi; exact inv.lo i (by omega)
    · intro i hi hic; exact inv.hi i (by omega) hic
  | succ fuel ih =>
    intro bgn en inv hf
    have h0 := inv.bgn_nonneg
    have h1 := inv.en_lt
    have h2 := inv.bgn_le
    simp only [insert_search]
    by_cases hle : bgn ≤ en
    · rw [if_pos hle]
      by_cases hc0 : strcmp (s.name.getD ((bgn + en) / 2).toNat default).name name = 0
      · rw [if_pos hc0]
        left
        exact ⟨rfl, ((bgn + en) / 2).toNat, by omega, (strcmp_eq_zero_iff _ _).mp hc0⟩
      · rw [if_neg hc0]
        by_cases hc1 : strcmp (s.name.getD ((bgn + en) / 2).toNat default).name name < 0
        · rw [if_pos hc1]
          exact ih _ _ (inv.go_right hs hle hc1) (by omega)
        · rw [if_neg hc1]
          exact ih _ _ (inv.go_left hs hle (by omega)) (by omega)
    · rw [if_neg hle]
      right
      refine ⟨bgn.toNat, by omega, ?_, ?_, ?_⟩
      · congr 2; omega
      · intro i hi; exact inv.lo i (by omega)
      · intro i hi hic; exact inv.hi i (by omega) hic

/-- The search of `skynet_handle_findname` ends within the rounds it is given; it
answers the handle of the cell that holds the name, and 0 when there is none. -/
theorem findname_loop_spec {s : handle_storage} {name : List Nat}
    (hs : sorted_upto s.name s.name_count) :
    ∀ (fuel : Nat) (bgn en : Int), SearchInv s name bgn en → en - bgn + 1 ≤ fuel →
    (∃ i, i < s.name_count ∧ (s.name.getD i default).name = name ∧
      findname_loop s name fuel bgn en = some (s.name.getD i default).handle) ∨
    (findname_loop s name fuel bgn en = some 0 ∧
      ∀ i, i < s.name_count → (s.name.getD i default).name ≠ name) := by
  have hmiss : ∀ bgn en : Int, SearchInv s name bgn en → ¬ bgn ≤ en →
      ∀ i, i < s.name_count → (s.name.getD i default).name ≠ name := by
    intro bgn en inv hle i hic e
    have hz := (strcmp_eq_zero_iff (s.name.getD i default).name name).mpr e
    by_cases hib : (i : Int) < bgn
    · have := inv.lo i hib; omega
    · have := inv.hi i (by omega) hic; omega
  intro fuel
  induction fuel with
  | zero =>
    intro bgn en inv hf
    right
    have hle : ¬ bgn ≤ en := by omega
    refine ⟨?_, hmiss bgn en inv hle⟩
    simp only [findname_loop]
    rw [if_neg hle]
  | succ fuel ih =>
    intro bgn en inv hf
    have h0 := inv.bgn_nonneg
    have h1 := inv.en_lt
    simp only [findname_loop]
    by_cases hle : bgn ≤ en
    · rw [if_pos hle]
      by_cases hc0 : strcmp (s.name.getD ((bgn + en) / 2).toNat default).name name = 0
      · rw [if_pos hc0]
        left
        exact ⟨((bgn + en) / 2).toNat, by omega, (strcmp_eq_zero_iff _ _).mp hc0, rfl⟩
      · rw [if_neg hc0]
        by_cases hc1 : strcmp (s.name.getD ((bgn + en) / 2).toNat default).name name < 0
        · rw [if_pos hc1]
          exact ih _ _ (inv.go_right hs hle hc1) (by omega)
        · rw [if_neg hc1]
          exact ih _ _ (inv.go_left hs hle (by omega)) (by omega)
    · rw [if_neg hle]
      right
      exact ⟨rfl, hmiss bgn en inv hle⟩

/-- The interval a binary search starts with. -/
theorem SearchInv.start (s : handle_storage) (name : List Nat) :
    SearchInv s name 0 ((s.name_count : Int) - 1) :=
  ⟨le_refl _, by omega, by omega, fun i hi => by omega, fun i hi hic => by omega⟩

/-! ## The loops that move name cells -/

theorem getD_take {α : Type} (l : List α) (n j : Nat) (d : α) :
    (l.take n).getD j d = if j < n then l.getD j d else d := by
  simp only [List.getD_eq_getElem?_getD, List.getElem?_take]
  split_ifs <;> simp

theorem getD_drop {α : Type} (l : List α) (n j : Nat) (d : α) :
    (l.drop n).getD j d = l.getD (n + j) d := by
  simp only [List.getD_eq_getElem?_getD, List.getElem?_drop]

theorem list_ext_getD {α : Type} (A B : List α) (d : α) (hl : A.length = B.length)
    (h : ∀ j, j < A.length → A.getD j d = B.getD j d) : A = B := by
  apply List.ext_getElem hl
  intro n h1 h2
  have := h n h1
  rwa [List.getD_eq_getElem _ _ h1, List.getD_eq_getElem _ _ h2] at this

theorem getD_set {α : Type} (l : List α) (i j : Nat) (v d : α) (h : i < l.length) :
    (l.set i v).getD j d = if i = j then v else l.getD j d := by
  by_cases e : i = j
  · subst e; rw [if_pos rfl]; exact getD_set_eq l i v d h
  · rw [if_neg e]; exact getD_set_ne l i j v d e

theorem take_set_ge {α : Type} (l : List α) (a : α) {n m : Nat} (h : m ≤ n) :
    (l.set n a).take m = l.take m := by
  apply List.ext_getElem?
  intro i
  rw [List.getElem?_take, List.getElem?_take]
  split_ifs with h1
  · rw [List.getElem?_set_ne (by omega)]
  · rfl

/-- The first copy loop writes the cells `i .. i + k - 1` of the old array to the
same places of the new one. -/
theorem insert_copy_low_spec (old : List handle_name) :
    ∀ (k i : Nat) (n : List handle_name), i + k ≤ n.length →
    (insert_copy_low old k i n).length = n.length ∧
    ∀ j, (insert_copy_low old k i n).getD j default =
      if i ≤ j ∧ j < i + k then old.getD j default else n.getD j default := by
  intro k
  induction k with
  | zero =>
    intro i n _
    refine ⟨rfl, fun j => ?_⟩
    rw [if_neg (by omega)]; rfl
  | succ k ih =>
    intro i n hn
    simp only [insert_copy_low]
    obtain ⟨h1, h2⟩ := ih (i + 1) (n.set i (old.getD i default))
      (by rw [List.length_set]; omega)
    refine ⟨by rw [h1, List.length_set], fun j => ?_⟩
    rw [h2 j, getD_set _ _ _ _ _ (by omega)]
    by_cases e : i = j
    · subst e; rw [if_neg (by omega), if_pos rfl, if_pos (by omega)]
    · by_cases e2 : i + 1 ≤ j ∧ j < i + 1 + k
      · rw [if_pos e2, if_pos (by omega)]
      · rw [if_neg e2, if_neg e, if_neg (by omega)]

/-- The second copy loop writes the cells `i .. i + k - 1` of the old array one
place further in the new one. -/
theorem insert_copy_high_spec (old : List handle_name) :
    ∀ (k i : Nat) (n : List handle_name), i + k + 1 ≤ n.length →
    (insert_copy_high old k i n).length = n.length ∧
    ∀ j, (insert_copy_high old k i n).getD j default =
      if i + 1 ≤ j ∧ j < i + 1 + k then old.getD (j - 1) default
      else n.getD j default := by
  intro k
  induction k with
  | zero =>
    intro i n _
    refine ⟨rfl, fun j => ?_⟩
    rw [if_neg (by omega)]; rfl
  | succ k ih =>
    intro i n hn
    simp only [insert_copy_high]
    obtain ⟨h1, h2⟩ := ih (i + 1) (n.set (i + 1) (old.getD i default))
      (by rw [List.length_set]; omega)
    refine ⟨by rw [h1, List.length_set], fun j => ?_⟩
    rw [h2 j, getD_set _ _ _ _ _ (by omega)]
    by_cases e : i + 1 = j
    · subst e
      rw [if_neg (by omega), if_pos rfl, if_pos (by omega)]
      simp
    · by_cases e2 : i + 1 + 1 ≤ j ∧ j < i + 1 + 1 + k
      · rw [if_pos e2, if_pos (by omega)]
      · rw [if_neg e2, if_neg e, if_neg (by omega)]

/-- The shifting loop moves the cells `i - k .. i - 1` one place to the right. -/
theorem insert_shift_spec :
    ∀ (k i : Nat) (name : List handle_name), k ≤ i → i < name.length →
    (insert_shift k i name).length = name.length ∧
    ∀ j, (insert_shift k i name).getD j default =
      if i - k < j ∧ j ≤ i then name.getD (j - 1) default
      else name.getD j default := by
  intro k
  induction k with
  | zero =>
    intro i name _ _
    refine ⟨rfl, fun j => ?_⟩
    rw [if_neg (by omega)]; rfl
  | succ k ih =>
    intro i name hk hi
    simp only [insert_shift]
    obtain ⟨h1, h2⟩ := ih (i - 1) (name.set i (name.getD (i - 1) default))
      (by omega) (by rw [List.length_set]; omega)
    refine ⟨by rw [h1, List.length_set], fun j => ?_⟩
    rw [h2 j]
    by_cases e2 : i - 1 - k < j ∧ j ≤ i - 1
    · rw [if_pos e2, if_pos (by omega), getD_set _ _ _ _ _ hi, if_neg (by omega)]
    · rw [if_neg e2, getD_set _ _ _ _ _ hi]
      by_cases e : i = j
      · subst e; rw [if_pos rfl, if_pos (by omega)]
      · rw [if_neg e, if_neg (by omega)]

/-- The compaction loop of `skynet_handle_retire` keeps, in order, the cells whose
handle is not the retired one. -/
theorem retire_names_spec (handle : Nat) (name0 : List handle_name) :
    ∀ (k i j : Nat) (name : List handle_name), i + k ≤ name0.length → j ≤ i →
    name.length = name0.length →
    name.take j = (name0.take i).filter (fun e => decide (e.handle ≠ handle)) →
    name.drop i = name0.drop i →
    (retire_names handle k i j name).1.length = name0.length ∧
    (retire_names handle k i j name).1.take (retire_names handle k i j name).2 =
      (name0.take (i + k)).filter (fun e => decide (e.handle ≠ handle)) ∧
    (retire_names handle k i j name).2 ≤ i + k := by
  intro k
  induction k with
  | zero =>
    intro i j name _ hji hl ht _
    exact ⟨hl, ht, hji⟩
  | succ k ih =>
    intro i j name hik hji hl ht hd
    have hi0 : i < name0.length := by omega
    have hi : i < name.length := by omega
    have hget : name.getD i default = name0[i] := by
      have h1 : (name.drop i).getD 0 default = (name0.drop i).getD 0 default := by rw [hd]
      rw [getD_drop, getD_drop, Nat.add_zero] at h1
      rw [h1, List.getD_eq_getElem _ _ hi0]
    have htake : name0.take (i + 1) = name0.take i ++ [name0[i]] := by
      rw [List.take_succ, List.getElem?_eq_getElem hi0]; rfl
    simp only [retire_names]
    by_cases he : (name.getD i default).handle = handle
    · rw [if_pos he]
      have := ih (i + 1) j name (by omega) (by omega) hl
        (by
          rw [htake, List.filter_append, ht]
          rw [hget] at he
          simp [he])
        (by
          rw [← List.drop_drop 1 i, ← List.drop_drop 1 i, hd])
      rw [show i + (k + 1) = i + 1 + k by omega]
      exact this
    · rw [if_neg he]
      have hfil : (name0.take (i + 1)).filter (fun e => decide (e.handle ≠ handle)) =
          (name0.take i).filter (fun e => decide (e.handle ≠ handle)) ++ [name0[i]] := by
        rw [htake, List.filter_append]
        rw [hget] at he
        simp [he]
      by_cases hij : i = j
      · subst hij
        rw [if_neg (by simp)]
        have := ih (i + 1) (i + 1) name (by omega) (le_refl _) hl
          (by
            rw [hfil, ← ht, List.take_succ, List.getElem?_eq_getElem hi]
            rw [List.getD_eq_getElem _ _ hi] at hget
            rw [hget]; rfl)
          (by rw [← List.drop_drop 1 i, ← List.drop_drop 1 i, hd])
        rw [show i + (k + 1) = i + 1 + k by omega]
        exact this
      · rw [if_pos hij]
        have hj : j < name.length := by omega
        have := ih (i + 1) (j + 1) (name.set j (name.getD i default)) (by omega)
          (by omega) (by rw [List.length_set]; exact hl)
          (by
            rw [hfil, ← ht, List.take_succ, List.getElem?_set_self (by exact hj),
              take_set_ge _ _ (le_refl j), hget]
            rfl)
          (by
            rw [List.drop_set_of_lt _ _ (by omega), ← List.drop_drop 1 i,
              ← List.drop_drop 1 i, hd])
        rw [show i + (k + 1) = i + 1 + k by omega]
        exact this

/-! ## Invariant of the name table -/

theorem names_length {s : handle_storage} (hl : s.name_count ≤ s.name.length) :
    (names s).length = s.name_count := by
  simp only [names, List.length_take]; omega

theorem names_getD (s : handle_storage) (j : Nat) (hj : j < s.name_count) :
    (names s).getD j default = s.name.getD j default := by
  simp only [names, getD_take, if_pos hj]

theorem mem_names_iff {s : handle_storage} (hl : s.name_count ≤ s.name.length)
    (e : handle_name) :
    e ∈ names s ↔ ∃ i, i < s.name_count ∧ s.name.getD i default = e := by
  constructor
  · intro h
    obtain ⟨i, hi, rfl⟩ := List.mem_iff_getElem.mp h
    have hi' : i < s.name_count := by rwa [names_length hl] at hi
    refine ⟨i, hi', ?_⟩
    rw [← names_getD s i hi', List.getD_eq_getElem _ _ hi]
  · rintro ⟨i, hi, rfl⟩
    have hi' : i < (names s).length := by rwa [names_length hl]
    rw [← names_getD s i hi, List.getD_eq_getElem _ _ hi']
    exact List.getElem_mem _

theorem sorted_upto_of_pairwise {s : handle_storage} (hl : s.name_count ≤ s.name.length)
    (h : (names s).Pairwise name_lt) : sorted_upto s.name s.name_count := by
  intro i j hij hj
  have hlen := names_length hl
  have := List.pairwise_iff_getElem.mp h i j (by omega) (by omega) hij
  rw [← names_getD s i (by omega), ← names_getD s j hj,
    List.getD_eq_getElem _ _ (by omega : i < (names s).length),
    List.getD_eq_getElem _ _ (by omega : j < (names s).length)]
  exact this

/-- Cell `j` of a list into which `e` has been put at place `p`. -/
theorem splice_getD {α : Type} (L : List α) (p j : Nat) (e d : α) (hp : p ≤ L.length) :
    (L.take p ++ e :: L.drop p).getD j d =
      if j < p then L.getD j d else if j = p then e else L.getD (j - 1) d := by
  have hlen : (L.take p).length = p := by rw [List.length_take]; omega
  by_cases h1 : j < p
  · rw [if_pos h1, List.getD_append _ _ _ _ (by omega), getD_take, if_pos h1]
  · rw [if_neg h1, List.getD_append_right _ _ _ _ (by omega), hlen]
    by_cases h2 : j = p
    · subst h2; simp
    · rw [if_neg h2]
      obtain ⟨m, hm⟩ : ∃ m, j - p = m + 1 := ⟨j - p - 1, by omega⟩
      rw [hm, List.getD_cons_succ, getD_drop]
      congr 1; omega

/-- The function `_insert_name_before` on a well-formed table, when it returns: the
new entry sits at place `before`, the entries before it are unchanged and those
after it have moved one place up. -/
theorem insert_name_before_ok {s s' : handle_storage} {name : List Nat}
    {handle before : Nat} (inv : NameInv s) (hb : before ≤ s.name_count)
    (H : _insert_name_before s name handle before = .ok s') :
    names s' = (names s).take before ++ ⟨name, handle⟩ :: (names s).drop before ∧
    s'.name.length = s'.name_cap ∧ s'.name_count = s.name_count + 1 ∧
    s'.name_count ≤ s'.name_cap ∧ 0 < s'.name_cap ∧
    s'.slot = s.slot ∧ s'.slot_size = s.slot_size ∧ s'.harbor = s.harbor ∧
    s'.handle_index = s.handle_index ∧ s'.name_cap ≤ MAX_SLOT_SIZE ∧
    (s'.name_cap = s.name_cap ∨ s'.name_cap = s.name_cap * 2) := by
  have hlen := inv.len
  have hcl := inv.count_le
  have hcp := inv.cap_pos
  have hnl : (names s).length = s.name_count := names_length (by omega)
  have key : ∀ arr : List handle_name, s.name_count + 1 ≤ arr.length →
      (∀ j, j < s.name_count + 1 → arr.getD j default =
        if j < before then s.name.getD j default
        else if j = before then ⟨name, handle⟩ else s.name.getD (j - 1) default) →
      arr.take (s.name_count + 1) =
        (names s).take before ++ ⟨name, handle⟩ :: (names s).drop before := by
    intro arr hal hpt
    apply list_ext_getD _ _ default
    · simp only [List.length_take, List.length_append, List.length_cons,
        List.length_drop, hnl]
      omega
    · intro j hj
      have hj' : j < s.name_count + 1 := by
        simp only [List.length_take] at hj; omega
      rw [getD_take, if_pos hj', hpt j hj', splice_getD _ _ _ _ _ (by omega)]
      by_cases h1 : j < before
      · rw [if_pos h1, if_pos h1, names_getD s j (by omega)]
      · rw [if_neg h1, if_neg h1]
        by_cases h2 : j = before
        · rw [if_pos h2, if_pos h2]
        · rw [if_neg h2, if_neg h2, names_getD s (j - 1) (by omega)]
  unfold _insert_name_before at H
  by_cases hfull : s.name_count ≥ s.name_cap
  · rw [if_pos hfull] at H
    simp only at H
    split_ifs at H with hmax
    simp only [Except.ok.injEq] at H
    subst H
    obtain ⟨l1, g1⟩ := insert_copy_low_spec s.name before 0
      (List.replicate (s.name_cap * 2) default) (by simp; omega)
    obtain ⟨l2, g2⟩ := insert_copy_high_spec s.name (s.name_count - before) before
      (insert_copy_low s.name before 0 (List.replicate (s.name_cap * 2) default))
      (by rw [l1]; simp; omega)
    have hl3 : (insert_copy_high s.name (s.name_count - before) before
        (insert_copy_low s.name before 0
          (List.replicate (s.name_cap * 2) default))).length = s.name_cap * 2 := by
      rw [l2, l1]; simp
    refine ⟨?_, by simp only [List.length_set]; exact hl3, rfl, by simp only; omega,
      by simp only; omega, rfl, rfl, rfl, rfl, hmax, Or.inr rfl⟩
    apply key
    · simp only [List.length_set, hl3]; omega
    · intro j hj
      simp only
      rw [getD_set _ _ _ _ _ (by rw [hl3]; omega), g2 j, g1 j]
      by_cases h2 : j = before
      · subst h2; rw [if_pos rfl, if_neg (by omega), if_pos rfl]
      · rw [if_neg (fun e => h2 e.symm), if_neg h2]
        by_cases h1 : j < before
        · rw [if_pos h1, if_neg (by omega), if_pos (by omega)]
        · rw [if_neg h1, if_pos (by omega)]
  · rw [if_neg hfull] at H
    simp only [Except.ok.injEq] at H
    subst H
    obtain ⟨l1, g1⟩ := insert_shift_spec (s.name_count - before) s.name_count s.name
      (by omega) (by omega)
    refine ⟨?_, by simp only [List.length_set]; rw [l1]; exact hlen, rfl,
      by simp only; omega, hcp, rfl, rfl, rfl, rfl, inv.cap_le, Or.inl rfl⟩
    apply key
    · simp only [List.length_set, l1]; omega
    · intro j hj
      simp only
      rw [getD_set _ _ _ _ _ (by rw [l1]; omega), g1 j]
      by_cases h2 : j = before
      · subst h2; rw [if_pos rfl, if_neg (by omega), if_pos rfl]
      · rw [if_neg (fun e => h2 e.symm), if_neg h2]
        by_cases h1 : j < before
        · rw [if_pos h1, if_neg (by omega)]
        · rw [if_neg h1, if_pos (by omega)]

/-- A well-formed name table of fewer than `MAX_SLOT_SIZE` entries has a free cell
or can be doubled: its capacity is a power of two. -/
theorem NameInv.room {s : handle_storage} (inv : NameInv s)
    (h : s.name_count < MAX_SLOT_SIZE) :
    s.name_count < s.name_cap ∨ s.name_cap * 2 ≤ MAX_SLOT_SIZE := by
  by_cases hc : s.name_count < s.name_cap
  · exact Or.inl hc
  · right
    obtain ⟨k, hk⟩ := inv.cap_pow
    have hlt : 2 ^ (k + 1) < 2 ^ 30 := by
      rw [← hk]; simp only [MAX_SLOT_SIZE] at h; omega
    have hk30 : k + 1 < 30 := (Nat.pow_lt_pow_iff_right (by decide)).mp hlt
    have hle : 2 ^ (k + 1 + 1) ≤ 2 ^ 30 := Nat.pow_le_pow_right (by decide) (by omega)
    rw [hk, ← pow_succ]
    simpa [MAX_SLOT_SIZE] using hle

/-- The function `_insert_name_before` returns unless the array is full and cannot
be doubled within `MAX_SLOT_SIZE`. -/
theorem insert_name_before_returns (s : handle_storage) (name : List Nat)
    (handle before : Nat)
    (hroom : s.name_count < s.name_cap ∨ s.name_cap * 2 ≤ MAX_SLOT_SIZE) :
    ∃ s', _insert_name_before s name handle before = .ok s' := by
  unfold _insert_name_before
  by_cases hfull : s.name_count ≥ s.name_cap
  · rw [if_pos hfull]
    have hmax : s.name_cap * 2 ≤ MAX_SLOT_SIZE := by omega
    simp only [if_pos hmax]
    exact ⟨_, rfl⟩
  · rw [if_neg hfull]
    exact ⟨_, rfl⟩

theorem mem_take_names {s : handle_storage} (hl : s.name_count ≤ s.name.length)
    {p : Nat} (hp : p ≤ s.name_count) {e : handle_name} (h : e ∈ (names s).take p) :
    ∃ i, i < p ∧ s.name.getD i default = e := by
  obtain ⟨i, hi, rfl⟩ := List.mem_iff_getElem.mp h
  have hn := names_length hl
  have hi' : i < p := by simp only [List.length_take] at hi; omega
  refine ⟨i, hi', ?_⟩
  rw [List.getElem_take, ← names_getD s i (by omega), List.getD_eq_getElem]

theorem mem_drop_names {s : handle_storage} (hl : s.name_count ≤ s.name.length)
    {p : Nat} {e : handle_name} (h : e ∈ (names s).drop p) :
    ∃ i, p ≤ i ∧ i < s.name_count ∧ s.name.getD i default = e := by
  obtain ⟨i, hi, rfl⟩ := List.mem_iff_getElem.mp h
  have hn := names_length hl
  have hi' : p + i < s.name_count := by simp only [List.length_drop] at hi; omega
  refine ⟨p + i, by omega, hi', ?_⟩
  rw [List.getElem_drop, ← names_getD s (p + i) hi', List.getD_eq_getElem]

/-- What `_insert_name` does on a well-formed table: it returns NULL and changes
nothing when the name is in the table, and otherwise calls `_insert_name_before`
with the place that keeps the table in order. -/
theorem insert_name_cases {s : handle_storage} (inv : NameInv s) (name : List Nat)
    (handle : Nat) :
    ((∃ e, e ∈ names s ∧ e.name = name) ∧ _insert_name s name handle = .ok (s, none)) ∨
    ((∀ e, e ∈ names s → e.name ≠ name) ∧ ∃ p, p ≤ s.name_count ∧
      (∀ e, e ∈ (names s).take p → strcmp e.name name < 0) ∧
      (∀ e, e ∈ (names s).drop p → 0 < strcmp e.name name) ∧
      _insert_name s name handle =
        match _insert_name_before s name handle p with
        | .ok s' => .ok (s', some name)
        | .error e => .error e) := by
  have hl : s.name_count ≤ s.name.length := by rw [inv.len]; exact inv.count_le
  have hs := sorted_upto_of_pairwise hl inv.sorted
  rcases insert_search_spec hs s.name_count 0 _ (SearchInv.start s name) (by omega) with
    ⟨e1, i, hi, hn⟩ | ⟨p, hp, e1, lo, hi⟩
  · left
    refine ⟨⟨_, (mem_names_iff hl _).mpr ⟨i, hi, rfl⟩, hn⟩, ?_⟩
    unfold _insert_name; rw [e1]
  · right
    refine ⟨?_, p, hp, ?_, ?_, ?_⟩
    · intro e he hne
      obtain ⟨i, hic, rfl⟩ := (mem_names_iff hl e).mp he
      have hz := (strcmp_eq_zero_iff _ _).mpr hne
      by_cases hip : i < p
      · have := lo i hip; omega
      · have := hi i (by omega) hic; omega
    · intro e he
      obtain ⟨i, hip, rfl⟩ := mem_take_names hl hp he
      exact lo i hip
    · intro e he
      obtain ⟨i, hip, hic, rfl⟩ := mem_drop_names hl he
      exact hi i hip hic
    · unfold _insert_name; rw [e1]
      simp only [Int.toNat_ofNat]

/-- Putting a new name at the place that separates the smaller names from the
larger ones keeps the table strictly increasing. -/
theorem pairwise_splice {L : List handle_name} (hL : L.Pairwise name_lt) (p : Nat)
    (e : handle_name) (lo : ∀ a, a ∈ L.take p → strcmp a.name e.name < 0)
    (hi : ∀ a, a ∈ L.drop p → 0 < strcmp a.name e.name) :
    (L.take p ++ e :: L.drop p).Pairwise name_lt := by
  have hsplit : (L.take p ++ L.drop p).Pairwise name_lt := by
    rw [List.take_append_drop]; exact hL
  obtain ⟨h1, h2, h3⟩ := List.pairwise_append.mp hsplit
  refine List.pairwise_append.mpr ⟨h1, List.pairwise_cons.mpr ⟨?_, h2⟩, ?_⟩
  · intro a ha
    have := hi a ha
    rw [strcmp_pos_iff] at this
    exact this
  · intro a ha b hb
    rcases List.mem_cons.mp hb with rfl | hb'
    · exact lo a ha
    · exact h3 a ha b hb'

/-- Every call of `_insert_name` that returns keeps the name table well formed and
the slot table as it was; it either finds the name and changes nothing, or adds
exactly the new entry. -/
theorem insert_name_spec {s s' : handle_storage} {name : List Nat} {handle : Nat}
    {r : Option (List Nat)} (inv : NameInv s)
    (H : _insert_name s name handle = .ok (s', r)) :
    NameInv s' ∧ s'.slot = s.slot ∧ s'.slot_size = s.slot_size ∧
    s'.harbor = s.harbor ∧ s'.handle_index = s.handle_index ∧
    ((r = none ∧ s' = s ∧ ∃ e, e ∈ names s ∧ e.name = name) ∨
     (r = some name ∧ (∀ e, e ∈ names s → e.name ≠ name) ∧
      s'.name_count = s.name_count + 1 ∧ ∃ p,
      names s' = (names s).take p ++ ⟨name, handle⟩ :: (names s).drop p)) := by
  rcases insert_name_cases inv name handle with ⟨hex, e1⟩ | ⟨hne, p, hp, lo, hi, e1⟩
  · rw [e1] at H
    simp only [Except.ok.injEq, Prod.mk.injEq] at H
    obtain ⟨rfl, rfl⟩ := H
    exact ⟨inv, rfl, rfl, rfl, rfl, Or.inl ⟨rfl, rfl, hex⟩⟩
  · rw [e1] at H
    cases hb : _insert_name_before s name handle p with
    | error e => rw [hb] at H; cases H
    | ok s2 =>
      rw [hb] at H
      simp only [Except.ok.injEq, Prod.mk.injEq] at H
      obtain ⟨rfl, rfl⟩ := H
      obtain ⟨a1, a2, a3, a4, a5, a6, a7, a8, a9, a10, a11⟩ :=
        insert_name_before_ok inv hp hb
      have hpow : ∃ k, s2.name_cap = 2 ^ (k + 1) := by
        obtain ⟨k, hk⟩ := inv.cap_pow
        rcases a11 with e | e
        · exact ⟨k, by rw [e, hk]⟩
        · exact ⟨k + 1, by rw [e, hk]; exact (pow_succ 2 (k + 1)).symm⟩
      refine ⟨⟨a2, a4, a5, a10, hpow, ?_⟩, a6, a7, a8, a9, Or.inr ⟨rfl, hne, a3, p, a1⟩⟩
      rw [a1]
      exact pairwise_splice inv.sorted p ⟨name, handle⟩ lo hi

/-! ## Lookup of a name -/

/-- On a well-formed table `skynet_handle_findname` returns the handle of the entry
that holds the name. -/
theorem findname_hit {s : handle_storage} (inv : NameInv s) {e : handle_name}
    (he : e ∈ names s) : skynet_handle_findname s e.name = some e.handle := by
  have hl : s.name_count ≤ s.name.length := by rw [inv.len]; exact inv.count_le
  have hs := sorted_upto_of_pairwise hl inv.sorted
  obtain ⟨j, hj, rfl⟩ := (mem_names_iff hl e).mp he
  unfold skynet_handle_findname
  rcases findname_loop_spec hs s.name_count 0 _ (SearchInv.start s _) (by omega) with
    ⟨i, hi, hn, e1⟩ | ⟨_, hno⟩
  · rw [e1]
    have hz := (strcmp_eq_zero_iff _ _).mpr hn
    have hij : i = j := by
      rcases Nat.lt_trichotomy i j with h | h | h
      · have := hs i j h hj; omega
      · exact h
      · have := hs j i h hi
        rw [← strcmp_pos_iff] at this; omega
    rw [hij]
  · exact absurd rfl (hno j hj)

/-- On a well-formed table `skynet_handle_findname` returns 0 for a name that no
entry holds. -/
theorem findname_miss {s : handle_storage} (inv : NameInv s) {name : List Nat}
    (hno : ∀ e, e ∈ names s → e.name ≠ name) :
    skynet_handle_findname s name = some 0 := by
  have hl : s.name_count ≤ s.name.length := by rw [inv.len]; exact inv.count_le
  have hs := sorted_upto_of_pairwise hl inv.sorted
  unfold skynet_handle_findname
  rcases findname_loop_spec hs s.name_count 0 _ (SearchInv.start s name) (by omega) with
    ⟨i, hi, hn, _⟩ | ⟨e1, _⟩
  · exact absurd hn (hno _ ((mem_names_iff hl _).mpr ⟨i, hi, rfl⟩))
  · exact e1

/-! ## Retirement -/

/-- When `skynet_handle_grab` finds nothing, `skynet_handle_retire` returns 0 and
changes nothing. -/
theorem retire_miss {hd : Ctx → Nat} {s : handle_storage} {h : Nat}
    (hg : skynet_handle_grab hd s h = none) : skynet_handle_retire hd s h = (s, 0) := by
  unfold skynet_handle_grab at hg
  unfold skynet_handle_retire
  simp only at hg ⊢
  cases hc : s.slot.getD (h &&& (s.slot_size - 1)) none with
  | none => rfl
  | some c =>
    rw [hc] at hg
    simp only at hg ⊢
    split_ifs at hg with e
    rw [if_neg e]

/-- When `skynet_handle_grab` finds a context, `skynet_handle_retire` returns 1,
clears the slot of the handle and compacts the name array. -/
theorem retire_hit {hd : Ctx → Nat} {s : handle_storage} {h : Nat} {c : Ctx}
    (hg : skynet_handle_grab hd s h = some c) :
    skynet_handle_retire hd s h =
      ({ s with slot := s.slot.set (h &&& (s.slot_size - 1)) none,
                name := (retire_names h s.name_count 0 0 s.name).1,
                name_count := (retire_names h s.name_count 0 0 s.name).2 }, 1) := by
  unfold skynet_handle_grab at hg
  unfold skynet_handle_retire
  simp only at hg ⊢
  cases hc : s.slot.getD (h &&& (s.slot_size - 1)) none with
  | none => rw [hc] at hg; cases hg
  | some c' =>
    rw [hc] at hg
    simp only at hg ⊢
    split_ifs at hg with e
    rw [if_pos e]

/-- A successful retirement on a well-formed registry: the context of the handle
leaves the slot table, every other context stays, and the name table loses exactly
the entries bound to the handle. -/
theorem retire_hit_spec {b : Nat} {hd : Ctx → Nat} {s : handle_storage} {h : Nat}
    {c : Ctx} (inv : SlotInv b hd s) (ninv : NameInv s)
    (hg : skynet_handle_grab hd s h = some c) :
    (skynet_handle_retire hd s h).2 = 1 ∧
    SlotInv b hd (skynet_handle_retire hd s h).1 ∧
    NameInv (skynet_handle_retire hd s h).1 ∧
    (∀ c', occupied (skynet_handle_retire hd s h).1 c' ↔ occupied s c' ∧ c' ≠ c) ∧
    names (skynet_handle_retire hd s h).1 =
      (names s).filter (fun e => decide (e.handle ≠ h)) := by
  rw [retire_hit hg]
  obtain ⟨⟨i, hi⟩, hch⟩ := (grab_iff inv h c).mp hg
  have hidx : h &&& (s.slot_size - 1) = i := by
    rw [inv.land_eq, ← hch]; exact (inv.slot i c hi).1
  rw [hidx]
  have hlt : i < s.slot.length := getD_some_lt _ _ _ hi
  obtain ⟨r1, r2, r3⟩ := retire_names_spec h s.name s.name_count 0 0 s.name
    (by have := ninv.len; have := ninv.count_le; omega) (le_refl 0) rfl
    (by simp) rfl
  rw [Nat.zero_add] at r2 r3
  refine ⟨rfl, ⟨inv.size, by simp only [List.length_set]; exact inv.len, inv.harbor,
    inv.index_pos, inv.index_le, ?_⟩, ⟨?_, ?_, ninv.cap_pos, ninv.cap_le, ninv.cap_pow, ?_⟩, ?_, ?_⟩
  · intro j c' hj
    simp only at hj
    by_cases hij : i = j
    · subst hij; rw [getD_set_eq _ _ _ _ hlt] at hj; cases hj
    · rw [getD_set_ne _ _ _ _ _ hij] at hj
      exact inv.slot j c' hj
  · simp only; rw [r1]; exact ninv.len
  · simp only; have := ninv.count_le; omega
  · simp only [names]
    rw [r2]
    exact ninv.sorted.filter _
  · intro c'
    constructor
    · rintro ⟨j, hj⟩
      simp only at hj
      by_cases hij : i = j
      · subst hij; rw [getD_set_eq _ _ _ _ hlt] at hj; cases hj
      · rw [getD_set_ne _ _ _ _ _ hij] at hj
        refine ⟨⟨j, hj⟩, ?_⟩
        rintro rfl
        have e1 := (inv.slot j c' hj).1
        have e2 := (inv.slot i c' hi).1
        omega
    · rintro ⟨⟨j, hj⟩, hne⟩
      refine ⟨j, ?_⟩
      have hij : i ≠ j := by
        rintro rfl; rw [hi] at hj; cases hj; exact hne rfl
      simp only
      rw [getD_set_ne _ _ _ _ _ hij]; exact hj
  · simp only [names]
    rw [r2]

/-! ## Invariant of the reachable worlds -/

theorem good_init (b : Nat) : Good b (world_init b) [] := by
  refine ⟨⟨⟨2, le_refl _, by decide, rfl⟩, rfl, rfl, le_refl _,
      by simp [world_init, skynet_handle_init, HANDLE_MASK], ?_⟩,
    ⟨rfl, by simp [world_init, skynet_handle_init],
      by simp [world_init, skynet_handle_init],
      by simp [world_init, skynet_handle_init, MAX_SLOT_SIZE], ⟨0, rfl⟩,
      List.Pairwise.nil⟩, ?_, List.nodup_nil⟩
  · intro i c hi
    simp only [world_init, skynet_handle_init] at hi
    rw [getD_replicate_none] at hi; cases hi
  · intro c h
    simp only [List.not_mem_nil, false_iff, not_and]
    rintro ⟨i, hi⟩
    simp only [world_init, skynet_handle_init] at hi
    rw [getD_replicate_none] at hi; cases hi

theorem good_register {b : Nat} {w w' : World} {live : List (Ctx × Nat)} {ctx : Ctx}
    {h : Nat} (g : Good b w live) (fresh : ∀ h', (ctx, h') ∉ live)
    (H : context_register w ctx = .ok (w', h)) : Good b w' (live ++ [(ctx, h)]) := by
  have hfresh : ¬ occupied w.H ctx := fun ho => fresh _ ((g.link ctx _).mpr ⟨ho, rfl⟩)
  unfold context_register skynet_handle_register at H
  cases hr : register_loop w.handle_of 25 w.H ctx with
  | error e => rw [hr] at H; cases H
  | ok p =>
    obtain ⟨s', r⟩ := p
    rw [hr] at H
    simp only [Except.ok.injEq, Prod.mk.injEq] at H
    obtain ⟨rfl, rfl⟩ := H
    obtain ⟨a1, a2, _, a4, a5, a6⟩ := register_loop_spec 25 w.H s' r g.slots hfresh hr
    refine ⟨a1, ⟨?_, ?_, ?_, ?_, ?_, ?_⟩, ?_, ?_⟩
    · simp only; rw [a4, a6]; exact g.names.len
    · simp only; rw [a5, a6]; exact g.names.count_le
    · simp only; rw [a6]; exact g.names.cap_pos
    · simp only; rw [a6]; exact g.names.cap_le
    · simp only; rw [a6]; exact g.names.cap_pow
    · have : names s' = names w.H := by simp only [names, a4, a5]
      simp only; rw [this]; exact g.names.sorted
    · intro c h'
      simp only [List.mem_append, List.mem_singleton, Prod.mk.injEq]
      rw [a2 c]
      by_cases hc : c = ctx
      · subst hc
        rw [Function.update_same]
        constructor
        · rintro (hm | ⟨_, rfl⟩)
          · exact absurd hm (fresh h')
          · exact ⟨Or.inl rfl, rfl⟩
        · rintro ⟨_, rfl⟩; exact Or.inr ⟨rfl, rfl⟩
      · rw [Function.update_noteq hc, g.link c h']
        constructor
        · rintro (⟨ho, hh⟩ | ⟨e, _⟩)
          · exact ⟨Or.inr ho, hh⟩
          · exact absurd e hc
        · rintro ⟨e | ho, hh⟩
          · exact absurd e hc
          · exact Or.inl ⟨ho, hh⟩
    · rw [List.nodup_append]
      refine ⟨g.nodup, List.nodup_singleton _, ?_⟩
      intro p hp hp'
      rw [List.mem_singleton] at hp'
      subst hp'
      exact fresh _ hp

/-- Two contexts of the table with the same local id are the same context. -/
theorem SlotInv.ctx_unique {b : Nat} {hd : Ctx → Nat} {s : handle_storage}
    (inv : SlotInv b hd s) {c1 c2 : Ctx} (h1 : occupied s c1) (h2 : occupied s c2)
    (e : hd c1 % 2 ^ 24 = hd c2 % 2 ^ 24) : c1 = c2 := by
  obtain ⟨i, hi⟩ := h1
  obtain ⟨j, hj⟩ := h2
  obtain ⟨k, _, hk24, hk⟩ := inv.size
  have e1 := (inv.slot i c1 hi).1
  have e2 := (inv.slot j c2 hj).1
  have m1 : hd c1 % 2 ^ 24 % 2 ^ k = hd c1 % 2 ^ k :=
    Nat.mod_mod_of_dvd _ (pow_dvd_pow 2 hk24)
  have m2 : hd c2 % 2 ^ 24 % 2 ^ k = hd c2 % 2 ^ k :=
    Nat.mod_mod_of_dvd _ (pow_dvd_pow 2 hk24)
  rw [hk] at e1 e2
  have hij : i = j := by rw [← e1, ← e2, ← m1, ← m2, e]
  subst hij
  rw [hi] at hj
  exact Option.some.inj hj

theorem good_retire {b : Nat} {w : World} {live : List (Ctx × Nat)} (h : Nat)
    (g : Good b w live) :
    Good b (world_retire w h).1 (live.filter (fun p => decide (p.2 ≠ h))) := by
  unfold world_retire
  simp only
  cases hg : skynet_handle_grab w.handle_of w.H h with
  | none =>
    rw [retire_miss hg]
    have hall : live.filter (fun p => decide (p.2 ≠ h)) = live := by
      rw [List.filter_eq_self]
      rintro ⟨c, h'⟩ hm
      simp only [decide_eq_true_eq]
      rintro rfl
      have := (grab_iff g.slots h' c).mpr ((g.link c h').mp hm)
      rw [hg] at this; cases this
    rw [hall]
    exact ⟨g.slots, g.names, g.link, g.nodup⟩
  | some c =>
    obtain ⟨_, a2, a3, a4, _⟩ := retire_hit_spec g.slots g.names hg
    obtain ⟨hoc, hch⟩ := (grab_iff g.slots h c).mp hg
    refine ⟨a2, a3, ?_, g.nodup.filter _⟩
    intro c' h'
    simp only [List.mem_filter, decide_eq_true_eq]
    rw [a4 c', g.link c' h']
    constructor
    · rintro ⟨⟨ho, hh⟩, hne⟩
      refine ⟨⟨ho, ?_⟩, hh⟩
      rintro rfl
      exact hne (hh.symm.trans hch)
    · rintro ⟨⟨ho, hne⟩, hh⟩
      refine ⟨⟨ho, hh⟩, ?_⟩
      rintro rfl
      exact hne (g.slots.ctx_unique ho hoc (by rw [hh, hch]))

theorem good_namehandle {b : Nat} {w w' : World} {live : List (Ctx × Nat)} {h : Nat}
    {name : List Nat} {r : Option (List Nat)} (g : Good b w live)
    (H : world_namehandle w h name = .ok (w', r)) : Good b w' live := by
  unfold world_namehandle skynet_handle_namehandle at H
  cases hr : _insert_name w.H name h with
  | error e => rw [hr] at H; cases H
  | ok p =>
    obtain ⟨s', r'⟩ := p
    rw [hr] at H
    simp only [Except.ok.injEq, Prod.mk.injEq] at H
    obtain ⟨rfl, rfl⟩ := H
    obtain ⟨a1, a2, a3, a4, a5, _⟩ := insert_name_spec g.names hr
    have hocc : ∀ c, occupied s' c ↔ occupied w.H c := by
      intro c; simp only [occupied, a2]
    refine ⟨⟨?_, ?_, ?_, ?_, ?_, ?_⟩, a1, ?_, g.nodup⟩
    · simp only; rw [a3]; exact g.slots.size
    · simp only; rw [a2, a3]; exact g.slots.len
    · simp only; rw [a4]; exact g.slots.harbor
    · simp only; rw [a5]; exact g.slots.index_pos
    · simp only; rw [a5]; exact g.slots.index_le
    · intro i c hi
      simp only at hi ⊢
      rw [a2] at hi; rw [a3]
      exact g.slots.slot i c hi
    · intro c h'
      rw [g.link c h']
      simp only [hocc]

/-- Every reachable world is good. -/
theorem Trace.good {b : Nat} {w : World} {live : List (Ctx × Nat)}
    (t : Trace b w live) : Good b w live := by
  induction t with
  | init => exact good_init b
  | register _ fresh H ih => exact good_register ih fresh H
  | retire h _ ih => exact good_retire h ih
  | namehandle _ H ih => exact good_namehandle ih H

/-! ## The probing loop covers every slot but slot 0 -/

/-- A probing loop that finds nothing has met an occupied slot at every id it
tried. -/
theorem register_probe_none {s : handle_storage} {ctx : Ctx} :
    ∀ (n h : Nat), n ≤ HANDLE_MASK + 1 → register_probe s ctx n h = none →
    ∀ x, probed h n x → s.slot.getD (x &&& (s.slot_size - 1)) none ≠ none := by
  intro n
  induction n with
  | zero =>
    intro h _ _ x hx
    unfold probed at hx
    simp only [HANDLE_MASK] at hx
    split_ifs at hx <;> omega
  | succ n ih =>
    intro h hn H x hx
    simp only [register_probe] at H
    by_cases h1 : h > HANDLE_MASK
    · simp only [if_pos h1] at H
      split_ifs at H with h2
      by_cases hxa : x = 1
      · rw [hxa]; exact h2
      · apply ih _ (by omega) H x
        unfold probed at hx ⊢
        simp only [HANDLE_MASK] at hx hn h1 ⊢
        simp only [if_pos h1] at hx
        split_ifs <;> omega
    · simp only [if_neg h1] at H
      split_ifs at H with h2
      by_cases hxa : x = h
      · rw [hxa]; exact h2
      · apply ih _ (by omega) H x
        unfold probed at hx ⊢
        simp only [HANDLE_MASK] at hx hn h1 ⊢
        simp only [if_neg h1] at hx
        split_ifs <;> omega

/-- Among the ids tried by a probing loop of `N` rounds there is one for every
residue `1 .. N - 1`, when `N` divides the size of the id space. -/
theorem probed_residue (h N q r : Nat) (hq : HANDLE_MASK + 1 = q * N) (hr1 : 1 ≤ r)
    (hrN : r < N) : ∃ x, probed h N x ∧ x % N = r := by
  simp only [HANDLE_MASK] at hq
  have key : ∀ a, 1 ≤ a → a ≤ 16777215 →
      ∃ x, ((a ≤ x ∧ x < a + N ∧ x ≤ 16777215) ∨ (1 ≤ x ∧ x + 16777215 < a + N)) ∧
        x % N = r := by
    intro a ha1 ha2
    have f1 : N * (a / N) + a % N = a := Nat.div_add_mod a N
    have f2 : a % N < N := Nat.mod_lt _ (by omega)
    have f4 : a / N < q := by
      apply Nat.div_lt_of_lt_mul; rw [Nat.mul_comm]; omega
    have f5 : (a / N + 1) * N ≤ q * N := Nat.mul_le_mul_right N (by omega)
    have f3 : (a / N + 1) * N = N * (a / N) + N := by ring
    have m0 : r % N = r := Nat.mod_eq_of_lt hrN
    have m1 : (N * (a / N) + r) % N = r := by rw [Nat.mul_add_mod, m0]
    have m2 : (N * (a / N) + N + r) % N = r := by
      rw [Nat.add_assoc, Nat.mul_add_mod, Nat.add_mod_left, m0]
    by_cases hc : a % N ≤ r
    · exact ⟨N * (a / N) + r, Or.inl (by omega), m1⟩
    · by_cases hw : N * (a / N) + N + r ≤ 16777215
      · exact ⟨N * (a / N) + N + r, Or.inl (by omega), m2⟩
      · refine ⟨r, Or.inr ⟨hr1, ?_⟩, m0⟩
        by_cases h6 : a / N + 2 ≤ q
        · have f6 : (a / N + 2) * N ≤ q * N := Nat.mul_le_mul_right N h6
          have f7 : (a / N + 2) * N = N * (a / N) + N + N := by ring
          omega
        · have f8 : a / N + 1 = q := by omega
          rw [f8] at f3
          omega
  unfold probed
  simp only [HANDLE_MASK]
  by_cases hh : h > 16777215
  · simp only [if_pos hh]
    exact key 1 (le_refl _) (by omega)
  · simp only [if_neg hh]
    by_cases h0 : h = 0
    · subst h0
      have hq0 : 0 < q := by
        rcases Nat.eq_zero_or_pos q with e | e
        · subst e; simp at hq
        · exact e
      have hNq : N ≤ q * N := Nat.le_mul_of_pos_left N hq0
      exact ⟨r, Or.inl ⟨by omega, by omega, by omega⟩, Nat.mod_eq_of_lt hrN⟩
    · exact key h (by omega) (by omega)

/-- On a well-formed table of at least two slots whose contexts fill at most the
slots they had before a doubling, the probing loop finds a free slot: right after a
doubling, slot 1 and slot `slot_size / 2 + 1` cannot both be occupied. -/
theorem register_probe_after_double {b : Nat} {hd : Ctx → Nat} {s : handle_storage}
    {new_slot : List (Option Ctx)} (ctx : Ctx) (inv : SlotInv b hd s)
    (hsz : s.slot_size * 2 - 1 ≤ HANDLE_MASK)
    (hre : register_rehash hd s s.slot_size 0 (List.replicate (s.slot_size * 2) none)
      = some new_slot) :
    register_probe { s with slot := new_slot, slot_size := s.slot_size * 2 } ctx
      (s.slot_size * 2) s.handle_index ≠ none := by
  intro hp
  obtain ⟨inv2, occ2⟩ := register_double inv hsz hre
  obtain ⟨k, hk2, hk24, hk⟩ := inv.size
  obtain ⟨k', _, hk'24, hk'⟩ := inv2.size
  simp only at hk'
  have hsize4 : 4 ≤ s.slot_size := by
    rw [hk]
    calc 4 = 2 ^ 2 := by norm_num
      _ ≤ 2 ^ k := Nat.pow_le_pow_right (by decide) hk2
  have hq : HANDLE_MASK + 1 = 2 ^ (24 - k') * (s.slot_size * 2) := by
    rw [hk', ← pow_add, show 24 - k' + k' = 24 by omega]
    simp [HANDLE_MASK]
  have hn : s.slot_size * 2 ≤ HANDLE_MASK + 1 := by
    have hpos := inv.size_pos
    omega
  have hocc := register_probe_none _ _ hn hp
  have hmod1 : ∀ c, hd c % (s.slot_size * 2) % s.slot_size = hd c % s.slot_size :=
    fun c => Nat.mod_mod_of_dvd _ (Dvd.intro _ rfl)
  have at_one : ∀ r, 1 ≤ r → r < s.slot_size * 2 → r % s.slot_size = 1 →
      ∃ c, s.slot.getD 1 none = some c ∧ hd c % (s.slot_size * 2) = r := by
    intro r hr1 hr2 hr3
    obtain ⟨x, hx, hxr⟩ := probed_residue s.handle_index _ _ r hq hr1 hr2
    have h1 := hocc x hx
    have hl := inv2.land_eq x
    simp only at h1 hl
    rw [hl, hxr] at h1
    cases hc : new_slot.getD r none with
    | none => exact absurd hc h1
    | some c =>
      have e1 := (inv2.slot r c hc).1
      simp only at e1
      obtain ⟨i, hi⟩ := (occ2 c).mp ⟨r, hc⟩
      have e2 := (inv.slot i c hi).1
      have e3 := hmod1 c
      rw [e1, hr3, e2] at e3
      subst e3
      exact ⟨c, hi, e1⟩
  obtain ⟨c1, g1, g2⟩ := at_one 1 (le_refl _) (by omega) (Nat.mod_eq_of_lt (by omega))
  obtain ⟨c2, g3, g4⟩ := at_one (s.slot_size + 1) (by omega) (by omega)
    (by rw [Nat.add_mod_left]; exact Nat.mod_eq_of_lt (by omega))
  rw [g1] at g3
  cases g3
  omega

/-- The function `skynet_handle_register` returns a handle on every well-formed
registry whose slot table can still be doubled within the id space, and it doubles
the table at most once. -/
theorem register_loop_returns {b : Nat} {hd : Ctx → Nat} {s : handle_storage}
    (ctx : Ctx) (fuel : Nat) (inv : SlotInv b hd s)
    (hsz : s.slot_size * 2 - 1 ≤ HANDLE_MASK) :
    ∃ s' r, register_loop hd (fuel + 2) s ctx = .ok (s', r) := by
  simp only [register_loop]
  cases hp : register_probe s ctx s.slot_size s.handle_index with
  | some p => exact ⟨p.1, p.2, rfl⟩
  | none =>
    simp only [if_pos hsz]
    cases hre : register_rehash hd s s.slot_size 0
        (List.replicate (s.slot_size * 2) none) with
    | none =>
      exfalso
      obtain ⟨k, _, _, hk⟩ := inv.size
      obtain ⟨new', e1, _⟩ := register_rehash_spec hd s k hk
        (fun i c hi => (inv.slot i c hi).1) s.slot_size 0
        (List.replicate (s.slot_size * 2) none)
        ⟨by simp, fun j c hj => (by rw [getD_replicate_none] at hj; cases hj),
          fun i' c hi' => (by omega)⟩
      rw [hre] at e1; cases e1
    | some new_slot =>
      simp only
      have hne := register_probe_after_double ctx inv hsz hre
      cases hp2 : register_probe { s with slot := new_slot, slot_size := s.slot_size * 2 }
          ctx (s.slot_size * 2) s.handle_index with
      | none => exact absurd hp2 hne
      | some p => exact ⟨p.1, p.2, rfl⟩

/-- The handle returned by a registration that returns: the harbor byte of the
registry above a local id in `1..HANDLE_MASK`. Nothing is asked of the context. -/
theorem register_loop_handle {b : Nat} {hd : Ctx → Nat} {ctx : Ctx} :
    ∀ (fuel : Nat) (s s' : handle_storage) (r : Nat), SlotInv b hd s →
    register_loop hd fuel s ctx = .ok (s', r) →
    ∃ x, 1 ≤ x ∧ x ≤ HANDLE_MASK ∧ r = b % 256 * 2 ^ 24 + x ∧
      s'.handle_index = x + 1 := by
  intro fuel
  induction fuel with
  | zero => intro s s' r _ H; simp [register_loop] at H
  | succ fuel ih =>
    intro s s' r inv H
    simp only [register_loop] at H
    cases hp : register_probe s ctx s.slot_size s.handle_index with
    | some p =>
      rw [hp] at H
      simp only [Except.ok.injEq] at H
      subst H
      obtain ⟨x, hx1, hx2, _, rfl, rfl⟩ := register_probe_some _ _ inv.index_pos hp
      refine ⟨x, hx1, hx2, ?_, rfl⟩
      rw [inv.harbor]; exact handle_parts b x hx2
    | none =>
      rw [hp] at H
      simp only at H
      split_ifs at H with hsz
      cases hre : register_rehash hd s s.slot_size 0
          (List.replicate (s.slot_size * 2) none) with
      | none => rw [hre] at H; cases H
      | some new_slot =>
        rw [hre] at H
        simp only at H
        exact ih _ s' r (register_double inv hsz hre).1 H

theorem land_handle_mask (x : Nat) : x &&& HANDLE_MASK = x % 2 ^ 24 := by
  have := Nat.and_pow_two_sub_one_eq_mod x 24
  simpa [HANDLE_MASK] using this

/-- The two parts of a handle `hb * 2 ^ 24 + x` with `x` a local id. -/
theorem handle_split (hb x : Nat) (hx : x ≤ HANDLE_MASK) :
    (hb * 2 ^ 24 + x) >>> HANDLE_REMOTE_SHIFT = hb ∧
    (hb * 2 ^ 24 + x) &&& HANDLE_MASK = x := by
  have hxm : x < 2 ^ 24 := by simp only [HANDLE_MASK] at hx; omega
  constructor
  · rw [HANDLE_REMOTE_SHIFT, Nat.shiftRight_eq_div_pow, Nat.mul_comm,
      Nat.mul_add_div (by positivity), Nat.div_eq_of_lt hxm, Nat.add_zero]
  · rw [land_handle_mask, Nat.mul_comm, Nat.mul_add_mod, Nat.mod_eq_of_lt hxm]

/-! ## Worlds used to instantiate the theorems -/

theorem demo1_trace : Trace 1 demo1 [(100, 16777217)] :=
  Trace.register Trace.init (by simp) (by rfl)

theorem demo2_trace : Trace 1 demo2 [(100, 16777217), (101, 16777218)] :=
  Trace.register demo1_trace (by simp) (by rfl)

theorem demo3_trace :
    Trace 1 demo3 [(100, 16777217), (101, 16777218), (102, 16777219)] :=
  Trace.register demo2_trace (by simp) (by rfl)

theorem demo4_trace :
    Trace 1 demo4 [(100, 16777217), (101, 16777218), (102, 16777219), (103, 16777220)] :=
  Trace.register demo3_trace (by simp) (by rfl)

theorem wrap_world_zero : wrap_world 0 = world_init 1 := by
  have h : Function.update (fun _ : Ctx => (0 : Nat)) 0 0 = fun _ => 0 := by
    funext c; by_cases hc : c = 0 <;> simp [Function.update, hc]
  simp only [wrap_world, world_init, skynet_handle_init, if_pos, h]
  rfl

theorem four_slots (i : Nat) (c : Ctx) (hi : i < 4) :
    ([none, none, none, none].set i (some c)).set i none = [none, none, none, none] := by
  interval_cases i <;> rfl

theorem wrap_world_step (n : Nat) (hn : n + 1 ≤ HANDLE_MASK) :
    ∃ w1, context_register (wrap_world n) 0 = .ok (w1, 16777216 + (n + 1)) ∧
      (world_retire w1 (16777216 + (n + 1))).1 = wrap_world (n + 1) := by
  have hm : ¬ n + 1 > HANDLE_MASK := by omega
  have hx : n + 1 < 2 ^ 24 := by simp only [HANDLE_MASK] at hn; omega
  have hor : (n + 1) ||| 16777216 = 16777216 + (n + 1) := by
    have := or_harbor (n + 1) 1 hx
    simpa using this
  have hand : ∀ x, x &&& 3 = x % 4 := fun x => Nat.and_pow_two_sub_one_eq_mod x 2
  have hlt : (n + 1) % 4 < 4 := Nat.mod_lt _ (by decide)
  have hfree : [none, none, none, (none : Option Ctx)].getD ((n + 1) % 4) none = none :=
    (getD_replicate_none 4 ((n + 1) % 4) :
      (List.replicate 4 (none : Option Ctx)).getD _ none = none)
  refine ⟨{ H := { (wrap_world n).H with
                   slot := [none, none, none, none].set ((n + 1) % 4) (some 0),
                   handle_index := n + 1 + 1 },
            handle_of := Function.update (wrap_world n).handle_of 0 (16777216 + (n + 1)) },
    ?_, ?_⟩
  · simp only [context_register, skynet_handle_register, register_loop, register_probe,
      wrap_world, if_neg hm, hand, hfree, if_true, hor]
  · have hmod : (16777216 + (n + 1)) % 4 = (n + 1) % 4 := by omega
    have hg : skynet_handle_grab
        (Function.update (wrap_world n).handle_of 0 (16777216 + (n + 1)))
        { (wrap_world n).H with
          slot := [none, none, none, none].set ((n + 1) % 4) (some 0),
          handle_index := n + 1 + 1 } (16777216 + (n + 1)) = some 0 := by
      simp only [skynet_handle_grab, wrap_world, hand, hmod]
      rw [getD_set_eq _ _ _ _ (by simpa using hlt)]
      simp
    simp only [world_retire]
    rw [retire_hit hg]
    simp only [wrap_world, hand, hmod, four_slots _ _ hlt, retire_names,
      Function.update_idem]
    simp

/-- The id counter reaches every value up to `HANDLE_MASK + 1` with both tables
empty. -/
theorem wrap_world_trace : ∀ n, n ≤ HANDLE_MASK → Trace 1 (wrap_world n) [] := by
  intro n
  induction n with
  | zero => intro _; rw [wrap_world_zero]; exact Trace.init
  | succ n ih =>
    intro hn
    obtain ⟨w1, h1, h2⟩ := wrap_world_step n hn
    have t1 := Trace.register (ih (by omega)) (by simp) h1
    have t2 := Trace.retire (16777216 + (n + 1)) t1
    rw [h2] at t2
    simpa using t2

/-! ## The claims on the slot table -/

/-- C1. For every sequence of registrations and retirements on an initialised
registry, the services that are registered at the same time are pairwise distinct
contexts with pairwise distinct handles, and the lower 24 bits of their handles are
pairwise distinct as well. The history is any `Trace`, so it covers the states in
which the id counter has wrapped. -/
theorem registered_handles_unique (b : Nat) (w : World) (live : List (Ctx × Nat))
    (t : Trace b w live) :
    live.Pairwise (fun p q => p.1 ≠ q.1 ∧ p.2 ≠ q.2 ∧
      p.2 &&& HANDLE_MASK ≠ q.2 &&& HANDLE_MASK) := by
  have g := t.good
  refine List.Pairwise.imp_of_mem ?_ g.nodup
  rintro ⟨c1, h1⟩ ⟨c2, h2⟩ m1 m2 hne
  obtain ⟨o1, e1⟩ := (g.link c1 h1).mp m1
  obtain ⟨o2, e2⟩ := (g.link c2 h2).mp m2
  have key : h1 &&& HANDLE_MASK ≠ h2 &&& HANDLE_MASK := by
    intro e
    rw [land_handle_mask, land_handle_mask, ← e1, ← e2] at e
    have hc := g.slots.ctx_unique o1 o2 e
    subst hc
    exact hne (by rw [← e1, ← e2])
  refine ⟨?_, ?_, key⟩
  · rintro (rfl : c1 = c2)
    exact hne (by rw [← e1, ← e2])
  · rintro (rfl : h1 = h2)
    exact key rfl

/-- Instance of C1 on two registered services. -/
theorem registered_handles_unique_witness :
    Trace 1 demo2 [(100, 16777217), (101, 16777218)] ∧
    [((100 : Ctx), 16777217), (101, 16777218)].Pairwise (fun p q => p.1 ≠ q.1 ∧
      p.2 ≠ q.2 ∧ p.2 &&& HANDLE_MASK ≠ q.2 &&& HANDLE_MASK) :=
  ⟨demo2_trace, registered_handles_unique 1 demo2 _ demo2_trace⟩

/-- A registration that finds no free slot on a well-formed registry, and may still
double the table, returns after one doubling. -/
theorem register_loop_after_full {b : Nat} {hd : Ctx → Nat} {s : handle_storage}
    (ctx : Ctx) (fuel : Nat) (inv : SlotInv b hd s)
    (hsz : s.slot_size * 2 - 1 ≤ HANDLE_MASK)
    (hp : register_probe s ctx s.slot_size s.handle_index = none) :
    ∃ s' r, register_loop hd (fuel + 2) s ctx = .ok (s', r) ∧
      s'.slot_size = s.slot_size * 2 := by
  obtain ⟨k, _, _, hk⟩ := inv.size
  obtain ⟨new_slot, hre, _⟩ := register_rehash_spec hd s k hk
    (fun i c hi => (inv.slot i c hi).1) s.slot_size 0
    (List.replicate (s.slot_size * 2) none)
    ⟨by simp, fun j c hj => (by rw [getD_replicate_none] at hj; cases hj),
      fun i' c hi' => (by omega)⟩
  have hne := register_probe_after_double ctx inv hsz hre
  cases hp2 : register_probe { s with slot := new_slot, slot_size := s.slot_size * 2 }
      ctx (s.slot_size * 2) s.handle_index with
  | none => exact absurd hp2 hne
  | some p =>
    obtain ⟨s', r⟩ := p
    refine ⟨s', r, ?_, ?_⟩
    · simp only [register_loop, hp, if_pos hsz, hre, hp2]
    · obtain ⟨x, _, _, _, rfl, _⟩ := register_probe_some _ _ inv.index_pos hp2
      rfl

/-- C2. When `skynet_handle_register` finds no free slot, the rehash into the
doubled table never trips `assert(new_slot[hash] == NULL)`; the call returns, with
the table doubled, whenever the doubled table still fits the id space (the other
assertion of the code); and once the call has returned every service that was
registered before is still returned by `skynet_handle_grab` of its old handle. -/
theorem register_doubling_keeps_services (b : Nat) (w : World)
    (live : List (Ctx × Nat)) (ctx : Ctx) (t : Trace b w live)
    (fresh : ∀ h', (ctx, h') ∉ live)
    (hfull : register_probe w.H ctx w.H.slot_size w.H.handle_index = none) :
    (∃ new_slot, register_rehash w.handle_of w.H w.H.slot_size 0
      (List.replicate (w.H.slot_size * 2) none) = some new_slot) ∧
    (w.H.slot_size * 2 - 1 ≤ HANDLE_MASK →
      ∃ w' r, context_register w ctx = .ok (w', r) ∧
        w'.H.slot_size = w.H.slot_size * 2) ∧
    (∀ w' r, context_register w ctx = .ok (w', r) →
      ∀ c h, (c, h) ∈ live → world_grab w' h = some c) := by
  have g := t.good
  refine ⟨?_, ?_, ?_⟩
  · obtain ⟨k, _, _, hk⟩ := g.slots.size
    obtain ⟨new_slot, hre, _⟩ := register_rehash_spec w.handle_of w.H k hk
      (fun i c hi => (g.slots.slot i c hi).1) w.H.slot_size 0
      (List.replicate (w.H.slot_size * 2) none)
      ⟨by simp, fun j c hj => (by rw [getD_replicate_none] at hj; cases hj),
        fun i' c hi' => (by omega)⟩
    exact ⟨new_slot, hre⟩
  · intro hsz
    obtain ⟨s', r, e1, e2⟩ := register_loop_after_full ctx 23 g.slots hsz hfull
    refine ⟨{ H := s', handle_of := Function.update w.handle_of ctx r }, r, ?_, e2⟩
    unfold context_register skynet_handle_register
    rw [e1]
  · intro w' r H c h hm
    have g' := good_register g fresh H
    exact (grab_iff g'.slots h c).mpr
      ((g'.link c h).mp (List.mem_append_left _ hm))

/-- Instance of C2: four services fill the table of harbor 1, and a fifth
registration doubles it. -/
theorem register_doubling_keeps_services_witness :
    Trace 1 demo4 [(100, 16777217), (101, 16777218), (102, 16777219), (103, 16777220)] ∧
    (∀ h', ((104 : Ctx), h') ∉
      [((100 : Ctx), 16777217), (101, 16777218), (102, 16777219), (103, 16777220)]) ∧
    register_probe demo4.H 104 demo4.H.slot_size demo4.H.handle_index = none ∧
    ((∃ new_slot, register_rehash demo4.handle_of demo4.H demo4.H.slot_size 0
      (List.replicate (demo4.H.slot_size * 2) none) = some new_slot) ∧
    (demo4.H.slot_size * 2 - 1 ≤ HANDLE_MASK →
      ∃ w' r, context_register demo4 104 = .ok (w', r) ∧
        w'.H.slot_size = demo4.H.slot_size * 2) ∧
    (∀ w' r, context_register demo4 104 = .ok (w', r) →
      ∀ c h, (c, h) ∈
        [((100 : Ctx), 16777217), (101, 16777218), (102, 16777219), (103, 16777220)] →
        world_grab w' h = some c)) :=
  ⟨demo4_trace, by simp, by rfl,
    register_doubling_keeps_services 1 demo4 _ 104 demo4_trace (by simp) (by rfl)⟩

/-- C3. Every handle returned by `skynet_handle_register` on a registry initialised
with harbor id `b` has its high 8 bits equal to `b & 0xff` and its low 24 bits in
the range `1..0xFFFFFF`, in every reachable state and for every context. -/
theorem register_handle_format (b : Nat) (w w' : World) (live : List (Ctx × Nat))
    (ctx : Ctx) (h : Nat) (t : Trace b w live)
    (H : context_register w ctx = .ok (w', h)) :
    h >>> HANDLE_REMOTE_SHIFT = b &&& 0xff ∧ 1 ≤ h &&& HANDLE_MASK ∧
    h &&& HANDLE_MASK ≤ 0xFFFFFF := by
  have g := t.good
  unfold context_register skynet_handle_register at H
  cases hr : register_loop w.handle_of 25 w.H ctx with
  | error e => rw [hr] at H; cases H
  | ok p =>
    obtain ⟨s', r⟩ := p
    rw [hr] at H
    simp only [Except.ok.injEq, Prod.mk.injEq] at H
    obtain ⟨_, rfl⟩ := H
    obtain ⟨x, hx1, hx2, rfl, _⟩ := register_loop_handle 25 w.H s' r g.slots hr
    obtain ⟨e1, e2⟩ := handle_split (b % 256) x hx2
    rw [e1, e2, and_ff]
    simp only [HANDLE_MASK] at hx2
    exact ⟨rfl, hx1, hx2⟩

/-- Instance of C3 at the wrap of the counter: after 0xFFFFFF rounds of registering
and retiring a service on harbor 1 the counter stands at 0x1000000, and the next
registration returns 0x01000001. -/
theorem register_handle_format_witness :
    Trace 1 (wrap_world 16777215) [] ∧
    context_register (wrap_world 16777215) 100 =
      .ok (after_register (wrap_world 16777215) 100, 16777217) ∧
    (16777217 >>> HANDLE_REMOTE_SHIFT = 1 &&& 0xff ∧ 1 ≤ 16777217 &&& HANDLE_MASK ∧
      16777217 &&& HANDLE_MASK ≤ 0xFFFFFF) :=
  ⟨wrap_world_trace 16777215 (le_refl _), by rfl,
    register_handle_format 1 (wrap_world 16777215)
      (after_register (wrap_world 16777215) 100) _ 100 16777217
      (wrap_world_trace 16777215 (le_refl _)) (by rfl)⟩

/-- In a reachable world `skynet_handle_grab` returns exactly the registered
service of the handle. -/
theorem grab_live {b : Nat} {w : World} {live : List (Ctx × Nat)} (g : Good b w live)
    (h : Nat) (c : Ctx) : world_grab w h = some c ↔ (c, h) ∈ live := by
  unfold world_grab
  rw [grab_iff g.slots h c, g.link c h]

theorem world_retire_snd (w : World) (h : Nat) :
    (world_retire w h).2 = (skynet_handle_retire w.handle_of w.H h).2 := rfl

/-- C4. In every reachable state `skynet_handle_retire(h)` returns 1 exactly when a
service is registered under `h`, and 0 otherwise. When it returns 0 the registry is
unchanged. When it returns 1 the slot table differs only in the slot of `h`, which
is cleared; every service registered under another handle is still found by
`skynet_handle_grab`, `h` itself is no longer found, and a second retirement of `h`
returns 0. -/
theorem retire_returns (b : Nat) (w : World) (live : List (Ctx × Nat)) (h : Nat)
    (t : Trace b w live) :
    ((world_retire w h).2 = 1 ↔ ∃ c, (c, h) ∈ live) ∧
    ((world_retire w h).2 = 0 ↔ ¬ ∃ c, (c, h) ∈ live) ∧
    ((world_retire w h).2 = 0 → (world_retire w h).1 = w) ∧
    ((world_retire w h).2 = 1 →
      (world_retire w h).1.H.slot = w.H.slot.set (h &&& (w.H.slot_size - 1)) none ∧
      (world_retire w h).1.H.slot_size = w.H.slot_size ∧
      (∀ c' h', (c', h') ∈ live → h' ≠ h →
        world_grab (world_retire w h).1 h' = some c') ∧
      world_grab (world_retire w h).1 h = none ∧
      (world_retire (world_retire w h).1 h).2 = 0) := by
  have g := t.good
  have g' := good_retire h g
  cases hg : skynet_handle_grab w.handle_of w.H h with
  | none =>
    have hno : ¬ ∃ c, (c, h) ∈ live := by
      rintro ⟨c, hc⟩
      have := (grab_live g h c).mpr hc
      unfold world_grab at this
      rw [hg] at this; cases this
    have e : world_retire w h = (w, 0) := by
      unfold world_retire; rw [retire_miss hg]
    rw [e]
    refine ⟨?_, ?_, fun _ => rfl, ?_⟩
    · constructor
      · intro h1; cases h1
      · intro h1; exact absurd h1 hno
    · exact ⟨fun _ => hno, fun _ => rfl⟩
    · intro h1; cases h1
  | some c =>
    have hm : (c, h) ∈ live := (grab_live g h c).mp hg
    have e : world_retire w h =
        ({ w with H :=
          { w.H with slot := w.H.slot.set (h &&& (w.H.slot_size - 1)) none,
                     name := (retire_names h w.H.name_count 0 0 w.H.name).1,
                     name_count := (retire_names h w.H.name_count 0 0 w.H.name).2 } },
          1) := by
      unfold world_retire; rw [retire_hit hg]
    have hgone : world_grab (world_retire w h).1 h = none := by
      cases hx : world_grab (world_retire w h).1 h with
      | none => rfl
      | some c' =>
        have := (grab_live g' h c').mp hx
        simp at this
    refine ⟨⟨fun _ => ⟨c, hm⟩, fun _ => by rw [e]⟩, ?_, ?_, ?_⟩
    · constructor
      · intro h1; rw [e] at h1; cases h1
      · intro h1; exact absurd ⟨c, hm⟩ h1
    · intro h1; rw [e] at h1; cases h1
    · intro _
      refine ⟨by rw [e], by rw [e], ?_, hgone, ?_⟩
      · intro c' h' hm' hne
        exact (grab_live g' h' c').mpr
          (List.mem_filter.mpr ⟨hm', by simpa using hne⟩)
      · unfold world_grab at hgone
        rw [world_retire_snd, retire_miss hgone]

/-- Instance of C4: retirement of the second of four services. -/
theorem retire_returns_witness :
    Trace 1 demo4 [(100, 16777217), (101, 16777218), (102, 16777219), (103, 16777220)] ∧
    (((world_retire demo4 16777218).2 = 1 ↔ ∃ c, (c, 16777218) ∈
      [((100 : Ctx), 16777217), (101, 16777218), (102, 16777219), (103, 16777220)]) ∧
    ((world_retire demo4 16777218).2 = 0 ↔ ¬ ∃ c, (c, 16777218) ∈
      [((100 : Ctx), 16777217), (101, 16777218), (102, 16777219), (103, 16777220)]) ∧
    ((world_retire demo4 16777218).2 = 0 → (world_retire demo4 16777218).1 = demo4) ∧
    ((world_retire demo4 16777218).2 = 1 →
      (world_retire demo4 16777218).1.H.slot =
        demo4.H.slot.set (16777218 &&& (demo4.H.slot_size - 1)) none ∧
      (world_retire demo4 16777218).1.H.slot_size = demo4.H.slot_size ∧
      (∀ c' h', (c', h') ∈
        [((100 : Ctx), 16777217), (101, 16777218), (102, 16777219), (103, 16777220)] →
        h' ≠ 16777218 → world_grab (world_retire demo4 16777218).1 h' = some c') ∧
      world_grab (world_retire demo4 16777218).1 16777218 = none ∧
      (world_retire (world_retire demo4 16777218).1 16777218).2 = 0)) :=
  ⟨demo4_trace, retire_returns 1 demo4 _ 16777218 demo4_trace⟩

/-- C5. In every reachable state `skynet_handle_grab(h)` returns the service `c`
exactly when `c` is registered under `h`, that is when some registration of `c`
returned `h` and `h` has not been retired since; for every other `h` it returns
NULL, whatever slot the low bits of `h` select. -/
theorem grab_finds_registered (b : Nat) (w : World) (live : List (Ctx × Nat)) (h : Nat)
    (t : Trace b w live) :
    (∀ c, world_grab w h = some c ↔ (c, h) ∈ live) ∧
    (world_grab w h = none ↔ ∀ c, (c, h) ∉ live) := by
  have g := t.good
  refine ⟨fun c => grab_live g h c, ?_⟩
  constructor
  · intro hn c hc
    rw [(grab_live g h c).mpr hc] at hn; cases hn
  · intro hno
    cases hx : world_grab w h with
    | none => rfl
    | some c => exact absurd ((grab_live g h c).mp hx) (hno c)

/-- Instance of C5: with four services on harbor 1, the handle 0x02000002 selects
the occupied slot 2 but its harbor byte is not the one of the registry. -/
theorem grab_finds_registered_witness :
    Trace 1 demo4 [(100, 16777217), (101, 16777218), (102, 16777219), (103, 16777220)] ∧
    ((∀ c, world_grab demo4 33554434 = some c ↔ (c, 33554434) ∈
      [((100 : Ctx), 16777217), (101, 16777218), (102, 16777219), (103, 16777220)]) ∧
    (world_grab demo4 33554434 = none ↔ ∀ c, (c, 33554434) ∉
      [((100 : Ctx), 16777217), (101, 16777218), (102, 16777219), (103, 16777220)])) :=
  ⟨demo4_trace, grab_finds_registered 1 demo4 _ 33554434 demo4_trace⟩

/-! ## The claims on the name table -/

/-- The names of a strictly increasing table are pairwise different. -/
theorem name_lt_ne {a b : handle_name} (h : name_lt a b) : a.name ≠ b.name := by
  intro e
  unfold name_lt at h
  rw [(strcmp_eq_zero_iff _ _).mpr e] at h
  exact absurd h (by decide)

/-- Two entries of a well-formed table with the same name are the same entry. -/
theorem NameInv.entry_unique {s : handle_storage} (inv : NameInv s) {e1 e2 : handle_name}
    (h1 : e1 ∈ names s) (h2 : e2 ∈ names s) (e : e1.name = e2.name) : e1 = e2 := by
  by_contra hne
  have hp : (names s).Pairwise (fun a b => a.name ≠ b.name) :=
    inv.sorted.imp (fun h => name_lt_ne h)
  exact hp.forall (fun _ _ h => h.symm) h1 h2 hne e

/-- The entries of a table after a name has been put at place `p`. -/
theorem mem_splice {α : Type} (L : List α) (p : Nat) (e x : α) :
    x ∈ L.take p ++ e :: L.drop p ↔ x = e ∨ x ∈ L := by
  rw [List.mem_append, List.mem_cons]
  constructor
  · rintro (h | h | h)
    · exact Or.inr (List.mem_of_mem_take h)
    · exact Or.inl h
    · exact Or.inr (List.mem_of_mem_drop h)
  · rintro (h | h)
    · exact Or.inr (Or.inl h)
    · rw [← List.take_append_drop p L, List.mem_append] at h
      rcases h with h | h
      · exact Or.inl h
      · exact Or.inr (Or.inr h)

/-- What a call of `skynet_handle_namehandle` that returns does to a reachable
world. -/
theorem world_namehandle_spec {b : Nat} {w w' : World} {live : List (Ctx × Nat)}
    {h : Nat} {name : List Nat} {r : Option (List Nat)} (g : Good b w live)
    (H : world_namehandle w h name = .ok (w', r)) :
    (r = none ∧ w' = w ∧ ∃ e, e ∈ names w.H ∧ e.name = name) ∨
    (r = some name ∧ (∀ e, e ∈ names w.H → e.name ≠ name) ∧
      w'.H.name_count = w.H.name_count + 1 ∧ ∃ p,
      names w'.H = (names w.H).take p ++ ⟨name, h⟩ :: (names w.H).drop p) := by
  unfold world_namehandle skynet_handle_namehandle at H
  cases hr : _insert_name w.H name h with
  | error e => rw [hr] at H; cases H
  | ok q =>
    obtain ⟨s', r'⟩ := q
    rw [hr] at H
    simp only [Except.ok.injEq, Prod.mk.injEq] at H
    obtain ⟨rfl, rfl⟩ := H
    obtain ⟨_, _, _, _, _, a6⟩ := insert_name_spec g.names hr
    rcases a6 with ⟨e1, e2, e3⟩ | ⟨e1, e2, e3, e4⟩
    · left; subst e2; exact ⟨e1, rfl, e3⟩
    · right; exact ⟨e1, e2, e3, e4⟩

/-- Binding of a name that no entry holds, on a well-formed world with room for one
more entry: the call returns the name and puts exactly the new entry in. -/
theorem world_namehandle_absent {b : Nat} {w : World} {live : List (Ctx × Nat)}
    (g : Good b w live) (h2 : Nat) (name : List Nat)
    (hno : ∀ e, e ∈ names w.H → e.name ≠ name)
    (hroom : w.H.name_count < w.H.name_cap ∨ w.H.name_cap * 2 ≤ MAX_SLOT_SIZE) :
    ∃ w' p, world_namehandle w h2 name = .ok (w', some name) ∧
      names w'.H = (names w.H).take p ++ ⟨name, h2⟩ :: (names w.H).drop p ∧
      w'.H.name_count = w.H.name_count + 1 ∧
      (∀ e, e ∈ names w'.H ↔ e = ⟨name, h2⟩ ∨ e ∈ names w.H) ∧
      w'.H.slot = w.H.slot ∧ w'.handle_of = w.handle_of := by
  rcases insert_name_cases g.names name h2 with ⟨hex, _⟩ | ⟨_, p, hp, _, _, e1⟩
  · obtain ⟨e, he, hn⟩ := hex
    exact absurd hn (hno e he)
  · obtain ⟨s', hs'⟩ := insert_name_before_returns w.H name h2 p hroom
    obtain ⟨a1, _, a3, _, _, a6, _⟩ := insert_name_before_ok g.names hp hs'
    refine ⟨{ w with H := s' }, p, ?_, a1, a3, ?_, a6, rfl⟩
    · unfold world_namehandle skynet_handle_namehandle
      rw [e1, hs']
    · intro e; rw [a1]; exact mem_splice _ _ _ _

/-- C6. In every reachable state `skynet_handle_namehandle(h2, name)` returns NULL
when `name` is in the name table, whatever handle it is bound to, and leaves the
registry as it was. When `name` is absent, and the table holds fewer than
`MAX_SLOT_SIZE` names (at `MAX_SLOT_SIZE` names the assertion of
`_insert_name_before` stops the program), the call returns the name and the table
is the old one with exactly the entry `(name, h2)` put in. -/
theorem namehandle_refuses_duplicates (b : Nat) (w : World) (live : List (Ctx × Nat))
    (h2 : Nat) (name : List Nat) (t : Trace b w live) :
    ((∃ e, e ∈ names w.H ∧ e.name = name) →
      world_namehandle w h2 name = .ok (w, none)) ∧
    ((∀ e, e ∈ names w.H → e.name ≠ name) → w.H.name_count < MAX_SLOT_SIZE →
      ∃ w' p, world_namehandle w h2 name = .ok (w', some name) ∧
        names w'.H = (names w.H).take p ++ ⟨name, h2⟩ :: (names w.H).drop p ∧
        w'.H.name_count = w.H.name_count + 1 ∧
        (∀ e, e ∈ names w'.H ↔ e = ⟨name, h2⟩ ∨ e ∈ names w.H) ∧
        w'.H.slot = w.H.slot ∧ w'.handle_of = w.handle_of) := by
  have g := t.good
  constructor
  · rintro ⟨e, he, hn⟩
    rcases insert_name_cases g.names name h2 with ⟨_, e1⟩ | ⟨hne, _⟩
    · unfold world_namehandle skynet_handle_namehandle
      rw [e1]
    · exact absurd hn (hne e he)
  · intro hno hroom
    exact world_namehandle_absent g h2 name hno (g.names.room hroom)

theorem demo5_trace :
    Trace 1 demo5 [(100, 16777217), (101, 16777218), (102, 16777219), (103, 16777220)] :=
  Trace.namehandle demo4_trace
    (by rfl : world_namehandle demo4 16777218 [46, 115, 118, 99] =
      .ok (demo5, some [46, 115, 118, 99]))

theorem demo6_trace :
    Trace 1 demo6 [(100, 16777217), (101, 16777218), (102, 16777219), (103, 16777220)] :=
  Trace.namehandle demo5_trace
    (by rfl : world_namehandle demo5 16777218 [46, 97] = .ok (demo6, some [46, 97]))

theorem demo7_trace :
    Trace 1 demo7 [(100, 16777217), (101, 16777218), (102, 16777219), (103, 16777220)] :=
  Trace.namehandle demo6_trace
    (by rfl : world_namehandle demo6 16777217 [108, 111, 103, 103, 101, 114] =
      .ok (demo7, some [108, 111, 103, 103, 101, 114]))

/-- Instance of C6: the name `.svc` is bound, a second binding of it is refused. -/
theorem namehandle_refuses_duplicates_witness :
    Trace 1 demo5 [(100, 16777217), (101, 16777218), (102, 16777219), (103, 16777220)] ∧
    (((∃ e, e ∈ names demo5.H ∧ e.name = [46, 115, 118, 99]) →
      world_namehandle demo5 16777219 [46, 115, 118, 99] = .ok (demo5, none)) ∧
    ((∀ e, e ∈ names demo5.H → e.name ≠ [46, 115, 118, 99]) →
      demo5.H.name_count < MAX_SLOT_SIZE →
      ∃ w' p, world_namehandle demo5 16777219 [46, 115, 118, 99] =
          .ok (w', some [46, 115, 118, 99]) ∧
        names w'.H = (names demo5.H).take p ++
          ⟨[46, 115, 118, 99], 16777219⟩ :: (names demo5.H).drop p ∧
        w'.H.name_count = demo5.H.name_count + 1 ∧
        (∀ e, e ∈ names w'.H ↔ e = ⟨[46, 115, 118, 99], 16777219⟩ ∨ e ∈ names demo5.H) ∧
        w'.H.slot = demo5.H.slot ∧ w'.handle_of = demo5.handle_of)) :=
  ⟨demo5_trace,
    namehandle_refuses_duplicates 1 demo5 _ 16777219 [46, 115, 118, 99] demo5_trace⟩

/-- C7. In every name table reachable by registrations, name bindings and
retirements, `skynet_handle_findname(n)` returns the handle of the entry that holds
`n`, and 0 when no entry holds `n`. In particular it returns `h` right after a
successful `skynet_handle_namehandle(h, n)`, and still does after a further call of
`skynet_handle_namehandle`. -/
theorem findname_returns_bound_handle (b : Nat) (w : World) (live : List (Ctx × Nat))
    (t : Trace b w live) :
    (∀ e, e ∈ names w.H → skynet_handle_findname w.H e.name = some e.handle) ∧
    (∀ n, (∀ e, e ∈ names w.H → e.name ≠ n) → skynet_handle_findname w.H n = some 0) ∧
    (∀ h n w' r, world_namehandle w h n = .ok (w', some r) →
      skynet_handle_findname w'.H n = some h ∧
      ∀ h2 n2 w'' r2, world_namehandle w' h2 n2 = .ok (w'', r2) →
        skynet_handle_findname w''.H n = some h) := by
  have g := t.good
  refine ⟨fun e he => findname_hit g.names he, fun n hno => findname_miss g.names hno, ?_⟩
  intro h n w' r H
  have g' := good_namehandle g H
  have hmem : (⟨n, h⟩ : handle_name) ∈ names w'.H := by
    rcases world_namehandle_spec g H with ⟨e1, _, _⟩ | ⟨_, _, _, p, e4⟩
    · cases e1
    · rw [e4]; exact (mem_splice _ _ _ _).mpr (Or.inl rfl)
  refine ⟨findname_hit g'.names hmem, ?_⟩
  intro h2 n2 w'' r2 H2
  have g'' := good_namehandle g' H2
  have hmem2 : (⟨n, h⟩ : handle_name) ∈ names w''.H := by
    rcases world_namehandle_spec g' H2 with ⟨_, e2, _⟩ | ⟨_, _, _, p, e4⟩
    · rw [e2]; exact hmem
    · rw [e4]; exact (mem_splice _ _ _ _).mpr (Or.inr hmem)
  exact findname_hit g''.names hmem2

/-- Instance of C7 on a table of three names, reached through a doubling of the
array. -/
theorem findname_returns_bound_handle_witness :
    Trace 1 demo7 [(100, 16777217), (101, 16777218), (102, 16777219), (103, 16777220)] ∧
    ((∀ e, e ∈ names demo7.H → skynet_handle_findname demo7.H e.name = some e.handle) ∧
    (∀ n, (∀ e, e ∈ names demo7.H → e.name ≠ n) →
      skynet_handle_findname demo7.H n = some 0) ∧
    (∀ h n w' r, world_namehandle demo7 h n = .ok (w', some r) →
      skynet_handle_findname w'.H n = some h ∧
      ∀ h2 n2 w'' r2, world_namehandle w' h2 n2 = .ok (w'', r2) →
        skynet_handle_findname w''.H n = some h)) :=
  ⟨demo7_trace, findname_returns_bound_handle 1 demo7 _ demo7_trace⟩

/-- C8. After a successful `skynet_handle_retire(h)` in a reachable state,
`skynet_handle_findname` returns 0 for every name that was bound to `h`, the handle
it was bound to for every name bound to another handle, and 0 as before for the
names that were not bound; every name that was bound to `h` can be bound again, to
any handle. -/
theorem retire_unbinds_names (b : Nat) (w : World) (live : List (Ctx × Nat)) (h : Nat)
    (t : Trace b w live) (hret : (world_retire w h).2 = 1) :
    (∀ e, e ∈ names w.H → e.handle = h →
      skynet_handle_findname (world_retire w h).1.H e.name = some 0) ∧
    (∀ e, e ∈ names w.H → e.handle ≠ h →
      skynet_handle_findname (world_retire w h).1.H e.name = some e.handle) ∧
    (∀ n, (∀ e, e ∈ names w.H → e.name ≠ n) →
      skynet_handle_findname (world_retire w h).1.H n = some 0) ∧
    (∀ e, e ∈ names w.H → e.handle = h → ∀ h2, ∃ w',
      world_namehandle (world_retire w h).1 h2 e.name = .ok (w', some e.name) ∧
      skynet_handle_findname w'.H e.name = some h2) := by
  have g := t.good
  have t' : Trace b (world_retire w h).1 _ := Trace.retire h t
  have g' := t'.good
  obtain ⟨c, hg⟩ : ∃ c, skynet_handle_grab w.handle_of w.H h = some c := by
    cases hx : skynet_handle_grab w.handle_of w.H h with
    | some c => exact ⟨c, rfl⟩
    | none =>
      rw [world_retire_snd, retire_miss hx] at hret
      cases hret
  have hnames : names (world_retire w h).1.H =
      (names w.H).filter (fun e => decide (e.handle ≠ h)) :=
    (retire_hit_spec g.slots g.names hg).2.2.2.2
  have hgone : ∀ e, e ∈ names w.H → e.handle = h →
      ∀ e', e' ∈ names (world_retire w h).1.H → e'.name ≠ e.name := by
    intro e he hh e' he' hn
    rw [hnames, List.mem_filter] at he'
    have := g.names.entry_unique he'.1 he hn
    subst this
    simp [hh] at he'
  refine ⟨?_, ?_, ?_, ?_⟩
  · intro e he hh
    exact findname_miss g'.names (hgone e he hh)
  · intro e he hh
    apply findname_hit g'.names
    rw [hnames, List.mem_filter]
    exact ⟨he, by simpa using hh⟩
  · intro n hno
    apply findname_miss g'.names
    intro e he
    rw [hnames, List.mem_filter] at he
    exact hno e he.1
  · intro e he hh h2
    have hlen : (world_retire w h).1.H.name_count < w.H.name_count := by
      have l1 : (names (world_retire w h).1.H).length =
          (world_retire w h).1.H.name_count :=
        names_length (by rw [g'.names.len]; exact g'.names.count_le)
      have l2 : (names w.H).length = w.H.name_count :=
        names_length (by rw [g.names.len]; exact g.names.count_le)
      rw [← l1, ← l2, hnames, List.length_filter_lt_length_iff_exists]
      exact ⟨e, he, by simp [hh]⟩
    have hcap : (world_retire w h).1.H.name_cap = w.H.name_cap := by
      unfold world_retire; rw [retire_hit hg]
    have hroom : (world_retire w h).1.H.name_count < (world_retire w h).1.H.name_cap ∨
        (world_retire w h).1.H.name_cap * 2 ≤ MAX_SLOT_SIZE := by
      left; rw [hcap]; have := g.names.count_le; omega
    obtain ⟨w', p, e1, _⟩ :=
      world_namehandle_absent g' h2 e.name (hgone e he hh) hroom
    refine ⟨w', e1, ?_⟩
    have g'' := good_namehandle g' e1
    have hmem : (⟨e.name, h2⟩ : handle_name) ∈ names w'.H := by
      rcases world_namehandle_spec g' e1 with ⟨e1', _, _⟩ | ⟨_, _, _, p, e4⟩
      · cases e1'
      · rw [e4]; exact (mem_splice _ _ _ _).mpr (Or.inl rfl)
    exact findname_hit g''.names hmem

/-- Instance of C8: the second service holds the names `.svc` and `.a`, the first
one holds `logger`; the second service is retired. -/
theorem retire_unbinds_names_witness :
    Trace 1 demo7 [(100, 16777217), (101, 16777218), (102, 16777219), (103, 16777220)] ∧
    (world_retire demo7 16777218).2 = 1 ∧
    ((∀ e, e ∈ names demo7.H → e.handle = 16777218 →
      skynet_handle_findname (world_retire demo7 16777218).1.H e.name = some 0) ∧
    (∀ e, e ∈ names demo7.H → e.handle ≠ 16777218 →
      skynet_handle_findname (world_retire demo7 16777218).1.H e.name = some e.handle) ∧
    (∀ n, (∀ e, e ∈ names demo7.H → e.name ≠ n) →
      skynet_handle_findname (world_retire demo7 16777218).1.H n = some 0) ∧
    (∀ e, e ∈ names demo7.H → e.handle = 16777218 → ∀ h2, ∃ w',
      world_namehandle (world_retire demo7 16777218).1 h2 e.name =
        .ok (w', some e.name) ∧
      skynet_handle_findname w'.H e.name = some h2)) :=
  ⟨demo7_trace, by rfl,
    retire_unbinds_names 1 demo7 _ 16777218 demo7_trace (by rfl)⟩

/-- C9. In every reachable state, so after every `skynet_handle_namehandle`, also
one that doubles the array, and after every `skynet_handle_retire`, the name table
is strictly increasing in `strcmp` order, no name occurs twice, and
`name_count <= name_cap`, the array having `name_cap` cells. -/
theorem name_table_sorted (b : Nat) (w : World) (live : List (Ctx × Nat))
    (t : Trace b w live) :
    (names w.H).Pairwise (fun x y => strcmp x.name y.name < 0) ∧
    ((names w.H).map (fun e => e.name)).Nodup ∧
    w.H.name_count ≤ w.H.name_cap ∧ w.H.name.length = w.H.name_cap := by
  have g := t.good
  refine ⟨g.names.sorted, ?_, g.names.count_le, g.names.len⟩
  unfold List.Nodup
  rw [List.pairwise_map]
  exact g.names.sorted.imp (fun h => name_lt_ne h)

/-- Instance of C9 on a table of three names, reached through a doubling of the
array. -/
theorem name_table_sorted_witness :
    Trace 1 demo7 [(100, 16777217), (101, 16777218), (102, 16777219), (103, 16777220)] ∧
    ((names demo7.H).Pairwise (fun x y => strcmp x.name y.name < 0) ∧
    ((names demo7.H).map (fun e => e.name)).Nodup ∧
    demo7.H.name_count ≤ demo7.H.name_cap ∧ demo7.H.name.length = demo7.H.name_cap) :=
  ⟨demo7_trace, name_table_sorted 1 demo7 _ demo7_trace⟩

/-! ## The mailbox as a queue -/

/-- The remainder of a number below `2 * cap`. -/
theorem mod_wrap (x cap : Nat) (h : x < 2 * cap) :
    x % cap = if x < cap then x else x - cap := by
  by_cases h1 : x < cap
  · rw [if_pos h1, Nat.mod_eq_of_lt h1]
  · rw [if_neg h1, Nat.mod_eq_sub_mod (by omega), Nat.mod_eq_of_lt (by omega)]

/-- The copy loop of `expand_queue` writes the messages `i .. i + k - 1`, counted
from `head`, to the cells `i .. i + k - 1` of the new array. -/
theorem expand_copy_spec (q : message_queue) :
    ∀ (k i : Nat) (n : List skynet_message), i + k ≤ n.length →
    (expand_copy q k i n).length = n.length ∧
    ∀ j, (expand_copy q k i n).getD j default =
      if i ≤ j ∧ j < i + k then q.queue.getD ((q.head + j) % q.cap) default
      else n.getD j default := by
  intro k
  induction k with
  | zero =>
    intro i n _
    refine ⟨rfl, fun j => ?_⟩
    rw [if_neg (by omega)]; rfl
  | succ k ih =>
    intro i n hn
    simp only [expand_copy]
    obtain ⟨h1, h2⟩ := ih (i + 1)
      (n.set i (q.queue.getD ((q.head + i) % q.cap) default))
      (by rw [List.length_set]; omega)
    refine ⟨by rw [h1, List.length_set], fun j => ?_⟩
    rw [h2 j, getD_set _ _ _ _ _ (by omega)]
    by_cases e : i = j
    · subst e; rw [if_neg (by omega), if_pos rfl, if_pos (by omega)]
    · by_cases e2 : i + 1 ≤ j ∧ j < i + 1 + k
      · rw [if_pos e2, if_pos (by omega)]
      · rw [if_neg e2, if_neg e, if_neg (by omega)]

/-- The overload loop ends when the threshold is positive and the rounds allow
`length` doublings; it changes only the overload report and the threshold, and the
threshold stays positive. -/
theorem pop_overload_spec (length : Nat) :
    ∀ (fuel : Nat) (q : message_queue), 0 < q.overload_threshold →
    length ≤ q.overload_threshold * 2 ^ fuel →
    ∃ q', pop_overload length (fuel + 1) q = some q' ∧
      q'.handle = q.handle ∧ q'.cap = q.cap ∧ q'.head = q.head ∧ q'.tail = q.tail ∧
      q'.release = q.release ∧ q'.in_global = q.in_global ∧ q'.queue = q.queue ∧
      q'.next = q.next ∧ 0 < q'.overload_threshold := by
  intro fuel
  induction fuel with
  | zero =>
    intro q hpos hle
    simp only [pow_zero, Nat.mul_one] at hle
    refine ⟨q, ?_, rfl, rfl, rfl, rfl, rfl, rfl, rfl, rfl, hpos⟩
    simp only [pop_overload]
    rw [if_neg (by omega)]
  | succ fuel ih =>
    intro q hpos hle
    by_cases hgt : length > q.overload_threshold
    · obtain ⟨q', e, a1, a2, a3, a4, a5, a6, a7, a8, a9⟩ :=
        ih { q with overload := length, overload_threshold := q.overload_threshold * 2 }
          (by simp only; omega)
          (by simp only; rw [pow_succ] at hle; rw [Nat.mul_assoc, Nat.mul_comm 2]; exact hle)
      refine ⟨q', ?_, a1, a2, a3, a4, a5, a6, a7, a8, a9⟩
      rw [pop_overload, if_pos hgt]; exact e
    · refine ⟨q, ?_, rfl, rfl, rfl, rfl, rfl, rfl, rfl, rfl, hpos⟩
      rw [pop_overload, if_neg hgt]

theorem mq_contents_length (q : message_queue) :
    (mq_contents q).length = skynet_mq_length q := by
  simp [mq_contents]

theorem mq_contents_getD (q : message_queue) (j : Nat) (hj : j < skynet_mq_length q) :
    (mq_contents q).getD j default = q.queue.getD ((q.head + j) % q.cap) default := by
  have hl : j < (mq_contents q).length := by rw [mq_contents_length]; exact hj
  rw [List.getD_eq_getElem _ _ hl]
  simp [mq_contents]

theorem mq_inv_create (handle : Nat) : MqInv (skynet_mq_create handle) := by
  refine ⟨?_, rfl, ?_, ?_, ?_⟩ <;>
    simp [skynet_mq_create, DEFAULT_QUEUE_SIZE, MQ_OVERLOAD]

theorem mq_contents_create (handle : Nat) : mq_contents (skynet_mq_create handle) = [] := rfl

/-- The mailbox of `skynet_mq_push` before the flag `in_global` is looked at. -/
theorem mq_push_core {q : message_queue} (inv : MqInv q) (m : skynet_message)
    (q1 : message_queue)
    (hq1 : q1 = (if q.head = (if q.tail + 1 ≥ q.cap then 0 else q.tail + 1) then
        expand_queue { q with queue := q.queue.set q.tail m,
                              tail := if q.tail + 1 ≥ q.cap then 0 else q.tail + 1 }
        else { q with queue := q.queue.set q.tail m,
                      tail := if q.tail + 1 ≥ q.cap then 0 else q.tail + 1 })) :
    MqInv q1 ∧ mq_contents q1 = mq_contents q ++ [m] := by
  obtain ⟨hc, hl, hh, ht, hth⟩ := inv
  generalize hL : skynet_mq_length q = L
  have hL1 : q.head ≤ q.tail → L = q.tail - q.head := by
    intro h; rw [← hL]; unfold skynet_mq_length; rw [if_pos h]
  have hL2 : q.tail < q.head → L + q.head = q.tail + q.cap := by
    intro h; rw [← hL]; unfold skynet_mq_length; rw [if_neg (by omega)]; omega
  have hcl : (mq_contents q).length = L := by rw [mq_contents_length, hL]
  have hcg : ∀ j, j < L →
      (mq_contents q).getD j default = q.queue.getD ((q.head + j) % q.cap) default :=
    fun j hj => mq_contents_getD q j (by rw [hL]; exact hj)
  have hX : ∀ j, j ≤ L → (q.tail = (q.head + j) % q.cap ↔ j = L) := by
    intro j hj
    rw [mod_wrap _ _ (by omega)]
    by_cases hle : q.head ≤ q.tail
    · have := hL1 hle
      split_ifs <;> constructor <;> intro h <;> omega
    · have := hL2 (by omega)
      split_ifs <;> constructor <;> intro h <;> omega
  have hcell : ∀ j, j ≤ L →
      (q.queue.set q.tail m).getD ((q.head + j) % q.cap) default =
        (mq_contents q ++ [m]).getD j default := by
    intro j hj
    rw [getD_set _ _ _ _ _ (by omega)]
    by_cases hjl : j = L
    · rw [if_pos ((hX j hj).mpr hjl), List.getD_append_right _ _ _ _ (by omega), hcl, hjl,
        Nat.sub_self]
      rfl
    · rw [if_neg (fun h => hjl ((hX j hj).mp h)), List.getD_append _ _ _ _ (by omega),
        hcg j (by omega)]
  have hfin : ∀ q2 : message_queue, skynet_mq_length q2 = L + 1 →
      (∀ j, j ≤ L → q2.queue.getD ((q2.head + j) % q2.cap) default =
        (mq_contents q ++ [m]).getD j default) →
      mq_contents q2 = mq_contents q ++ [m] := by
    intro q2 h1 h2
    apply list_ext_getD _ _ default
    · rw [mq_contents_length, h1, List.length_append, hcl]; rfl
    · intro j hj
      rw [mq_contents_length, h1] at hj
      rw [mq_contents_getD _ _ (by rw [h1]; exact hj)]
      exact h2 j (by omega)
  by_cases hfull : q.head = (if q.tail + 1 ≥ q.cap then 0 else q.tail + 1)
  · rw [if_pos hfull] at hq1
    obtain ⟨e1, e2⟩ := expand_copy_spec
      { q with queue := q.queue.set q.tail m,
               tail := if q.tail + 1 ≥ q.cap then 0 else q.tail + 1 }
      q.cap 0 (List.replicate (q.cap * 2) default) (by simp; omega)
    have hLc : L + 1 = q.cap := by
      by_cases hle : q.head ≤ q.tail
      · have := hL1 hle
        split_ifs at hfull <;> omega
      · have := hL2 (by omega)
        split_ifs at hfull <;> omega
    subst hq1
    refine ⟨⟨by simp only [expand_queue]; omega,
      by simp only [expand_queue]; rw [e1]; simp, by simp only [expand_queue]; omega,
      by simp only [expand_queue]; omega, hth⟩, ?_⟩
    apply hfin
    · simp only [expand_queue, skynet_mq_length]
      rw [if_pos (Nat.zero_le _)]; omega
    · intro j hj
      simp only [expand_queue]
      rw [Nat.zero_add, Nat.mod_eq_of_lt (by omega : j < q.cap * 2), e2 j,
        if_pos (by omega)]
      exact hcell j hj
  · rw [if_neg hfull] at hq1
    subst hq1
    refine ⟨⟨hc, by simp only [List.length_set]; exact hl, hh,
      by simp only; split_ifs <;> omega, hth⟩, ?_⟩
    apply hfin
    · simp only [skynet_mq_length]
      by_cases hle : q.head ≤ q.tail
      · have := hL1 hle
        split_ifs at hfull ⊢ <;> omega
      · have := hL2 (by omega)
        split_ifs at hfull ⊢ <;> omega
    · intro j hj
      exact hcell j hj

/-- The last step of `skynet_mq_push` sets the flag `in_global` when it is 0. -/
theorem mq_push_fst (q : message_queue) (m : skynet_message) (q1 : message_queue)
    (hq1 : q1 = (if q.head = (if q.tail + 1 ≥ q.cap then 0 else q.tail + 1) then
        expand_queue { q with queue := q.queue.set q.tail m,
                              tail := if q.tail + 1 ≥ q.cap then 0 else q.tail + 1 }
        else { q with queue := q.queue.set q.tail m,
                      tail := if q.tail + 1 ≥ q.cap then 0 else q.tail + 1 })) :
    skynet_mq_push q m =
      if q1.in_global = 0 then ({ q1 with in_global := MQ_IN_GLOBAL }, true)
      else (q1, false) := by
  subst hq1
  rfl

/-- A push on a well-formed mailbox appends the message to the messages held, and
keeps the mailbox well formed, with or without a doubling of the array. -/
theorem mq_push_spec {q : message_queue} (inv : MqInv q) (m : skynet_message) :
    MqInv (skynet_mq_push q m).1 ∧
    mq_contents (skynet_mq_push q m).1 = mq_contents q ++ [m] := by
  obtain ⟨q1, hq1⟩ : ∃ q1, q1 =
      (if q.head = (if q.tail + 1 ≥ q.cap then 0 else q.tail + 1) then
        expand_queue { q with queue := q.queue.set q.tail m,
                              tail := if q.tail + 1 ≥ q.cap then 0 else q.tail + 1 }
        else { q with queue := q.queue.set q.tail m,
                      tail := if q.tail + 1 ≥ q.cap then 0 else q.tail + 1 }) := ⟨_, rfl⟩
  obtain ⟨⟨a1, a2, a3, a4, a5⟩, b⟩ := mq_push_core inv m q1 hq1
  rw [mq_push_fst q m q1 hq1]
  by_cases h : q1.in_global = 0
  · rw [if_pos h]
    exact ⟨⟨a1, a2, a3, a4, a5⟩, b⟩
  · rw [if_neg h]
    exact ⟨⟨a1, a2, a3, a4, a5⟩, b⟩

/-- The messages held depend on the array and on the indices only. -/
theorem mq_contents_congr {q1 q2 : message_queue} (h1 : q1.queue = q2.queue)
    (h2 : q1.head = q2.head) (h3 : q1.tail = q2.tail) (h4 : q1.cap = q2.cap) :
    mq_contents q1 = mq_contents q2 := by
  unfold mq_contents skynet_mq_length
  rw [h1, h2, h3, h4]

/-- A pop on a well-formed mailbox: on an empty mailbox it returns 1 and leaves the
caller's message alone; otherwise it returns 0 with the oldest message held, which
leaves the mailbox, and the mailbox stays well formed. -/
theorem mq_pop_spec {q : message_queue} (inv : MqInv q) (m0 : skynet_message) :
    (mq_contents q = [] ∧ q.head = q.tail ∧
      skynet_mq_pop q m0 =
        .ok ({ q with overload_threshold := MQ_OVERLOAD, in_global := 0 }, m0, 1)) ∨
    (∃ m rest q', mq_contents q = m :: rest ∧ q.head ≠ q.tail ∧
      skynet_mq_pop q m0 = .ok (q', m, 0) ∧ MqInv q' ∧ mq_contents q' = rest) := by
  obtain ⟨hc, hl, hh, ht, hth⟩ := inv
  by_cases hemp : q.head = q.tail
  · left
    refine ⟨?_, hemp, ?_⟩
    · unfold mq_contents skynet_mq_length
      rw [if_pos (by omega), hemp, Nat.sub_self]; rfl
    · unfold skynet_mq_pop
      rw [if_neg (by simpa using hemp)]
  · right
    generalize hL : skynet_mq_length q = L
    have hL1 : q.head ≤ q.tail → L = q.tail - q.head := by
      intro h; rw [← hL]; unfold skynet_mq_length; rw [if_pos h]
    have hL2 : q.tail < q.head → L + q.head = q.tail + q.cap := by
      intro h; rw [← hL]; unfold skynet_mq_length; rw [if_neg (by omega)]; omega
    obtain ⟨hd', hhd'⟩ : ∃ hd', hd' = if q.head + 1 ≥ q.cap then 0 else q.head + 1 :=
      ⟨_, rfl⟩
    obtain ⟨len, hlen⟩ : ∃ len, len =
        if q.tail < hd' then q.tail + q.cap - hd' else q.tail - hd' := ⟨_, rfl⟩
    have hlenL : len + 1 = L := by
      by_cases hle : q.head ≤ q.tail
      · have := hL1 hle
        rw [hlen, hhd']; split_ifs <;> omega
      · have := hL2 (by omega)
        rw [hlen, hhd']; split_ifs <;> omega
    have hpow : len ≤ q.overload_threshold * 2 ^ len := by
      have h1 : len < 2 ^ len := Nat.lt_two_pow len
      have h2 : 2 ^ len ≤ q.overload_threshold * 2 ^ len :=
        Nat.le_mul_of_pos_left _ hth
      omega
    obtain ⟨q', e, _, a2, a3, a4, _, _, a7, _, a9⟩ :=
      pop_overload_spec len len { q with head := hd' } hth hpow
    simp only at a2 a3 a4 a7
    have hpop : skynet_mq_pop q m0 = .ok (q', q.queue.getD q.head default, 0) := by
      unfold skynet_mq_pop
      rw [if_pos hemp]
      simp only
      rw [← hhd', ← hlen, e]
    have hlen' : skynet_mq_length q' = len := by
      unfold skynet_mq_length
      rw [a3, a4, a2, hlen]
      by_cases hlt : q.tail < hd'
      · rw [if_neg (by omega), if_pos hlt]
      · rw [if_pos (by omega), if_neg hlt]
    have hhd'lt : hd' < q.cap := by rw [hhd']; split_ifs <;> omega
    refine ⟨q.queue.getD q.head default, mq_contents q', q', ?_, hemp, hpop,
      ⟨by rw [a2]; exact hc, by rw [a7, a2]; exact hl, by rw [a3, a2]; exact hhd'lt,
        by rw [a4, a2]; exact ht, a9⟩, rfl⟩
    apply list_ext_getD _ _ default
    · rw [mq_contents_length, List.length_cons, mq_contents_length, hL, hlen']
      omega
    · intro j hj
      rw [mq_contents_length, hL] at hj
      rw [mq_contents_getD _ _ (by rw [hL]; exact hj)]
      cases j with
      | zero =>
        rw [Nat.add_zero, Nat.mod_eq_of_lt hh]; rfl
      | succ k =>
        rw [List.getD_cons_succ, mq_contents_getD _ _ (by rw [hlen']; omega), a7, a3, a2]
        congr 1
        rw [mod_wrap _ _ (by omega), mod_wrap _ _ (by omega), hhd']
        by_cases hle : q.head ≤ q.tail
        · have := hL1 hle
          split_ifs <;> omega
        · have := hL2 (by omega)
          split_ifs <;> omega

/-- Any calls on a well-formed mailbox return, keep it well formed, and hand out the
messages in the order of their arrival: the messages held before followed by the
messages pushed are the messages popped followed by the messages held after. -/
theorem mq_run_spec : ∀ (ops : List MqOp) (q : message_queue), MqInv q →
    ∃ q' out, mq_run q ops = .ok (q', out) ∧ MqInv q' ∧
      mq_contents q ++ mq_pushed ops = out ++ mq_contents q' := by
  intro ops
  induction ops with
  | nil =>
    intro q inv
    exact ⟨q, [], rfl, inv, by simp [mq_pushed]⟩
  | cons op ops ih =>
    intro q inv
    cases op with
    | push m =>
      obtain ⟨inv1, hc1⟩ := mq_push_spec inv m
      obtain ⟨q', out, e, inv', hc'⟩ := ih _ inv1
      refine ⟨q', out, ?_, inv', ?_⟩
      · simp only [mq_run]; exact e
      · rw [hc1, List.append_assoc] at hc'
        simpa [mq_pushed] using hc'
    | pop =>
      rcases mq_pop_spec inv default with ⟨hemp, _, hpop⟩ | ⟨m, rest, q1, hne, _, hpop, inv1, hc1⟩
      · have inv1 : MqInv { q with overload_threshold := MQ_OVERLOAD, in_global := 0 } :=
          ⟨inv.cap_pos, inv.len, inv.head_lt, inv.tail_lt, by simp [MQ_OVERLOAD]⟩
        obtain ⟨q', out, e, inv', hc'⟩ := ih _ inv1
        refine ⟨q', out, ?_, inv', ?_⟩
        · simp only [mq_run, hpop, e]
          simp
        · have : mq_contents { q with overload_threshold := MQ_OVERLOAD, in_global := 0 } =
              mq_contents q := mq_contents_congr rfl rfl rfl rfl
          rw [this] at hc'
          simpa [mq_pushed] using hc'
      · obtain ⟨q', out, e, inv', hc'⟩ := ih _ inv1
        refine ⟨q', m :: out, ?_, inv', ?_⟩
        · simp only [mq_run, hpop, e]
          simp
        · rw [hne, ← hc1]
          simp only [mq_pushed, List.cons_append, List.cons.injEq, true_and]
          exact hc'

/-! ## Size of the values of a mailbox -/

/-- What the overload loop leaves, when it ends: the fields other than the report
and the threshold are unchanged, and the threshold has grown to at most twice the
length. -/
theorem pop_overload_fields (length : Nat) :
    ∀ (fuel : Nat) (q q' : message_queue), pop_overload length fuel q = some q' →
    q'.cap = q.cap ∧ q'.head = q.head ∧ q'.tail = q.tail ∧ q'.queue = q.queue ∧
    q'.in_global = q.in_global ∧ q'.release = q.release ∧
    q.overload_threshold ≤ q'.overload_threshold ∧
    q'.overload_threshold ≤ max q.overload_threshold (2 * length) := by
  intro fuel
  induction fuel with
  | zero => intro q q' H; simp [pop_overload] at H
  | succ fuel ih =>
    intro q q' H
    rw [pop_overload] at H
    by_cases hgt : length > q.overload_threshold
    · rw [if_pos hgt] at H
      obtain ⟨a1, a2, a3, a4, a5, a6, a7, a8⟩ := ih _ q' H
      simp only at a1 a2 a3 a4 a5 a6 a7 a8
      refine ⟨a1, a2, a3, a4, a5, a6, by omega, ?_⟩
      have : max (q.overload_threshold * 2) (2 * length) = 2 * length := by
        apply max_eq_right; omega
      rw [this] at a8
      exact le_trans a8 (le_max_right _ _)
    · rw [if_neg hgt] at H
      cases H
      exact ⟨rfl, rfl, rfl, rfl, rfl, rfl, le_refl _, le_max_left _ _⟩

/-- A push keeps the threshold, and keeps the capacity unless the array is full
after it, in which case the capacity doubles. -/
theorem mq_push_cap (q : message_queue) (m : skynet_message) :
    (skynet_mq_push q m).1.overload_threshold = q.overload_threshold ∧
    ((skynet_mq_push q m).1.cap = q.cap ∨
      ((skynet_mq_push q m).1.cap = q.cap * 2 ∧
        q.head = (if q.tail + 1 ≥ q.cap then 0 else q.tail + 1))) := by
  obtain ⟨t', ht'⟩ : ∃ t', t' = (if q.tail + 1 ≥ q.cap then 0 else q.tail + 1) :=
    ⟨_, rfl⟩
  obtain ⟨q1, hq1⟩ : ∃ q1, q1 =
      (if q.head = t' then
        expand_queue { q with queue := q.queue.set q.tail m, tail := t' }
        else { q with queue := q.queue.set q.tail m, tail := t' }) := ⟨_, rfl⟩
  have e := mq_push_fst q m q1 (by rw [hq1, ht'])
  have hc : q1.overload_threshold = q.overload_threshold ∧
      (q1.cap = q.cap ∨ (q1.cap = q.cap * 2 ∧ q.head = t')) := by
    rw [hq1]
    by_cases hfull : q.head = t'
    · rw [if_pos hfull]; exact ⟨rfl, Or.inr ⟨rfl, hfull⟩⟩
    · rw [if_neg hfull]; exact ⟨rfl, Or.inl rfl⟩
  rw [e, ← ht']
  by_cases h : q1.in_global = 0
  · rw [if_pos h]; exact hc
  · rw [if_neg h]; exact hc

/-- A pop keeps the capacity, and leaves a threshold that is the old one, the
initial one, or less than twice the number of messages held. -/
theorem mq_pop_cap {q : message_queue} (inv : MqInv q) (m0 : skynet_message)
    (q' : message_queue) (m : skynet_message) (ret : Nat)
    (H : skynet_mq_pop q m0 = .ok (q', m, ret)) :
    q'.cap = q.cap ∧
    q'.overload_threshold ≤
      max (max q.overload_threshold MQ_OVERLOAD) (2 * skynet_mq_length q) := by
  unfold skynet_mq_pop at H
  by_cases hemp : q.head = q.tail
  · rw [if_neg (by simpa using hemp)] at H
    simp only [Except.ok.injEq, Prod.mk.injEq] at H
    obtain ⟨rfl, _, _⟩ := H
    exact ⟨rfl, le_trans (le_max_right _ _) (le_max_left _ _)⟩
  · rw [if_pos hemp] at H
    simp only at H
    obtain ⟨len, hlen⟩ : ∃ len, len =
        (if q.tail < (if q.head + 1 ≥ q.cap then 0 else q.head + 1) then
          q.tail + q.cap - (if q.head + 1 ≥ q.cap then 0 else q.head + 1)
        else q.tail - (if q.head + 1 ≥ q.cap then 0 else q.head + 1)) := ⟨_, rfl⟩
    rw [← hlen] at H
    cases hp : pop_overload len (len + 1)
        { q with head := if q.head + 1 ≥ q.cap then 0 else q.head + 1 } with
    | none => rw [hp] at H; cases H
    | some q1 =>
      rw [hp] at H
      simp only [Except.ok.injEq, Prod.mk.injEq] at H
      obtain ⟨rfl, _, _⟩ := H
      obtain ⟨a1, _, _, _, _, _, _, a8⟩ := pop_overload_fields len _ _ _ hp
      simp only at a1 a8
      refine ⟨a1, le_trans a8 ?_⟩
      have hll : len ≤ skynet_mq_length q := by
        have h1 := inv.head_lt
        have h2 := inv.tail_lt
        rw [hlen]; unfold skynet_mq_length
        split_ifs <;> omega
      have h1 : q.overload_threshold ≤
          max (max q.overload_threshold MQ_OVERLOAD) (2 * skynet_mq_length q) :=
        le_trans (le_max_left _ _) (le_max_left _ _)
      have h2 : 2 * len ≤
          max (max q.overload_threshold MQ_OVERLOAD) (2 * skynet_mq_length q) :=
        le_trans (by omega) (le_max_right _ _)
      exact max_le h1 h2

/-- The capacity and the threshold of a mailbox stay within twice the number of
messages pushed into it, or at their initial values: in a run of fewer than `2 ^ 29`
pushes from `skynet_mq_create` no `int` of the mailbox goes beyond `2 ^ 30`, and the
natural numbers of this model are the values of the code. -/
theorem mq_run_bound : ∀ (ops : List MqOp) (q : message_queue) (P : Nat), MqInv q →
    (mq_contents q).length ≤ P → q.cap ≤ max DEFAULT_QUEUE_SIZE (2 * P) →
    q.overload_threshold ≤ max MQ_OVERLOAD (2 * P) →
    ∀ q' out, mq_run q ops = .ok (q', out) →
      q'.cap ≤ max DEFAULT_QUEUE_SIZE (2 * (P + (mq_pushed ops).length)) ∧
      q'.overload_threshold ≤ max MQ_OVERLOAD (2 * (P + (mq_pushed ops).length)) := by
  intro ops
  induction ops with
  | nil =>
    intro q P _ _ hcap hth q' out H
    simp only [mq_run, Except.ok.injEq, Prod.mk.injEq] at H
    obtain ⟨rfl, _⟩ := H
    simp only [mq_pushed, List.length_nil, Nat.add_zero]
    exact ⟨hcap, hth⟩
  | cons op ops ih =>
    intro q P inv hlen hcap hth q' out H
    cases op with
    | push m =>
      simp only [mq_run] at H
      obtain ⟨inv1, hc1⟩ := mq_push_spec inv m
      obtain ⟨t1, c1⟩ := mq_push_cap q m
      have hlen1 : (mq_contents (skynet_mq_push q m).1).length ≤ P + 1 := by
        rw [hc1, List.length_append]; simpa using hlen
      have hlenq : (mq_contents (skynet_mq_push q m).1).length < (skynet_mq_push q m).1.cap := by
        rw [mq_contents_length]
        have h1 := inv1.head_lt
        have h2 := inv1.tail_lt
        unfold skynet_mq_length; split_ifs <;> omega
      have hcap1 : (skynet_mq_push q m).1.cap ≤ max DEFAULT_QUEUE_SIZE (2 * (P + 1)) := by
        rcases c1 with e | ⟨e, hfull⟩
        · rw [e]; exact le_trans hcap (max_le_max (le_refl _) (by omega))
        · have hL : skynet_mq_length q + 1 = q.cap := by
            have h1 := inv.head_lt
            have h2 := inv.tail_lt
            unfold skynet_mq_length
            split_ifs at hfull ⊢ <;> omega
          rw [mq_contents_length] at hlen
          rw [e]
          exact le_trans (by omega) (le_max_right _ _)
      have hth1 : (skynet_mq_push q m).1.overload_threshold ≤ max MQ_OVERLOAD (2 * (P + 1)) := by
        rw [t1]; exact le_trans hth (max_le_max (le_refl _) (by omega))
      have := ih _ (P + 1) inv1 hlen1 hcap1 hth1 q' out H
      have e : P + (mq_pushed (MqOp.push m :: ops)).length =
          P + 1 + (mq_pushed ops).length := by
        simp only [mq_pushed, List.length_cons]; omega
      rw [e]; exact this
    | pop =>
      simp only [mq_run] at H
      cases hp : skynet_mq_pop q default with
      | error e => rw [hp] at H; cases H
      | ok r =>
        obtain ⟨q1, m, ret⟩ := r
        rw [hp] at H
        simp only at H
        cases hr : mq_run q1 ops with
        | error e => rw [hr] at H; cases H
        | ok r2 =>
          obtain ⟨q2, out2⟩ := r2
          rw [hr] at H
          simp only [Except.ok.injEq, Prod.mk.injEq] at H
          obtain ⟨rfl, _⟩ := H
          obtain ⟨c1, t1⟩ := mq_pop_cap inv default q1 m ret hp
          have hinv1 : MqInv q1 ∧ (mq_contents q1).length ≤ P := by
            rcases mq_pop_spec inv default with ⟨hemp, _, e⟩ | ⟨m', rest, q1', hne, _, e, i1, hc⟩
            · rw [hp] at e
              simp only [Except.ok.injEq, Prod.mk.injEq] at e
              obtain ⟨rfl, _, _⟩ := e
              refine ⟨⟨inv.cap_pos, inv.len, inv.head_lt, inv.tail_lt,
                by simp [MQ_OVERLOAD]⟩, ?_⟩
              have : mq_contents { q with overload_threshold := MQ_OVERLOAD,
                                          in_global := 0 } = mq_contents q :=
                mq_contents_congr rfl rfl rfl rfl
              rw [this]; exact hlen
            · rw [hp] at e
              simp only [Except.ok.injEq, Prod.mk.injEq] at e
              obtain ⟨rfl, _, _⟩ := e
              refine ⟨i1, ?_⟩
              rw [hne, List.length_cons, ← hc] at hlen
              omega
          have hcap1 : q1.cap ≤ max DEFAULT_QUEUE_SIZE (2 * P) := by rw [c1]; exact hcap
          have hth1 : q1.overload_threshold ≤ max MQ_OVERLOAD (2 * P) := by
            refine le_trans t1 (max_le (max_le hth (le_max_left _ _)) ?_)
            rw [mq_contents_length] at hlen
            exact le_trans (by omega) (le_max_right _ _)
          exact ih q1 P hinv1.1 hinv1.2 hcap1 hth1 q2 out2 hr

/-- From `skynet_mq_create` on, the capacity stays within the larger of 64 and twice
the number of pushes, and the threshold within the larger of 1024 and that number. -/
theorem mailbox_values_bounded (handle : Nat) (ops : List MqOp) (q : message_queue)
    (out : List skynet_message) (H : mq_run (skynet_mq_create handle) ops = .ok (q, out)) :
    q.cap ≤ max DEFAULT_QUEUE_SIZE (2 * (mq_pushed ops).length) ∧
    q.overload_threshold ≤ max MQ_OVERLOAD (2 * (mq_pushed ops).length) := by
  have := mq_run_bound ops _ 0 (mq_inv_create handle)
    (by rw [mq_contents_create]; exact le_refl _)
    (le_max_left _ _) (le_max_left _ _) q out H
  rw [Nat.zero_add] at this
  exact this

/-! ## The claim on the order of the messages -/

/-- C10. For any interleaving of `skynet_mq_push` and `skynet_mq_pop` on a mailbox
made by `skynet_mq_create`, every call returns, and the messages returned by the
successful pops are, in order, a prefix of the sequence of the pushed messages; the
pushed messages that have not been popped are exactly the messages the mailbox
holds, in the order of their arrival. The interleaving is arbitrary, so it covers
the wrap of the indices and the doublings of `expand_queue`. -/
theorem mailbox_fifo (handle : Nat) (ops : List MqOp) :
    ∃ q out, mq_run (skynet_mq_create handle) ops = .ok (q, out) ∧
      out <+: mq_pushed ops ∧ out ++ mq_contents q = mq_pushed ops := by
  obtain ⟨q, out, e, _, hc⟩ := mq_run_spec ops _ (mq_inv_create handle)
  rw [mq_contents_create, List.nil_append] at hc
  exact ⟨q, out, e, ⟨mq_contents q, hc.symm⟩, hc.symm⟩

/-! ## The claims on the length and on the flag of a mailbox -/

/-- The length computed by `skynet_mq_length` is `tail - head` modulo `cap`. -/
theorem mq_length_mod {q : message_queue} (inv : MqInv q) :
    (skynet_mq_length q : Int) = ((q.tail : Int) - (q.head : Int)) % (q.cap : Int) ∧
    skynet_mq_length q ≤ q.cap - 1 := by
  have h1 := inv.head_lt
  have h2 := inv.tail_lt
  unfold skynet_mq_length
  by_cases hle : q.head ≤ q.tail
  · rw [if_pos hle]
    refine ⟨?_, by omega⟩
    rw [Int.emod_eq_of_lt (by omega) (by omega)]
    omega
  · rw [if_neg hle]
    refine ⟨?_, by omega⟩
    rw [← Int.add_emod_self, Int.emod_eq_of_lt (by omega) (by omega)]
    omega

/-- C11. In every mailbox state reached from `skynet_mq_create` by pushes and pops,
`skynet_mq_length` returns the number of messages pushed and not yet popped, that is
the number of pushes minus the number of pops that returned a message; this number
is `(tail - head) mod cap` and lies between 0 and `cap - 1`. -/
theorem mq_length_counts (handle : Nat) (ops : List MqOp) :
    ∃ q out, mq_run (skynet_mq_create handle) ops = .ok (q, out) ∧
      skynet_mq_length q + out.length = (mq_pushed ops).length ∧
      skynet_mq_length q = (mq_pushed ops).length - out.length ∧
      (skynet_mq_length q : Int) = ((q.tail : Int) - (q.head : Int)) % (q.cap : Int) ∧
      skynet_mq_length q ≤ q.cap - 1 := by
  obtain ⟨q, out, e, inv, hc⟩ := mq_run_spec ops _ (mq_inv_create handle)
  rw [mq_contents_create, List.nil_append] at hc
  have hl : (mq_pushed ops).length = out.length + skynet_mq_length q := by
    rw [hc, List.length_append, mq_contents_length]
  obtain ⟨m1, m2⟩ := mq_length_mod inv
  exact ⟨q, out, e, by omega, by omega, m1, m2⟩

/-! ## The claims on the flag, the pop and the overload reports of a mailbox -/

/-- The result of the overload loop: nothing changes when the length is within the
threshold; otherwise the length is recorded and the threshold is doubled as often
as it takes to reach the length. -/
theorem pop_overload_result (L : Nat) :
    ∀ (fuel : Nat) (q q' : message_queue), pop_overload L fuel q = some q' →
    (L ≤ q.overload_threshold → q' = q) ∧
    (q.overload_threshold < L → q'.overload = L ∧
      ∃ k, 1 ≤ k ∧ q'.overload_threshold = q.overload_threshold * 2 ^ k ∧
        L ≤ q.overload_threshold * 2 ^ k ∧ q.overload_threshold * 2 ^ (k - 1) < L) := by
  intro fuel
  induction fuel with
  | zero => intro q q' H; simp [pop_overload] at H
  | succ fuel ih =>
    intro q q' H
    rw [pop_overload] at H
    by_cases hgt : L > q.overload_threshold
    · rw [if_pos hgt] at H
      obtain ⟨a1, a2⟩ := ih _ q' H
      simp only at a1 a2
      refine ⟨fun h => absurd h (by omega), fun _ => ?_⟩
      by_cases h2 : L ≤ q.overload_threshold * 2
      · have e := a1 h2
        subst e
        exact ⟨rfl, 1, le_refl _, by simp, by simpa using h2, by simpa using hgt⟩
      · obtain ⟨b1, k, hk, b2, b3, b4⟩ := a2 (by omega)
        refine ⟨b1, k + 1, by omega, ?_, ?_, ?_⟩
        · rw [b2, pow_succ]; ring
        · rw [pow_succ]; rw [Nat.mul_assoc, Nat.mul_comm 2] at b3
          rw [← Nat.mul_assoc]; rw [← Nat.mul_assoc] at b3; exact b3
        · obtain ⟨j, rfl⟩ : ∃ j, k = j + 1 := ⟨k - 1, by omega⟩
          simp only [Nat.add_sub_cancel] at b4 ⊢
          rw [pow_succ]
          rw [Nat.mul_assoc, Nat.mul_comm 2] at b4
          rw [← Nat.mul_assoc]; rw [← Nat.mul_assoc] at b4; exact b4
    · rw [if_neg hgt] at H
      cases H
      exact ⟨fun _ => rfl, fun h => absurd h (by omega)⟩

/-- A pop on a mailbox that holds a message, when the overload loop ends: the
message at `head` is returned with the value 0, `head` moves one cell on, and only
the overload report and the threshold may change besides. -/
theorem mq_pop_nonempty {q : message_queue} (inv : MqInv q) (m0 : skynet_message)
    (hne : q.head ≠ q.tail) :
    ∃ q', skynet_mq_pop q m0 = .ok (q', q.queue.getD q.head default, 0) ∧
      MqInv q' ∧ skynet_mq_length q' + 1 = skynet_mq_length q ∧
      q'.head = (if q.head + 1 ≥ q.cap then 0 else q.head + 1) ∧
      q'.tail = q.tail ∧ q'.cap = q.cap ∧ q'.queue = q.queue ∧
      q'.in_global = q.in_global ∧ q'.release = q.release ∧ q'.handle = q.handle ∧
      q'.next = q.next ∧
      pop_overload (skynet_mq_length q') (skynet_mq_length q' + 1)
        { q with head := if q.head + 1 ≥ q.cap then 0 else q.head + 1 } = some q' := by
  obtain ⟨hc, hl, hh, ht, hth⟩ := inv
  obtain ⟨hd', hhd'⟩ : ∃ hd', hd' = if q.head + 1 ≥ q.cap then 0 else q.head + 1 :=
    ⟨_, rfl⟩
  obtain ⟨len, hlen⟩ : ∃ len, len =
      if q.tail < hd' then q.tail + q.cap - hd' else q.tail - hd' := ⟨_, rfl⟩
  have hlenL : len + 1 = skynet_mq_length q := by
    unfold skynet_mq_length
    rw [hlen, hhd']; split_ifs <;> omega
  have hpow : len ≤ q.overload_threshold * 2 ^ len := by
    have h1 : len < 2 ^ len := Nat.lt_two_pow len
    have h2 : 2 ^ len ≤ q.overload_threshold * 2 ^ len := Nat.le_mul_of_pos_left _ hth
    omega
  obtain ⟨q', e, a1, a2, a3, a4, a5, a6, a7, a8, a9⟩ :=
    pop_overload_spec len len { q with head := hd' } hth hpow
  simp only at a1 a2 a3 a4 a5 a6 a7 a8
  have hlen' : skynet_mq_length q' = len := by
    unfold skynet_mq_length
    rw [a3, a4, a2, hlen]
    by_cases hlt : q.tail < hd'
    · rw [if_neg (by omega), if_pos hlt]
    · rw [if_pos (by omega), if_neg hlt]
  have hhd'lt : hd' < q.cap := by rw [hhd']; split_ifs <;> omega
  refine ⟨q', ?_, ⟨by rw [a2]; exact hc, by rw [a7, a2]; exact hl,
    by rw [a3, a2]; exact hhd'lt, by rw [a4, a2]; exact ht, a9⟩, by rw [hlen']; exact hlenL,
    a3.trans hhd', a4, a2, a7, a6, a5, a1, a8, ?_⟩
  · unfold skynet_mq_pop
    rw [if_pos hne]
    simp only
    rw [← hhd', ← hlen, e]
  · rw [hlen', ← hhd']; exact e

/-- A push changes the array and the indices only, apart from the flag `in_global`,
which it sets when it is 0, handing the mailbox to `skynet_globalmq_push` then and
only then. -/
theorem mq_push_keeps (q : message_queue) (m : skynet_message) :
    (skynet_mq_push q m).1.overload = q.overload ∧
    (skynet_mq_push q m).1.release = q.release ∧
    (skynet_mq_push q m).1.handle = q.handle ∧
    (skynet_mq_push q m).1.next = q.next ∧
    (skynet_mq_push q m).1.in_global =
      (if q.in_global = 0 then MQ_IN_GLOBAL else q.in_global) ∧
    ((skynet_mq_push q m).2 = true ↔ q.in_global = 0) := by
  obtain ⟨t', ht'⟩ : ∃ t', t' = (if q.tail + 1 ≥ q.cap then 0 else q.tail + 1) :=
    ⟨_, rfl⟩
  obtain ⟨q1, hq1⟩ : ∃ q1, q1 =
      (if q.head = t' then
        expand_queue { q with queue := q.queue.set q.tail m, tail := t' }
        else { q with queue := q.queue.set q.tail m, tail := t' }) := ⟨_, rfl⟩
  have e := mq_push_fst q m q1 (by rw [hq1, ht'])
  have hc : q1.overload = q.overload ∧ q1.release = q.release ∧ q1.handle = q.handle ∧
      q1.next = q.next ∧ q1.in_global = q.in_global := by
    rw [hq1]
    by_cases hfull : q.head = t'
    · rw [if_pos hfull]; exact ⟨rfl, rfl, rfl, rfl, rfl⟩
    · rw [if_neg hfull]; exact ⟨rfl, rfl, rfl, rfl, rfl⟩
  obtain ⟨c1, c2, c3, c4, c5⟩ := hc
  rw [e]
  by_cases h : q1.in_global = 0
  · rw [if_pos h, if_pos (c5 ▸ h)]
    exact ⟨c1, c2, c3, c4, rfl, by simp [← c5, h]⟩
  · rw [if_neg h, if_neg (c5 ▸ h)]
    exact ⟨c1, c2, c3, c4, c5, by simp [← c5, h]⟩

/-- What a pop that returns leaves of the flag `in_global`: 0 with the value 1
returned, the old flag with the value 0 returned, and no other value is returned. -/
theorem mq_pop_flag (q : message_queue) (m0 : skynet_message) (q' : message_queue)
    (m : skynet_message) (ret : Nat) (H : skynet_mq_pop q m0 = .ok (q', m, ret)) :
    (ret = 1 ∧ q.head = q.tail ∧ q'.in_global = 0) ∨
    (ret = 0 ∧ q.head ≠ q.tail ∧ q'.in_global = q.in_global ∧
      m = q.queue.getD q.head default) := by
  unfold skynet_mq_pop at H
  by_cases hemp : q.head = q.tail
  · rw [if_neg (by simpa using hemp)] at H
    simp only [Except.ok.injEq, Prod.mk.injEq] at H
    obtain ⟨rfl, _, rfl⟩ := H
    exact Or.inl ⟨rfl, hemp, rfl⟩
  · rw [if_pos hemp] at H
    simp only at H
    obtain ⟨len, hlen⟩ : ∃ len, len =
        (if q.tail < (if q.head + 1 ≥ q.cap then 0 else q.head + 1)
          then q.tail + q.cap - (if q.head + 1 ≥ q.cap then 0 else q.head + 1)
          else q.tail - (if q.head + 1 ≥ q.cap then 0 else q.head + 1)) := ⟨_, rfl⟩
    rw [← hlen] at H
    cases hp : pop_overload len (len + 1)
        { q with head := if q.head + 1 ≥ q.cap then 0 else q.head + 1 } with
    | none => rw [hp] at H; cases H
    | some q2 =>
      rw [hp] at H
      simp only [Except.ok.injEq, Prod.mk.injEq] at H
      obtain ⟨rfl, rfl, rfl⟩ := H
      obtain ⟨_, _, _, _, a5, _⟩ := pop_overload_fields len _ _ _ hp
      exact Or.inr ⟨rfl, hemp, a5, rfl⟩

/-- Pushes with no pop in between append the messages in their order and leave the
overload report, the threshold and the release flag alone. -/
theorem mq_push_many_spec : ∀ (msgs : List skynet_message) (q : message_queue), MqInv q →
    MqInv (mq_push_many q msgs) ∧
    mq_contents (mq_push_many q msgs) = mq_contents q ++ msgs ∧
    (mq_push_many q msgs).overload = q.overload ∧
    (mq_push_many q msgs).overload_threshold = q.overload_threshold ∧
    (mq_push_many q msgs).release = q.release := by
  intro msgs
  induction msgs with
  | nil => intro q inv; exact ⟨inv, by simp [mq_push_many], rfl, rfl, rfl⟩
  | cons m msgs ih =>
    intro q inv
    obtain ⟨i1, c1⟩ := mq_push_spec inv m
    obtain ⟨k1, k2, _, _, _, _⟩ := mq_push_keeps q m
    obtain ⟨a1, a2, a3, a4, a5⟩ := ih _ i1
    simp only [mq_push_many]
    refine ⟨a1, ?_, a3.trans k1, a4.trans (mq_push_cap q m).1, a5.trans k2⟩
    rw [a2, c1, List.append_assoc]; rfl

/-- The mailbox after `n` pushes into a fresh mailbox: well formed, `n` default
messages long, with no overload report and the initial threshold. -/
theorem mq_flood_spec (n : Nat) :
    MqInv (mq_flood n) ∧ mq_contents (mq_flood n) = List.replicate n default ∧
    skynet_mq_length (mq_flood n) = n ∧ (mq_flood n).overload = 0 ∧
    (mq_flood n).overload_threshold = MQ_OVERLOAD := by
  obtain ⟨a1, a2, a3, a4, _⟩ :=
    mq_push_many_spec (List.replicate n default) _ (mq_inv_create 0)
  rw [mq_contents_create, List.nil_append] at a2
  refine ⟨a1, a2, ?_, a3, a4⟩
  have := mq_contents_length (mq_flood n)
  unfold mq_flood at this ⊢
  rw [a2, List.length_replicate] at this
  exact this.symm

/-- A mailbox that holds a message has `head` and `tail` apart. -/
theorem mq_length_pos_ne {q : message_queue} (h : 0 < skynet_mq_length q) :
    q.head ≠ q.tail := by
  intro e
  unfold skynet_mq_length at h
  rw [if_pos (by omega), e] at h
  omega

/-- C13. `skynet_mq_pop` on an empty mailbox (head = tail) returns 1, sets
`in_global` to 0, resets `overload_threshold` to 1024 and changes nothing else: the
caller's message, head, tail, capacity, the array and the pending overload report
are untouched. On a mailbox with head and tail apart every pop that returns returns
0 with the message at head and the flag `in_global` as it was, and on a well-formed
mailbox the pop does return. -/
theorem pop_empty_clears_flag (q : message_queue) (m0 : skynet_message) :
    (q.head = q.tail →
      ∃ q', skynet_mq_pop q m0 = .ok (q', m0, 1) ∧
        q' = { q with overload_threshold := 1024, in_global := 0 } ∧
        q'.in_global = 0 ∧ q'.overload_threshold = 1024 ∧
        q'.head = q.head ∧ q'.tail = q.tail ∧ q'.cap = q.cap ∧
        q'.overload = q.overload ∧ q'.queue = q.queue ∧ q'.release = q.release ∧
        q'.handle = q.handle ∧ q'.next = q.next) ∧
    (q.head ≠ q.tail → ∀ q' m ret, skynet_mq_pop q m0 = .ok (q', m, ret) →
      ret = 0 ∧ m = q.queue.getD q.head default ∧ q'.in_global = q.in_global) ∧
    (q.head ≠ q.tail → MqInv q →
      ∃ q', skynet_mq_pop q m0 = .ok (q', q.queue.getD q.head default, 0) ∧
        q'.in_global = q.in_global) := by
  refine ⟨fun hemp => ?_, fun hne q' m ret H => ?_, fun hne inv => ?_⟩
  · refine ⟨_, ?_, rfl, rfl, rfl, rfl, rfl, rfl, rfl, rfl, rfl, rfl, rfl⟩
    unfold skynet_mq_pop
    rw [if_neg (by simpa using hemp)]
    rfl
  · rcases mq_pop_flag q m0 q' m ret H with ⟨_, h, _⟩ | ⟨h1, _, h3, h4⟩
    · exact absurd h hne
    · exact ⟨h1, h4, h3⟩
  · obtain ⟨q', e, _, _, _, _, _, _, hg, _⟩ := mq_pop_nonempty inv m0 hne
    exact ⟨q', e, hg⟩

/-- The empty case at a fresh mailbox and the other case after one push. -/
theorem pop_empty_clears_flag_witness :
    (∃ q', skynet_mq_pop (skynet_mq_create 7) ⟨1, 2, 3, 4⟩ = .ok (q', ⟨1, 2, 3, 4⟩, 1) ∧
      q' = { skynet_mq_create 7 with overload_threshold := 1024, in_global := 0 }) ∧
    (∃ q', skynet_mq_pop (skynet_mq_push (skynet_mq_create 7) ⟨1, 2, 3, 4⟩).1 default =
        .ok (q', ⟨1, 2, 3, 4⟩, 0) ∧ q'.in_global = 1) := by
  refine ⟨?_, ?_⟩
  · obtain ⟨q', e, h, _⟩ :=
      (pop_empty_clears_flag (skynet_mq_create 7) ⟨1, 2, 3, 4⟩).1 rfl
    exact ⟨q', e, h⟩
  · exact
      (pop_empty_clears_flag (skynet_mq_push (skynet_mq_create 7) ⟨1, 2, 3, 4⟩).1
        default).2.2 (by decide) (mq_push_spec (mq_inv_create 7) _).1

/-- The first pop after `n + 1` pushes into a fresh mailbox returns a default
message and leaves `n` messages; the overload loop starts from the threshold 1024
with no report pending. -/
theorem mq_flood_pop (n : Nat) :
    ∃ q', skynet_mq_pop (mq_flood (n + 1)) default = .ok (q', default, 0) ∧
      MqInv q' ∧ skynet_mq_length q' = n ∧
      (n ≤ MQ_OVERLOAD → q'.overload = 0 ∧ q'.overload_threshold = MQ_OVERLOAD) ∧
      (MQ_OVERLOAD < n → q'.overload = n ∧
        ∃ k, 1 ≤ k ∧ q'.overload_threshold = MQ_OVERLOAD * 2 ^ k ∧
          n ≤ MQ_OVERLOAD * 2 ^ k ∧ MQ_OVERLOAD * 2 ^ (k - 1) < n) := by
  obtain ⟨inv, hc, hl, ho, ht⟩ := mq_flood_spec (n + 1)
  have hne : (mq_flood (n + 1)).head ≠ (mq_flood (n + 1)).tail :=
    mq_length_pos_ne (by omega)
  obtain ⟨q', e, inv', hlen, _, _, _, _, _, _, _, _, hp⟩ := mq_pop_nonempty inv default hne
  have hm : (mq_flood (n + 1)).queue.getD (mq_flood (n + 1)).head default = default := by
    have h0 := mq_contents_getD (mq_flood (n + 1)) 0 (by omega)
    rw [hc] at h0
    have hmod : ((mq_flood (n + 1)).head + 0) % (mq_flood (n + 1)).cap =
        (mq_flood (n + 1)).head := Nat.mod_eq_of_lt inv.head_lt
    rw [hmod] at h0
    rw [← h0]
    simp [List.getD_eq_getElem?_getD, List.getElem?_replicate]
  rw [hm] at e
  have hlen' : skynet_mq_length q' = n := by omega
  obtain ⟨r1, r2⟩ := pop_overload_result _ _ _ _ hp
  simp only at r1 r2
  rw [hlen', ht] at r1 r2
  rw [ho] at r1
  refine ⟨q', e, inv', hlen', fun h => ?_, r2⟩
  have := r1 h
  subst this
  exact ⟨rfl, rfl⟩

/-- C14, the case that differs: after 3000 pushes into a fresh mailbox the first
pop leaves the length 2999 above the threshold 1024, records 2999 and leaves the
threshold 4096, which is not twice 1024. -/
theorem pop_threshold_not_doubled :
    (mq_flood 3000).overload_threshold = 1024 ∧
    ∃ q', skynet_mq_pop (mq_flood 3000) default = .ok (q', default, 0) ∧
      skynet_mq_length q' = 2999 ∧ q'.overload = 2999 ∧
      q'.overload_threshold = 4096 ∧
      q'.overload_threshold ≠ 2 * (mq_flood 3000).overload_threshold := by
  have ht := (mq_flood_spec 3000).2.2.2.2
  obtain ⟨q', e, _, hl, _, h2⟩ := mq_flood_pop 2999
  obtain ⟨ho, k, hk, e2, h3, h4⟩ := h2 (by simp [MQ_OVERLOAD])
  simp only [MQ_OVERLOAD] at e2 h3 h4 ht
  have hk2 : k = 2 := by
    rcases Nat.lt_or_ge k 2 with h | h
    · have : k = 1 := by omega
      subst this; simp at h3
    · rcases Nat.lt_or_ge 2 k with h' | h'
      · have : 2 ^ 2 ≤ 2 ^ (k - 1) := Nat.pow_le_pow_right (by decide) (by omega)
        omega
      · omega
  subst hk2
  refine ⟨ht, q', e, hl, ho, by rw [e2]; norm_num, ?_⟩
  rw [e2, ht]; decide

/-- C14, as the code has it: a pop that returns a message and leaves a length L
above the threshold T records L as the pending overload report and doubles the
threshold until it is at least L, so the new threshold is `T * 2 ^ k` for the least
`k ≥ 1` with `L ≤ T * 2 ^ k`, which is `2 * T` when `L ≤ 2 * T`; when `L ≤ T`
neither the pending report nor the threshold changes. -/
theorem pop_overload_doubling (q : message_queue) (m0 : skynet_message) (inv : MqInv q)
    (hne : q.head ≠ q.tail) :
    ∃ q' m, skynet_mq_pop q m0 = .ok (q', m, 0) ∧
      skynet_mq_length q' + 1 = skynet_mq_length q ∧
      (skynet_mq_length q' ≤ q.overload_threshold →
        q'.overload = q.overload ∧ q'.overload_threshold = q.overload_threshold) ∧
      (q.overload_threshold < skynet_mq_length q' →
        q'.overload = skynet_mq_length q' ∧
        ∃ k, 1 ≤ k ∧ q'.overload_threshold = q.overload_threshold * 2 ^ k ∧
          skynet_mq_length q' ≤ q.overload_threshold * 2 ^ k ∧
          q.overload_threshold * 2 ^ (k - 1) < skynet_mq_length q') ∧
      (q.overload_threshold < skynet_mq_length q' →
        skynet_mq_length q' ≤ 2 * q.overload_threshold →
        q'.overload_threshold = 2 * q.overload_threshold) := by
  obtain ⟨q', e, _, hlen, _, _, _, _, _, _, _, _, hp⟩ := mq_pop_nonempty inv m0 hne
  obtain ⟨r1, r2⟩ := pop_overload_result _ _ _ _ hp
  simp only at r1 r2
  refine ⟨q', _, e, hlen, fun h => ?_, r2, fun h1 h2 => ?_⟩
  · have := r1 h
    subst this
    exact ⟨rfl, rfl⟩
  · obtain ⟨_, k, hk, e2, _, h4⟩ := r2 h1
    have hk1 : k = 1 := by
      by_contra hne1
      have h5 : 2 ^ 1 ≤ 2 ^ (k - 1) := Nat.pow_le_pow_right (by decide) (by omega)
      have h6 : q.overload_threshold * 2 ^ 1 ≤ q.overload_threshold * 2 ^ (k - 1) :=
        Nat.mul_le_mul_left _ h5
      omega
    subst hk1
    rw [e2]; omega

/-- A mailbox with 3000 messages and the threshold 1024: the pop leaves the
threshold 4096, the first of 2048, 4096, ... that is not below 2999. -/
theorem pop_overload_doubling_witness :
    ∃ q' m, skynet_mq_pop (mq_flood 3000) default = .ok (q', m, 0) ∧
      skynet_mq_length q' + 1 = skynet_mq_length (mq_flood 3000) ∧
      (skynet_mq_length q' ≤ (mq_flood 3000).overload_threshold →
        q'.overload = (mq_flood 3000).overload ∧
        q'.overload_threshold = (mq_flood 3000).overload_threshold) ∧
      ((mq_flood 3000).overload_threshold < skynet_mq_length q' →
        q'.overload = skynet_mq_length q' ∧
        ∃ k, 1 ≤ k ∧ q'.overload_threshold = (mq_flood 3000).overload_threshold * 2 ^ k ∧
          skynet_mq_length q' ≤ (mq_flood 3000).overload_threshold * 2 ^ k ∧
          (mq_flood 3000).overload_threshold * 2 ^ (k - 1) < skynet_mq_length q') ∧
      ((mq_flood 3000).overload_threshold < skynet_mq_length q' →
        skynet_mq_length q' ≤ 2 * (mq_flood 3000).overload_threshold →
        q'.overload_threshold = 2 * (mq_flood 3000).overload_threshold) :=
  pop_overload_doubling (mq_flood 3000) default (mq_flood_spec 3000).1
    (mq_length_pos_ne (by rw [(mq_flood_spec 3000).2.2.1]; decide))

/-- Along the calls made on a mailbox whose flag is 0 or 1, a push that links the
mailbox is never followed by another one before a pop reports the mailbox empty;
with the flag at 1 the events start as if the mailbox had just been linked. -/
theorem mq_events_chain : ∀ (ops : List MqOp) (q : message_queue), q.in_global ≤ 1 →
    List.Chain (fun a b => ¬ (a = MqEvent.linked ∧ b = MqEvent.linked))
      (if q.in_global = 0 then MqEvent.empty else MqEvent.linked) (mq_events q ops) := by
  intro ops
  induction ops with
  | nil => intro q _; simp [mq_events]
  | cons op ops ih =>
    intro q hq
    cases op with
    | push m =>
      obtain ⟨_, _, _, _, hg, hl⟩ := mq_push_keeps q m
      simp only [mq_events]
      by_cases h0 : q.in_global = 0
      · have h2 : (skynet_mq_push q m).2 = true := hl.2 h0
        rw [if_pos h0] at hg
        have h3 := ih (skynet_mq_push q m).1 (by rw [hg]; decide)
        rw [if_neg (by rw [hg]; decide)] at h3
        rw [h2, if_pos h0]
        exact List.Chain.cons (by simp) h3
      · have h2 : (skynet_mq_push q m).2 = false := by
          cases hb : (skynet_mq_push q m).2
          · rfl
          · exact absurd (hl.1 hb) h0
        rw [if_neg h0] at hg
        have h3 := ih (skynet_mq_push q m).1 (by rw [hg]; exact hq)
        rw [hg] at h3
        rw [h2]
        exact h3
    | pop =>
      simp only [mq_events]
      cases hp : skynet_mq_pop q default with
      | error e => exact List.Chain.nil
      | ok r =>
        obtain ⟨q', m, ret⟩ := r
        rcases mq_pop_flag q default q' m ret hp with ⟨rfl, _, hg⟩ | ⟨rfl, _, hg, _⟩
        · have h3 := ih q' (by omega)
          rw [if_pos hg] at h3
          exact List.Chain.cons (by simp) h3
        · have h3 := ih q' (by rw [hg]; exact hq)
          rw [hg] at h3
          exact h3

/-- Pushes alone on a mailbox whose flag is not 0 never link it. -/
theorem mq_events_pushes : ∀ (msgs : List skynet_message) (q : message_queue),
    q.in_global ≠ 0 → mq_events q (msgs.map MqOp.push) = [] := by
  intro msgs
  induction msgs with
  | nil => intro q _; rfl
  | cons m msgs ih =>
    intro q hq
    obtain ⟨_, _, _, _, hg, hl⟩ := mq_push_keeps q m
    have h2 : (skynet_mq_push q m).2 = false := by
      cases hb : (skynet_mq_push q m).2
      · rfl
      · exact absurd (hl.1 hb) hq
    rw [if_neg hq] at hg
    simp only [List.map, mq_events]
    rw [h2, ih _ (by rw [hg]; exact hq)]
    rfl

/-- The flag of a mailbox stays 0 or 1 along the calls made on it. -/
theorem mq_run_flag : ∀ (ops : List MqOp) (q q' : message_queue)
    (out : List skynet_message), q.in_global ≤ 1 → mq_run q ops = .ok (q', out) →
    q'.in_global ≤ 1 := by
  intro ops
  induction ops with
  | nil =>
    intro q q' out hq H
    simp only [mq_run, Except.ok.injEq, Prod.mk.injEq] at H
    rw [← H.1]; exact hq
  | cons op ops ih =>
    intro q q' out hq H
    cases op with
    | push m =>
      simp only [mq_run] at H
      refine ih _ q' out ?_ H
      rw [(mq_push_keeps q m).2.2.2.2.1]
      split_ifs
      · decide
      · exact hq
    | pop =>
      simp only [mq_run] at H
      cases hp : skynet_mq_pop q default with
      | error e => rw [hp] at H; cases H
      | ok r =>
        obtain ⟨q1, m, ret⟩ := r
        rw [hp] at H
        simp only at H
        cases hr : mq_run q1 ops with
        | error e => rw [hr] at H; cases H
        | ok r2 =>
          obtain ⟨q2, out2⟩ := r2
          rw [hr] at H
          simp only [Except.ok.injEq, Prod.mk.injEq] at H
          rw [← H.1]
          refine ih q1 q2 out2 ?_ hr
          rcases mq_pop_flag q default q1 m ret hp with ⟨_, _, hg⟩ | ⟨_, _, hg, _⟩
          · omega
          · omega

/-- C12. `skynet_mq_push` hands the mailbox to `skynet_globalmq_push` exactly when
`in_global` was 0 before the call, and leaves `in_global` = 1 whenever the flag was
0 or 1 before, as it is in every mailbox reached from `skynet_mq_create` by pushes
and pops. Hence, along any calls on a mailbox made by `skynet_mq_create`, no push
links the mailbox before the first pop that reports it empty, and after a push that
links it no other push links it before the next pop that reports it empty; pushes
alone into a freshly created mailbox never link it. -/
theorem push_links_once (q : message_queue) (m : skynet_message) (handle : Nat)
    (ops : List MqOp) (msgs : List skynet_message) :
    ((skynet_mq_push q m).2 = true ↔ q.in_global = 0) ∧
    (q.in_global ≤ 1 → (skynet_mq_push q m).1.in_global = 1) ∧
    (skynet_mq_create handle).in_global = 1 ∧
    (∀ q' out, mq_run (skynet_mq_create handle) ops = .ok (q', out) →
      q'.in_global ≤ 1 ∧ (skynet_mq_push q' m).1.in_global = 1) ∧
    List.Chain (fun a b => ¬ (a = MqEvent.linked ∧ b = MqEvent.linked))
      MqEvent.linked (mq_events (skynet_mq_create handle) ops) ∧
    mq_events (skynet_mq_create handle) (msgs.map MqOp.push) = [] := by
  obtain ⟨_, _, _, _, hg, hl⟩ := mq_push_keeps q m
  have hflag : ∀ q1 : message_queue, q1.in_global ≤ 1 →
      (skynet_mq_push q1 m).1.in_global = 1 := by
    intro q1 h1
    rw [(mq_push_keeps q1 m).2.2.2.2.1]
    split_ifs with h0
    · rfl
    · omega
  refine ⟨hl, hflag q, rfl, fun q' out H => ?_, ?_, ?_⟩
  · have h1 := mq_run_flag ops _ q' out (by simp [skynet_mq_create, MQ_IN_GLOBAL]) H
    exact ⟨h1, hflag q' h1⟩
  · exact mq_events_chain ops (skynet_mq_create handle)
      (by simp [skynet_mq_create, MQ_IN_GLOBAL])
  · exact mq_events_pushes msgs _ (by simp [skynet_mq_create, MQ_IN_GLOBAL])

/-- A fresh mailbox, pushes and pops: the only push that links the mailbox is the
first one after the pop that reported it empty. -/
theorem push_links_once_witness :
    mq_events (skynet_mq_create 7)
      [MqOp.push default, MqOp.push default, MqOp.pop, MqOp.pop, MqOp.pop,
        MqOp.push default, MqOp.push default, MqOp.pop] =
      [MqEvent.empty, MqEvent.linked] ∧
    List.Chain (fun a b => ¬ (a = MqEvent.linked ∧ b = MqEvent.linked))
      MqEvent.linked (mq_events (skynet_mq_create 7)
        [MqOp.push default, MqOp.push default, MqOp.pop, MqOp.pop, MqOp.pop,
          MqOp.push default, MqOp.push default, MqOp.pop]) :=
  ⟨by decide, (push_links_once (skynet_mq_create 7) default 7 _ []).2.2.2.2.1⟩

/-- A cell of a list made of one value. -/
theorem getD_replicate_lt {α : Type} (n i : Nat) (x d : α) (h : i < n) :
    (List.replicate n x).getD i d = x := by
  simp [List.getD_eq_getElem?_getD, List.getElem?_replicate, h]

/-- The value returned by `skynet_mq_overload` when no report is pending. -/
theorem mq_overload_none {q : message_queue} (h : q.overload = 0) :
    skynet_mq_overload q = (q, 0) := by
  unfold skynet_mq_overload
  rw [if_neg (by simpa using h)]

/-- Draining a mailbox whose length is at most one above the threshold, with no
report pending: every read of `skynet_mq_overload` returns 0. -/
theorem mq_drain_quiet : ∀ (L : Nat) (q : message_queue), MqInv q →
    skynet_mq_length q = L → q.overload = 0 → L ≤ q.overload_threshold + 1 →
    ∃ q', mq_drain (L + 1) q = .ok (q', List.replicate (L + 1) 0) := by
  intro L
  induction L with
  | zero =>
    intro q inv hl ho _
    have hemp : q.head = q.tail := by
      by_contra hne
      have h1 := inv.head_lt
      unfold skynet_mq_length at hl
      split_ifs at hl <;> omega
    have e : skynet_mq_pop q default =
        .ok ({ q with overload_threshold := MQ_OVERLOAD, in_global := 0 }, default, 1) := by
      unfold skynet_mq_pop
      rw [if_neg (by simpa using hemp)]
    refine ⟨{ q with overload_threshold := MQ_OVERLOAD, in_global := 0 }, ?_⟩
    simp only [mq_drain, e]
    rw [mq_overload_none (by exact ho)]
    rfl
  | succ L ih =>
    intro q inv hl ho hT
    have hne : q.head ≠ q.tail := mq_length_pos_ne (by omega)
    obtain ⟨q1, e, inv1, hlen, _, _, _, _, _, _, _, _, hp⟩ :=
      mq_pop_nonempty inv default hne
    have hl1 : skynet_mq_length q1 = L := by omega
    obtain ⟨r1, _⟩ := pop_overload_result _ _ _ _ hp
    simp only at r1
    have hq1 := r1 (by omega)
    have ho1 : q1.overload = 0 := by rw [hq1]; exact ho
    have hT1 : q1.overload_threshold = q.overload_threshold := by rw [hq1]
    obtain ⟨q2, e2⟩ := ih q1 inv1 hl1 ho1 (by omega)
    refine ⟨q2, ?_⟩
    rw [mq_drain, e]
    simp only
    rw [mq_overload_none ho1]
    simp only [ne_eq, not_true_eq_false, if_false]
    rw [e2]
    rfl

/-- Draining a well-formed mailbox of `N` messages with no report pending: the read
after the first pop returns `N - 1` when that is above the threshold, and every
other read returns 0. -/
theorem mq_drain_reports {q : message_queue} (inv : MqInv q) (ho : q.overload = 0)
    (N : Nat) (hl : skynet_mq_length q = N) :
    ∃ q', mq_drain (N + 1) q =
      .ok (q', (if q.overload_threshold < N - 1 then N - 1 else 0) :: List.replicate N 0) := by
  by_cases hT : q.overload_threshold < N - 1
  · rw [if_pos hT]
    obtain ⟨n, rfl⟩ : ∃ n, N = n + 1 := ⟨N - 1, by omega⟩
    simp only [Nat.add_sub_cancel] at hT ⊢
    have hne : q.head ≠ q.tail := mq_length_pos_ne (by omega)
    obtain ⟨q1, e, inv1, hlen, a1, a2, a3, a4, _, _, _, _, hp⟩ :=
      mq_pop_nonempty inv default hne
    have hl1 : skynet_mq_length q1 = n := by omega
    obtain ⟨_, r2⟩ := pop_overload_result _ _ _ _ hp
    simp only at r2
    rw [hl1] at r2
    obtain ⟨ho1, k, _, _, hk, _⟩ := r2 hT
    have hov : skynet_mq_overload q1 = ({ q1 with overload := 0 }, n) := by
      unfold skynet_mq_overload
      rw [if_pos (by rw [ho1]; omega), ho1]
    have hk' : n ≤ q1.overload_threshold := by
      obtain ⟨_, k, _, e3, hk, _⟩ := r2 hT
      rw [e3]; exact hk
    obtain ⟨q2, e2⟩ := mq_drain_quiet n { q1 with overload := 0 }
      ⟨inv1.cap_pos, inv1.len, inv1.head_lt, inv1.tail_lt, inv1.threshold_pos⟩
      hl1 rfl (Nat.le_succ_of_le hk')
    refine ⟨q2, ?_⟩
    rw [mq_drain, e]
    simp only
    rw [hov]
    simp only [ne_eq, not_true_eq_false, if_false]
    rw [e2]
  · rw [if_neg hT]
    obtain ⟨q', e⟩ := mq_drain_quiet N q inv hl ho (by omega)
    exact ⟨q', e⟩

/-- C15, the case that differs: 3000 messages pushed into a fresh mailbox and then
drained, with a read of `skynet_mq_overload` after each of the 3001 pops: the only
report that is not 0 is the first one, 2999, and neither 1024 nor 2048 is ever
reported; the read made when 1024 messages are left, the 1976th, returns 0. -/
theorem drain_3000_one_report :
    ∃ q' rs, mq_drain 3001 (mq_flood 3000) = .ok (q', rs) ∧
      rs = 2999 :: List.replicate 3000 0 ∧ 1024 ∉ rs ∧ 2048 ∉ rs ∧
      rs.getD 1975 7 = 0 := by
  obtain ⟨inv, _, hl, ho, ht⟩ := mq_flood_spec 3000
  obtain ⟨q', e⟩ := mq_drain_reports inv ho 3000 hl
  rw [ht, if_pos (by simp [MQ_OVERLOAD])] at e
  refine ⟨q', _, e, rfl, ?_, ?_, ?_⟩
  · intro h
    rcases List.mem_cons.1 h with h | h
    · exact absurd h (by decide)
    · exact absurd (List.eq_of_mem_replicate h) (by decide)
  · intro h
    rcases List.mem_cons.1 h with h | h
    · exact absurd h (by decide)
    · exact absurd (List.eq_of_mem_replicate h) (by decide)
  · have h1 : (1975 : Nat) = 1974 + 1 := rfl
    rw [h1, List.getD_cons_succ]
    exact getD_replicate_lt 3000 1974 0 7 (by decide)

/-- C15, as the code has it: when `msgs` is pushed into a fresh mailbox with no pop
in between and the mailbox is then drained, reading `skynet_mq_overload` after
every pop up to the one that reports the mailbox empty, the drain returns, the read
after the first pop returns `N - 1` when `N - 1` is above 1024 (`N` the number of
messages pushed) and 0 otherwise, and every later read returns 0: at most one
report is not 0. -/
theorem drain_reports_once (handle : Nat) (msgs : List skynet_message) :
    ∃ q' rs, mq_drain (msgs.length + 1) (mq_push_many (skynet_mq_create handle) msgs) =
        .ok (q', rs) ∧
      rs = (if 1024 < msgs.length - 1 then msgs.length - 1 else 0) ::
        List.replicate msgs.length 0 ∧
      rs.length = msgs.length + 1 ∧
      ∀ i, 0 < i → rs.getD i 0 = 0 := by
  obtain ⟨inv, hc, ho, ht, _⟩ := mq_push_many_spec msgs _ (mq_inv_create handle)
  have hl : skynet_mq_length (mq_push_many (skynet_mq_create handle) msgs) = msgs.length := by
    have := mq_contents_length (mq_push_many (skynet_mq_create handle) msgs)
    rw [hc, mq_contents_create, List.nil_append] at this
    exact this.symm
  obtain ⟨q', e⟩ := mq_drain_reports inv ho msgs.length hl
  rw [ht] at e
  refine ⟨q', _, e, rfl, by simp, ?_⟩
  intro i hi
  obtain ⟨j, rfl⟩ : ∃ j, i = j + 1 := ⟨i - 1, by omega⟩
  rw [List.getD_cons_succ]
  simp only [List.getD_eq_getElem?_getD, List.getElem?_replicate]
  split_ifs <;> rfl

/-! ## The claim on the retirement of every service -/

/-- A pass of `skynet_handle_retireall` on a well-formed registry whose slots below
`i` are empty: it empties every slot, keeps the registry well formed, and finds an
occupant exactly when there is one. -/
theorem retireall_pass_spec {b : Nat} {hd : Ctx → Nat} :
    ∀ (k i : Nat) (s : handle_storage) (n : Nat), SlotInv b hd s → NameInv s →
    i + k = s.slot_size → (∀ j, j < i → s.slot.getD j none = none) →
    SlotInv b hd (retireall_pass hd k i s n).1 ∧ NameInv (retireall_pass hd k i s n).1 ∧
    (∀ j, (retireall_pass hd k i s n).1.slot.getD j none = none) ∧
    (retireall_pass hd k i s n).1.slot_size = s.slot_size ∧
    n ≤ (retireall_pass hd k i s n).2 ∧
    ((retireall_pass hd k i s n).2 = n ↔ ∀ j, s.slot.getD j none = none) := by
  intro k
  induction k with
  | zero =>
    intro i s n inv ninv hik hlow
    have hall : ∀ j, s.slot.getD j none = none := by
      intro j
      by_cases hj : j < i
      · exact hlow j hj
      · rw [List.getD_eq_default _ _ (by rw [inv.len]; omega)]
    exact ⟨inv, ninv, hall, rfl, le_refl _, fun _ => hall, fun _ => rfl⟩
  | succ k ih =>
    intro i s n inv ninv hik hlow
    rw [retireall_pass]
    cases hc : s.slot.getD i none with
    | none =>
      simp only
      exact ih (i + 1) s n inv ninv (by omega) (by
        intro j hj
        by_cases hji : j = i
        · rw [hji]; exact hc
        · exact hlow j (by omega))
    | some c =>
      simp only
      obtain ⟨h1, h2, _⟩ := inv.slot i c hc
      have hne : hd c ≠ 0 := by
        intro h0; rw [h0] at h2; simp at h2
      rw [if_pos hne]
      have hg : skynet_handle_grab hd s (hd c) = some c :=
        (grab_iff inv (hd c) c).mpr ⟨⟨i, hc⟩, rfl⟩
      obtain ⟨_, inv', ninv', _, _⟩ := retire_hit_spec inv ninv hg
      have hidx : hd c &&& (s.slot_size - 1) = i := by rw [inv.land_eq]; exact h1
      have hslot : (skynet_handle_retire hd s (hd c)).1.slot = s.slot.set i none := by
        rw [retire_hit hg, hidx]
      have hsize : (skynet_handle_retire hd s (hd c)).1.slot_size = s.slot_size := by
        rw [retire_hit hg]
      have hlt : i < s.slot.length := getD_some_lt _ _ _ hc
      obtain ⟨a1, a2, a3, a4, a5, _⟩ :=
        ih (i + 1) (skynet_handle_retire hd s (hd c)).1 (n + 1) inv' ninv'
          (by rw [hsize]; omega) (by
            intro j hj
            rw [hslot]
            by_cases hji : i = j
            · rw [← hji]; exact getD_set_eq _ _ _ _ hlt
            · rw [getD_set_ne _ _ _ _ _ hji]; exact hlow j (by omega))
      refine ⟨a1, a2, a3, a4.trans hsize, by omega, ?_⟩
      constructor
      · intro h; omega
      · intro h; rw [h i] at hc; cases hc

/-- A pass over a table whose slots are all empty finds no occupant and changes
nothing. -/
theorem retireall_pass_empty (hd : Ctx → Nat) :
    ∀ (k i : Nat) (s : handle_storage) (n : Nat), (∀ j, s.slot.getD j none = none) →
    retireall_pass hd k i s n = (s, n) := by
  intro k
  induction k with
  | zero => intro i s n _; rfl
  | succ k ih =>
    intro i s n h
    rw [retireall_pass, h i]
    exact ih (i + 1) s n h

/-- The function `skynet_handle_grab` finds nothing in a table whose slots are all
empty. -/
theorem grab_empty (hd : Ctx → Nat) (s : handle_storage)
    (h : ∀ j, s.slot.getD j none = none) (handle : Nat) :
    skynet_handle_grab hd s handle = none := by
  unfold skynet_handle_grab
  simp only [h]

/-- C19. `skynet_handle_retireall` returns on every registry reached from
`skynet_handle_init` by registrations, retirements and name bindings: when the
table holds no service the first pass finds no occupant and the call returns after
it; otherwise the first pass retires every occupant, the second pass finds none and
the call returns after it. On return every slot is empty, so `skynet_handle_grab`
finds nothing for any handle. -/
theorem retireall_returns (b : Nat) (w : World) (live : List (Ctx × Nat))
    (t : Trace b w live) :
    ∃ s', skynet_handle_retireall w.handle_of w.H = .ok s' ∧
      (∀ i, s'.slot.getD i none = none) ∧
      (∀ handle, skynet_handle_grab w.handle_of s' handle = none) ∧
      s' = (retireall_pass w.handle_of w.H.slot_size 0 w.H 0).1 ∧
      ((retireall_pass w.handle_of w.H.slot_size 0 w.H 0).2 = 0 ↔
        ∀ i, w.H.slot.getD i none = none) ∧
      (retireall_pass w.handle_of w.H.slot_size 0 s' 0).2 = 0 := by
  have g := t.good
  obtain ⟨a1, a2, a3, a4, _, a6⟩ :=
    retireall_pass_spec w.H.slot_size 0 w.H 0 g.slots g.names (by omega)
      (fun j hj => absurd hj (by omega))
  have hpass := retireall_pass_empty w.handle_of w.H.slot_size 0
    (retireall_pass w.handle_of w.H.slot_size 0 w.H 0).1 0 a3
  have hsecond : (retireall_pass w.handle_of w.H.slot_size 0
      (retireall_pass w.handle_of w.H.slot_size 0 w.H 0).1 0).2 = 0 := by rw [hpass]
  have hsame : (retireall_pass w.handle_of w.H.slot_size 0
      (retireall_pass w.handle_of w.H.slot_size 0 w.H 0).1 0).1 =
      (retireall_pass w.handle_of w.H.slot_size 0 w.H 0).1 := by rw [hpass]
  refine ⟨(retireall_pass w.handle_of w.H.slot_size 0 w.H 0).1, ?_, a3,
    grab_empty _ _ a3, rfl, a6, hsecond⟩
  unfold skynet_handle_retireall
  obtain ⟨f, hf⟩ : ∃ f, w.H.slot_size + 1 = f + 2 :=
    ⟨w.H.slot_size - 1, by have := g.slots.size_pos; omega⟩
  rw [hf, retireall_loop]
  by_cases h0 : (retireall_pass w.handle_of w.H.slot_size 0 w.H 0).2 = 0
  · rw [if_pos h0]
  · rw [if_neg h0, retireall_loop, a4, if_pos hsecond, hsame]

/-- Four registered services: the call returns and leaves every slot empty. -/
theorem retireall_returns_witness :
    ∃ s', skynet_handle_retireall demo4.handle_of demo4.H = .ok s' ∧
      (∀ i, s'.slot.getD i none = none) ∧
      (∀ handle, skynet_handle_grab demo4.handle_of s' handle = none) ∧
      s' = (retireall_pass demo4.handle_of demo4.H.slot_size 0 demo4.H 0).1 ∧
      ((retireall_pass demo4.handle_of demo4.H.slot_size 0 demo4.H 0).2 = 0 ↔
        ∀ i, demo4.H.slot.getD i none = none) ∧
      (retireall_pass demo4.handle_of demo4.H.slot_size 0 s' 0).2 = 0 :=
  retireall_returns 1 demo4 _ demo4_trace

/-! ## The claim on the entry points of a module -/

/-- The entry points set by `open_sym` are the four symbols looked up in the file of
the entry, and the value returned is 1 exactly when the `_init` symbol is missing. -/
theorem open_sym_spec (L : Loader) (mod : skynet_module) :
    (open_sym L mod).1 =
      { mod with create := get_api L mod api_create, init := get_api L mod api_init,
                 release := get_api L mod api_release,
                 signal := get_api L mod api_signal } ∧
    (open_sym L mod).2 = (if get_api L mod api_init = none then 1 else 0) := by
  constructor <;> rfl

/-- The search of `_query` looks at the names of the first `count` entries only. -/
theorem query_loop_congr (M M' : modules) (name : List Nat) :
    ∀ (k i : Nat), (∀ j, i ≤ j → j < i + k → M'.m.getD j default = M.m.getD j default) →
    query_loop M' name k i = query_loop M name k i := by
  intro k
  induction k with
  | zero => intro i _; rfl
  | succ k ih =>
    intro i h
    rw [query_loop, query_loop, h i (le_refl _) (by omega),
      ih (i + 1) (fun j h1 h2 => h j (by omega) (by omega))]

/-- The function `skynet_module_query` on a name that is not in the table, when the
table has room and `_try_open` opens a file. -/
theorem module_query_open (L : Loader) (M : modules) (name : List Nat) (dl : Nat)
    (hq : _query M name = none) (hc : M.count < MAX_MODULE_TYPE)
    (hl : M.m.length = MAX_MODULE_TYPE) (ho : _try_open L M name = .ok (some dl)) :
    skynet_module_query L M name =
      if (open_sym L (query_entry M name dl)).2 = 0 then
        .ok ({ M with
               m := (M.m.set M.count (query_entry M name dl)).set M.count
                 (open_sym L (query_entry M name dl)).1
               count := M.count + 1 }, some M.count)
      else
        .ok ({ M with
               m := (M.m.set M.count (query_entry M name dl)).set M.count
                 (open_sym L (query_entry M name dl)).1 }, none) := by
  have hlt : M.count < M.m.length := by rw [hl]; exact hc
  unfold skynet_module_query
  simp only [hq, if_pos hc, ho]
  rw [getD_set_eq _ _ _ _ hlt]
  rfl

/-- C20. Of the four entry points of a module only `_init` is mandatory. `open_sym`
returns 1 exactly when the `_init` symbol is missing, and 0 otherwise, whatever
`dlsym` gives for the other three. When `skynet_module_query` opens the file of a
module that is not in the table and the `_init` symbol is missing, it returns NULL,
and the table keeps its count and its entries, so that every later search finds
what it found before; when the `_init` symbol is there the module is accepted with
whatever `dlsym` gave for `_create`, `_release` and `_signal`. For a module without
`_create` the call `skynet_module_instance_create` calls nothing and returns the
pointer `~0`, which is not NULL; without `_release` or `_signal` the calls
`skynet_module_instance_release` and `skynet_module_instance_signal` call
nothing. -/
theorem init_is_mandatory (L : Loader) (M : modules) (name : List Nat)
    (mod : skynet_module) (dl : Nat) (ret : Nat → Int) (inst sig : Int) :
    (((open_sym L mod).2 = 1 ↔ get_api L mod api_init = none) ∧
      ((open_sym L mod).2 = 0 ↔ get_api L mod api_init ≠ none) ∧
      (open_sym L mod).1.init = get_api L mod api_init) ∧
    (_query M name = none → M.count < MAX_MODULE_TYPE → M.m.length = MAX_MODULE_TYPE →
      _try_open L M name = .ok (some dl) →
      get_api L (query_entry M name dl) api_init = none →
      ∃ M', skynet_module_query L M name = .ok (M', none) ∧ M'.count = M.count ∧
        M'.path = M.path ∧
        (∀ i, i < M.count → M'.m.getD i default = M.m.getD i default) ∧
        ∀ n, _query M' n = _query M n) ∧
    (_query M name = none → M.count < MAX_MODULE_TYPE → M.m.length = MAX_MODULE_TYPE →
      _try_open L M name = .ok (some dl) →
      get_api L (query_entry M name dl) api_init ≠ none →
      ∃ M', skynet_module_query L M name = .ok (M', some M.count) ∧
        M'.count = M.count + 1 ∧
        M'.m.getD M.count default =
          (open_sym L (query_entry M name dl)).1 ∧
        (M'.m.getD M.count default).name = name ∧
        (M'.m.getD M.count default).module = dl) ∧
    (mod.create = none →
      skynet_module_instance_create ret mod = (-1, []) ∧ (-1 : Int) ≠ 0) ∧
    (mod.release = none → skynet_module_instance_release mod inst = []) ∧
    (mod.signal = none → skynet_module_instance_signal mod inst sig = []) := by
  obtain ⟨e1, e2⟩ := open_sym_spec L mod
  refine ⟨⟨?_, ?_, ?_⟩, ?_, ?_, ?_, ?_, ?_⟩
  · rw [e2]; split_ifs with h <;> simp [h]
  · rw [e2]; split_ifs with h <;> simp [h]
  · rw [e1]
  · intro hq hc hl ho hi
    have hlt : M.count < M.m.length := by rw [hl]; exact hc
    obtain ⟨f1, f2⟩ :=
      open_sym_spec L (query_entry M name dl)
    rw [if_pos hi] at f2
    refine ⟨{ M with
              m := (M.m.set M.count (query_entry M name dl)).set M.count
                (open_sym L (query_entry M name dl)).1 }, ?_, ?_, ?_, ?_, ?_⟩
    · rw [module_query_open L M name dl hq hc hl ho, f2, if_neg (by decide)]
    · rfl
    · rfl
    · intro i hi'
      simp only
      rw [getD_set_ne _ _ _ _ _ (by omega), getD_set_ne _ _ _ _ _ (by omega)]
    · intro n
      unfold _query
      apply query_loop_congr
      intro j _ hj
      have hj' : j < M.count := by simpa using hj
      simp only
      rw [getD_set_ne _ _ _ _ _ (by omega), getD_set_ne _ _ _ _ _ (by omega)]
  · intro hq hc hl ho hi
    have hlt : M.count < M.m.length := by rw [hl]; exact hc
    obtain ⟨f1, f2⟩ :=
      open_sym_spec L (query_entry M name dl)
    rw [if_neg hi] at f2
    refine ⟨{ M with
              m := (M.m.set M.count (query_entry M name dl)).set M.count
                (open_sym L (query_entry M name dl)).1
              count := M.count + 1 }, ?_, ?_, ?_, ?_, ?_⟩
    · rw [module_query_open L M name dl hq hc hl ho, f2, if_pos rfl]
    · rfl
    · simp only
      rw [getD_set_eq _ _ _ _ (by rw [List.length_set]; exact hlt)]
    · simp only
      rw [getD_set_eq _ _ _ _ (by rw [List.length_set]; exact hlt), f1]
      rfl
    · simp only
      rw [getD_set_eq _ _ _ _ (by rw [List.length_set]; exact hlt), f1]
      rfl
  · intro h
    unfold skynet_module_instance_create
    rw [h]
    exact ⟨rfl, by decide⟩
  · intro h
    unfold skynet_module_instance_release
    rw [h]
  · intro h
    unfold skynet_module_instance_signal
    rw [h]

/-- The module `b`, whose file lacks `b_init`, is refused and the table stays empty;
the module `a`, whose file has `a_init` only, is accepted, and an instance of it is
created, released and signalled without any call. -/
theorem init_is_mandatory_witness :
    (∃ M', skynet_module_query demo_loader demo_modules [98] = .ok (M', none) ∧
      M'.count = 0) ∧
    (∃ M', skynet_module_query demo_loader demo_modules [97] = .ok (M', some 0) ∧
      M'.count = 1 ∧
      skynet_module_instance_create (fun _ => 0) (M'.m.getD 0 default) = (-1, []) ∧
      skynet_module_instance_release (M'.m.getD 0 default) 5 = [] ∧
      skynet_module_instance_signal (M'.m.getD 0 default) 5 9 = []) := by
  constructor
  · obtain ⟨M', h1, h2, _⟩ :=
      (init_is_mandatory demo_loader demo_modules [98] default 2 (fun _ => 0) 0 0).2.1
        rfl (by decide) rfl rfl rfl
    exact ⟨M', h1, h2⟩
  · obtain ⟨M', h1, h2, h3, _⟩ :=
      (init_is_mandatory demo_loader demo_modules [97] default 1 (fun _ => 0) 0
        0).2.2.1 rfl (by decide) rfl rfl (by decide)
    have h3' : M'.m.getD 0 default =
        (open_sym demo_loader (query_entry demo_modules [97] 1)).1 := h3
    refine ⟨M', h1, h2, ?_, ?_, ?_⟩
    · exact ((init_is_mandatory demo_loader demo_modules [97] (M'.m.getD 0 default) 1
        (fun _ => 0) 5 9).2.2.2.1 (by rw [h3']; rfl)).1
    · exact (init_is_mandatory demo_loader demo_modules [97] (M'.m.getD 0 default) 1
        (fun _ => 0) 5 9).2.2.2.2.1 (by rw [h3']; rfl)
    · exact (init_is_mandatory demo_loader demo_modules [97] (M'.m.getD 0 default) 1
        (fun _ => 0) 5 9).2.2.2.2.2 (by rw [h3']; rfl)

/-! ## The global queue -/

/-- A write to a mailbox that is not in the chain leaves the chain as it is. -/
theorem is_chain_update (mq : Nat → message_queue) (a : Nat) (v : message_queue) :
    ∀ (l : List Nat) (p : Option Nat), a ∉ l → is_chain mq p l →
    is_chain (Function.update mq a v) p l := by
  intro l
  induction l with
  | nil => intro p _ h; exact h
  | cons b l ih =>
    intro p ha h
    obtain ⟨h1, h2⟩ := h
    have hba : b ≠ a := fun e => ha (by rw [e]; exact List.mem_cons_self _ _)
    refine ⟨h1, ?_⟩
    rw [Function.update_noteq hba]
    exact ih _ (fun hm => ha (List.mem_cons_of_mem _ hm)) h2

/-- A write that keeps the link of a mailbox leaves the chain as it is. -/
theorem is_chain_update_same (mq : Nat → message_queue) (a : Nat) (v : message_queue)
    (hv : v.next = (mq a).next) :
    ∀ (l : List Nat) (p : Option Nat), is_chain mq p l →
    is_chain (Function.update mq a v) p l := by
  intro l
  induction l with
  | nil => intro p h; exact h
  | cons b l ih =>
    intro p h
    obtain ⟨h1, h2⟩ := h
    refine ⟨h1, ?_⟩
    have hn : (Function.update mq a v b).next = (mq b).next := by
      by_cases hba : b = a
      · subst hba; rw [Function.update_same]; exact hv
      · rw [Function.update_noteq hba]
    rw [hn]
    exact ih _ h2

/-- Linking a mailbox after the last one of a chain extends the chain by it. -/
theorem is_chain_snoc (mq : Nat → message_queue) (a t : Nat) (hat : a ≠ t)
    (hn : (mq a).next = none) :
    ∀ (l : List Nat) (p : Option Nat), t ∉ l → is_chain mq p (l ++ [t]) →
    is_chain (Function.update mq t { mq t with next := some a }) p (l ++ [t] ++ [a]) := by
  intro l
  induction l with
  | nil =>
    intro p _ h
    obtain ⟨h1, _⟩ := h
    refine ⟨h1, ?_, ?_⟩
    · rw [Function.update_same]
    · show (Function.update mq t { mq t with next := some a } a).next = none
      rw [Function.update_noteq hat]; exact hn
  | cons b l ih =>
    intro p ht h
    obtain ⟨h1, h2⟩ := h
    have hbt : b ≠ t := fun e => ht (by rw [e]; exact List.mem_cons_self _ _)
    refine ⟨h1, ?_⟩
    rw [Function.update_noteq hbt]
    exact ih _ (fun hm => ht (List.mem_cons_of_mem _ hm)) h2

/-- The chain from a NULL pointer is empty, and the chain from a mailbox starts with
it. -/
theorem is_chain_head (mq : Nat → message_queue) (p : Option Nat) (l : List Nat)
    (h : is_chain mq p l) : p = l.head? := by
  cases l with
  | nil => exact h
  | cons a l => exact h.1

/-- In the global queue `head` is NULL exactly when `tail` is NULL, which is when
the queue holds no mailbox. -/
theorem gq_inv_null {st : MqSystem} {l : List Nat} (inv : GqInv st l) :
    (st.Q.head = none ↔ l = []) ∧ (st.Q.tail = none ↔ l = []) := by
  have h1 := is_chain_head _ _ _ inv.chain
  have h2 := inv.tail
  rw [h1, h2]
  cases l with
  | nil => simp
  | cons a l => simp [List.getLast?_eq_getLast]

/-- The empty global queue made by `skynet_mq_init`, when no mailbox has a link. -/
theorem gq_inv_init (mq : Nat → message_queue) (h : ∀ a, (mq a).next = none) :
    GqInv (skynet_mq_init mq) [] :=
  ⟨rfl, rfl, List.nodup_nil, fun a _ => h a⟩

/-- A push of a mailbox that is not in the global queue returns and puts it at the
end of the queue; only links change in the memory. -/
theorem gq_push_spec {st : MqSystem} {l : List Nat} (inv : GqInv st l) (a : Nat)
    (ha : a ∉ l) :
    ∃ st', skynet_globalmq_push st a = .ok st' ∧ GqInv st' (l ++ [a]) ∧
      ∀ b, { st'.mq b with next := (st.mq b).next } = st.mq b := by
  have hn : (st.mq a).next = none := inv.unlinked a ha
  unfold skynet_globalmq_push
  rw [if_neg (by simpa using hn)]
  rcases List.eq_nil_or_concat l with rfl | ⟨l0, t, hl⟩
  · have ht : st.Q.tail = none := inv.tail
    have hh : st.Q.head = none := inv.chain
    rw [ht]
    refine ⟨_, rfl, ⟨⟨rfl, hn⟩, rfl, by simp, ?_⟩, fun b => rfl⟩
    intro b hb
    exact inv.unlinked b (by simp)
  · rw [List.concat_eq_append] at hl
    subst hl
    have ht : st.Q.tail = some t := by rw [inv.tail]; simp
    rw [ht]
    have hat : a ≠ t := fun e => ha (by rw [e]; simp)
    have hnd := inv.nodup
    have ht0 : t ∉ l0 := by
      intro hm
      rw [List.nodup_append] at hnd
      exact hnd.2.2 hm (List.mem_singleton_self t) 
    refine ⟨_, rfl, ⟨is_chain_snoc st.mq a t hat hn l0 _ ht0 inv.chain, by simp, ?_, ?_⟩, ?_⟩
    · rw [List.nodup_append]
      refine ⟨hnd, by simp, ?_⟩
      intro x hx hx'
      rw [List.mem_singleton] at hx'
      subst hx'
      exact ha hx
    · intro b hb
      simp only [List.mem_append, List.mem_singleton, not_or] at hb
      show (Function.update st.mq t { st.mq t with next := some a } b).next = none
      rw [Function.update_noteq hb.1.2]
      exact inv.unlinked b (by simp [hb.1.1, hb.1.2])
    · intro b
      show { Function.update st.mq t { st.mq t with next := some a } b with
        next := (st.mq b).next } = st.mq b
      by_cases hbt : b = t
      · subst hbt; rw [Function.update_same]
      · rw [Function.update_noteq hbt]

/-- A pop on the global queue returns NULL when the queue is empty, and otherwise
returns the first mailbox, with its link cleared, and leaves the others in their
order; only links change in the memory. -/
theorem gq_pop_spec {st : MqSystem} {l : List Nat} (inv : GqInv st l) :
    (l = [] → skynet_globalmq_pop st = .ok (st, none)) ∧
    (∀ a l', l = a :: l' →
      ∃ st', skynet_globalmq_pop st = .ok (st', some a) ∧ GqInv st' l' ∧
        (st'.mq a).next = none ∧
        ∀ b, { st'.mq b with next := (st.mq b).next } = st.mq b) := by
  constructor
  · intro hl
    subst hl
    have hh : st.Q.head = none := inv.chain
    unfold skynet_globalmq_pop
    rw [hh]
  · intro a l' hl
    subst hl
    obtain ⟨hh, hc⟩ := inv.chain
    have hnd := inv.nodup
    have ha : a ∉ l' := (List.nodup_cons.1 hnd).1
    have hmem : ∀ b, { Function.update st.mq a { st.mq a with next := none } b with
        next := (st.mq b).next } = st.mq b := by
      intro b
      by_cases hba : b = a
      · subst hba; rw [Function.update_same]
      · rw [Function.update_noteq hba]
    have hunl : ∀ b, b ∉ l' →
        (Function.update st.mq a { st.mq a with next := none } b).next = none := by
      intro b hb
      by_cases hba : b = a
      · subst hba; rw [Function.update_same]
      · rw [Function.update_noteq hba]
        exact inv.unlinked b (by simp [hba, hb])
    unfold skynet_globalmq_pop
    rw [hh]
    simp only
    cases l' with
    | nil =>
      have hn : (st.mq a).next = none := hc
      have ht : st.Q.tail = some a := inv.tail
      rw [if_pos hn, if_pos ht.symm]
      refine ⟨_, rfl, ⟨rfl, rfl, List.nodup_nil, hunl⟩, ?_, hmem⟩
      show (Function.update st.mq a { st.mq a with next := none } a).next = none
      rw [Function.update_same]
    | cons b l'' =>
      have hn : (st.mq a).next = some b := hc.1
      rw [if_neg (by rw [hn]; simp)]
      refine ⟨_, rfl, ⟨?_, ?_, (List.nodup_cons.1 hnd).2, hunl⟩, ?_, hmem⟩
      · show is_chain (Function.update st.mq a { st.mq a with next := none })
          (st.mq a).next (b :: l'')
        exact is_chain_update _ _ _ _ _ ha hc
      · show st.Q.tail = (b :: l'').getLast?
        rw [inv.tail]
        simp [List.getLast?_cons_cons]
      · show (Function.update st.mq a { st.mq a with next := none } a).next = none
        rw [Function.update_same]

/-- The calls on the global queue do what the calls on a queue of addresses do, as
long as no push is made of a mailbox that is in the queue. -/
theorem gq_run_spec : ∀ (ops : List GqOp) (st : MqSystem) (l : List Nat), GqInv st l →
    ∀ (l' : List Nat) (outs : List (Option Nat)), fifo_run l ops = some (l', outs) →
    ∃ st', gq_run st ops = .ok (st', outs) ∧ GqInv st' l' := by
  intro ops
  induction ops with
  | nil =>
    intro st l inv l' outs h
    simp only [fifo_run, Option.some.injEq, Prod.mk.injEq] at h
    obtain ⟨rfl, rfl⟩ := h
    exact ⟨st, rfl, inv⟩
  | cons op ops ih =>
    intro st l inv l' outs h
    cases op with
    | push a =>
      simp only [fifo_run] at h
      by_cases ha : a ∈ l
      · rw [if_pos ha] at h; cases h
      · rw [if_neg ha] at h
        obtain ⟨st1, e1, inv1, _⟩ := gq_push_spec inv a ha
        obtain ⟨st', e', inv'⟩ := ih st1 _ inv1 l' outs h
        refine ⟨st', ?_, inv'⟩
        simp only [gq_run, e1]
        exact e'
    | pop =>
      cases l with
      | nil =>
        simp only [fifo_run] at h
        cases hr : fifo_run [] ops with
        | none => rw [hr] at h; cases h
        | some r =>
          obtain ⟨l1, out1⟩ := r
          rw [hr] at h
          simp only [Option.some.injEq, Prod.mk.injEq] at h
          obtain ⟨rfl, rfl⟩ := h
          obtain ⟨st', e', inv'⟩ := ih st [] inv l1 out1 hr
          refine ⟨st', ?_, inv'⟩
          simp only [gq_run, (gq_pop_spec inv).1 rfl, e']
      | cons a l0 =>
        simp only [fifo_run] at h
        cases hr : fifo_run l0 ops with
        | none => rw [hr] at h; cases h
        | some r =>
          obtain ⟨l1, out1⟩ := r
          rw [hr] at h
          simp only [Option.some.injEq, Prod.mk.injEq] at h
          obtain ⟨rfl, rfl⟩ := h
          obtain ⟨st1, e1, inv1, _⟩ := (gq_pop_spec inv).2 a l0 rfl
          obtain ⟨st', e', inv'⟩ := ih st1 l0 inv1 l1 out1 hr
          refine ⟨st', ?_, inv'⟩
          simp only [gq_run, e1, e']

/-- Pushes of addresses that are not in the queue and differ from one another put
them at the end of the queue, in their order. -/
theorem fifo_run_pushes (ops : List GqOp) : ∀ (as l : List Nat), (l ++ as).Nodup →
    fifo_run l (as.map GqOp.push ++ ops) = fifo_run (l ++ as) ops := by
  intro as
  induction as with
  | nil => intro l _; simp
  | cons a as ih =>
    intro l h
    have ha : a ∉ l := by
      intro hm
      rw [List.nodup_append] at h
      exact h.2.2 hm (List.mem_cons_self _ _)
    simp only [List.map_cons, List.cons_append, fifo_run]
    rw [if_neg ha, ih (l ++ [a]) (by simpa using h)]
    simp

/-- As many pops as the queue has addresses return them in their order and leave
the queue empty. -/
theorem fifo_run_pops : ∀ (l : List Nat),
    fifo_run l (List.replicate l.length GqOp.pop) = some ([], l.map some) := by
  intro l
  induction l with
  | nil => rfl
  | cons a l ih =>
    simp only [List.length_cons, List.replicate_succ, fifo_run, ih, List.map_cons]

/-- C17. The global queue is a FIFO of mailboxes. Whatever pushes, of mailboxes that
are not in the queue at the time, and pops are made one after the other, every call
returns, the pops return what the pops on a queue of addresses return, on which a
push appends at the end and a pop removes the first address, or returns NULL when
there is none; in particular mailboxes pushed on the empty queue are returned by as
many pops in the order of the pushes. A pop on the empty queue returns NULL and
changes nothing, the mailbox returned by a pop has a NULL link, and `head` is NULL
exactly when `tail` is NULL, before and after the calls. -/
theorem globalmq_fifo (st : MqSystem) (l : List Nat) (inv : GqInv st l)
    (ops : List GqOp) (l' : List Nat) (outs : List (Option Nat))
    (h : fifo_run l ops = some (l', outs)) (as : List Nat) :
    (∃ st', gq_run st ops = .ok (st', outs) ∧ GqInv st' l' ∧
      (st'.Q.head = none ↔ st'.Q.tail = none)) ∧
    (l = [] → as.Nodup →
      ∃ st', gq_run st (as.map GqOp.push ++ List.replicate as.length GqOp.pop) =
        .ok (st', as.map some) ∧ GqInv st' []) ∧
    (st.Q.head = none ↔ st.Q.tail = none) ∧
    (l = [] → skynet_globalmq_pop st = .ok (st, none)) ∧
    (∀ st1 a, skynet_globalmq_pop st = .ok (st1, some a) →
      (st1.mq a).next = none ∧ l.head? = some a) := by
  refine ⟨?_, ?_, ?_, (gq_pop_spec inv).1, ?_⟩
  · obtain ⟨st', e, inv'⟩ := gq_run_spec ops st l inv l' outs h
    obtain ⟨n1, n2⟩ := gq_inv_null inv'
    exact ⟨st', e, inv', by rw [n1, n2]⟩
  · intro hl hnd
    subst hl
    have h1 := fifo_run_pushes (List.replicate as.length GqOp.pop) as [] (by simpa using hnd)
    rw [List.nil_append, fifo_run_pops] at h1
    exact gq_run_spec _ st [] inv [] _ h1
  · obtain ⟨n1, n2⟩ := gq_inv_null inv
    rw [n1, n2]
  · intro st1 a hp
    cases l with
    | nil =>
      rw [(gq_pop_spec inv).1 rfl] at hp
      simp only [Except.ok.injEq, Prod.mk.injEq] at hp
      exact absurd hp.2 (by simp)
    | cons b l0 =>
      obtain ⟨st2, e2, _, hn, _⟩ := (gq_pop_spec inv).2 b l0 rfl
      rw [e2] at hp
      simp only [Except.ok.injEq, Prod.mk.injEq, Option.some.injEq] at hp
      obtain ⟨rfl, rfl⟩ := hp
      exact ⟨hn, rfl⟩

/-- Pushes and pops on the empty queue made by `skynet_mq_init`: the mailboxes 5, 3
and 9 come back in this order, and the pop made on the empty queue returns NULL. -/
theorem globalmq_fifo_witness :
    ∃ st', gq_run (skynet_mq_init (fun _ => skynet_mq_create 0))
        [GqOp.push 5, GqOp.push 3, GqOp.pop, GqOp.push 9, GqOp.pop, GqOp.pop, GqOp.pop] =
        .ok (st', [some 5, some 3, some 9, none]) ∧ GqInv st' [] ∧
      (st'.Q.head = none ↔ st'.Q.tail = none) :=
  (globalmq_fifo (skynet_mq_init (fun _ => skynet_mq_create 0)) []
    (gq_inv_init _ (fun _ => rfl))
    [GqOp.push 5, GqOp.push 3, GqOp.pop, GqOp.push 9, GqOp.pop, GqOp.pop, GqOp.pop]
    [] [some 5, some 3, some 9, none] (by decide) []).1

/-! ## The claim on the release of a mailbox -/

/-- A well-formed mailbox of length 0 has `head` at `tail`. -/
theorem mq_length_zero {q : message_queue} (inv : MqInv q) (h : skynet_mq_length q = 0) :
    q.head = q.tail := by
  by_contra hne
  have h1 := inv.head_lt
  unfold skynet_mq_length at h
  split_ifs at h <;> omega

/-- The loop of `_drop_queue` on a well-formed mailbox, with one pop more allowed
than the mailbox has messages: it hands the messages held to `drop_func` in their
order and ends on an empty mailbox, whose link and release flag are as before. -/
theorem drop_loop_spec : ∀ (L : Nat) (q : message_queue) (msg : skynet_message)
    (fuel : Nat), MqInv q → skynet_mq_length q = L → L + 1 ≤ fuel →
    ∃ q', drop_loop fuel q msg = (mq_contents q, .ok q') ∧ mq_contents q' = [] ∧
      skynet_mq_length q' = 0 ∧ q'.next = q.next ∧ q'.release = q.release ∧
      q'.in_global = 0 := by
  intro L
  induction L with
  | zero =>
    intro q msg fuel inv hl hf
    obtain ⟨f, rfl⟩ : ∃ f, fuel = f + 1 := ⟨fuel - 1, by omega⟩
    have hemp := mq_length_zero inv hl
    rcases mq_pop_spec inv msg with ⟨hc, _, e⟩ | ⟨_, _, _, _, hne, _⟩
    · refine ⟨{ q with overload_threshold := MQ_OVERLOAD, in_global := 0 },
        ?_, ?_, ?_, rfl, rfl, rfl⟩
      · rw [drop_loop, e, hc]; rfl
      · rw [← hc]; exact mq_contents_congr rfl rfl rfl rfl
      · exact hl
    · exact absurd hemp hne
  | succ L ih =>
    intro q msg fuel inv hl hf
    obtain ⟨f, rfl⟩ : ∃ f, fuel = f + 1 := ⟨fuel - 1, by omega⟩
    have hne : q.head ≠ q.tail := mq_length_pos_ne (by omega)
    rcases mq_pop_spec inv msg with ⟨_, hemp, _⟩ | ⟨m, rest, q1, hc, _, e, inv1, hc1⟩
    · exact absurd hemp hne
    · obtain ⟨q2, e2, _, hlen, _, _, _, _, _, hrel, _, hnext, _⟩ :=
        mq_pop_nonempty inv msg hne
      rw [e] at e2
      simp only [Except.ok.injEq, Prod.mk.injEq] at e2
      obtain ⟨rfl, _, _⟩ := e2
      obtain ⟨q', e', a1, a2, a3, a4, a5⟩ := ih q1 m f inv1 (by omega) (by omega)
      refine ⟨q', ?_, a1, a2, a3.trans hnext, a4.trans hrel, a5⟩
      rw [drop_loop, e]
      simp only [if_true]
      rw [e', hc, hc1]

/-- C16. `skynet_mq_release` on a well-formed mailbox that is not in the global
queue. When the release flag is set, the call returns after it has handed to the
drop callback the messages held, each once and in the order in which they were
pushed, the mailbox is empty when it is freed, and nothing else changes. When the
release flag is not set, the call hands nothing to the drop callback, keeps the
messages of the mailbox, does not free it and links it at the end of the global
queue. -/
theorem release_drains (st : MqSystem) (l : List Nat) (q : Nat) (gq : GqInv st l)
    (hq : q ∉ l) (inv : MqInv (st.mq q)) :
    ((st.mq q).release ≠ 0 →
      ∃ st', skynet_mq_release st q = (mq_contents (st.mq q), .ok (st', true)) ∧
        mq_contents (st'.mq q) = [] ∧ skynet_mq_length (st'.mq q) = 0 ∧
        st'.Q = st.Q ∧ ∀ b, b ≠ q → st'.mq b = st.mq b) ∧
    ((st.mq q).release = 0 →
      ∃ st', skynet_mq_release st q = ([], .ok (st', false)) ∧ GqInv st' (l ++ [q]) ∧
        mq_contents (st'.mq q) = mq_contents (st.mq q) ∧
        ∀ b, { st'.mq b with next := (st.mq b).next } = st.mq b) := by
  constructor
  · intro hr
    have hlen := (mq_length_mod inv).2
    obtain ⟨q', e, a1, a2, a3, _, _⟩ :=
      drop_loop_spec (skynet_mq_length (st.mq q)) (st.mq q) default ((st.mq q).cap + 2)
        inv rfl (by have := inv.cap_pos; omega)
    have hn : q'.next = none := a3.trans (gq.unlinked q hq)
    have hd : _drop_queue (st.mq q) = (mq_contents (st.mq q), .ok q') := by
      unfold _drop_queue
      rw [e]
      simp only
      rw [if_neg (by simpa using hn)]
    refine ⟨{ st with mq := Function.update st.mq q q' }, ?_, ?_, ?_, rfl, ?_⟩
    · unfold skynet_mq_release
      rw [if_pos hr, hd]
    · show mq_contents (Function.update st.mq q q' q) = []
      rw [Function.update_same]; exact a1
    · show skynet_mq_length (Function.update st.mq q q' q) = 0
      rw [Function.update_same]; exact a2
    · intro b hb
      show Function.update st.mq q q' b = st.mq b
      rw [Function.update_noteq hb]
  · intro hr
    obtain ⟨st', e, inv', hm⟩ := gq_push_spec gq q hq
    refine ⟨st', ?_, inv', ?_, hm⟩
    · unfold skynet_mq_release
      rw [if_neg (by simpa using hr), e]
    · have h := hm q
      exact mq_contents_congr (by rw [← h]) (by rw [← h]) (by rw [← h]) (by rw [← h])

/-- The two cases on mailboxes that hold the same two messages: with the release
flag set both messages go to the drop callback, in the order of their pushes, and
the mailbox is freed; with the flag not set none does and the mailbox is linked. -/
theorem release_drains_witness :
    (∃ st', skynet_mq_release demo_release 1 =
        ([⟨1, 2, 3, 4⟩, ⟨5, 6, 7, 8⟩], .ok (st', true)) ∧
      mq_contents (st'.mq 1) = []) ∧
    (∃ st', skynet_mq_release demo_release 2 = ([], .ok (st', false)) ∧
      GqInv st' [2] ∧ mq_contents (st'.mq 2) = [⟨1, 2, 3, 4⟩, ⟨5, 6, 7, 8⟩]) := by
  have g : GqInv demo_release [] := gq_inv_init _ (fun a => by
    by_cases h1 : a = 1
    · subst h1; rfl
    · by_cases h2 : a = 2
      · subst h2; rfl
      · simp only [if_neg h1, if_neg h2]; rfl)
  constructor
  · obtain ⟨st', e, h, _⟩ :=
      (release_drains demo_release [] 1 g (by simp)
        ⟨by decide, by decide, by decide, by decide, by decide⟩).1 (by decide)
    exact ⟨st', e, h⟩
  · obtain ⟨st', e, h1, h2, _⟩ :=
      (release_drains demo_release [] 2 g (by simp)
        ⟨by decide, by decide, by decide, by decide, by decide⟩).2 (by decide)
    exact ⟨st', e, h1, h2⟩

/-! ## The flag of a mailbox and its place -/

/-- The overload loop keeps the link of the mailbox. -/
theorem pop_overload_next (length : Nat) :
    ∀ (fuel : Nat) (q q' : message_queue), pop_overload length fuel q = some q' →
    q'.next = q.next := by
  intro fuel
  induction fuel with
  | zero => intro q q' H; simp [pop_overload] at H
  | succ fuel ih =>
    intro q q' H
    rw [pop_overload] at H
    by_cases hgt : length > q.overload_threshold
    · rw [if_pos hgt] at H
      exact (ih _ q' H).trans rfl
    · rw [if_neg hgt] at H
      cases H
      rfl

/-- A pop that returns keeps the release flag and the link of the mailbox; it
leaves the flag `in_global` at 0 when it returns 1 and as it was when it returns
0. -/
theorem mq_pop_keeps (q : message_queue) (m0 : skynet_message) (q' : message_queue)
    (m : skynet_message) (ret : Nat) (H : skynet_mq_pop q m0 = .ok (q', m, ret)) :
    q'.release = q.release ∧ q'.next = q.next ∧
    ((ret = 1 ∧ q'.in_global = 0) ∨ (ret = 0 ∧ q'.in_global = q.in_global)) := by
  have hf := mq_pop_flag q m0 q' m ret H
  unfold skynet_mq_pop at H
  by_cases hemp : q.head = q.tail
  · rw [if_neg (by simpa using hemp)] at H
    simp only [Except.ok.injEq, Prod.mk.injEq] at H
    obtain ⟨rfl, _, rfl⟩ := H
    exact ⟨rfl, rfl, Or.inl ⟨rfl, rfl⟩⟩
  · rw [if_pos hemp] at H
    simp only at H
    obtain ⟨len, hlen⟩ : ∃ len, len =
        (if q.tail < (if q.head + 1 ≥ q.cap then 0 else q.head + 1)
          then q.tail + q.cap - (if q.head + 1 ≥ q.cap then 0 else q.head + 1)
          else q.tail - (if q.head + 1 ≥ q.cap then 0 else q.head + 1)) := ⟨_, rfl⟩
    rw [← hlen] at H
    cases hp : pop_overload len (len + 1)
        { q with head := if q.head + 1 ≥ q.cap then 0 else q.head + 1 } with
    | none => rw [hp] at H; cases H
    | some q2 =>
      rw [hp] at H
      simp only [Except.ok.injEq, Prod.mk.injEq] at H
      obtain ⟨rfl, rfl, rfl⟩ := H
      obtain ⟨_, _, _, _, a5, a6, _⟩ := pop_overload_fields len _ _ _ hp
      exact ⟨a6, (pop_overload_next len _ _ _ hp).trans rfl, Or.inr ⟨rfl, a5⟩⟩

/-- A write to a mailbox that keeps its link leaves the global queue as it is. -/
theorem gq_inv_update {st : MqSystem} {l : List Nat} (inv : GqInv st l) (a : Nat)
    (v : message_queue) (hv : v.next = (st.mq a).next) :
    GqInv { st with mq := Function.update st.mq a v } l := by
  refine ⟨is_chain_update_same st.mq a v hv l _ inv.chain, inv.tail, inv.nodup, ?_⟩
  intro b hb
  show (Function.update st.mq a v b).next = none
  by_cases hba : b = a
  · subst hba; rw [Function.update_same, hv]; exact inv.unlinked b hb
  · rw [Function.update_noteq hba]; exact inv.unlinked b hb

/-- A write to a mailbox in use that keeps its link, together with the worker
letting go of the mailbox or not, keeps the invariant when the flag written fits
the new place of the mailbox. -/
theorem sys_inv_update {st : MqSystem} {g : MqGhost} (inv : SysInv st g) (a : Nat)
    (v : message_queue) (held' : List Nat) (ha : a ∈ g.alloc)
    (hv : v.next = (st.mq a).next) (h01 : v.in_global ≤ 1)
    (hheld : held' = g.held ∨ held' = g.held.erase a)
    (hflag : v.release = 0 →
      (v.in_global = MQ_IN_GLOBAL ↔ a ∈ g.linked ∨ a ∈ held' ∨ a ∈ g.fresh)) :
    SysInv { st with mq := Function.update st.mq a v } { g with held := held' } := by
  have hsub : ∀ b, b ∈ held' → b ∈ g.held := by
    intro b hb
    rcases hheld with h | h
    · rw [h] at hb; exact hb
    · rw [h] at hb; exact List.mem_of_mem_erase hb
  have hmem : ∀ b, b ≠ a → (b ∈ held' ↔ b ∈ g.held) := by
    intro b hba
    rcases hheld with h | h
    · rw [h]
    · rw [h]; exact List.mem_erase_of_ne hba
  refine ⟨gq_inv_update inv.gq a v hv, inv.linked_sub, fun b hb => inv.held_sub b (hsub b hb),
    inv.fresh_sub, inv.alloc_nodup, ?_, inv.fresh_nodup,
    fun b hb hb' => inv.linked_held b hb (hsub b hb'), inv.linked_fresh,
    fun b hb => inv.held_fresh b (hsub b hb), ?_, ?_⟩
  · rcases hheld with h | h
    · rw [h]; exact inv.held_nodup
    · rw [h]; exact inv.held_nodup.erase a
  · intro b hb hr
    by_cases hba : b = a
    · subst hba
      simp only [Function.update_same] at hr ⊢
      exact hflag hr
    · simp only [Function.update_noteq hba] at hr ⊢
      rw [hmem b hba]
      exact inv.flag b hb hr
  · intro b hb
    by_cases hba : b = a
    · subst hba
      simp only [Function.update_same]
      exact h01
    · simp only [Function.update_noteq hba]
      exact inv.flag01 b hb

/-- A write to a mailbox in use that keeps its link, followed by a push of the
mailbox on the global queue, keeps the invariant when the mailbox was not in the
queue and the flag written is 1, unless the mailbox is marked for release. -/
theorem sys_inv_link {st st' : MqSystem} {g : MqGhost} (inv : SysInv st g) (a : Nat)
    (v : message_queue) (ha : a ∈ g.alloc) (hl : a ∉ g.linked)
    (hv : v.next = (st.mq a).next) (h01 : v.in_global ≤ 1)
    (hflag : v.release = 0 → v.in_global = MQ_IN_GLOBAL)
    (hp : skynet_globalmq_push { st with mq := Function.update st.mq a v } a = .ok st') :
    SysInv st' { g with linked := g.linked ++ [a], held := g.held.erase a,
                        fresh := g.fresh.erase a } := by
  obtain ⟨st'', e, inv', hm⟩ := gq_push_spec (gq_inv_update inv.gq a v hv) a hl
  rw [hp] at e
  simp only [Except.ok.injEq] at e
  subst e
  have hg : ∀ b, (st'.mq b).in_global = (Function.update st.mq a v b).in_global ∧
      (st'.mq b).release = (Function.update st.mq a v b).release := by
    intro b
    have h := hm b
    simp only at h
    rw [← h]
    exact ⟨rfl, rfl⟩
  refine ⟨inv', ?_, fun b hb => inv.held_sub b (List.mem_of_mem_erase hb),
    fun b hb => inv.fresh_sub b (List.mem_of_mem_erase hb), inv.alloc_nodup,
    inv.held_nodup.erase a, inv.fresh_nodup.erase a, ?_, ?_, ?_, ?_, ?_⟩
  · intro b hb
    simp only [List.mem_append, List.mem_singleton] at hb
    rcases hb with hb | rfl
    · exact inv.linked_sub b hb
    · exact ha
  · intro b hb hb'
    simp only [List.mem_append, List.mem_singleton] at hb
    rcases hb with hb | rfl
    · exact inv.linked_held b hb (List.mem_of_mem_erase hb')
    · exact ((inv.held_nodup.mem_erase_iff).1 hb').1 rfl
  · intro b hb hb'
    simp only [List.mem_append, List.mem_singleton] at hb
    rcases hb with hb | rfl
    · exact inv.linked_fresh b hb (List.mem_of_mem_erase hb')
    · exact ((inv.fresh_nodup.mem_erase_iff).1 hb').1 rfl
  · intro b hb hb'
    exact inv.held_fresh b (List.mem_of_mem_erase hb) (List.mem_of_mem_erase hb')
  · intro b hb hr
    rw [(hg b).2] at hr
    rw [(hg b).1]
    by_cases hba : b = a
    · subst hba
      simp only [Function.update_same] at hr ⊢
      simp only [List.mem_append, List.mem_singleton, or_true, true_or, iff_true]
      exact hflag hr
    · simp only [Function.update_noteq hba] at hr ⊢
      simp only [List.mem_append, List.mem_singleton, hba, or_false,
        List.mem_erase_of_ne hba]
      exact inv.flag b hb hr
  · intro b hb
    rw [(hg b).1]
    by_cases hba : b = a
    · subst hba
      simp only [Function.update_same]
      exact h01
    · simp only [Function.update_noteq hba]
      exact inv.flag01 b hb

/-- The mailbox freed by `_drop_queue` has a NULL link. -/
theorem drop_queue_next (q q' : message_queue) (H : (_drop_queue q).2 = .ok q') :
    q'.next = none := by
  unfold _drop_queue at H
  cases h : (drop_loop (q.cap + 2) q default).2 with
  | error e => rw [h] at H; cases H
  | ok q'' =>
    rw [h] at H
    simp only at H
    by_cases hn : q''.next ≠ none
    · rw [if_pos hn] at H; cases H
    · rw [if_neg hn] at H
      simp only [Except.ok.injEq] at H
      subst H
      simpa using hn

/-- Every memory reached satisfies the invariant. -/
theorem SysTrace.inv {st : MqSystem} {g : MqGhost} (t : SysTrace st g) : SysInv st g := by
  induction t with
  | init mq h =>
    exact ⟨gq_inv_init mq h, fun a ha => absurd ha (List.not_mem_nil a),
      fun a ha => absurd ha (List.not_mem_nil a), fun a ha => absurd ha (List.not_mem_nil a),
      List.nodup_nil, List.nodup_nil, List.nodup_nil,
      fun a ha => absurd ha (List.not_mem_nil a), fun a ha => absurd ha (List.not_mem_nil a),
      fun a ha => absurd ha (List.not_mem_nil a), fun a ha => absurd ha (List.not_mem_nil a),
      fun a ha => absurd ha (List.not_mem_nil a)⟩
  | @create st g a handle _ ha ih =>
    have hl : a ∉ g.linked := fun h => ha (ih.linked_sub a h)
    have hh : a ∉ g.held := fun h => ha (ih.held_sub a h)
    have hf : a ∉ g.fresh := fun h => ha (ih.fresh_sub a h)
    refine ⟨gq_inv_update ih.gq a _ (Eq.trans rfl (ih.gq.unlinked a hl).symm),
      fun b hb => List.mem_cons_of_mem _ (ih.linked_sub b hb),
      fun b hb => List.mem_cons_of_mem _ (ih.held_sub b hb), ?_,
      List.nodup_cons.2 ⟨ha, ih.alloc_nodup⟩, ih.held_nodup,
      List.nodup_cons.2 ⟨hf, ih.fresh_nodup⟩, ih.linked_held, ?_, ?_, ?_, ?_⟩
    · intro b hb
      rcases List.mem_cons.1 hb with rfl | hb
      · exact List.mem_cons_self _ _
      · exact List.mem_cons_of_mem _ (ih.fresh_sub b hb)
    · intro b hb hb'
      rcases List.mem_cons.1 hb' with rfl | hb'
      · exact hl hb
      · exact ih.linked_fresh b hb hb'
    · intro b hb hb'
      rcases List.mem_cons.1 hb' with rfl | hb'
      · exact hh hb
      · exact ih.held_fresh b hb hb'
    · intro b hb hr
      by_cases hba : b = a
      · subst hba
        simp only [Function.update_same]
        exact ⟨fun _ => Or.inr (Or.inr (List.mem_cons_self _ _)), fun _ => rfl⟩
      · simp only [Function.update_noteq hba] at hr ⊢
        have hb' : b ∈ g.alloc := by
          rcases List.mem_cons.1 hb with h | h
          · exact absurd h hba
          · exact h
        simp only [List.mem_cons, hba, false_or]
        exact ih.flag b hb' hr
    · intro b hb
      by_cases hba : b = a
      · subst hba
        simp only [Function.update_same]
        exact le_refl 1
      · simp only [Function.update_noteq hba]
        rcases List.mem_cons.1 hb with h | h
        · exact absurd h hba
        · exact ih.flag01 b h
  | @first_link st st' g a _ hf hp ih =>
    have hh : a ∉ g.held := fun h => ih.held_fresh a h hf
    have key := sys_inv_link ih a (st.mq a) (ih.fresh_sub a hf)
      (fun h => ih.linked_fresh a h hf) rfl (ih.flag01 a (ih.fresh_sub a hf))
      (fun hr => (ih.flag a (ih.fresh_sub a hf) hr).2 (Or.inr (Or.inr hf)))
      (by rw [Function.update_eq_self]; exact hp)
    rw [List.erase_of_not_mem hh] at key
    exact key
  | @push st st' g a m _ ha hr hp ih =>
    obtain ⟨_, k2, _, k4, k5, k6⟩ := mq_push_keeps (st.mq a) m
    unfold mq_push_at at hp
    by_cases h0 : (st.mq a).in_global = 0
    · have h2 : (skynet_mq_push (st.mq a) m).2 = true := k6.2 h0
      rw [if_pos h2] at hp
      rw [if_pos h0] at k5
      have hnone : ¬ (a ∈ g.linked ∨ a ∈ g.held ∨ a ∈ g.fresh) := by
        intro h
        have := (ih.flag a ha hr).2 h
        rw [h0] at this
        exact absurd this (by decide)
      have key := sys_inv_link ih a (skynet_mq_push (st.mq a) m).1 ha
        (fun h => hnone (Or.inl h)) k4 (by rw [k5]; exact le_refl 1) (fun _ => k5) hp
      rw [List.erase_of_not_mem (fun h => hnone (Or.inr (Or.inl h))),
        List.erase_of_not_mem (fun h => hnone (Or.inr (Or.inr h)))] at key
      rw [if_pos h2]
      exact key
    · have h2 : ¬ (skynet_mq_push (st.mq a) m).2 = true := fun h => h0 (k6.1 h)
      rw [if_neg h2] at hp
      rw [if_neg h0] at k5
      simp only [Except.ok.injEq] at hp
      subst hp
      rw [if_neg h2]
      exact sys_inv_update ih a (skynet_mq_push (st.mq a) m).1 g.held ha k4
        (by rw [k5]; exact ih.flag01 a ha) (Or.inl rfl)
        (fun hr' => by rw [k5]; exact ih.flag a ha hr)
  | @take st st' g a _ hp ih =>
    obtain ⟨alloc, linked, held, fresh⟩ := g
    cases linked with
    | nil =>
      rw [(gq_pop_spec ih.gq).1 rfl] at hp
      simp only [Except.ok.injEq, Prod.mk.injEq] at hp
      exact absurd hp.2 (by simp)
    | cons b l' =>
      obtain ⟨st2, e2, inv2, _, hm⟩ := (gq_pop_spec ih.gq).2 b l' rfl
      rw [e2] at hp
      simp only [Except.ok.injEq, Prod.mk.injEq, Option.some.injEq] at hp
      obtain ⟨rfl, rfl⟩ := hp
      have hg : ∀ c, (st2.mq c).in_global = (st.mq c).in_global ∧
          (st2.mq c).release = (st.mq c).release := by
        intro c
        have h := hm c
        rw [← h]
        exact ⟨rfl, rfl⟩
      have hnd := ih.gq.nodup
      have hbl : b ∉ l' := (List.nodup_cons.1 hnd).1
      simp only [List.erase_cons_head]
      refine ⟨inv2, fun c hc => ih.linked_sub c (List.mem_cons_of_mem _ hc), ?_,
        ih.fresh_sub, ih.alloc_nodup,
        List.nodup_cons.2 ⟨ih.linked_held b (List.mem_cons_self _ _), ih.held_nodup⟩,
        ih.fresh_nodup, ?_, fun c hc => ih.linked_fresh c (List.mem_cons_of_mem _ hc),
        ?_, ?_, ?_⟩
      · intro c hc
        rcases List.mem_cons.1 hc with rfl | hc
        · exact ih.linked_sub c (List.mem_cons_self _ _)
        · exact ih.held_sub c hc
      · intro c hc hc'
        rcases List.mem_cons.1 hc' with rfl | hc'
        · exact hbl hc
        · exact ih.linked_held c (List.mem_cons_of_mem _ hc) hc'
      · intro c hc
        rcases List.mem_cons.1 hc with rfl | hc
        · exact ih.linked_fresh c (List.mem_cons_self _ _)
        · exact ih.held_fresh c hc
      · intro c hc hr
        rw [(hg c).2] at hr
        rw [(hg c).1, ih.flag c hc hr]
        simp only [List.mem_cons]
        constructor
        · rintro ((h | h) | h | h)
          · exact Or.inr (Or.inl (Or.inl h))
          · exact Or.inl h
          · exact Or.inr (Or.inl (Or.inr h))
          · exact Or.inr (Or.inr h)
        · rintro (h | (h | h) | h)
          · exact Or.inl (Or.inr h)
          · exact Or.inl (Or.inl h)
          · exact Or.inr (Or.inl h)
          · exact Or.inr (Or.inr h)
      · intro c hc
        rw [(hg c).1]
        exact ih.flag01 c hc
  | @pop st g a m0 q' m ret _ hh hp ih =>
    obtain ⟨k1, k2, k3⟩ := mq_pop_keeps _ _ _ _ _ hp
    have ha := ih.held_sub a hh
    rcases k3 with ⟨rfl, hg⟩ | ⟨rfl, hg⟩
    · rw [if_neg (by decide)]
      refine sys_inv_update ih a q' (g.held.erase a) ha k2 (by rw [hg]; exact Nat.zero_le 1)
        (Or.inr rfl) (fun _ => ?_)
      rw [hg]
      constructor
      · intro h; exact absurd h (by decide)
      · rintro (h | h | h)
        · exact absurd hh (ih.linked_held a h)
        · exact absurd rfl ((ih.held_nodup.mem_erase_iff).1 h).1
        · exact absurd h (ih.held_fresh a hh)
    · rw [if_pos rfl]
      exact sys_inv_update ih a q' g.held ha k2 (by rw [hg]; exact ih.flag01 a ha)
        (Or.inl rfl) (fun hr => by rw [hg]; exact ih.flag a ha (k1 ▸ hr))
  | @give_back st st' g a _ hh hp ih =>
    have hf : a ∉ g.fresh := ih.held_fresh a hh
    have key := sys_inv_link ih a (st.mq a) (ih.held_sub a hh)
      (fun h => ih.linked_held a h hh) rfl (ih.flag01 a (ih.held_sub a hh))
      (fun hr => (ih.flag a (ih.held_sub a hh) hr).2 (Or.inr (Or.inl hh)))
      (by rw [Function.update_eq_self]; exact hp)
    rw [List.erase_of_not_mem hf] at key
    exact key
  | @mark_release st st' g a _ ha hp ih =>
    unfold skynet_mq_mark_release at hp
    by_cases hr : (st.mq a).release ≠ 0
    · rw [if_pos hr] at hp; cases hp
    · rw [if_neg hr] at hp
      have hr0 : (st.mq a).release = 0 := by simpa using hr
      by_cases hg : (st.mq a).in_global ≠ MQ_IN_GLOBAL
      · rw [if_pos hg] at hp
        have hnone : ¬ (a ∈ g.linked ∨ a ∈ g.held ∨ a ∈ g.fresh) :=
          fun h => hg ((ih.flag a ha hr0).2 h)
        have key := sys_inv_link ih a { st.mq a with release := 1 } ha
          (fun h => hnone (Or.inl h)) rfl (ih.flag01 a ha)
          (fun h => absurd h Nat.one_ne_zero) hp
        rw [List.erase_of_not_mem (fun h => hnone (Or.inr (Or.inl h))),
          List.erase_of_not_mem (fun h => hnone (Or.inr (Or.inr h)))] at key
        rw [if_pos hg]
        exact key
      · rw [if_neg hg] at hp
        simp only [Except.ok.injEq] at hp
        subst hp
        rw [if_neg hg]
        exact sys_inv_update ih a { st.mq a with release := 1 } g.held ha rfl
          (ih.flag01 a ha) (Or.inl rfl) (fun h => absurd h Nat.one_ne_zero)
  | @release st st' g a dropped freed _ hor hp ih =>
    have ha : a ∈ g.alloc := by
      rcases hor with h | h
      · exact ih.held_sub a h
      · exact ih.fresh_sub a h
    have hl : a ∉ g.linked := by
      intro hl
      rcases hor with h | h
      · exact ih.linked_held a hl h
      · exact ih.linked_fresh a hl h
    unfold skynet_mq_release at hp
    by_cases hr : (st.mq a).release ≠ 0
    · rw [if_pos hr] at hp
      cases hd : (_drop_queue (st.mq a)).2 with
      | error e => rw [hd] at hp; simp at hp
      | ok q' =>
        rw [hd] at hp
        simp only [Prod.mk.injEq, Except.ok.injEq] at hp
        obtain ⟨_, rfl, rfl⟩ := hp
        have hn := drop_queue_next _ _ hd
        simp only [if_true]
        refine ⟨gq_inv_update ih.gq a q' (hn.trans (ih.gq.unlinked a hl).symm), ?_, ?_, ?_,
          ih.alloc_nodup.erase a, ih.held_nodup.erase a, ih.fresh_nodup.erase a,
          fun b hb hb' => ih.linked_held b hb (List.mem_of_mem_erase hb'),
          fun b hb hb' => ih.linked_fresh b hb (List.mem_of_mem_erase hb'),
          fun b hb hb' => ih.held_fresh b (List.mem_of_mem_erase hb)
            (List.mem_of_mem_erase hb'), ?_, ?_⟩
        · intro b hb
          have hba : b ≠ a := fun e => hl (e ▸ hb)
          exact (List.mem_erase_of_ne hba).2 (ih.linked_sub b hb)
        · intro b hb
          obtain ⟨hba, hb'⟩ := (ih.held_nodup.mem_erase_iff).1 hb
          exact (List.mem_erase_of_ne hba).2 (ih.held_sub b hb')
        · intro b hb
          obtain ⟨hba, hb'⟩ := (ih.fresh_nodup.mem_erase_iff).1 hb
          exact (List.mem_erase_of_ne hba).2 (ih.fresh_sub b hb')
        · intro b hb hr'
          obtain ⟨hba, hb'⟩ := (ih.alloc_nodup.mem_erase_iff).1 hb
          simp only [Function.update_noteq hba] at hr' ⊢
          simp only [List.mem_erase_of_ne hba]
          exact ih.flag b hb' hr'
        · intro b hb
          obtain ⟨hba, hb'⟩ := (ih.alloc_nodup.mem_erase_iff).1 hb
          simp only [Function.update_noteq hba]
          exact ih.flag01 b hb'
    · rw [if_neg hr] at hp
      have hr0 : (st.mq a).release = 0 := by simpa using hr
      cases hd : skynet_globalmq_push st a with
      | error e => rw [hd] at hp; simp at hp
      | ok st2 =>
        rw [hd] at hp
        simp only [Prod.mk.injEq, Except.ok.injEq] at hp
        obtain ⟨_, rfl, rfl⟩ := hp
        simp only [Bool.false_eq_true, if_false]
        exact sys_inv_link ih a (st.mq a) ha hl rfl (ih.flag01 a ha)
          (fun hr' => (ih.flag a ha hr').2 (by
            rcases hor with h | h
            · exact Or.inr (Or.inl h)
            · exact Or.inr (Or.inr h)))
          (by rw [Function.update_eq_self]; exact hd)

/-! ## The claim on the flag of a mailbox -/

/-- The memory right after `skynet_mq_init` is reached. -/
theorem sys_empty_trace :
    SysTrace sys_empty { alloc := [], linked := [], held := [], fresh := [] } :=
  SysTrace.init _ (fun _ => rfl)

/-- The memory with one mailbox just created is reached. -/
theorem sys_fresh_trace :
    SysTrace sys_fresh { alloc := [1], linked := [], held := [], fresh := [1] } :=
  SysTrace.create 1 7 sys_empty_trace (List.not_mem_nil 1)

/-- The memory with the mailbox pushed on the global queue is reached. -/
theorem sys_linked_trace :
    SysTrace sys_linked { alloc := [1], linked := [1], held := [], fresh := [] } :=
  SysTrace.first_link 1 sys_fresh_trace (List.mem_singleton_self 1)
    (rfl : skynet_globalmq_push sys_fresh 1 = .ok sys_linked)

/-- The memory with the mailbox popped by a worker is reached. -/
theorem sys_held_trace :
    SysTrace (after_take sys_linked)
      { alloc := [1], linked := [], held := [1], fresh := [] } :=
  SysTrace.take 1 sys_linked_trace
    (rfl : skynet_globalmq_pop sys_linked = .ok (after_take sys_linked, some 1))

/-- The memory with the mailbox idle is reached. -/
theorem sys_idle_trace :
    SysTrace sys_idle { alloc := [1], linked := [], held := [], fresh := [] } :=
  SysTrace.pop 1 default
    { (after_take sys_linked).mq 1 with overload_threshold := MQ_OVERLOAD, in_global := 0 }
    default 1 sys_held_trace (List.mem_singleton_self 1) rfl

/-- The memory with the idle mailbox marked for release is reached. -/
theorem sys_marked_trace :
    SysTrace sys_marked { alloc := [1], linked := [1], held := [], fresh := [] } :=
  SysTrace.mark_release 1 sys_idle_trace (List.mem_singleton_self 1)
    (rfl : skynet_mq_mark_release sys_idle 1 = .ok sys_marked)

/-- C18, the cases that differ. Right after `skynet_mq_create` the mailbox at
address 1 has its flag `in_global` at 1 although the global queue is empty and no
worker has popped a mailbox from it. And when the mailbox, started, popped by a
worker and found empty, is idle and `skynet_mq_mark_release` is called on it, it is
linked in the global queue, of which it is the only mailbox, with its flag
`in_global` at 0. -/
theorem flag_differs_from_place :
    (SysTrace sys_fresh { alloc := [1], linked := [], held := [], fresh := [1] } ∧
      (sys_fresh.mq 1).in_global = 1 ∧ (sys_fresh.mq 1).release = 0 ∧
      sys_fresh.Q.head = none ∧ sys_fresh.Q.tail = none) ∧
    (SysTrace sys_marked { alloc := [1], linked := [1], held := [], fresh := [] } ∧
      (sys_marked.mq 1).in_global = 0 ∧ (sys_marked.mq 1).release = 1 ∧
      sys_marked.Q.head = some 1 ∧ sys_marked.Q.tail = some 1 ∧
      (sys_marked.mq 1).next = none) :=
  ⟨⟨sys_fresh_trace, rfl, rfl, rfl, rfl⟩, ⟨sys_marked_trace, rfl, rfl, rfl, rfl, rfl⟩⟩

/-- C18, as the code has it. In every memory reached through `skynet_mq_create`,
`skynet_mq_push`, `skynet_mq_pop`, `skynet_mq_mark_release`, `skynet_mq_release`,
`skynet_globalmq_push` and `skynet_globalmq_pop`, called as the callers call them,
a mailbox in use whose release flag is not set has its flag `in_global` true, and
then at 1, if and only if it is linked in the global queue, or has been popped from
it by a worker that has not let go of it, or has been created and not pushed on the
global queue yet; the mailboxes linked in the global queue are those of `linked`,
in this order, and no mailbox is in two of the three places. -/
theorem flag_iff_place (st : MqSystem) (g : MqGhost) (t : SysTrace st g) (a : Nat)
    (ha : a ∈ g.alloc) (hr : (st.mq a).release = 0) :
    ((st.mq a).in_global ≠ 0 ↔ a ∈ g.linked ∨ a ∈ g.held ∨ a ∈ g.fresh) ∧
    ((st.mq a).in_global = 0 ∨ (st.mq a).in_global = 1) ∧
    GqInv st g.linked ∧
    (a ∈ g.linked → a ∉ g.held ∧ a ∉ g.fresh) ∧ (a ∈ g.held → a ∉ g.fresh) := by
  have inv := t.inv
  have h01 := inv.flag01 a ha
  have hf := inv.flag a ha hr
  refine ⟨?_, by omega, inv.gq,
    fun h => ⟨inv.linked_held a h, inv.linked_fresh a h⟩, inv.held_fresh a⟩
  rw [← hf]
  simp only [MQ_IN_GLOBAL]
  omega

/-- The mailbox at address 1 once it is linked in the global queue, and once it is
idle: the flag is at 1 in the first memory and at 0 in the second. -/
theorem flag_iff_place_witness :
    (((sys_linked.mq 1).in_global ≠ 0 ↔ 1 ∈ [1] ∨ 1 ∈ ([] : List Nat) ∨ 1 ∈ ([] : List Nat)) ∧
      (sys_linked.mq 1).in_global = 1 ∧ GqInv sys_linked [1]) ∧
    (((sys_idle.mq 1).in_global ≠ 0 ↔
        1 ∈ ([] : List Nat) ∨ 1 ∈ ([] : List Nat) ∨ 1 ∈ ([] : List Nat)) ∧
      (sys_idle.mq 1).in_global = 0 ∧ GqInv sys_idle []) := by
  constructor
  · obtain ⟨h1, _, h3, _⟩ :=
      flag_iff_place sys_linked _ sys_linked_trace 1 (List.mem_singleton_self 1) rfl
    exact ⟨h1, rfl, h3⟩
  · obtain ⟨h1, _, h3, _⟩ :=
      flag_iff_place sys_idle _ sys_idle_trace 1 (List.mem_singleton_self 1) rfl
    exact ⟨h1, rfl, h3⟩

/-! ## The claim on the symbols of a module -/

/-- What `strrchr` finds: nothing when the byte is not in the string, and otherwise
the offset after which the byte does not occur any more. -/
theorem strrchr_spec (c : Nat) : ∀ (s : List Nat),
    (strrchr s c = none → c ∉ s) ∧
    (∀ i, strrchr s c = some i →
      s = s.take i ++ c :: s.drop (i + 1) ∧ c ∉ s.drop (i + 1)) := by
  intro s
  induction s with
  | nil => exact ⟨fun _ => List.not_mem_nil c, fun i h => by simp [strrchr] at h⟩
  | cons a s ih =>
    obtain ⟨ih1, ih2⟩ := ih
    cases hs : strrchr s c with
    | some j =>
      obtain ⟨e1, e2⟩ := ih2 j hs
      refine ⟨fun h => by simp [strrchr, hs] at h, fun i h => ?_⟩
      simp only [strrchr, hs, Option.some.injEq] at h
      subst h
      simp only [List.take_succ_cons, List.drop_succ_cons, List.cons_append]
      exact ⟨by rw [← e1], e2⟩
    | none =>
      have hn := ih1 hs
      by_cases hac : a = c
      · refine ⟨fun h => by simp [strrchr, hs, hac] at h, fun i h => ?_⟩
        simp only [strrchr, hs, hac, if_true, Option.some.injEq] at h
        subst h
        simp only [List.take_zero, List.nil_append, List.drop_succ_cons, List.drop_zero]
        exact ⟨by rw [hac], hn⟩
      · refine ⟨fun _ => ?_, fun i h => by simp [strrchr, hs, hac] at h⟩
        intro hm
        rcases List.mem_cons.1 hm with h | h
        · exact hac h.symm
        · exact hn h

/-- The end of a string after its last `.`. -/
theorem after_last_dot_append (pre post : List Nat) (h : 46 ∉ post) :
    after_last_dot (pre ++ 46 :: post) = post := by
  unfold after_last_dot
  rw [List.reverse_append, List.reverse_cons, List.append_assoc,
    List.takeWhile_append_of_pos (by
      intro b hb
      rw [List.mem_reverse] at hb
      simp only [decide_eq_true_eq]
      rintro rfl
      exact h hb)]
  simp

/-- A string without `.` is kept whole. -/
theorem after_last_dot_none (s : List Nat) (h : 46 ∉ s) : after_last_dot s = s := by
  unfold after_last_dot
  rw [List.takeWhile_eq_self_iff.2 (by
    intro b hb
    rw [List.mem_reverse] at hb
    simp only [decide_eq_true_eq]
    rintro rfl
    exact h hb)]
  simp

/-- C21. For a module named M and a suffix s, `get_api` passes to `dlsym` the handle
of the module and the symbol made by concatenating M and s and dropping everything
up to and including the last `.` of the result. The four suffixes `_create`,
`_init`, `_release` and `_signal` hold no `.`, so the symbol is what follows the
last `.` of M followed by the suffix, and for an M without `.` the symbols looked
up by `open_sym` are M_create, M_init, M_release and M_signal. -/
theorem get_api_symbol (L : Loader) (mod : skynet_module) (s : List Nat) :
    get_api L mod s = L.dlsym mod.module (after_last_dot (mod.name ++ s)) ∧
    (∀ pre post, 46 ∉ post → after_last_dot (pre ++ 46 :: post) = post) ∧
    (46 ∉ mod.name → s ∈ [api_create, api_init, api_release, api_signal] →
      get_api L mod s = L.dlsym mod.module (mod.name ++ s)) ∧
    (46 ∉ mod.name →
      (open_sym L mod).1.create = L.dlsym mod.module (mod.name ++ api_create) ∧
      (open_sym L mod).1.init = L.dlsym mod.module (mod.name ++ api_init) ∧
      (open_sym L mod).1.release = L.dlsym mod.module (mod.name ++ api_release) ∧
      (open_sym L mod).1.signal = L.dlsym mod.module (mod.name ++ api_signal)) := by
  have key : ∀ t : List Nat,
      get_api L mod t = L.dlsym mod.module (after_last_dot (mod.name ++ t)) := by
    intro t
    unfold get_api
    simp only
    obtain ⟨h1, h2⟩ := strrchr_spec 46 (mod.name ++ t)
    cases hs : strrchr (mod.name ++ t) 46 with
    | none => simp only; rw [after_last_dot_none _ (h1 hs)]
    | some i =>
      simp only
      obtain ⟨e1, e2⟩ := h2 i hs
      have e3 : after_last_dot (mod.name ++ t) = (mod.name ++ t).drop (i + 1) := by
        conv_lhs => rw [e1]
        exact after_last_dot_append _ _ e2
      rw [e3]
  have nodot : ∀ t : List Nat, 46 ∉ mod.name → 46 ∉ t →
      get_api L mod t = L.dlsym mod.module (mod.name ++ t) := by
    intro t h1 h2
    rw [key t, after_last_dot_none]
    intro hm
    rcases List.mem_append.1 hm with h | h
    · exact h1 h
    · exact h2 h
  refine ⟨key s, after_last_dot_append, fun hn hs => ?_, fun hn => ?_⟩
  · apply nodot s hn
    simp only [List.mem_cons, List.mem_singleton, List.not_mem_nil, or_false] at hs
    rcases hs with rfl | rfl | rfl | rfl <;> decide
  · obtain ⟨e, _⟩ := open_sym_spec L mod
    rw [e]
    exact ⟨nodot _ hn (by decide), nodot _ hn (by decide), nodot _ hn (by decide),
      nodot _ hn (by decide)⟩

/-- The module `logger` of the file with handle 7, and the module given as
`sn.v2`: the symbols are `logger_init` and `v2_init`. -/
theorem get_api_symbol_witness :
    get_api demo_loader { (default : skynet_module) with
        name := [108, 111, 103, 103, 101, 114], module := 7 } api_init =
      demo_loader.dlsym 7 [108, 111, 103, 103, 101, 114, 95, 105, 110, 105, 116] ∧
    get_api demo_loader { (default : skynet_module) with
        name := [115, 110, 46, 118, 50], module := 7 } api_init =
      demo_loader.dlsym 7 [118, 50, 95, 105, 110, 105, 116] := by
  constructor
  · exact (get_api_symbol demo_loader _ api_init).2.2.1 (by decide) (by decide)
  · rw [(get_api_symbol demo_loader _ api_init).1]
    rfl

/-! ## The search path of the modules -/

/-- The bytes written by `memcpy`: those of `src` from the offset on, as far as the
buffer reaches. -/
theorem memcpy_spec : ∀ (src dst : List Nat) (off : Nat),
    (memcpy dst off src).length = dst.length ∧
    ∀ j, (memcpy dst off src).getD j 0 =
      if off ≤ j ∧ j < off + src.length ∧ j < dst.length then src.getD (j - off) 0
      else dst.getD j 0 := by
  intro src
  induction src with
  | nil =>
    intro dst off
    refine ⟨rfl, fun j => ?_⟩
    rw [if_neg (by simp only [List.length_nil]; omega)]
    rfl
  | cons b src ih =>
    intro dst off
    obtain ⟨h1, h2⟩ := ih (dst.set off b) (off + 1)
    rw [memcpy]
    refine ⟨by rw [h1, List.length_set], fun j => ?_⟩
    rw [h2 j, List.length_set, List.length_cons]
    by_cases hj : off + 1 ≤ j ∧ j < off + 1 + src.length ∧ j < dst.length
    · rw [if_pos hj, if_pos (by omega)]
      obtain ⟨k, hk⟩ : ∃ k, j - off = k + 1 := ⟨j - off - 1, by omega⟩
      rw [hk, List.getD_cons_succ]
      congr 1
      omega
    · rw [if_neg hj]
      by_cases hjo : j = off
      · subst hjo
        by_cases hlt : j < dst.length
        · rw [getD_set_eq _ _ _ _ hlt, if_pos (by omega), Nat.sub_self]
          rfl
        · rw [if_neg (by omega)]
          rw [List.getD_eq_default _ _ (by rw [List.length_set]; omega),
            List.getD_eq_default _ _ (by omega)]
      · rw [getD_set_ne _ _ _ _ _ (fun e => hjo e.symm), if_neg (by omega)]

/-- The copy loop of `_try_open` stops at the first `?` of the pattern, or at the
end of the pattern, and has written the bytes before that place. -/
theorem try_open_copy_spec (path : List Nat) (len a : Nat) (ha : a ≤ len)
    (hq : a < len → path.getD a 0 = 63) :
    ∀ (k i : Nat) (tmp : List Nat), i ≤ a → a ≤ i + k →
    (∀ j, i ≤ j → j < a → path.getD j 0 ≠ 63) →
    (try_open_copy path len k i tmp).2 = a ∧
    (try_open_copy path len k i tmp).1.length = tmp.length ∧
    ∀ j, (try_open_copy path len k i tmp).1.getD j 0 =
      if i ≤ j ∧ j < a ∧ j < tmp.length then path.getD j 0 else tmp.getD j 0 := by
  intro k
  induction k with
  | zero =>
    intro i tmp h1 h2 _
    have e : a = i := by omega
    refine ⟨e.symm, rfl, fun j => ?_⟩
    rw [if_neg (by omega)]
    rfl
  | succ k ih =>
    intro i tmp h1 h2 h3
    rw [try_open_copy]
    by_cases hc : path.getD i 0 ≠ 63 ∧ i < len
    · rw [if_pos hc]
      have hai : a ≠ i := by
        intro e
        subst e
        exact hc.1 (hq hc.2)
      obtain ⟨r1, r2, r3⟩ := ih (i + 1) (tmp.set i (path.getD i 0)) (by omega) (by omega)
        (fun j hj1 hj2 => h3 j (by omega) hj2)
      refine ⟨r1, by rw [r2, List.length_set], fun j => ?_⟩
      rw [r3 j, List.length_set]
      by_cases hj : i + 1 ≤ j ∧ j < a ∧ j < tmp.length
      · rw [if_pos hj, if_pos (by omega)]
      · rw [if_neg hj]
        by_cases hji : j = i
        · subst hji
          by_cases hlt : j < tmp.length
          · rw [getD_set_eq _ _ _ _ hlt, if_pos (by omega)]
          · rw [if_neg (by omega),
              List.getD_eq_default _ _ (by rw [List.length_set]; omega),
              List.getD_eq_default _ _ (by omega)]
        · rw [getD_set_ne _ _ _ _ _ (fun e => hji e.symm), if_neg (by omega)]
    · rw [if_neg hc]
      have e : a = i := by
        by_contra hne
        have hlt : i < a := by omega
        exact hc ⟨h3 i (le_refl _) hlt, by omega⟩
      refine ⟨e.symm, rfl, fun j => ?_⟩
      rw [if_neg (by omega)]

/-- A list falls into its longest start whose elements satisfy a test and a rest
that is empty or starts with an element that fails the test. -/
theorem takeWhile_split {α : Type} (q : α → Bool) : ∀ (l : List α),
    l = l.takeWhile q ++ l.dropWhile q ∧ (∀ x, x ∈ l.takeWhile q → q x = true) ∧
    (l.dropWhile q = [] ∨ ∃ d r, l.dropWhile q = d :: r ∧ q d = false) := by
  intro l
  induction l with
  | nil => exact ⟨rfl, fun x hx => absurd hx (List.not_mem_nil x), Or.inl rfl⟩
  | cons b l ih =>
    obtain ⟨h1, h2, h3⟩ := ih
    cases hb : q b with
    | true =>
      simp only [List.takeWhile_cons, List.dropWhile_cons, hb, if_true, List.cons_append]
      refine ⟨by rw [← h1], fun x hx => ?_, h3⟩
      rcases List.mem_cons.1 hx with rfl | hx
      · exact hb
      · exact h2 x hx
    | false =>
      simp only [List.takeWhile_cons, List.dropWhile_cons, hb]
      exact ⟨rfl, fun x hx => absurd hx (List.not_mem_nil x), Or.inr ⟨b, l, rfl, hb⟩⟩

/-- The pieces of a string that starts with a piece `p` without `;`: `p` alone
when nothing follows, and `p` before the pieces of what follows the next `;`. -/
theorem split_semicolons_append : ∀ (p : List Nat), 59 ∉ p →
    split_semicolons p = [p] ∧
    ∀ r, split_semicolons (p ++ 59 :: r) = p :: split_semicolons r := by
  intro p
  induction p with
  | nil =>
    intro _
    exact ⟨rfl, fun r => by simp [split_semicolons]⟩
  | cons b p ih =>
    intro h
    have hb : b ≠ 59 := fun e => h (by rw [e]; exact List.mem_cons_self _ _)
    obtain ⟨h1, h2⟩ := ih (fun hm => h (List.mem_cons_of_mem _ hm))
    constructor
    · rw [split_semicolons, if_neg hb, h1]
    · intro r
      rw [List.cons_append, split_semicolons, if_neg hb, h2 r]

/-- The `;` at the start of a search path make no pattern. -/
theorem path_patterns_dropWhile : ∀ (path : List Nat),
    path_patterns (path.dropWhile (fun b => decide (b = 59))) = path_patterns path := by
  intro path
  induction path with
  | nil => rfl
  | cons b path ih =>
    by_cases hb : b = 59
    · subst hb
      simp only [List.dropWhile_cons, decide_True, if_true]
      rw [ih]
      simp [path_patterns, split_semicolons]
    · simp only [List.dropWhile_cons, hb, decide_False]
      rfl

/-- The patterns of a search path that starts with a piece `p` that is not empty
and has no `;`, followed by nothing or by a `;`. -/
theorem path_patterns_append (p : List Nat) (hp : p ≠ []) (h59 : 59 ∉ p) :
    path_patterns p = [p] ∧ ∀ r, path_patterns (p ++ 59 :: r) = p :: path_patterns r := by
  obtain ⟨h1, h2⟩ := split_semicolons_append p h59
  constructor
  · simp [path_patterns, h1, hp]
  · intro r
    simp [path_patterns, h2 r, hp]

/-- The C string of a buffer that holds bytes other than NUL followed by NUL
bytes. -/
theorem c_string_append (file : List Nat) (k : Nat) (h : 0 ∉ file) :
    c_string (file ++ List.replicate k 0) = file := by
  unfold c_string
  rw [List.takeWhile_append_of_pos (by
    intro b hb
    simp only [decide_eq_true_eq]
    rintro rfl
    exact h hb)]
  cases k with
  | zero => simp
  | succ k => simp [List.replicate_succ]

/-- A cell of a buffer of NUL bytes. -/
theorem getD_replicate_zero (k j : Nat) : (List.replicate k 0).getD j 0 = 0 := by
  by_cases h : j < k
  · exact getD_replicate_lt k j 0 0 h
  · exact List.getD_eq_default _ _ (by rw [List.length_replicate]; omega)

/-- A byte of a string is one of its elements. -/
theorem getD_mem {α : Type} (l : List α) (j : Nat) (d : α) (h : j < l.length) :
    l.getD j d ∈ l := by
  rw [List.getD_eq_getElem _ _ h]
  exact List.getElem_mem h

/-- The buffer built by a round of `_try_open` on a pattern `P?S` that fits the
buffer with the name: the bytes of `P`, of the name and of `S`, and NUL bytes up to
the end of the buffer; the copy loop stops at the `?`. -/
theorem try_open_buffer_spec (name : List Nat) (sz : Nat) (path P S rest : List Nat)
    (hpath : path = P ++ 63 :: S ++ rest)
    (hlen : (path.takeWhile (fun b => decide (b ≠ 59))).length = P.length + 1 + S.length)
    (hP : 63 ∉ P) (hsz : path.length + name.length ≤ sz) :
    (try_open_copy path (path.takeWhile (fun b => decide (b ≠ 59))).length
      (path.takeWhile (fun b => decide (b ≠ 59))).length 0 (List.replicate sz 0)).2 =
      P.length ∧
    try_open_buffer name sz path =
      P ++ name ++ S ++ List.replicate (sz - (P.length + name.length + S.length)) 0 := by
  have hpl : path.length = P.length + 1 + S.length + rest.length := by
    rw [hpath]; simp only [List.length_append, List.length_cons]; omega
  have hget : ∀ j, j < P.length → path.getD j 0 = P.getD j 0 := by
    intro j hj
    rw [hpath, List.append_assoc, List.getD_append _ _ _ _ hj]
  have hq : path.getD P.length 0 = 63 := by
    rw [hpath, List.append_assoc, List.getD_append_right _ _ _ _ (le_refl _), Nat.sub_self]
    rfl
  obtain ⟨c1, c2, c3⟩ := try_open_copy_spec path
    (path.takeWhile (fun b => decide (b ≠ 59))).length P.length (by omega) (fun _ => hq)
    (path.takeWhile (fun b => decide (b ≠ 59))).length 0 (List.replicate sz 0)
    (Nat.zero_le _) (by omega)
    (fun j _ hj => by
      rw [hget j hj]
      intro e
      exact hP (e ▸ getD_mem P j 0 hj))
  refine ⟨c1, ?_⟩
  unfold try_open_buffer
  rw [hlen] at c1 c2 c3 ⊢
  rw [c1]
  rw [List.length_replicate] at c2 c3
  generalize (try_open_copy path (P.length + 1 + S.length) (P.length + 1 + S.length) 0
    (List.replicate sz 0)).1 = tmp1 at c2 c3 ⊢
  have hsrc : (List.drop (P.length + 1) path).take (P.length + 1 + S.length - P.length - 1) ++
      List.replicate (P.length + 1 + S.length - P.length - 1 -
        (List.drop (P.length + 1) path).length) 0 = S := by
    have hd : List.drop (P.length + 1) path = S ++ rest := by
      rw [hpath, List.append_assoc, List.drop_append_eq_append_drop]
      simp
    have h1 : P.length + 1 + S.length - P.length - 1 = S.length := by omega
    rw [hd, h1, List.take_left', List.length_append]
    · have h2 : S.length - (S.length + rest.length) = 0 := by omega
      rw [h2]; simp
    · rfl
  unfold strncpy
  rw [hsrc]
  obtain ⟨m1, m2⟩ := memcpy_spec name tmp1 P.length
  obtain ⟨n1, n2⟩ := memcpy_spec S (memcpy tmp1 P.length name) (P.length + name.length)
  apply list_ext_getD _ _ 0
  · rw [n1, m1, c2]
    simp only [List.length_append, List.length_replicate]
    omega
  · intro j hj
    rw [n1, m1, c2] at hj
    rw [n2 j, m1, c2, m2 j, c2, c3 j]
    by_cases r3 : P.length + name.length ≤ j ∧ j < P.length + name.length + S.length ∧ j < sz
    · rw [if_pos r3]
      rw [List.getD_append _ _ _ _ (by simp only [List.length_append]; omega),
        List.getD_append_right _ _ _ _ (by simp only [List.length_append]; omega)]
      simp only [List.length_append]
    · rw [if_neg r3]
      by_cases r2 : P.length ≤ j ∧ j < P.length + name.length ∧ j < sz
      · rw [if_pos r2]
        rw [List.append_assoc, List.append_assoc, List.getD_append_right _ _ _ _ r2.1,
          List.getD_append _ _ _ _ (by omega)]
      · rw [if_neg r2]
        by_cases r1 : 0 ≤ j ∧ j < P.length ∧ j < sz
        · rw [if_pos r1, hget j r1.2.1]
          rw [List.append_assoc, List.append_assoc, List.getD_append _ _ _ _ r1.2.1]
        · rw [if_neg r1, getD_replicate_zero]
          rw [List.getD_append_right _ _ _ _ (by simp only [List.length_append]; omega),
            getD_replicate_zero]

/-- A round of the loop of `_try_open`, on a path that has `;` dropped from its
start already. -/
theorem try_open_loop_succ (L : Loader) (name : List Nat) (sz fuel : Nat)
    (path path' : List Nat) (h : path' = path.dropWhile (fun b => decide (b = 59))) :
    try_open_loop L name sz (fuel + 1) path =
      if path' = [] then .ok none
      else if path'.getD
          (try_open_copy path' (path'.takeWhile (fun b => decide (b ≠ 59))).length
            (path'.takeWhile (fun b => decide (b ≠ 59))).length 0
            (List.replicate sz 0)).2 0 = 63 then
        match L.dlopen (c_string (try_open_buffer name sz path')) with
        | some dl => .ok (some dl)
        | none => try_open_loop L name sz fuel
            (path'.drop (path'.takeWhile (fun b => decide (b ≠ 59))).length)
      else .error .exit := by
  subst h
  rfl

/-- The loop of `_try_open`, with more rounds allowed than the path has bytes, does
what the search of the patterns of the path does, on a path and a name without NUL
that fit the buffer together. -/
theorem try_open_loop_spec (L : Loader) (name : List Nat) (sz : Nat) (hname : 0 ∉ name) :
    ∀ (fuel : Nat) (path : List Nat), path.length < fuel → 0 ∉ path →
    path.length + name.length ≤ sz →
    try_open_loop L name sz fuel path = try_patterns L name (path_patterns path) := by
  intro fuel
  induction fuel with
  | zero => intro path h; omega
  | succ fuel ih =>
    intro path hf h0 hsz
    obtain ⟨s1, _, s3⟩ := takeWhile_split (fun b => decide (b = 59)) path
    obtain ⟨path', hp'⟩ : ∃ path', path' = path.dropWhile (fun b => decide (b = 59)) :=
      ⟨_, rfl⟩
    rw [← hp'] at s1 s3
    have hlen' : path'.length ≤ path.length := by
      have := congrArg List.length s1
      rw [List.length_append] at this
      omega
    have h0' : 0 ∉ path' := by
      intro hm
      apply h0
      rw [s1]
      exact List.mem_append_right _ hm
    rw [try_open_loop_succ L name sz fuel path path' hp', ← path_patterns_dropWhile path,
      ← hp']
    by_cases hnil : path' = []
    · rw [if_pos hnil, hnil]
      rfl
    rw [if_neg hnil]
    have hhead : ∃ d0 r0, path' = d0 :: r0 ∧ d0 ≠ 59 := by
      rcases s3 with h | ⟨d, r, h, hd⟩
      · exact absurd h hnil
      · exact ⟨d, r, h, by simpa using hd⟩
    obtain ⟨t1, t2, t3⟩ := takeWhile_split (fun b => decide (b ≠ 59)) path'
    obtain ⟨p, hp⟩ : ∃ p, p = path'.takeWhile (fun b => decide (b ≠ 59)) := ⟨_, rfl⟩
    obtain ⟨rest, hrest⟩ : ∃ rest, rest = path'.dropWhile (fun b => decide (b ≠ 59)) :=
      ⟨_, rfl⟩
    rw [← hp, ← hrest] at t1
    rw [← hp] at t2
    rw [← hrest] at t3
    have hp59 : 59 ∉ p := fun hm => by simpa using t2 59 hm
    have hpne : p ≠ [] := by
      obtain ⟨d0, r0, e, hd0⟩ := hhead
      rw [hp, e, List.takeWhile_cons, if_pos (by simpa using hd0)]
      exact List.cons_ne_nil _ _
    have hdrop : path'.drop p.length = rest := by
      conv_lhs => rw [t1]
      exact List.drop_left' rfl
    have hrest' : rest = [] ∨ ∃ r, rest = 59 :: r := by
      rcases t3 with h | ⟨d, r, h, hd⟩
      · exact Or.inl h
      · have : d = 59 := by simpa using hd
        exact Or.inr ⟨r, by rw [h, this]⟩
    have hpat : path_patterns path' = p :: path_patterns rest := by
      obtain ⟨a1, a2⟩ := path_patterns_append p hpne hp59
      rcases hrest' with h | ⟨r, h⟩
      · rw [t1, h, List.append_nil, a1]; rfl
      · rw [t1, h, a2 r]
        have := path_patterns_dropWhile (59 :: r)
        simp only [List.dropWhile_cons, decide_True, if_true] at this
        rw [← this, path_patterns_dropWhile]
    have hrestlen : rest.length < fuel := by
      have := congrArg List.length t1
      rw [List.length_append] at this
      have : 0 < p.length := List.length_pos.2 hpne
      omega
    have h0rest : 0 ∉ rest := fun hm => h0' (by rw [t1]; exact List.mem_append_right _ hm)
    have h0p : 0 ∉ p := fun hm => h0' (by rw [t1]; exact List.mem_append_left _ hm)
    have hih := ih rest hrestlen h0rest (by
      have := congrArg List.length t1
      rw [List.length_append] at this
      omega)
    obtain ⟨u1, u2, u3⟩ := takeWhile_split (fun b => decide (b ≠ 63)) p
    rw [hpat, try_patterns, ← hp, hdrop]
    rcases u3 with hD | ⟨d, S, hD, hd⟩
    · have hp63 : 63 ∉ p := by
        intro hm
        rw [u1, hD, List.append_nil] at hm
        simpa using u2 63 hm
      have hget : ∀ j, j < p.length → path'.getD j 0 = p.getD j 0 := by
        intro j hj
        rw [t1, List.getD_append _ _ _ _ hj]
      obtain ⟨c1, _, _⟩ := try_open_copy_spec path' p.length p.length (le_refl _)
        (fun h => absurd h (lt_irrefl _)) p.length 0 (List.replicate sz 0)
        (Nat.zero_le _) (by omega)
        (fun j _ hj => by
          rw [hget j hj]
          intro e
          exact hp63 (e ▸ getD_mem p j 0 hj))
      have hq : path'.getD p.length 0 ≠ 63 := by
        rw [t1, List.getD_append_right _ _ _ _ (le_refl _), Nat.sub_self]
        rcases hrest' with h | ⟨r, h⟩
        · rw [h]; decide
        · rw [h, List.getD_cons_zero]; decide
      rw [c1, if_neg hq, if_neg hp63]
    · have hd63 : d = 63 := by simpa using hd
      subst hd63
      obtain ⟨P, hP⟩ : ∃ P, P = p.takeWhile (fun b => decide (b ≠ 63)) := ⟨_, rfl⟩
      rw [← hP] at u1 u2
      rw [hD] at u1
      have hP63 : 63 ∉ P := fun hm => by simpa using u2 63 hm
      have hpath : path' = P ++ 63 :: S ++ rest := by
        rw [t1, u1]
      have hplen : p.length = P.length + 1 + S.length := by
        rw [u1]; simp only [List.length_append, List.length_cons]; omega
      obtain ⟨b1, b2⟩ := try_open_buffer_spec name sz path' P S rest hpath
        (by rw [← hp]; exact hplen) hP63 (by omega)
      rw [← hp] at b1
      have hq : path'.getD P.length 0 = 63 := by
        rw [hpath, List.append_assoc, List.getD_append_right _ _ _ _ (le_refl _),
          Nat.sub_self]
        rfl
      have hp63 : 63 ∈ p := by
        rw [u1]; exact List.mem_append_right _ (List.mem_cons_self _ _)
      have hfile : pattern_file p name = P ++ name ++ S := by
        unfold pattern_file
        rw [← hP, hD]
        rfl
      have h0file : 0 ∉ P ++ name ++ S := by
        intro hm
        rcases List.mem_append.1 hm with hm | hm
        · rcases List.mem_append.1 hm with hm | hm
          · exact h0p (by rw [u1]; exact List.mem_append_left _ hm)
          · exact hname hm
        · exact h0p (by
            rw [u1]; exact List.mem_append_right _ (List.mem_cons_of_mem _ hm))
      rw [b1, if_pos hq, if_pos hp63, b2, c_string_append _ _ h0file, hfile, hih]

/-- The pattern `P?S`, where `P` has no `?`, gives the file name made of `P`, of
the name and of `S`. -/
theorem pattern_file_append (P S name : List Nat) (hP : 63 ∉ P) :
    pattern_file (P ++ 63 :: S) name = P ++ name ++ S := by
  have hall : ∀ b, b ∈ P → decide (b ≠ 63) = true := by
    intro b hb
    simp only [decide_eq_true_eq]
    rintro rfl
    exact hP hb
  unfold pattern_file
  rw [List.takeWhile_append_of_pos hall, List.dropWhile_append_of_pos hall]
  simp

/-- C22. On a search path and a module name that are C strings, `_try_open` returns
what the search of the patterns of the path returns: the patterns are the pieces of
the path between the `;`, the empty ones left out; they are tried from left to
right; for a pattern `P?S`, where `P` has no `?`, the file tried is `P` followed by
the name followed by `S`, so that only the first `?` is replaced; the first file
that opens is the result, NULL is the result when none opens, and a pattern without
`?` that is reached ends the process with `exit(1)`. The buffer passed to `dlopen`
holds the file name followed by NUL bytes, one at least. -/
theorem try_open_patterns (L : Loader) (M : modules) (name : List Nat)
    (hpath : 0 ∉ M.path) (hname : 0 ∉ name) :
    _try_open L M name = try_patterns L name (path_patterns M.path) ∧
    (∀ P S rest, 63 ∉ P → 59 ∉ P → 59 ∉ S → (rest = [] ∨ ∃ r, rest = 59 :: r) →
      (P ++ 63 :: S ++ rest).length ≤ M.path.length →
      pattern_file (P ++ 63 :: S) name = P ++ name ++ S ∧
      (P ++ name ++ S).length < M.path.length + name.length ∧
      try_open_buffer name (M.path.length + name.length) (P ++ 63 :: S ++ rest) =
        P ++ name ++ S ++
          List.replicate (M.path.length + name.length - (P ++ name ++ S).length) 0) := by
  constructor
  · unfold _try_open
    exact try_open_loop_spec L name _ hname _ _ (Nat.lt_succ_self _) hpath (le_refl _)
  · intro P S rest hP hP59 hS59 hrest hlen
    have hl : (P ++ 63 :: S ++ rest).length = P.length + 1 + S.length + rest.length := by
      simp only [List.length_append, List.length_cons]; omega
    have hfl : (P ++ name ++ S).length = P.length + name.length + S.length := by
      simp only [List.length_append]
    have htw : ((P ++ 63 :: S ++ rest).takeWhile (fun b => decide (b ≠ 59))).length =
        P.length + 1 + S.length := by
      have hall : ∀ b, b ∈ P ++ 63 :: S → decide (b ≠ 59) = true := by
        intro b hb
        simp only [decide_eq_true_eq]
        rintro rfl
        rcases List.mem_append.1 hb with h | h
        · exact hP59 h
        · rcases List.mem_cons.1 h with h | h
          · exact absurd h (by decide)
          · exact hS59 h
      rw [List.takeWhile_append_of_pos hall]
      rcases hrest with h | ⟨r, h⟩
      · rw [h]; simp only [List.takeWhile_nil, List.append_nil, List.length_append,
          List.length_cons]; omega
      · rw [h]; simp only [List.takeWhile_cons, ne_eq, not_true_eq_false, decide_False,
          List.append_nil, List.length_append, List.length_cons]
        simp
        omega
    obtain ⟨_, b2⟩ := try_open_buffer_spec name (M.path.length + name.length)
      (P ++ 63 :: S ++ rest) P S rest rfl htw hP (by omega)
    refine ⟨pattern_file_append P S name hP, by rw [hfl]; omega, ?_⟩
    rw [b2, hfl]

/-- The search path `./?.so` and the module `a`: the file `./a.so` is opened. -/
theorem try_open_patterns_witness :
    _try_open demo_loader demo_modules [97] =
      try_patterns demo_loader [97] (path_patterns demo_modules.path) ∧
    path_patterns demo_modules.path = [[46, 47, 63, 46, 115, 111]] ∧
    _try_open demo_loader demo_modules [97] = .ok (some 1) :=
  ⟨(try_open_patterns demo_loader demo_modules [97] (by decide) (by decide)).1,
    by decide, rfl⟩

/-! ## The claim on the cache of modules -/

/-- What the loop of `_query` returns: the first index from `i` on, among the `k`
it looks at, whose entry has the name asked for. -/
theorem query_loop_spec (M : modules) (name : List Nat) : ∀ (k i : Nat),
    (query_loop M name k i = none →
      ∀ j, i ≤ j → j < i + k → (M.m.getD j default).name ≠ name) ∧
    (∀ r, query_loop M name k i = some r →
      i ≤ r ∧ r < i + k ∧ (M.m.getD r default).name = name) := by
  intro k
  induction k with
  | zero =>
    intro i
    exact ⟨fun _ j h1 h2 => (by omega), fun r h => (by simp [query_loop] at h)⟩
  | succ k ih =>
    intro i
    obtain ⟨h1, h2⟩ := ih (i + 1)
    rw [query_loop]
    by_cases hc : strcmp (M.m.getD i default).name name = 0
    · rw [if_pos hc]
      refine ⟨fun h => (by cases h), fun r h => ?_⟩
      simp only [Option.some.injEq] at h
      subst h
      exact ⟨le_refl _, by omega, (strcmp_eq_zero_iff _ _).1 hc⟩
    · rw [if_neg hc]
      refine ⟨fun h j hj1 hj2 => ?_, fun r h => ?_⟩
      · by_cases hji : j = i
        · subst hji
          exact fun e => hc ((strcmp_eq_zero_iff _ _).2 e)
        · exact h1 h j (by omega) (by omega)
      · obtain ⟨a1, a2, a3⟩ := h2 r h
        exact ⟨by omega, by omega, a3⟩

/-- In a well-formed table `_query` returns the entry in use that has the name
asked for, when there is one. -/
theorem query_hit {M : modules} (inv : ModInv M) (name : List Nat) (i : Nat)
    (hi : i < M.count) (hn : (M.m.getD i default).name = name) : _query M name = some i := by
  obtain ⟨h1, h2⟩ := query_loop_spec M name M.count 0
  cases hq : _query M name with
  | none =>
    exact absurd hn (h1 hq i (Nat.zero_le _) (by omega))
  | some r =>
    obtain ⟨_, a2, a3⟩ := h2 r hq
    rw [inv.names r i (by omega) hi (a3.trans hn.symm)]

/-- A call of `skynet_module_query` that returns, on a well-formed table: the
entries in use stay as they are, at most one entry is added, with the name asked
for and at the end, and only when the name was not in the table; the index returned
is that of an entry in use with the name asked for. -/
theorem module_query_step {M M' : modules} (inv : ModInv M) (L : Loader)
    (name : List Nat) (r : Option Nat)
    (H : skynet_module_query L M name = .ok (M', r)) :
    ModInv M' ∧ M'.path = M.path ∧
    (∀ i, i < M.count → M'.m.getD i default = M.m.getD i default) ∧
    (M'.count = M.count ∨
      (M'.count = M.count + 1 ∧ r = some M.count ∧ _query M name = none)) ∧
    (r = none → M'.count = M.count) ∧
    (∀ i, r = some i → i < M'.count ∧ (M'.m.getD i default).name = name) ∧
    (∀ i, _query M name = some i → M' = M ∧ r = some i) ∧
    (M.count = MAX_MODULE_TYPE → M' = M) := by
  obtain ⟨q1, q2⟩ := query_loop_spec M name M.count 0
  cases hq : _query M name with
  | some i =>
    unfold skynet_module_query at H
    simp only [hq, Except.ok.injEq, Prod.mk.injEq] at H
    obtain ⟨rfl, rfl⟩ := H
    obtain ⟨_, a2, a3⟩ := q2 i hq
    refine ⟨inv, rfl, fun _ _ => rfl, Or.inl rfl, fun h => (by cases h), ?_,
      fun j hj => ⟨rfl, (by rw [← hj])⟩, fun _ => rfl⟩
    intro j hj
    simp only [Option.some.injEq] at hj
    subst hj
    exact ⟨by omega, a3⟩
  | none =>
    by_cases hc : M.count < MAX_MODULE_TYPE
    · cases ho : _try_open L M name with
      | error e =>
        unfold skynet_module_query at H
        simp only [hq, if_pos hc, ho] at H
        cases H
      | ok d =>
        cases d with
        | none =>
          unfold skynet_module_query at H
          simp only [hq, if_pos hc, ho, Except.ok.injEq, Prod.mk.injEq] at H
          obtain ⟨rfl, rfl⟩ := H
          exact ⟨inv, rfl, fun _ _ => rfl, Or.inl rfl, fun _ => rfl,
            fun i h => (by cases h), fun i h => (by cases h), fun _ => rfl⟩
        | some dl =>
          have hlt : M.count < M.m.length := by rw [inv.len]; exact hc
          rw [module_query_open L M name dl hq hc inv.len ho] at H
          obtain ⟨f1, _⟩ := open_sym_spec L (query_entry M name dl)
          have hkeep : ∀ i, i < M.count →
              ((M.m.set M.count (query_entry M name dl)).set M.count
                (open_sym L (query_entry M name dl)).1).getD i default =
              M.m.getD i default := by
            intro i hi
            rw [getD_set_ne _ _ _ _ _ (by omega), getD_set_ne _ _ _ _ _ (by omega)]
          have hnew : ((M.m.set M.count (query_entry M name dl)).set M.count
                (open_sym L (query_entry M name dl)).1).getD M.count default =
              (open_sym L (query_entry M name dl)).1 :=
            getD_set_eq _ _ _ _ (by rw [List.length_set]; exact hlt)
          have hnewname : (open_sym L (query_entry M name dl)).1.name = name := by
            rw [f1]; rfl
          by_cases hs : (open_sym L (query_entry M name dl)).2 = 0
          · rw [if_pos hs] at H
            simp only [Except.ok.injEq, Prod.mk.injEq] at H
            obtain ⟨rfl, rfl⟩ := H
            refine ⟨⟨by simp only [List.length_set]; exact inv.len, hc, ?_⟩, rfl, hkeep,
              Or.inr ⟨rfl, rfl, rfl⟩, fun h => (by cases h), ?_, fun i h => (by cases h),
              fun h => absurd hc (by omega)⟩
            · intro i j hi hj he
              simp only at hi hj he
              by_cases hic : i = M.count
              · by_cases hjc : j = M.count
                · rw [hic, hjc]
                · rw [hic, hnew, hnewname, hkeep j (by omega)] at he
                  exact absurd he.symm (q1 hq j (Nat.zero_le _) (by omega))
              · by_cases hjc : j = M.count
                · rw [hjc, hnew, hnewname, hkeep i (by omega)] at he
                  exact absurd he (q1 hq i (Nat.zero_le _) (by omega))
                · rw [hkeep i (by omega), hkeep j (by omega)] at he
                  exact inv.names i j (by omega) (by omega) he
            · intro i hi
              simp only [Option.some.injEq] at hi
              subst hi
              exact ⟨Nat.lt_succ_self _, (by simp only; rw [hnew, hnewname])⟩
          · rw [if_neg hs] at H
            simp only [Except.ok.injEq, Prod.mk.injEq] at H
            obtain ⟨rfl, rfl⟩ := H
            refine ⟨⟨by simp only [List.length_set]; exact inv.len, inv.count_le, ?_⟩, rfl,
              hkeep, Or.inl rfl, fun _ => rfl, fun i h => (by cases h),
              fun i h => (by cases h), fun h => absurd hc (by omega)⟩
            intro i j hi hj he
            simp only at hi hj he
            rw [hkeep i hi, hkeep j hj] at he
            exact inv.names i j hi hj he
    · unfold skynet_module_query at H
      simp only [hq, if_neg hc, Except.ok.injEq, Prod.mk.injEq] at H
      obtain ⟨rfl, rfl⟩ := H
      exact ⟨inv, rfl, fun _ _ => rfl, Or.inl rfl, fun _ => rfl,
        fun i h => (by cases h), fun i h => (by cases h), fun _ => rfl⟩

/-- The table made by `skynet_module_init` is well formed. -/
theorem mod_inv_init (path : List Nat) : ModInv (skynet_module_init path) :=
  ⟨by simp [skynet_module_init], Nat.zero_le _, fun i j hi _ _ => absurd hi (Nat.not_lt_zero i)⟩

/-- Calls of `skynet_module_query` keep the table well formed and keep its entries
in use where they are. -/
theorem mod_reach_keeps {M0 M : modules} (inv : ModInv M0) (h : ModReach M0 M) :
    ModInv M ∧ M0.count ≤ M.count ∧ M.path = M0.path ∧
    ∀ i, i < M0.count → M.m.getD i default = M0.m.getD i default := by
  induction h with
  | start => exact ⟨inv, le_refl _, rfl, fun _ _ => rfl⟩
  | @query M1 M2 L name r _ hq ih =>
    obtain ⟨i1, i2, i3, i4⟩ := ih
    obtain ⟨s1, s2, s3, s4, _⟩ := module_query_step i1 L name r hq
    refine ⟨s1, ?_, s2.trans i3, fun i hi => ?_⟩
    · rcases s4 with h | ⟨h, _⟩ <;> omega
    · rw [s3 i (by omega), i4 i hi]

/-- C28. `skynet_module_query` caches the modules loaded. In every table reached
from `skynet_module_init` by calls of `skynet_module_query`: no two entries have the
same name and there are at most 32 entries; a query for the name of an entry returns
this entry and leaves the table as it is, whatever the loader would find, that is
without a call of `dlopen`; the entry returned by a query is returned again, and is
the same, at every later query for the name; a query that returns NULL leaves the
count and the entries of the table as they were (the cell after the last entry,
which is not part of the table, may have been written); and with 32 entries a query
for a name that is not in the table returns NULL whatever the loader would find. -/
theorem module_cache (path : List Nat) (M : modules)
    (h : ModReach (skynet_module_init path) M) (name : List Nat) (i : Nat) :
    (M.count ≤ 32 ∧ M.m.length = 32 ∧
      ∀ a b, a < M.count → b < M.count →
        (M.m.getD a default).name = (M.m.getD b default).name → a = b) ∧
    (i < M.count → (M.m.getD i default).name = name →
      ∀ L, skynet_module_query L M name = .ok (M, some i)) ∧
    (∀ L M' M'', skynet_module_query L M name = .ok (M', some i) → ModReach M' M'' →
      M''.m.getD i default = M'.m.getD i default ∧
      ∀ L', skynet_module_query L' M'' name = .ok (M'', some i)) ∧
    (∀ L M', skynet_module_query L M name = .ok (M', none) →
      M'.count = M.count ∧ M'.path = M.path ∧
      (∀ j, j < M.count → M'.m.getD j default = M.m.getD j default) ∧
      ∀ n, _query M' n = _query M n) ∧
    (M.count = 32 → _query M name = none →
      ∀ L, skynet_module_query L M name = .ok (M, none)) := by
  obtain ⟨inv, _, _, _⟩ := mod_reach_keeps (mod_inv_init path) h
  have hit : ∀ (N : modules), ModInv N → ∀ k, k < N.count →
      (N.m.getD k default).name = name →
      ∀ L, skynet_module_query L N name = .ok (N, some k) := by
    intro N invN k hk hn L
    unfold skynet_module_query
    rw [query_hit invN name k hk hn]
  refine ⟨⟨inv.count_le, inv.len, inv.names⟩, fun hi hn => hit M inv i hi hn, ?_, ?_, ?_⟩
  · intro L M' M'' hq hr
    obtain ⟨s1, _, _, _, _, s6, _⟩ := module_query_step inv L name (some i) hq
    obtain ⟨hi, hn⟩ := s6 i rfl
    obtain ⟨r1, _, _, r4⟩ := mod_reach_keeps s1 hr
    have e := r4 i hi
    refine ⟨e, hit M'' r1 i (by
      obtain ⟨_, r2, _, _⟩ := mod_reach_keeps s1 hr
      omega) (by rw [e]; exact hn)⟩
  · intro L M' hq
    obtain ⟨_, s2, s3, _, s5, _⟩ := module_query_step inv L name none hq
    have hc := s5 rfl
    refine ⟨hc, s2, s3, fun n => ?_⟩
    unfold _query
    rw [hc]
    exact query_loop_congr M M' n M.count 0 (fun j _ hj => s3 j (by omega))
  · intro hc hq L
    unfold skynet_module_query
    simp only [hq]
    rw [if_neg (by rw [hc]; decide)]

/-- The module `a` is loaded by a first query and found by the second one, made
with a loader that has no file at all; the table then has one entry. -/
theorem module_cache_witness :
    ∃ M, skynet_module_query demo_loader demo_modules [97] = .ok (M, some 0) ∧
      M.count = 1 ∧
      skynet_module_query { dlopen := fun _ => none, dlsym := fun _ _ => none } M [97] =
        .ok (M, some 0) := by
  have h1 : ∃ M, skynet_module_query demo_loader demo_modules [97] = .ok (M, some 0) ∧
      M.count = 1 := ⟨_, rfl, rfl⟩
  obtain ⟨M, e, hc⟩ := h1
  refine ⟨M, e, hc, ?_⟩
  exact ((module_cache [46, 47, 63, 46, 115, 111] demo_modules ModReach.start [97] 0).2.2.1
    demo_loader M M e ModReach.start).2 _

/-! ## The claim on the textual form of a handle -/

/-- A step of the loop of `laddresscommand` on the character of a digit. -/
theorem address_loop_digit (u : Bool) (d : Nat) (hd : d < 16) (rest : List Nat)
    (addr : Nat) :
    address_loop (hex_char u d :: rest) addr =
      address_loop rest ((addr * 16 + d) % 2 ^ 32) := by
  unfold hex_char
  by_cases h10 : d < 10
  · rw [if_pos h10, address_loop, if_pos (by omega)]
    congr 2
    omega
  · rw [if_neg h10]
    cases u with
    | true =>
      simp only [if_true]
      rw [address_loop, if_neg (by omega), if_neg (by omega), if_pos (by omega)]
      congr 2
      omega
    | false =>
      simp only [Bool.false_eq_true, if_false]
      rw [address_loop, if_neg (by omega), if_pos (by omega)]
      congr 2
      omega

/-- The loop of `laddresscommand` returns no value when a byte is not a hexadecimal
digit. -/
theorem address_loop_bad (c : Nat) (hc : ¬ is_hex c) (post : List Nat) :
    ∀ (pre : List Nat) (addr : Nat), address_loop (pre ++ c :: post) addr = none := by
  intro pre
  induction pre with
  | nil =>
    intro addr
    unfold is_hex at hc
    rw [List.nil_append, address_loop, if_neg (by omega), if_neg (by omega),
      if_neg (by omega)]
  | cons b pre ih =>
    intro addr
    rw [List.cons_append, address_loop]
    split_ifs
    · exact ih _
    · exact ih _
    · exact ih _
    · rfl

/-- C23. `laddresscommand` converts the textual form of a handle into the integer it
denotes: for every handle `h` below `2 ^ 32`, the text made of `:` and of the 8
hexadecimal digits of `h`, each in upper or in lower case, gives `h`. A result that
is NULL, that is empty, that does not start with `:`, or that has a byte that is
not a hexadecimal digit after the `:`, gives no value. -/
theorem address_of_text (h : Nat) (upper : Nat → Bool) (c : Nat) (pre post : List Nat) :
    (h < 2 ^ 32 → laddresscommand (some (handle_text upper h)) = some h) ∧
    laddresscommand none = none ∧ laddresscommand (some []) = none ∧
    (c ≠ 58 → laddresscommand (some (c :: post)) = none) ∧
    (¬ is_hex c → laddresscommand (some (58 :: (pre ++ c :: post))) = none) := by
  refine ⟨fun hh => ?_, rfl, rfl, fun hc => ?_, fun hc => ?_⟩
  · unfold handle_text laddresscommand
    simp only [if_true]
    rw [address_loop_digit _ _ (Nat.mod_lt _ (by decide)),
      address_loop_digit _ _ (Nat.mod_lt _ (by decide)),
      address_loop_digit _ _ (Nat.mod_lt _ (by decide)),
      address_loop_digit _ _ (Nat.mod_lt _ (by decide)),
      address_loop_digit _ _ (Nat.mod_lt _ (by decide)),
      address_loop_digit _ _ (Nat.mod_lt _ (by decide)),
      address_loop_digit _ _ (Nat.mod_lt _ (by decide)),
      address_loop_digit _ _ (Nat.mod_lt _ (by decide)), address_loop]
    norm_num at hh ⊢
    omega
  · unfold laddresscommand
    simp only [if_neg hc]
  · unfold laddresscommand
    simp only [if_true]
    exact address_loop_bad c hc post pre 0

/-- The handle 0x0100000A written `:0100000a` and written `:0100000A`, and the text
`:0100g00a`, in which `g` is no digit. -/
theorem address_of_text_witness :
    laddresscommand (some [58, 48, 49, 48, 48, 48, 48, 48, 97]) = some 16777226 ∧
    laddresscommand (some [58, 48, 49, 48, 48, 48, 48, 48, 65]) = some 16777226 ∧
    laddresscommand (some [58, 48, 49, 48, 48, 103, 48, 48, 97]) = none :=
  ⟨(address_of_text 16777226 (fun _ => false) 0 [] []).1 (by decide),
    (address_of_text 16777226 (fun _ => true) 0 [] []).1 (by decide),
    (address_of_text 0 (fun _ => false) 103 [48, 49, 48, 48] [48, 48, 97]).2.2.2.2
      (by unfold is_hex; omega)⟩

/-! ## The claim on the command line of the first service -/

/-- C24. For the line `snlua main`, and with more spaces after the name, `bootstrap`
launches the service `snlua` with the argument `main`, and for the line `snlua`
with the empty argument. For the line ` snlua main`, which starts with a space, it
launches `snlua` with the argument `a main`: the name is the first token, found
after the space, but the argument is taken from the place that has the length of
the name in the line, which is inside the token. -/
theorem bootstrap_leading_space (name0 : List Nat) :
    bootstrap_args [115, 110, 108, 117, 97, 32, 109, 97, 105, 110] name0 =
      ([115, 110, 108, 117, 97], [109, 97, 105, 110]) ∧
    bootstrap_args [115, 110, 108, 117, 97, 32, 32, 32, 109, 97, 105, 110] name0 =
      ([115, 110, 108, 117, 97], [109, 97, 105, 110]) ∧
    bootstrap_args [115, 110, 108, 117, 97] name0 = ([115, 110, 108, 117, 97], []) ∧
    bootstrap_args [32, 115, 110, 108, 117, 97, 32, 109, 97, 105, 110] name0 =
      ([115, 110, 108, 117, 97], [97, 32, 109, 97, 105, 110]) ∧
    bootstrap (fun _ _ => some 1) [32, 115, 110, 108, 117, 97, 32, 109, 97, 105, 110]
      name0 = .ok ([115, 110, 108, 117, 97], [97, 32, 109, 97, 105, 110]) :=
  ⟨rfl, rfl, rfl, rfl, rfl⟩

/-! ## The claim on the push of a linked mailbox -/

/-- In a chain the last mailbox has a NULL link and every other one has a link. -/
theorem is_chain_links (mq : Nat → message_queue) : ∀ (l : List Nat) (p : Option Nat),
    is_chain mq p l → ∀ a, a ∈ l →
    (l.getLast? = some a → (mq a).next = none) ∧
    (l.getLast? ≠ some a → (mq a).next ≠ none) := by
  intro l
  induction l with
  | nil => intro p _ a ha; exact absurd ha (List.not_mem_nil a)
  | cons b l ih =>
    intro p h a ha
    obtain ⟨_, h2⟩ := h
    cases l with
    | nil =>
      have hab : a = b := by simpa using ha
      subst hab
      exact ⟨fun _ => h2, fun hn => absurd rfl hn⟩
    | cons c l' =>
      have hlast : (b :: c :: l').getLast? = (c :: l').getLast? := by
        simp [List.getLast?_cons_cons]
      rw [hlast]
      rcases List.mem_cons.1 ha with hab | hmem
      · subst hab
        by_cases hin : a ∈ c :: l'
        · exact ih _ h2 a hin
        · refine ⟨fun hl => ?_, fun _ => ?_⟩
          · exact absurd (List.mem_of_mem_getLast? hl) hin
          · rw [h2.1]; simp
      · exact ih _ h2 a hmem

/-- The memory with the two mailboxes on the global queue is reached. -/
theorem sys_pair_trace :
    SysTrace sys_pair { alloc := [2, 1], linked := [1, 2], held := [], fresh := [] } :=
  SysTrace.first_link 2 (SysTrace.create 2 8 sys_linked_trace (by decide))
    (List.mem_singleton_self 2)
    (rfl : skynet_globalmq_push
      { sys_linked with mq := Function.update sys_linked.mq 2 (skynet_mq_create 8) } 2 =
      .ok sys_pair)

/-- C26 (the claim as stated fails). In the memory reached by creating the mailbox at
address 1 and pushing it on the global queue, the queue holds this mailbox alone, so
that the mailbox is linked and is the last one; its link is NULL, and a second push
of it does not fail the assertion `queue->next == NULL`: the push returns, and it
has modified the queue, in which the mailbox is now its own successor. -/
theorem push_of_tail_passes :
    SysTrace sys_linked { alloc := [1], linked := [1], held := [], fresh := [] } ∧
    GqInv sys_linked [1] ∧ (sys_linked.mq 1).next = none ∧
    skynet_globalmq_push sys_linked 1 ≠ .error .assertion ∧
    (∃ st', skynet_globalmq_push sys_linked 1 = .ok st' ∧ (st'.mq 1).next = some 1 ∧
      st'.Q.head = some 1 ∧ st'.Q.tail = some 1) :=
  ⟨sys_linked_trace, sys_linked_trace.inv.gq, rfl, (by intro h; cases h),
    ⟨_, rfl, rfl, rfl, rfl⟩⟩

/-- C26 (amended). A push on the global queue of a mailbox that is linked in it and
is not the last one of the queue, the head or one in the middle, is caught by the
assertion of `skynet_globalmq_push`: for every state of the queue the assertion
`queue->next == NULL` fails, and the call ends there, so that the queue is not
modified. For the last mailbox of the queue, which the only mailbox of a queue is,
the link is NULL: the assertion does not fail and the push returns. -/
theorem push_of_linked_mailbox (st : MqSystem) (l : List Nat) (a : Nat)
    (inv : GqInv st l) (ha : a ∈ l) :
    (l.getLast? ≠ some a → skynet_globalmq_push st a = .error .assertion) ∧
    (l.getLast? = some a → ∃ st', skynet_globalmq_push st a = .ok st') := by
  refine ⟨fun hl => ?_, fun hl => ?_⟩
  · have hn := (is_chain_links st.mq l _ inv.chain a ha).2 hl
    unfold skynet_globalmq_push
    rw [if_pos hn]
  · have hn := (is_chain_links st.mq l _ inv.chain a ha).1 hl
    have ht : st.Q.tail = some a := by rw [inv.tail, hl]
    unfold skynet_globalmq_push
    rw [if_neg (by simpa using hn), ht]
    exact ⟨_, rfl⟩

/-- The theorem applies to the queue that holds the mailboxes 1 and 2: a push of the
mailbox 1, the head, fails the assertion, and a push of the mailbox 2, the last one,
returns. -/
theorem push_of_linked_mailbox_witness :
    GqInv sys_pair [1, 2] ∧
    skynet_globalmq_push sys_pair 1 = .error .assertion ∧
    (∃ st', skynet_globalmq_push sys_pair 2 = .ok st') :=
  ⟨sys_pair_trace.inv.gq,
    (push_of_linked_mailbox sys_pair [1, 2] 1 sys_pair_trace.inv.gq (by decide)).1
      (by decide),
    (push_of_linked_mailbox sys_pair [1, 2] 2 sys_pair_trace.inv.gq (by decide)).2
      (by rfl)⟩

/-! ## The claim on the memory limit of a Lua service -/

/-- The value of `l->mem` after the two updates at the start of `lalloc`, when the
sizes are values of `size_t`, the total does not pass the range of `size_t`, and the
size of the block given is part of the total. -/
theorem lalloc_total_mod (l : snlua) (ptr : Option Nat) (osize nsize : Nat)
    (h1 : l.mem + nsize < SIZE_MOD) (h2 : ptr ≠ none → osize ≤ l.mem + nsize) :
    (if ptr ≠ none then ((l.mem + nsize) % SIZE_MOD + (SIZE_MOD - osize)) % SIZE_MOD
      else (l.mem + nsize) % SIZE_MOD) = lalloc_total l ptr osize nsize := by
  unfold lalloc_total
  unfold SIZE_MOD at h1 ⊢
  by_cases hp : ptr ≠ none
  · have := h2 hp
    rw [if_pos hp, if_pos hp]
    omega
  · rw [if_neg hp, if_neg hp]
    omega

/-- C27. In `lalloc`, for sizes and a total within the range of `size_t` and a block
whose size is part of the total: when a limit is set and a request for a new block,
or to grow a block, asks for a total above the limit, NULL is returned and `mem` is
what it was before the call, and nothing else changes; a request to shrink or to
free a block is passed to the allocator whatever the limit; and every request that
is not refused leaves `mem` at `mem + nsize`, less `osize` when a block is given. -/
theorem lalloc_limit (skynet_lalloc : Option Nat → Nat → Nat → Option Nat) (l : snlua)
    (ptr : Option Nat) (osize nsize : Nat)
    (h1 : l.mem + nsize < SIZE_MOD) (h2 : ptr ≠ none → osize ≤ l.mem + nsize) :
    (l.mem_limit ≠ 0 → (ptr = none ∨ nsize > osize) →
      lalloc_total l ptr osize nsize > l.mem_limit →
      lalloc skynet_lalloc l ptr osize nsize = (l, none, false)) ∧
    (ptr ≠ none → nsize ≤ osize →
      (lalloc skynet_lalloc l ptr osize nsize).2.1 = skynet_lalloc ptr osize nsize ∧
      (lalloc skynet_lalloc l ptr osize nsize).1.mem = l.mem + nsize - osize) ∧
    (¬ (l.mem_limit ≠ 0 ∧ lalloc_total l ptr osize nsize > l.mem_limit ∧
        (ptr = none ∨ nsize > osize)) →
      (lalloc skynet_lalloc l ptr osize nsize).2.1 = skynet_lalloc ptr osize nsize ∧
      (lalloc skynet_lalloc l ptr osize nsize).1.mem = lalloc_total l ptr osize nsize ∧
      (lalloc skynet_lalloc l ptr osize nsize).1.mem_limit = l.mem_limit) := by
  have ht := lalloc_total_mod l ptr osize nsize h1 h2
  obtain ⟨l1, hl1⟩ : ∃ l1 : snlua, l1 =
      (if ptr ≠ none then
        { l with mem := ((l.mem + nsize) % SIZE_MOD + (SIZE_MOD - osize)) % SIZE_MOD }
      else { l with mem := (l.mem + nsize) % SIZE_MOD }) := ⟨_, rfl⟩
  have hmem : l1.mem = lalloc_total l ptr osize nsize := by
    rw [hl1, ← ht]
    by_cases hp : ptr ≠ none
    · rw [if_pos hp, if_pos hp]
    · rw [if_neg hp, if_neg hp]
  have hlim : l1.mem_limit = l.mem_limit := by
    rw [hl1]; split_ifs <;> rfl
  have hrep : l1.mem_report = l.mem_report := by
    rw [hl1]; split_ifs <;> rfl
  have hrun : lalloc skynet_lalloc l ptr osize nsize =
      (if l1.mem_limit ≠ 0 ∧ l1.mem > l1.mem_limit ∧ (ptr = none ∨ nsize > osize) then
        ({ l1 with mem := l.mem }, none, false)
      else if l1.mem > l1.mem_report then
        ({ l1 with mem_report := (l1.mem_report * 2) % SIZE_MOD },
          skynet_lalloc ptr osize nsize, true)
      else (l1, skynet_lalloc ptr osize nsize, false)) := by
    rw [hl1]
    unfold lalloc
    by_cases hp : ptr ≠ none
    · simp only [if_pos hp]
    · simp only [if_neg hp]
  have hok : ¬ (l.mem_limit ≠ 0 ∧ lalloc_total l ptr osize nsize > l.mem_limit ∧
      (ptr = none ∨ nsize > osize)) →
      (lalloc skynet_lalloc l ptr osize nsize).2.1 = skynet_lalloc ptr osize nsize ∧
      (lalloc skynet_lalloc l ptr osize nsize).1.mem = lalloc_total l ptr osize nsize ∧
      (lalloc skynet_lalloc l ptr osize nsize).1.mem_limit = l.mem_limit := by
    intro hn
    rw [hrun, if_neg (by rw [hlim, hmem]; exact hn)]
    by_cases hw : l1.mem > l1.mem_report
    · rw [if_pos hw]; exact ⟨rfl, hmem, hlim⟩
    · rw [if_neg hw]; exact ⟨rfl, hmem, hlim⟩
  refine ⟨fun hl hg ha => ?_, fun hp hs => ?_, hok⟩
  · rw [hrun, if_pos (by rw [hlim, hmem]; exact ⟨hl, ha, hg⟩)]
    have e : ({ l1 with mem := l.mem } : snlua) = l := by
      cases l
      simp only [snlua.mk.injEq, true_and]
      exact ⟨hrep, hlim⟩
    rw [e]
  · obtain ⟨a1, a2, _⟩ := hok (fun h => by
      rcases h.2.2 with h' | h'
      · exact hp h'
      · omega)
    refine ⟨a1, ?_⟩
    rw [a2]
    unfold lalloc_total
    rw [if_pos hp]

/-- A service with 900 bytes accounted and a limit of 1000: a new block of 200 bytes
is refused, and the block of 300 bytes at address 7 may shrink to 100 bytes. -/
theorem lalloc_limit_witness :
    lalloc (fun _ _ _ => some 1) { mem := 900, mem_report := 33554432, mem_limit := 1000 }
      none 0 200 = ({ mem := 900, mem_report := 33554432, mem_limit := 1000 }, none, false) ∧
    (lalloc (fun _ _ _ => some 1) { mem := 900, mem_report := 33554432, mem_limit := 1000 }
      (some 7) 300 100).1.mem = 700 := by
  constructor
  · exact (lalloc_limit (fun _ _ _ => some 1)
      { mem := 900, mem_report := 33554432, mem_limit := 1000 } none 0 200
      (by decide) (fun h => absurd rfl h)).1 (by decide) (Or.inl rfl) (by decide)
  · exact ((lalloc_limit (fun _ _ _ => some 1)
      { mem := 900, mem_report := 33554432, mem_limit := 1000 } (some 7) 300 100
      (by decide) (fun _ => by decide)).2.1 (by simp) (by decide)).2

/-! ## The claim on the indices of a mailbox -/

/-- A push that doubles the array leaves `head` at 0 and `tail` at the old
capacity. -/
theorem mq_push_expand (q : message_queue) (m : skynet_message) (hc : 0 < q.cap)
    (h : (skynet_mq_push q m).1.cap = q.cap * 2) :
    (skynet_mq_push q m).1.head = 0 ∧ (skynet_mq_push q m).1.tail = q.cap ∧
    q.head = (if q.tail + 1 ≥ q.cap then 0 else q.tail + 1) := by
  obtain ⟨t', ht'⟩ : ∃ t', t' = (if q.tail + 1 ≥ q.cap then 0 else q.tail + 1) :=
    ⟨_, rfl⟩
  obtain ⟨q1, hq1⟩ : ∃ q1, q1 =
      (if q.head = t' then
        expand_queue { q with queue := q.queue.set q.tail m, tail := t' }
        else { q with queue := q.queue.set q.tail m, tail := t' }) := ⟨_, rfl⟩
  have e := mq_push_fst q m q1 (by rw [hq1, ht'])
  have hfields : (skynet_mq_push q m).1.cap = q1.cap ∧
      (skynet_mq_push q m).1.head = q1.head ∧ (skynet_mq_push q m).1.tail = q1.tail := by
    rw [e]
    by_cases h0 : q1.in_global = 0
    · rw [if_pos h0]; exact ⟨rfl, rfl, rfl⟩
    · rw [if_neg h0]; exact ⟨rfl, rfl, rfl⟩
  obtain ⟨f1, f2, f3⟩ := hfields
  rw [f1] at h
  rw [f2, f3, ← ht']
  by_cases hfull : q.head = t'
  · rw [if_pos hfull] at hq1
    rw [hq1]
    exact ⟨rfl, rfl, hfull⟩
  · rw [if_neg hfull] at hq1
    rw [hq1] at h
    simp only at h
    omega

/-- Along pushes and pops the capacity of a mailbox stays 64 times a power of 2. -/
theorem mq_run_cap_pow : ∀ (ops : List MqOp) (q : message_queue), MqInv q →
    (∃ k, q.cap = 64 * 2 ^ k) →
    ∀ q' out, mq_run q ops = .ok (q', out) → ∃ k, q'.cap = 64 * 2 ^ k := by
  intro ops
  induction ops with
  | nil =>
    intro q _ hk q' out H
    simp only [mq_run, Except.ok.injEq, Prod.mk.injEq] at H
    rw [← H.1]; exact hk
  | cons op ops ih =>
    intro q inv hk q' out H
    cases op with
    | push m =>
      simp only [mq_run] at H
      refine ih _ (mq_push_spec inv m).1 ?_ q' out H
      obtain ⟨k, hk⟩ := hk
      rcases (mq_push_cap q m).2 with e | ⟨e, _⟩
      · exact ⟨k, by rw [e, hk]⟩
      · exact ⟨k + 1, by rw [e, hk, pow_succ]; ring⟩
    | pop =>
      simp only [mq_run] at H
      cases hp : skynet_mq_pop q default with
      | error e => rw [hp] at H; cases H
      | ok r =>
        obtain ⟨q1, m, ret⟩ := r
        rw [hp] at H
        simp only at H
        cases hr : mq_run q1 ops with
        | error e => rw [hr] at H; cases H
        | ok r2 =>
          obtain ⟨q2, out2⟩ := r2
          rw [hr] at H
          simp only [Except.ok.injEq, Prod.mk.injEq] at H
          rw [← H.1]
          have inv1 : MqInv q1 := by
            rcases mq_pop_spec inv default with ⟨_, _, e⟩ | ⟨_, _, q3, _, _, e, i3, _⟩
            · rw [e] at hp
              simp only [Except.ok.injEq, Prod.mk.injEq] at hp
              rw [← hp.1]
              exact ⟨inv.cap_pos, inv.len, inv.head_lt, inv.tail_lt, (by simp [MQ_OVERLOAD])⟩
            · rw [e] at hp
              simp only [Except.ok.injEq, Prod.mk.injEq] at hp
              rw [← hp.1]; exact i3
          refine ih q1 inv1 ?_ q2 out2 hr
          rw [(mq_pop_cap inv default q1 m ret hp).1]
          exact hk

/-- C30. Whatever pushes and pops are made on a mailbox made by `skynet_mq_create`,
the calls return, and in the mailbox reached `head` and `tail` are below `cap`, the
array has `cap` cells and `cap` is 64 times a power of 2, so that `queue[head]` and
`queue[tail]` are cells of the array; `head` equals `tail` exactly when the mailbox
holds no message; and after one more push `head` and `tail` differ: the push keeps
`cap`, or it has filled the array, in which case `cap` is doubled, `head` is 0 and
`tail` is the old `cap`. -/
theorem mailbox_indices (handle : Nat) (ops : List MqOp) (m : skynet_message) :
    ∃ q out, mq_run (skynet_mq_create handle) ops = .ok (q, out) ∧
      q.head < q.cap ∧ q.tail < q.cap ∧ q.queue.length = q.cap ∧
      (∃ k, q.cap = 64 * 2 ^ k) ∧
      (q.head = q.tail ↔ mq_contents q = []) ∧
      (skynet_mq_push q m).1.head ≠ (skynet_mq_push q m).1.tail ∧
      (skynet_mq_push q m).1.head < (skynet_mq_push q m).1.cap ∧
      (skynet_mq_push q m).1.tail < (skynet_mq_push q m).1.cap ∧
      ((skynet_mq_push q m).1.cap = q.cap ∨
        ((skynet_mq_push q m).1.cap = q.cap * 2 ∧ (skynet_mq_push q m).1.head = 0 ∧
          (skynet_mq_push q m).1.tail = q.cap ∧
          q.head = (if q.tail + 1 ≥ q.cap then 0 else q.tail + 1))) := by
  obtain ⟨q, out, e, inv, _⟩ := mq_run_spec ops _ (mq_inv_create handle)
  obtain ⟨inv1, hc1⟩ := mq_push_spec inv m
  refine ⟨q, out, e, inv.head_lt, inv.tail_lt, inv.len,
    mq_run_cap_pow ops _ (mq_inv_create handle) ⟨0, rfl⟩ q out e, ?_, ?_, inv1.head_lt,
    inv1.tail_lt, ?_⟩
  · constructor
    · intro h
      apply List.eq_nil_of_length_eq_zero
      rw [mq_contents_length]
      unfold skynet_mq_length
      rw [if_pos (by omega), h, Nat.sub_self]
    · intro h
      exact mq_length_zero inv (by rw [← mq_contents_length, h]; rfl)
  · apply mq_length_pos_ne
    rw [← mq_contents_length, hc1, List.length_append]
    simp
  · rcases (mq_push_cap q m).2 with e1 | ⟨e1, _⟩
    · exact Or.inl e1
    · obtain ⟨a1, a2, a3⟩ := mq_push_expand q m inv.cap_pos e1
      exact Or.inr ⟨e1, a1, a2, a3⟩

/-! ## The claim on the order of the ids -/

/-- A probing loop that finds a free slot without passing 0xFFFFFF takes an id that
is not below the id it started from. -/
theorem register_probe_nopass {s s' : handle_storage} {ctx : Ctx} {r : Nat} :
    ∀ (n h : Nat), register_probe s ctx n h = some (s', r) → probe_passes s n h = false →
    ∃ x, h ≤ x ∧ x ≤ HANDLE_MASK ∧ s'.handle_index = x + 1 ∧ s'.harbor = s.harbor ∧
      r = x ||| s.harbor := by
  intro n
  induction n with
  | zero => intro h H; simp [register_probe] at H
  | succ n ih =>
    intro h H hp
    simp only [register_probe] at H
    simp only [probe_passes] at hp
    by_cases h1 : h > HANDLE_MASK
    · rw [if_pos h1] at hp; cases hp
    · rw [if_neg h1] at hp
      simp only [if_neg h1] at H
      by_cases h2 : s.slot.getD (h &&& (s.slot_size - 1)) none = none
      · rw [if_pos h2] at H
        simp only [Option.some.injEq, Prod.mk.injEq] at H
        obtain ⟨rfl, rfl⟩ := H
        exact ⟨h, le_refl _, by omega, rfl, rfl, rfl⟩
      · rw [if_neg h2] at H hp
        obtain ⟨x, a1, a2, a3, a4, a5⟩ := ih (h + 1) H hp
        exact ⟨x, by omega, a2, a3, a4, a5⟩

/-- A registration that returns without passing 0xFFFFFF takes an id that is not
below the id counter, and leaves the counter one above this id. -/
theorem register_loop_nopass {hd : Ctx → Nat} {ctx : Ctx} :
    ∀ (fuel : Nat) (s s' : handle_storage) (r : Nat),
    register_loop hd fuel s ctx = .ok (s', r) → register_passes hd fuel s ctx = false →
    ∃ x, s.handle_index ≤ x ∧ x ≤ HANDLE_MASK ∧ s'.handle_index = x + 1 ∧
      s'.harbor = s.harbor ∧ r = x ||| s.harbor := by
  intro fuel
  induction fuel with
  | zero => intro s s' r H; simp [register_loop] at H
  | succ fuel ih =>
    intro s s' r H hp
    simp only [register_loop] at H
    simp only [register_passes] at hp
    by_cases hpp : probe_passes s s.slot_size s.handle_index = true
    · rw [if_pos hpp] at hp; cases hp
    · rw [if_neg hpp] at hp
      cases hprobe : register_probe s ctx s.slot_size s.handle_index with
      | some p =>
        rw [hprobe] at H
        simp only [Except.ok.injEq] at H
        subst H
        exact register_probe_nopass _ _ hprobe (by simpa using hpp)
      | none =>
        rw [hprobe] at H hp
        simp only at H hp
        by_cases hsz : s.slot_size * 2 - 1 ≤ HANDLE_MASK
        · rw [if_pos hsz] at H hp
          cases hre : register_rehash hd s s.slot_size 0
              (List.replicate (s.slot_size * 2) none) with
          | none => rw [hre] at H; cases H
          | some new_slot =>
            rw [hre] at H hp
            simp only at H hp
            obtain ⟨x, a1, a2, a3, a4, a5⟩ :=
              ih { s with slot := new_slot, slot_size := s.slot_size * 2 } s' r H hp
            exact ⟨x, a1, a2, a3, a4, a5⟩
        · rw [if_neg hsz] at H; cases H

/-- A retirement keeps the id counter and the harbor of the registry. -/
theorem retire_keeps_index (hd : Ctx → Nat) (s : handle_storage) (h : Nat) :
    (skynet_handle_retire hd s h).1.handle_index = s.handle_index ∧
    (skynet_handle_retire hd s h).1.harbor = s.harbor := by
  unfold skynet_handle_retire
  simp only
  cases s.slot.getD (h &&& (s.slot_size - 1)) none with
  | none => exact ⟨rfl, rfl⟩
  | some c =>
    simp only
    split_ifs
    · exact ⟨rfl, rfl⟩
    · exact ⟨rfl, rfl⟩

/-- A registration on a world that returns without passing 0xFFFFFF: the local id
of the handle is not below the id counter, and the counter ends one above it. -/
theorem context_register_nopass {b : Nat} {w w1 : World} {ctx : Ctx} {h : Nat}
    (hb : w.H.harbor = (b &&& 0xff) <<< HANDLE_REMOTE_SHIFT)
    (H : context_register w ctx = .ok (w1, h))
    (hp : register_passes w.handle_of 25 w.H ctx = false) :
    w.H.handle_index ≤ h &&& HANDLE_MASK ∧ w1.H.handle_index = (h &&& HANDLE_MASK) + 1 ∧
    w1.H.harbor = w.H.harbor := by
  unfold context_register skynet_handle_register at H
  cases hr : register_loop w.handle_of 25 w.H ctx with
  | error e => rw [hr] at H; cases H
  | ok p =>
    obtain ⟨s, r⟩ := p
    rw [hr] at H
    simp only [Except.ok.injEq, Prod.mk.injEq] at H
    obtain ⟨rfl, rfl⟩ := H
    obtain ⟨x, a1, a2, a3, a4, a5⟩ := register_loop_nopass 25 w.H s r hr hp
    have hx : r &&& HANDLE_MASK = x := by
      rw [a5, hb, handle_parts b x a2]
      exact (handle_split _ x a2).2
    rw [hx]
    exact ⟨a1, a3, a4⟩

/-- The local ids of the handles returned by a run of registrations and retirements
none of which passes 0xFFFFFF form a strictly increasing chain above every number
below the id counter, and the counter does not decrease. -/
theorem reg_run_chain (b : Nat) :
    ∀ (ops : List RegOp) (w w' : World) (hs : List Nat) (a : Nat),
    w.H.harbor = (b &&& 0xff) <<< HANDLE_REMOTE_SHIFT → a < w.H.handle_index →
    reg_run w ops = .ok (w', hs) → reg_passes w ops = false →
    List.Chain (fun x y => x < y) a (hs.map (fun h => h &&& HANDLE_MASK)) ∧
    w.H.handle_index ≤ w'.H.handle_index := by
  intro ops
  induction ops with
  | nil =>
    intro w w' hs a _ _ H _
    simp only [reg_run, Except.ok.injEq, Prod.mk.injEq] at H
    obtain ⟨rfl, rfl⟩ := H
    exact ⟨List.Chain.nil, le_refl _⟩
  | cons op ops ih =>
    intro w w' hs a hb ha H hp
    cases op with
    | register ctx =>
      simp only [reg_run] at H
      simp only [reg_passes] at hp
      by_cases h1 : register_passes w.handle_of 25 w.H ctx = true
      · rw [if_pos h1] at hp; cases hp
      · rw [if_neg h1] at hp
        cases hc : context_register w ctx with
        | error e => rw [hc] at H; cases H
        | ok p =>
          obtain ⟨w1, h⟩ := p
          rw [hc] at H hp
          simp only at H hp
          cases hr : reg_run w1 ops with
          | error e => rw [hr] at H; cases H
          | ok q =>
            obtain ⟨w2, hs2⟩ := q
            rw [hr] at H
            simp only [Except.ok.injEq, Prod.mk.injEq] at H
            obtain ⟨rfl, rfl⟩ := H
            obtain ⟨c1, c2, c3⟩ := context_register_nopass hb hc (by simpa using h1)
            obtain ⟨d1, d2⟩ := ih w1 w2 hs2 (h &&& HANDLE_MASK) (c3.trans hb)
              (by omega) hr hp
            exact ⟨List.Chain.cons (show a < h &&& HANDLE_MASK by omega) d1, by omega⟩
    | retire h =>
      simp only [reg_run] at H
      simp only [reg_passes] at hp
      obtain ⟨k1, k2⟩ := retire_keeps_index w.handle_of w.H h
      have e1 : (world_retire w h).1.H.handle_index = w.H.handle_index := k1
      have e2 : (world_retire w h).1.H.harbor = w.H.harbor := k2
      obtain ⟨d1, d2⟩ := ih (world_retire w h).1 w' hs a (e2.trans hb)
        (by omega) H hp
      exact ⟨d1, by omega⟩

/-- C29: retired ids are not reused before the counter wraps. On a world reached
from `skynet_handle_init`, a registration that returns without passing 0xFFFFFF
gives a local id that is at least the `handle_index` before the call and sets
`handle_index` to that id + 1; and when no registration of a run of registrations
and retirements passes 0xFFFFFF, the local ids returned by the successive
registrations are strictly increasing and none is below the `handle_index` the run
started with, whatever retirements and table doublings happen in between. -/
theorem ids_increase (b : Nat) (w : World) (live : List (Ctx × Nat))
    (t : Trace b w live) :
    (∀ ctx w1 h, context_register w ctx = .ok (w1, h) →
      register_passes w.handle_of 25 w.H ctx = false →
      w.H.handle_index ≤ h &&& HANDLE_MASK ∧
      w1.H.handle_index = (h &&& HANDLE_MASK) + 1) ∧
    (∀ ops w' hs, reg_run w ops = .ok (w', hs) → reg_passes w ops = false →
      List.Chain' (fun x y => x < y) (hs.map (fun h => h &&& HANDLE_MASK)) ∧
      (∀ x ∈ hs.map (fun h => h &&& HANDLE_MASK), w.H.handle_index ≤ x) ∧
      w.H.handle_index ≤ w'.H.handle_index) := by
  have g := t.good.slots
  refine ⟨?_, ?_⟩
  · intro ctx w1 h H hp
    obtain ⟨c1, c2, _⟩ := context_register_nopass g.harbor H hp
    exact ⟨c1, c2⟩
  · intro ops w' hs H hp
    have hpos := g.index_pos
    obtain ⟨d1, d2⟩ := reg_run_chain b ops w w' hs (w.H.handle_index - 1) g.harbor
      (by omega) H hp
    refine ⟨List.Chain'.tail (l := (w.H.handle_index - 1) :: _) d1, ?_, d2⟩
    intro x hx
    have := List.Chain.rel d1 hx
    omega

/-- The theorem applies to two registrations, the retirement of the first handle
and four more registrations, the last of which doubles the table: the local ids
are 1, 2, 3, 4, 5, 6, and the id 1 of the retired service is not given again. -/
theorem ids_increase_witness :
    Trace 1 (world_init 1) [] ∧
    reg_run (world_init 1)
      [RegOp.register 100, RegOp.register 101, RegOp.retire 16777217,
        RegOp.register 102, RegOp.register 103, RegOp.register 104, RegOp.register 105] =
      .ok (demo_ids, [16777217, 16777218, 16777219, 16777220, 16777221, 16777222]) ∧
    demo_ids.H.slot_size = 8 ∧
    List.Chain' (fun x y => x < y)
      ([16777217, 16777218, 16777219, 16777220, 16777221, 16777222].map
        (fun h => h &&& HANDLE_MASK)) :=
  ⟨Trace.init, by rfl, by rfl,
    ((ids_increase 1 (world_init 1) [] Trace.init).2
      [RegOp.register 100, RegOp.register 101, RegOp.retire 16777217,
        RegOp.register 102, RegOp.register 103, RegOp.register 104, RegOp.register 105] demo_ids
      [16777217, 16777218, 16777219, 16777220, 16777221, 16777222] (by rfl) (by rfl)).1⟩

/-! ## The claim on the doubling of a table that is not full -/

theorem demo_wrap1_trace : Trace 1 demo_wrap1 [(101, 33554425)] :=
  Trace.register (wrap_world_trace 16777208 (by simp [HANDLE_MASK])) (by simp) (by rfl)

theorem demo_wrap2_trace : Trace 1 demo_wrap2 [(101, 33554425), (102, 33554426)] :=
  Trace.register demo_wrap1_trace (by simp) (by rfl)

theorem demo_wrap3_trace :
    Trace 1 demo_wrap3 [(101, 33554425), (102, 33554426), (103, 33554427)] :=
  Trace.register demo_wrap2_trace (by simp) (by rfl)

theorem demo_wrap4_trace :
    Trace 1 demo_wrap4
      [(101, 33554425), (102, 33554426), (103, 33554427), (104, 33554428)] :=
  Trace.register demo_wrap3_trace (by simp) (by rfl)

theorem demo_wrap_free_trace :
    Trace 1 demo_wrap_free [(101, 33554425), (102, 33554426), (103, 33554427)] :=
  Trace.retire 33554428 demo_wrap4_trace

/-- With a free slot other than slot 0, the probing loop of a registration finds a
free slot: the call returns in its first round and keeps `slot_size`. -/
theorem register_keeps_size {b : Nat} {hd : Ctx → Nat} {s : handle_storage} (ctx : Ctx)
    (inv : SlotInv b hd s) (i : Nat) (h1 : 1 ≤ i) (h2 : i < s.slot_size)
    (hfree : s.slot.getD i none = none) :
    ∃ s' r, skynet_handle_register hd s ctx = .ok (s', r) ∧
      s'.slot_size = s.slot_size ∧
      ∃ j, s.slot.getD j none = none ∧ s'.slot = s.slot.set j (some ctx) := by
  obtain ⟨k, hk2, hk24, hk⟩ := inv.size
  cases hp : register_probe s ctx s.slot_size s.handle_index with
  | none =>
    exfalso
    have hq : HANDLE_MASK + 1 = 2 ^ (24 - k) * s.slot_size := by
      rw [hk, ← pow_add]
      have : 24 - k + k = 24 := by omega
      rw [this]; rfl
    obtain ⟨x, hx, hxr⟩ := probed_residue s.handle_index s.slot_size _ i hq h1 h2
    have hle : s.slot_size ≤ HANDLE_MASK + 1 := by
      rw [hq]; exact Nat.le_mul_of_pos_left _ (by positivity)
    have := register_probe_none s.slot_size s.handle_index hle hp x hx
    rw [inv.land_eq, hxr] at this
    exact this hfree
  | some p =>
    obtain ⟨s', r⟩ := p
    obtain ⟨x, _, _, hx, hs, _⟩ := register_probe_some _ _ inv.index_pos hp
    refine ⟨s', r, ?_, ?_, _, hx, ?_⟩
    · simp only [skynet_handle_register, register_loop, hp]
    · rw [hs]
    · rw [hs]


/-- C25 (evaluation of the code where the claim fails): on a world reached from
`skynet_handle_init`, a registration keeps `slot_size` and takes a free slot
whenever a slot other than slot 0 is free; but the probing loop never tries the local
id 0 at the wrap from 0xFFFFFF to 1. In the world reached from harbor 1 by cycling
the id counter to 0xFFFFF9, registering four services and retiring the one on slot
0, the counter stands at 0xFFFFFD, slots 1, 2, 3 are taken and slot 0 is free: the
next registration probes the ids 0xFFFFFD, 0xFFFFFE, 0xFFFFFF and 1, that is the slots
1, 2, 3 and 1, doubles the table to 8 slots and returns the id 0xFFFFFD. -/
theorem register_doubles_with_free_slot :
    (∀ (b : Nat) (w : World) (live : List (Ctx × Nat)) (ctx : Ctx) (i : Nat),
      Trace b w live → 1 ≤ i → i < w.H.slot_size → w.H.slot.getD i none = none →
      ∃ w' h, context_register w ctx = .ok (w', h) ∧
        w'.H.slot_size = w.H.slot_size ∧
        ∃ j, w.H.slot.getD j none = none ∧ w'.H.slot = w.H.slot.set j (some ctx)) ∧
    Trace 1 demo_wrap_free [(101, 33554425), (102, 33554426), (103, 33554427)] ∧
    demo_wrap_free.H.slot_size = 4 ∧
    demo_wrap_free.H.slot = [none, some 101, some 102, some 103] ∧
    demo_wrap_free.H.handle_index = 16777213 ∧
    context_register demo_wrap_free 105 = .ok (demo_wrap5, 33554429) ∧
    demo_wrap5.H.slot_size = 8 ∧
    demo_wrap5.H.slot =
      [none, some 101, some 102, some 103, none, some 105, none, none] := by
  refine ⟨?_, demo_wrap_free_trace, by rfl, by rfl, by rfl, by rfl, by rfl, by rfl⟩
  intro b w live ctx i t h1 h2 hfree
  obtain ⟨s', r, hr, hs, j, hj, hset⟩ :=
    register_keeps_size ctx t.good.slots i h1 h2 hfree
  refine ⟨{ H := s', handle_of := Function.update w.handle_of ctx r }, r, ?_, hs, j, hj, hset⟩
  simp only [context_register, hr]

end Skynet
